import Mathlib

/-!
# Two-phase Rubik's cube solver: a shallow embedding

Embedding of `moves.h`, `cube.h` / `cube.cpp`, `coordinate.h` / `coordinate.cpp`,
`table_manager.h` / `table_manager.cpp` and `solver.h` / `solver.cpp`.

Conventions.
* `std::array` and `std::vector` are lists; an index that the source reads
  with `operator[]` is read with `List.getD`, a write is `List.set`.
* `uint8_t`, `uint16_t` and bit-field members are natural numbers.
* A C++ exception is `none`.
-/

set_option autoImplicit false
set_option maxRecDepth 4000

namespace RubiksSolver

/-! ## moves.h -/

/-- The enum `Move : uint8_t`, by ordinal: `U1 = 0` up to `R3 = 17`, and the
sentinel `COUNT = 18`. -/
abbrev Move := Nat

namespace Move

abbrev U1 : Move := 0
abbrev U2 : Move := 1
abbrev U3 : Move := 2
abbrev D1 : Move := 3
abbrev D2 : Move := 4
abbrev D3 : Move := 5
abbrev F1 : Move := 6
abbrev F2 : Move := 7
abbrev F3 : Move := 8
abbrev B1 : Move := 9
abbrev B2 : Move := 10
abbrev B3 : Move := 11
abbrev L1 : Move := 12
abbrev L2 : Move := 13
abbrev L3 : Move := 14
abbrev R1 : Move := 15
abbrev R2 : Move := 16
abbrev R3 : Move := 17
abbrev COUNT : Move := 18

end Move

/-- The array `MOVE_STRINGS`. -/
def MOVE_STRINGS : List String :=
  ["U", "U'", "U2",
   "D", "D'", "D2",
   "F", "F'", "F2",
   "B", "B'", "B2",
   "L", "L'", "L2",
   "R", "R'", "R2"]

/-- The map `MOVE_MAP`, as an association list. -/
def MOVE_MAP : List (String × Move) :=
  [("U", Move.U1), ("U'", Move.U2), ("U2", Move.U3),
   ("D", Move.D1), ("D'", Move.D2), ("D2", Move.D3),
   ("F", Move.F1), ("F'", Move.F2), ("F2", Move.F3),
   ("B", Move.B1), ("B'", Move.B2), ("B2", Move.B3),
   ("L", Move.L1), ("L'", Move.L2), ("L2", Move.L3),
   ("R", Move.R1), ("R'", Move.R2), ("R2", Move.R3)]

/-- The function `move_to_string`: index into `MOVE_STRINGS`. -/
def move_to_string (m : Move) : String :=
  MOVE_STRINGS.getD m ""

/-- The function `string_to_move`: lookup in `MOVE_MAP`, `none` for the
`std::invalid_argument` thrown on an unknown token. -/
def string_to_move (str : String) : Option Move :=
  (MOVE_MAP.find? (fun p => p.1 == str)).map (fun p => p.2)

/-- The function `invert_move`. -/
def invert_move (m : Move) : Move :=
  let base := m / 3 * 3
  let amount := m % 3
  base + (if amount = 2 then 2 else 1 - amount)

/-! ## cube.h -/

/-- The function `get_face`: the ordinal of the face of a move. -/
def get_face (m : Move) : Nat := m / 3

/-- The struct `Corner`: `piece` is a 3-bit field, `orientation` a 2-bit field. -/
structure Corner where
  piece : Nat
  orientation : Nat
deriving DecidableEq, Repr, Inhabited

/-- The struct `Edge`: `piece` is a 4-bit field, `orientation` a 1-bit field. -/
structure Edge where
  piece : Nat
  orientation : Nat
deriving DecidableEq, Repr, Inhabited

/-- The class `Cube`: the arrays `corners` (8 slots) and `edges` (12 slots). -/
structure Cube where
  corners : List Corner
  edges : List Edge
deriving DecidableEq, Repr, Inhabited

/-! ## cube.cpp -/

abbrev UFL : Nat := 0
abbrev UBL : Nat := 1
abbrev UBR : Nat := 2
abbrev UFR : Nat := 3
abbrev DFL : Nat := 4
abbrev DBL : Nat := 5
abbrev DBR : Nat := 6
abbrev DFR : Nat := 7

abbrev UF : Nat := 0
abbrev UL : Nat := 1
abbrev UB : Nat := 2
abbrev UR : Nat := 3
abbrev DF : Nat := 4
abbrev DL : Nat := 5
abbrev DB : Nat := 6
abbrev DR : Nat := 7
abbrev FL : Nat := 8
abbrev BL : Nat := 9
abbrev BR : Nat := 10
abbrev FR : Nat := 11

/-- The template `cycle_pieces`: read the four affected slots into a
temporary, then write temporary `i` to slot `target_map[i]`. -/
def cycle_pieces {T : Type} [Inhabited T] (arr : List T)
    (affected_indices target_map : List Nat) : List T :=
  let temp_pieces := (List.range 4).map (fun i => arr.getD (affected_indices.getD i 0) default)
  (List.range 4).foldl
    (fun a i => a.set (target_map.getD i 0) (temp_pieces.getD i default)) arr

/-- The struct `MoveMap`. -/
structure MoveMap where
  affected_indices : List Nat
  target_map : List Nat
deriving DecidableEq, Repr, Inhabited

/-- The struct `MoveDefinition`. -/
structure MoveDefinition where
  corner_permutation : MoveMap
  edge_permutation : MoveMap
  corner_orientation_changes : List Nat
  edge_orientation_changes : List Nat
deriving DecidableEq, Repr, Inhabited

/-- The table `ALL_MOVES_DATA`, row for row. -/
def ALL_MOVES_DATA : List MoveDefinition :=
  [ -- Move::U1
    ⟨⟨[UFL, UBL, UBR, UFR], [UBL, UBR, UFR, UFL]⟩, ⟨[UF, UL, UB, UR], [UL, UB, UR, UF]⟩, [0,0,0,0], [0,0,0,0]⟩,
    -- Move::U2
    ⟨⟨[UFL, UFR, UBR, UBL], [UFR, UBR, UBL, UFL]⟩, ⟨[UF, UR, UB, UL], [UR, UB, UL, UF]⟩, [0,0,0,0], [0,0,0,0]⟩,
    -- Move::U3
    ⟨⟨[UFL, UBR, UFR, UBL], [UBR, UFL, UBL, UFR]⟩, ⟨[UF, UB, UL, UR], [UB, UF, UR, UL]⟩, [0,0,0,0], [0,0,0,0]⟩,
    -- Move::D1
    ⟨⟨[DFL, DFR, DBR, DBL], [DFR, DBR, DBL, DFL]⟩, ⟨[DF, DR, DB, DL], [DR, DB, DL, DF]⟩, [0,0,0,0], [0,0,0,0]⟩,
    -- Move::D2
    ⟨⟨[DFL, DBL, DBR, DFR], [DBL, DBR, DFR, DFL]⟩, ⟨[DF, DL, DB, DR], [DL, DB, DR, DF]⟩, [0,0,0,0], [0,0,0,0]⟩,
    -- Move::D3
    ⟨⟨[DFL, DBR, DFR, DBL], [DBR, DFL, DBL, DFR]⟩, ⟨[DF, DB, DL, DR], [DB, DF, DR, DL]⟩, [0,0,0,0], [0,0,0,0]⟩,
    -- Move::F1
    ⟨⟨[UFL, UFR, DFR, DFL], [UFR, DFR, DFL, UFL]⟩, ⟨[UF, FR, DF, FL], [FR, DF, FL, UF]⟩, [2,1,2,1], [1,1,1,1]⟩,
    -- Move::F2
    ⟨⟨[UFL, DFL, DFR, UFR], [DFL, DFR, UFR, UFL]⟩, ⟨[UF, FL, DF, FR], [FL, DF, FR, UF]⟩, [2,1,2,1], [1,1,1,1]⟩,
    -- Move::F3
    ⟨⟨[UFL, DFR, UFR, DFL], [DFR, UFL, DFL, UFR]⟩, ⟨[UF, DF, FL, FR], [DF, UF, FR, FL]⟩, [0,0,0,0], [0,0,0,0]⟩,
    -- Move::B1
    ⟨⟨[UBL, DBL, DBR, UBR], [DBL, DBR, UBR, UBL]⟩, ⟨[UB, BL, DB, BR], [BL, DB, BR, UB]⟩, [1,2,1,2], [1,1,1,1]⟩,
    -- Move::B2
    ⟨⟨[UBL, UBR, DBR, DBL], [UBR, DBR, DBL, UBL]⟩, ⟨[UB, BR, DB, BL], [BR, DB, BL, UB]⟩, [1,2,1,2], [1,1,1,1]⟩,
    -- Move::B3
    ⟨⟨[UBL, DBR, UBR, DBL], [DBR, UBL, DBL, UBR]⟩, ⟨[UB, DB, BL, BR], [DB, UB, BR, BL]⟩, [0,0,0,0], [0,0,0,0]⟩,
    -- Move::L1
    ⟨⟨[UFL, DFL, DBL, UBL], [DFL, DBL, UBL, UFL]⟩, ⟨[UL, FL, DL, BL], [FL, DL, BL, UL]⟩, [1,2,1,2], [0,0,0,0]⟩,
    -- Move::L2
    ⟨⟨[UFL, UBL, DBL, DFL], [UBL, DBL, DFL, UFL]⟩, ⟨[UL, BL, DL, FL], [BL, DL, FL, UL]⟩, [1,2,1,2], [0,0,0,0]⟩,
    -- Move::L3
    ⟨⟨[UFL, DBL, UBL, DFL], [DBL, UFL, DFL, UBL]⟩, ⟨[UL, DL, FL, BL], [DL, UL, BL, FL]⟩, [0,0,0,0], [0,0,0,0]⟩,
    -- Move::R1
    ⟨⟨[UFR, UBR, DBR, DFR], [UBR, DBR, DFR, UFR]⟩, ⟨[UR, BR, DR, FR], [BR, DR, FR, UR]⟩, [2,1,2,1], [0,0,0,0]⟩,
    -- Move::R2
    ⟨⟨[UFR, DFR, DBR, UBR], [DFR, DBR, UBR, UFR]⟩, ⟨[UR, FR, DR, BR], [FR, DR, BR, UR]⟩, [2,1,2,1], [0,0,0,0]⟩,
    -- Move::R3
    ⟨⟨[UFR, DBR, UBR, DFR], [DBR, UFR, DFR, UBR]⟩, ⟨[UR, DR, FR, BR], [DR, UR, BR, FR]⟩, [0,0,0,0], [0,0,0,0]⟩ ]

/-- The constructor `Cube::Cube()`: the solved cube. -/
def Cube.solved : Cube :=
  { corners := (List.range 8).map (fun i => { piece := i, orientation := 0 })
    edges := (List.range 12).map (fun i => { piece := i, orientation := 0 }) }

/-- One pass of the orientation loop of `Cube::apply_move` for loop index `i`. -/
def apply_orientation_step (move_def : MoveDefinition) (k : Cube) (i : Nat) : Cube :=
  let c_idx := move_def.corner_permutation.affected_indices.getD i 0
  let c := k.corners.getD c_idx default
  let corners := k.corners.set c_idx
    { c with orientation := (c.orientation + move_def.corner_orientation_changes.getD i 0) % 3 }
  let e_idx := move_def.edge_permutation.affected_indices.getD i 0
  let e := k.edges.getD e_idx default
  let edges := k.edges.set e_idx
    { e with orientation := (e.orientation + move_def.edge_orientation_changes.getD i 0) % 2 }
  { corners := corners, edges := edges }

/-- The method `Cube::apply_move`: `none` is the `std::out_of_range` thrown
for `m >= Move::COUNT`. -/
def apply_move (k : Cube) (m : Move) : Option Cube :=
  if m ≥ Move.COUNT then none
  else
    let move_def := ALL_MOVES_DATA.getD m default
    let corners := cycle_pieces k.corners
      move_def.corner_permutation.affected_indices move_def.corner_permutation.target_map
    let edges := cycle_pieces k.edges
      move_def.edge_permutation.affected_indices move_def.edge_permutation.target_map
    some ((List.range 4).foldl (apply_orientation_step move_def)
      { corners := corners, edges := edges })

/-- The method `Cube::is_solved`. -/
def is_solved (k : Cube) : Bool :=
  (List.range 8).all (fun i =>
    !((k.corners.getD i default).piece != i || (k.corners.getD i default).orientation != 0))
  && (List.range 12).all (fun i =>
    !((k.edges.getD i default).piece != i || (k.edges.getD i default).orientation != 0))

/-- The method `Cube::apply_sequence`: fold `apply_move` over the list. -/
def apply_sequence (k : Cube) (sequence : List Move) : Option Cube :=
  sequence.foldlM apply_move k

/-- The array sizes of `Cube` and the ranges the spec gives the members:
corner piece ids 0..7 with orientations 0..2, edge piece ids 0..11 with
orientations 0..1. -/
def Cube.InRange (k : Cube) : Prop :=
  k.corners.length = 8 ∧ k.edges.length = 12 ∧
  (∀ c ∈ k.corners, c.piece < 8 ∧ c.orientation < 3) ∧
  (∀ e ∈ k.edges, e.piece < 12 ∧ e.orientation < 2)

/-- A cube reachable from the solved cube by face turns. -/
inductive Reachable : Cube → Prop
  | solved : Reachable Cube.solved
  | step (k k1 : Cube) (m : Move) : Reachable k → apply_move k m = some k1 → Reachable k1

/-! ## coordinate.h, coordinate.cpp -/

/-- The type `Coord = uint16_t`. -/
abbrev Coord := Nat

/-- The function `precompute_combinations`: a zero-filled 13 x 13 table, then
for each `n` the entry `[n][0] = 1` and, for `k = 1..n`,
`[n][k] = [n-1][k-1] + [n-1][k]`. -/
def precompute_combinations : List (List Nat) :=
  (List.range 13).foldl
    (fun table n =>
      (List.range' 1 n).foldl
        (fun table k =>
          table.set n ((table.getD n []).set k
            ((table.getD (n - 1) []).getD (k - 1) 0 + (table.getD (n - 1) []).getD k 0)))
        (table.set n ((table.getD n []).set 0 1)))
    (List.replicate 13 (List.replicate 13 0))

/-- The constant `C_nk_table`. -/
def C_nk_table : List (List Nat) := precompute_combinations

/-- The read `C_nk_table[n][k]`. -/
def C_nk (n k : Nat) : Nat := (C_nk_table.getD n []).getD k 0

/-- The constant `factorials`. -/
def factorials : List Nat := [1, 1, 2, 6, 24, 120, 720, 5040, 40320]

/-- The struct `Phase1Coord`: the member cube and the three coordinates. -/
structure Phase1Coord where
  cube : Cube
  corner_orientation : Coord
  edge_orientation : Coord
  uds_edge_position : Coord
deriving DecidableEq, Repr, Inhabited

namespace Phase1Coord

/-- The array `Phase1Coord::AVAILABLE_MOVES`, in the source's order. -/
def AVAILABLE_MOVES : List Move :=
  [Move.U1, Move.U2, Move.U3, Move.D1, Move.D2, Move.D3,
   Move.L1, Move.L2, Move.L3, Move.R1, Move.R2, Move.R3,
   Move.F1, Move.F2, Move.F3, Move.B1, Move.B2, Move.B3]

/-- The value `Phase1Coord::encode_corner_orientation` stores in
`corner_orientation`: the base-3 rank of the first seven corner orientations.
With 2-bit orientations the value stays below `2^16`. -/
def encode_corner_orientation (cube : Cube) : Coord :=
  (List.range 7).foldl
    (fun co_coord i => co_coord * 3 + (cube.corners.getD i default).orientation) 0

/-- The value `Phase1Coord::encode_edge_orientation` stores in
`edge_orientation`: the base-2 rank of the first eleven edge orientations. -/
def encode_edge_orientation (cube : Cube) : Coord :=
  (List.range 11).foldl
    (fun eo_coord i => eo_coord * 2 + (cube.edges.getD i default).orientation) 0

/-- The first loop of `encode_ud_slice_position`: the values `11 - i` of the
slots holding a piece 8..11, in slot order, stopping after the fourth. -/
def collect_slice_edge_indices (cube : Cube) : List Nat :=
  (List.range 12).foldl
    (fun slice_edge_indices i =>
      if slice_edge_indices.length = 4 then slice_edge_indices
      else if (cube.edges.getD i default).piece ≥ 8 ∧ (cube.edges.getD i default).piece ≤ 11 then
        slice_edge_indices ++ [11 - i]
      else slice_edge_indices)
    []

/-- The value `Phase1Coord::encode_ud_slice_position` stores in
`uds_edge_position`: the indices sorted in descending order, then the sum of
`C_nk_table[index][k]` for `k = 4, 3, ...`. -/
def encode_ud_slice_position (cube : Cube) : Coord :=
  let slice_edge_indices := (collect_slice_edge_indices cube).insertionSort (fun a b => a ≥ b)
  (slice_edge_indices.foldl
    (fun (acc : Coord × Nat) index => (acc.1 + C_nk index acc.2, acc.2 - 1)) (0, 4)).1

/-- The method `Phase1Coord::encode_from_cube`. -/
def encode_from_cube (self : Phase1Coord) (cube : Cube) : Phase1Coord :=
  { self with
    corner_orientation := encode_corner_orientation cube
    edge_orientation := encode_edge_orientation cube
    uds_edge_position := encode_ud_slice_position cube }

/-- The constructor `Phase1Coord(const Cube&)`. -/
def of_cube (cube : Cube) : Phase1Coord :=
  encode_from_cube { cube := cube, corner_orientation := 0, edge_orientation := 0,
                     uds_edge_position := 0 } cube

/-- The method `Phase1Coord::decode_corner_orientation` on the member cube:
all orientations cleared, the digits of `corner_orientation` written to slots
6 down to 0 (dividing the member by 3 each time), slot 7 from the parity. -/
def decode_corner_orientation (self : Phase1Coord) : Phase1Coord :=
  let cleared := (List.range 8).foldl
    (fun cs i => cs.set i { cs.getD i default with orientation := 0 }) self.cube.corners
  let st := (List.range 7).reverse.foldl
    (fun (st : Coord × List Corner × Nat) i =>
      let ori := st.1 % 3
      (st.1 / 3, st.2.1.set i { st.2.1.getD i default with orientation := ori }, st.2.2 + ori))
    (self.corner_orientation, cleared, 0)
  let corners := st.2.1.set 7
    { st.2.1.getD 7 default with orientation := (3 - st.2.2 % 3) % 3 }
  { self with cube := { self.cube with corners := corners }, corner_orientation := st.1 }

/-- The method `Phase1Coord::decode_edge_orientation` on the member cube. -/
def decode_edge_orientation (self : Phase1Coord) : Phase1Coord :=
  let cleared := (List.range 12).foldl
    (fun es i => es.set i { es.getD i default with orientation := 0 }) self.cube.edges
  let st := (List.range 11).reverse.foldl
    (fun (st : Coord × List Edge × Nat) i =>
      let ori := st.1 % 2
      (st.1 / 2, st.2.1.set i { st.2.1.getD i default with orientation := ori }, st.2.2 + ori))
    (self.edge_orientation, cleared, 0)
  let edges := st.2.1.set 11
    { st.2.1.getD 11 default with orientation := (2 - st.2.2 % 2) % 2 }
  { self with cube := { self.cube with edges := edges }, edge_orientation := st.1 }

/-- One pass of the placement loop of `decode_ud_slice_position` at slot `i`;
the state is `(uds_edge_position, edges, k)` and a pass with `k = 0` does
nothing (the loop has ended). -/
def decode_ud_slice_step (st : Coord × List Edge × Nat) (i : Nat) : Coord × List Edge × Nat :=
  if st.2.2 > 0 then
    if st.1 ≥ C_nk (11 - i) st.2.2 then
      (st.1 - C_nk (11 - i) st.2.2,
       st.2.1.set i { st.2.1.getD i default with piece := 7 + st.2.2 },
       st.2.2 - 1)
    else st
  else st

/-- The method `Phase1Coord::decode_ud_slice_position` on the member cube:
piece ids 8..11 are first lowered by 4; then slots are scanned upward with `k`
pieces left to place, and a slot with `uds >= C(11 - i, k)` receives piece
`7 + k`. The loop runs while `i < 12 && k > 0`. -/
def decode_ud_slice_position (self : Phase1Coord) : Phase1Coord :=
  let cleared := (List.range 12).foldl
    (fun es i =>
      let piece := (es.getD i default).piece
      es.set i { es.getD i default with piece := if piece < 8 then piece else piece - 4 })
    self.cube.edges
  let st := (List.range 12).foldl decode_ud_slice_step (self.uds_edge_position, cleared, 4)
  { self with cube := { self.cube with edges := st.2.1 }, uds_edge_position := st.1 }

/-- The method `Phase1Coord::decode_to_cube`. -/
def decode_to_cube (self : Phase1Coord) : Phase1Coord :=
  decode_ud_slice_position (decode_edge_orientation (decode_corner_orientation self))

/-- The default constructor `Phase1Coord()`. -/
def init : Phase1Coord :=
  { cube := Cube.solved, corner_orientation := 0, edge_orientation := 0, uds_edge_position := 0 }

/-- The constructor `Phase1Coord(Coord co, Coord eo, Coord uds)`. -/
def of_coords (co eo uds : Coord) : Phase1Coord :=
  decode_to_cube { cube := Cube.solved, corner_orientation := co, edge_orientation := eo,
                   uds_edge_position := uds }

/-- The method `Phase1Coord::apply_move`. -/
def apply_move (self : Phase1Coord) (m : Move) : Option Phase1Coord :=
  (RubiksSolver.apply_move self.cube m).map
    (fun cube => encode_from_cube { self with cube := cube } cube)

/-- The method `set_corner_orientation`. -/
def set_corner_orientation (self : Phase1Coord) (co : Coord) : Phase1Coord :=
  decode_corner_orientation { self with corner_orientation := co }

/-- The method `set_edge_orientation`. -/
def set_edge_orientation (self : Phase1Coord) (eo : Coord) : Phase1Coord :=
  decode_edge_orientation { self with edge_orientation := eo }

/-- The method `set_ud_slice_edges`. -/
def set_ud_slice_edges (self : Phase1Coord) (uds : Coord) : Phase1Coord :=
  decode_ud_slice_position { self with uds_edge_position := uds }

/-- The method `Phase1Coord::is_solved`. -/
def is_solved (self : Phase1Coord) : Bool :=
  self.corner_orientation == 0 && self.edge_orientation == 0 && self.uds_edge_position == 0

end Phase1Coord

/-- The struct `Phase2Coord`: the member cube and the three coordinates. -/
structure Phase2Coord where
  cube : Cube
  corner_permutation : Coord
  ud_edge_permutation : Coord
  slice_edge_permutation : Coord
deriving DecidableEq, Repr, Inhabited

namespace Phase2Coord

/-- The array `Phase2Coord::AVAILABLE_MOVES`, in the source's order. -/
def AVAILABLE_MOVES : List Move :=
  [Move.U1, Move.U2, Move.U3, Move.D1, Move.D2, Move.D3,
   Move.L3, Move.R3, Move.F3, Move.B3]

/-- The alphabet both `encode_perm` and `decode_perm` start from: `0..7` for
a span of eight elements, `8..11` otherwise. -/
def initial_available_pieces (n : Nat) : List Nat :=
  if n = 8 then [0, 1, 2, 3, 4, 5, 6, 7] else [8, 9, 10, 11]

/-- One pass of the loop of `encode_perm` at position `i`; the state is
`(rank, available_pieces)`. `std::find_if` returning `end()` is an index equal
to the size of the vector, and throws. The rank is a `uint16_t`. -/
def encode_perm_step (n : Nat) (perm : List Nat) (st : Coord × List Nat) (i : Nat) :
    Option (Coord × List Nat) :=
  let index := st.2.indexOf (perm.getD i 0)
  if index = st.2.length then none
  else some ((st.1 + index * factorials.getD (n - 1 - i) 0) % 65536, st.2.eraseIdx index)

/-- The template `encode_perm`, on the piece ids of the span. `none` is
either exception: a piece that is not among the available ones, or a rank of
40320 or more. -/
def encode_perm (perm : List Nat) : Option Coord :=
  let n := perm.length
  match (List.range n).foldlM (encode_perm_step n perm) (0, initial_available_pieces n) with
  | none => none
  | some st => if st.1 ≥ 40320 then none else some st.1

/-- One pass of the loop of `decode_perm` at position `i`; the state is
`(perm, available_pieces, rank)`. `none` is a read of
`available_pieces[index]` past the end of the vector. -/
def decode_perm_step (n : Nat) (st : List Nat × List Nat × Coord) (i : Nat) :
    Option (List Nat × List Nat × Coord) :=
  let index := st.2.2 / factorials.getD (n - 1 - i) 0
  match st.2.1.get? index with
  | none => none
  | some piece =>
    some (st.1.set i piece, st.2.1.eraseIdx index, st.2.2 % factorials.getD (n - 1 - i) 0)

/-- The template `decode_perm`, on the piece ids of the span: the piece ids
written to `perm[0..n)`. -/
def decode_perm (perm : List Nat) (rank : Coord) : Option (List Nat) :=
  let n := perm.length
  ((List.range n).foldlM (decode_perm_step n) (perm, initial_available_pieces n, rank)).map
    (fun (st : List Nat × List Nat × Coord) => st.1)

/-- The piece ids of a span of corners. -/
def corner_pieces (cs : List Corner) : List Nat := cs.map (fun c => c.piece)

/-- The piece ids of a span of edges. -/
def edge_pieces (es : List Edge) : List Nat := es.map (fun e => e.piece)

/-- Writing piece ids back into a span of corners, orientations untouched. -/
def with_corner_pieces (cs : List Corner) (pieces : List Nat) : List Corner :=
  List.zipWith (fun c p => { c with piece := p }) cs pieces

/-- Writing piece ids back into a span of edges, orientations untouched. -/
def with_edge_pieces (es : List Edge) (pieces : List Nat) : List Edge :=
  List.zipWith (fun e p => { e with piece := p }) es pieces

/-- The value `encode_corner_permutation` stores. -/
def encode_corner_permutation (cube : Cube) : Option Coord :=
  encode_perm (corner_pieces cube.corners)

/-- The value `encode_ud_edge_permutation` stores: the span `edges[0..8)`. -/
def encode_ud_edge_permutation (cube : Cube) : Option Coord :=
  encode_perm (edge_pieces (cube.edges.take 8))

/-- The value `encode_slice_edge_permutation` stores: the span `edges[8..12)`. -/
def encode_slice_edge_permutation (cube : Cube) : Option Coord :=
  encode_perm (edge_pieces ((cube.edges.drop 8).take 4))

/-- The method `Phase2Coord::encode_from_cube`; the three encoders run in
the source's order and the first exception ends the call. -/
def encode_from_cube (self : Phase2Coord) (cube : Cube) : Option Phase2Coord :=
  match encode_corner_permutation cube with
  | none => none
  | some cp =>
    match encode_ud_edge_permutation cube with
    | none => none
    | some udep =>
      match encode_slice_edge_permutation cube with
      | none => none
      | some sep =>
        some { self with corner_permutation := cp, ud_edge_permutation := udep,
                         slice_edge_permutation := sep }

/-- The constructor `Phase2Coord(const Cube&)`. -/
def of_cube (cube : Cube) : Option Phase2Coord :=
  encode_from_cube { cube := cube, corner_permutation := 0, ud_edge_permutation := 0,
                     slice_edge_permutation := 0 } cube

/-- The method `decode_corner_permutation` on the member cube. -/
def decode_corner_permutation (self : Phase2Coord) : Option Phase2Coord :=
  (decode_perm (corner_pieces self.cube.corners) self.corner_permutation).map
    (fun pieces =>
      { self with cube := { self.cube with
          corners := with_corner_pieces self.cube.corners pieces } })

/-- The method `decode_ud_edge_permutation` on the member cube. -/
def decode_ud_edge_permutation (self : Phase2Coord) : Option Phase2Coord :=
  (decode_perm (edge_pieces (self.cube.edges.take 8)) self.ud_edge_permutation).map
    (fun pieces =>
      { self with cube := { self.cube with
          edges := with_edge_pieces (self.cube.edges.take 8) pieces ++ self.cube.edges.drop 8 } })

/-- The method `decode_slice_edge_permutation` on the member cube. -/
def decode_slice_edge_permutation (self : Phase2Coord) : Option Phase2Coord :=
  (decode_perm (edge_pieces ((self.cube.edges.drop 8).take 4)) self.slice_edge_permutation).map
    (fun pieces =>
      { self with cube := { self.cube with
          edges := self.cube.edges.take 8
            ++ with_edge_pieces ((self.cube.edges.drop 8).take 4) pieces
            ++ self.cube.edges.drop 12 } })

/-- The method `Phase2Coord::decode_to_cube`. -/
def decode_to_cube (self : Phase2Coord) : Option Phase2Coord :=
  (decode_corner_permutation self).bind
    (fun s => (decode_ud_edge_permutation s).bind decode_slice_edge_permutation)

/-- The default constructor `Phase2Coord()`. -/
def init : Phase2Coord :=
  { cube := Cube.solved, corner_permutation := 0, ud_edge_permutation := 0,
    slice_edge_permutation := 0 }

/-- The constructor `Phase2Coord(Coord cp, Coord udep, Coord sep)`. -/
def of_coords (cp udep sep : Coord) : Option Phase2Coord :=
  decode_to_cube { cube := Cube.solved, corner_permutation := cp, ud_edge_permutation := udep,
                   slice_edge_permutation := sep }

/-- The method `Phase2Coord::apply_move`. -/
def apply_move (self : Phase2Coord) (m : Move) : Option Phase2Coord :=
  (RubiksSolver.apply_move self.cube m).bind
    (fun cube => encode_from_cube { self with cube := cube } cube)

/-- The method `set_corner_permutation`. -/
def set_corner_permutation (self : Phase2Coord) (cp : Coord) : Option Phase2Coord :=
  decode_corner_permutation { self with corner_permutation := cp }

/-- The method `set_ud_edge_permutation`. -/
def set_ud_edge_permutation (self : Phase2Coord) (udep : Coord) : Option Phase2Coord :=
  decode_ud_edge_permutation { self with ud_edge_permutation := udep }

/-- The method `set_slice_edge_permutation`. -/
def set_slice_edge_permutation (self : Phase2Coord) (sep : Coord) : Option Phase2Coord :=
  decode_slice_edge_permutation { self with slice_edge_permutation := sep }

/-- The method `Phase2Coord::is_solved`. -/
def is_solved (self : Phase2Coord) : Bool :=
  self.corner_permutation == 0 && self.ud_edge_permutation == 0
    && self.slice_edge_permutation == 0

end Phase2Coord

/-! ## Derived descriptions of a move, used by the proofs

For a 4-cycle description of `ALL_MOVES_DATA`, the piece that ends in slot `t`
and the orientation change applied to slot `t`. -/

/-- The source slot and orientation change of target slot `t`, when the
4-cycle touches `t`. -/
def slotEffect (mm : MoveMap) (changes : List Nat) (t : Nat) : Option (Nat × Nat) :=
  let j := mm.target_map.indexOf t
  if j < 4 then
    some (mm.affected_indices.getD j 0, changes.getD (mm.affected_indices.indexOf t) 0)
  else none

/-- The effect of move `m` on corner slot `t`. -/
def cornerEffect (m : Move) (t : Nat) : Option (Nat × Nat) :=
  slotEffect (ALL_MOVES_DATA.getD m default).corner_permutation
    (ALL_MOVES_DATA.getD m default).corner_orientation_changes t

/-- The effect of move `m` on edge slot `t`. -/
def edgeEffect (m : Move) (t : Nat) : Option (Nat × Nat) :=
  slotEffect (ALL_MOVES_DATA.getD m default).edge_permutation
    (ALL_MOVES_DATA.getD m default).edge_orientation_changes t

/-- The corner array after move `m`, slot by slot. -/
def moveCorners (m : Move) (cs : List Corner) : List Corner :=
  (List.range 8).map (fun t =>
    match cornerEffect m t with
    | none => cs.getD t default
    | some (s, d) =>
      { piece := (cs.getD s default).piece
        orientation := ((cs.getD s default).orientation + d) % 3 })

/-- The edge array after move `m`, slot by slot. -/
def moveEdges (m : Move) (es : List Edge) : List Edge :=
  (List.range 12).map (fun t =>
    match edgeEffect m t with
    | none => es.getD t default
    | some (s, d) =>
      { piece := (es.getD s default).piece
        orientation := ((es.getD s default).orientation + d) % 2 })

/-- The corner slot whose piece move `m` brings to slot `t`. -/
def srcC (m : Move) (t : Nat) : Nat :=
  match cornerEffect m t with
  | none => t
  | some (s, _) => s

/-- The orientation change move `m` applies at corner slot `t`. -/
def deltaC (m : Move) (t : Nat) : Nat :=
  match cornerEffect m t with
  | none => 0
  | some (_, d) => d

/-- The edge slot whose piece move `m` brings to slot `t`. -/
def srcE (m : Move) (t : Nat) : Nat :=
  match edgeEffect m t with
  | none => t
  | some (s, _) => s

/-- The orientation change move `m` applies at edge slot `t`. -/
def deltaE (m : Move) (t : Nat) : Nat :=
  match edgeEffect m t with
  | none => 0
  | some (_, d) => d

/-! ## The UD-slice coordinate on slot indicators, used by the proofs

`encode_ud_slice_position` only looks at which slots hold a piece 8..11; the
placement loop of `decode_ud_slice_position` only depends on the coordinate.
Both are restated over a list of booleans, with the binomial table as a
parameter. -/

/-- Whether a piece id is one of the slice pieces 8..11. -/
def isSlicePiece (p : Nat) : Bool := decide (p ≥ 8 ∧ p ≤ 11)

/-- The slot indicator of an edge array. -/
def sliceIndicator (es : List Edge) : List Bool := es.map (fun e => isSlicePiece e.piece)

/-- The rank computed by `encode_ud_slice_position`, from the slot indicator. -/
def udsEncodeInd (C : Nat → Nat → Nat) (ind : List Bool) : Nat :=
  let slice_edge_indices :=
    ((List.range 12).foldl
      (fun acc i =>
        if acc.length = 4 then acc
        else if ind.getD i false then acc ++ [11 - i]
        else acc)
      []).insertionSort (fun a b => a ≥ b)
  (slice_edge_indices.foldl
    (fun (acc : Nat × Nat) index => (acc.1 + C index acc.2, acc.2 - 1)) (0, 4)).1

/-- One pass of the placement loop of `decode_ud_slice_position`, on the slot
indicator. -/
def udsDecodeStepInd (C : Nat → Nat → Nat) (st : Nat × List Bool × Nat) (i : Nat) :
    Nat × List Bool × Nat :=
  if st.2.2 > 0 then
    if st.1 ≥ C (11 - i) st.2.2 then
      (st.1 - C (11 - i) st.2.2, st.2.1.set i (isSlicePiece (7 + st.2.2)), st.2.2 - 1)
    else st
  else st

/-- The placement loop of `decode_ud_slice_position`, on the slot indicator. -/
def udsDecodeInd (C : Nat → Nat → Nat) (uds : Nat) : Nat × List Bool × Nat :=
  (List.range 12).foldl (udsDecodeStepInd C) (uds, List.replicate 12 false, 4)

/-- The values of `C_nk_table`, written out. -/
def binomialRows : List (List Nat) :=
  [[1, 0, 0, 0, 0, 0, 0, 0, 0, 0, 0, 0, 0], [1, 1, 0, 0, 0, 0, 0, 0, 0, 0, 0, 0, 0],
   [1, 2, 1, 0, 0, 0, 0, 0, 0, 0, 0, 0, 0], [1, 3, 3, 1, 0, 0, 0, 0, 0, 0, 0, 0, 0],
   [1, 4, 6, 4, 1, 0, 0, 0, 0, 0, 0, 0, 0], [1, 5, 10, 10, 5, 1, 0, 0, 0, 0, 0, 0, 0],
   [1, 6, 15, 20, 15, 6, 1, 0, 0, 0, 0, 0, 0], [1, 7, 21, 35, 35, 21, 7, 1, 0, 0, 0, 0, 0],
   [1, 8, 28, 56, 70, 56, 28, 8, 1, 0, 0, 0, 0], [1, 9, 36, 84, 126, 126, 84, 36, 9, 1, 0, 0, 0],
   [1, 10, 45, 120, 210, 252, 210, 120, 45, 10, 1, 0, 0],
   [1, 11, 55, 165, 330, 462, 462, 330, 165, 55, 11, 1, 0],
   [1, 12, 66, 220, 495, 792, 924, 792, 495, 220, 66, 12, 1]]

/-- A read of `binomialRows`. -/
def binomialAt (n k : Nat) : Nat := (binomialRows.getD n []).getD k 0

/-- The state of the placement loop of `decode_ud_slice_position`, seen
through the slot indicator. -/
def udsView (st : Coord × List Edge × Nat) : Nat × List Bool × Nat :=
  (st.1, sliceIndicator st.2.1, st.2.2)

/-! ## table_manager.h, table_manager.cpp -/

/-- The outcome of a computation that the source runs in a `while` loop:
a value, a C++ exception, or the loop budget of the embedding used up. -/
inductive Result (α : Type) where
  | value : α → Result α
  | exception : Result α
  | out_of_fuel : Result α
deriving DecidableEq, Repr

/-- Sequencing of outcomes. -/
def Result.bind {α β : Type} (r : Result α) (f : α → Result β) : Result β :=
  match r with
  | Result.value a => f a
  | Result.exception => Result.exception
  | Result.out_of_fuel => Result.out_of_fuel

/-- An optional value as an outcome: `none` is an exception. -/
def Result.ofOption {α : Type} (o : Option α) : Result α :=
  match o with
  | some a => Result.value a
  | none => Result.exception

/-- The type `MoveTable<N>`: `N` rows of 18 `uint16_t`. -/
abbrev MoveTable := List (List Nat)

/-- The type `PruningTable<N>`: `N` bytes. -/
abbrev PruningTable := List Nat

/-- The type `EndgameDB`: the map from packed keys to move lists, as an
association list with the newest entry first. -/
abbrev EndgameDB := List (Nat × List Move)

/-- The class `TableManager`: the six move tables, the six pruning tables and
the two endgame databases. -/
structure TableManager where
  co_move_table : MoveTable
  eo_move_table : MoveTable
  uds_move_table : MoveTable
  cp_move_table : MoveTable
  udep_move_table : MoveTable
  sep_move_table : MoveTable
  co_pruning_table : PruningTable
  eo_pruning_table : PruningTable
  uds_pruning_table : PruningTable
  cp_pruning_table : PruningTable
  udep_pruning_table : PruningTable
  sep_pruning_table : PruningTable
  p1_endgame_db : EndgameDB
  p2_endgame_db : EndgameDB
deriving Repr

/-- A read `table[coord][m]` of a move table. -/
def MoveTable.entry (table : MoveTable) (coord : Nat) (m : Move) : Nat :=
  (table.getD coord []).getD m 0

namespace TableManager

/-- The method `get_co_move`. -/
def get_co_move (self : TableManager) (coord : Nat) (m : Move) : Nat :=
  self.co_move_table.entry coord m

/-- The method `get_eo_move`. -/
def get_eo_move (self : TableManager) (coord : Nat) (m : Move) : Nat :=
  self.eo_move_table.entry coord m

/-- The method `get_uds_move`. -/
def get_uds_move (self : TableManager) (coord : Nat) (m : Move) : Nat :=
  self.uds_move_table.entry coord m

/-- The method `get_cp_move`. -/
def get_cp_move (self : TableManager) (coord : Nat) (m : Move) : Nat :=
  self.cp_move_table.entry coord m

/-- The method `get_udep_move`. -/
def get_udep_move (self : TableManager) (coord : Nat) (m : Move) : Nat :=
  self.udep_move_table.entry coord m

/-- The method `get_sep_move`. -/
def get_sep_move (self : TableManager) (coord : Nat) (m : Move) : Nat :=
  self.sep_move_table.entry coord m

/-- The method `get_co_pruning`. -/
def get_co_pruning (self : TableManager) (coord : Nat) : Nat := self.co_pruning_table.getD coord 0

/-- The method `get_eo_pruning`. -/
def get_eo_pruning (self : TableManager) (coord : Nat) : Nat := self.eo_pruning_table.getD coord 0

/-- The method `get_uds_pruning`. -/
def get_uds_pruning (self : TableManager) (coord : Nat) : Nat :=
  self.uds_pruning_table.getD coord 0

/-- The method `get_cp_pruning`. -/
def get_cp_pruning (self : TableManager) (coord : Nat) : Nat := self.cp_pruning_table.getD coord 0

/-- The method `get_udep_pruning`. -/
def get_udep_pruning (self : TableManager) (coord : Nat) : Nat :=
  self.udep_pruning_table.getD coord 0

/-- The method `get_sep_pruning`. -/
def get_sep_pruning (self : TableManager) (coord : Nat) : Nat :=
  self.sep_pruning_table.getD coord 0

/-- The method `get_phase1_moves`: the three successors, as a triple. -/
def get_phase1_moves (self : TableManager) (x : Nat × Nat × Nat) (m : Move) : Nat × Nat × Nat :=
  (self.co_move_table.entry x.1 m, self.eo_move_table.entry x.2.1 m, self.uds_move_table.entry x.2.2 m)

/-- The method `get_phase2_moves`: the three successors, as a triple. -/
def get_phase2_moves (self : TableManager) (x : Nat × Nat × Nat) (m : Move) : Nat × Nat × Nat :=
  (self.cp_move_table.entry x.1 m, self.udep_move_table.entry x.2.1 m, self.sep_move_table.entry x.2.2 m)

/-- The successors of a triple in phase `PHASE` (1, or else 2). -/
def get_phase_moves (self : TableManager) (PHASE : Nat) (x : Nat × Nat × Nat) (m : Move) :
    Nat × Nat × Nat :=
  if PHASE = 1 then self.get_phase1_moves x m else self.get_phase2_moves x m

/-- The method `get_key`: `(x1 << 32) | (x2 << 16) | x3` on 64-bit values. -/
def get_key (x : Nat × Nat × Nat) : Nat :=
  ((x.1 <<< 32) ||| (x.2.1 <<< 16)) ||| x.2.2

/-- The database of phase `PHASE` (1, or else 2). -/
def get_endgame_db (self : TableManager) (PHASE : Nat) : EndgameDB :=
  if PHASE = 1 then self.p1_endgame_db else self.p2_endgame_db

/-- The method `search_endgame_db`: the stored path when the key is present. -/
def search_endgame_db (self : TableManager) (PHASE : Nat) (x : Nat × Nat × Nat) :
    Option (List Move) :=
  (self.get_endgame_db PHASE).lookup (get_key x)

/-- The moves of phase `PHASE`: `C::AVAILABLE_MOVES`. -/
def phase_moves (PHASE : Nat) : List Move :=
  if PHASE = 1 then Phase1Coord.AVAILABLE_MOVES else Phase2Coord.AVAILABLE_MOVES

/-- The inner loop of `generate_move_table` for row `i`: for each available
move a copy of `coord` is moved and its coordinate stored at `table[i][move]`. -/
def generate_move_table_row {C : Type} (moves : List Move) (apply : C → Move → Option C)
    (get : C → Nat) (coord : C) (i : Nat) (table : MoveTable) : Option MoveTable :=
  moves.foldlM
    (fun table move =>
      (apply coord move).map (fun temp_coord =>
        table.set i ((table.getD i []).set move (get temp_coord))))
    table

/-- One pass of the outer loop of `generate_move_table`: `set(coord, i)` on
the coordinate object that lives across the passes, then the row. -/
def generate_move_table_step {C : Type} (moves : List Move) (apply : C → Move → Option C)
    (set : C → Nat → Option C) (get : C → Nat) (st : C × MoveTable) (i : Nat) :
    Option (C × MoveTable) :=
  match set st.1 i with
  | none => none
  | some coord =>
    (generate_move_table_row moves apply get coord i st.2).map (fun table => (coord, table))

/-- The template `generate_move_table`, from a default-constructed
coordinate object and the table as it stands before the call. -/
def generate_move_table {C : Type} (N : Nat) (init : C) (moves : List Move)
    (apply : C → Move → Option C) (set : C → Nat → Option C) (get : C → Nat)
    (table : MoveTable) : Option MoveTable :=
  ((List.range N).foldlM (generate_move_table_step moves apply set get) (init, table)).map
    (fun (st : C × MoveTable) => st.2)

/-- A table of `N` rows of 18 zeros: the storage of the static
`TableManager` before any generator has run. -/
def zero_move_table (N : Nat) : MoveTable := List.replicate N (List.replicate 18 0)

/-- The method `generate_co_move_table`. -/
def generate_co_move_table : Option MoveTable :=
  generate_move_table 2187 Phase1Coord.init Phase1Coord.AVAILABLE_MOVES Phase1Coord.apply_move
    (fun coord i => some (Phase1Coord.set_corner_orientation coord i))
    (fun coord => coord.corner_orientation) (zero_move_table 2187)

/-- The method `generate_eo_move_table`. -/
def generate_eo_move_table : Option MoveTable :=
  generate_move_table 2048 Phase1Coord.init Phase1Coord.AVAILABLE_MOVES Phase1Coord.apply_move
    (fun coord i => some (Phase1Coord.set_edge_orientation coord i))
    (fun coord => coord.edge_orientation) (zero_move_table 2048)

/-- The method `generate_uds_move_table`. -/
def generate_uds_move_table : Option MoveTable :=
  generate_move_table 495 Phase1Coord.init Phase1Coord.AVAILABLE_MOVES Phase1Coord.apply_move
    (fun coord i => some (Phase1Coord.set_ud_slice_edges coord i))
    (fun coord => coord.uds_edge_position) (zero_move_table 495)

/-- The method `generate_cp_move_table`. -/
def generate_cp_move_table : Option MoveTable :=
  generate_move_table 40320 Phase2Coord.init Phase2Coord.AVAILABLE_MOVES Phase2Coord.apply_move
    Phase2Coord.set_corner_permutation
    (fun coord => coord.corner_permutation) (zero_move_table 40320)

/-- The method `generate_udep_move_table`. -/
def generate_udep_move_table : Option MoveTable :=
  generate_move_table 40320 Phase2Coord.init Phase2Coord.AVAILABLE_MOVES Phase2Coord.apply_move
    Phase2Coord.set_ud_edge_permutation
    (fun coord => coord.ud_edge_permutation) (zero_move_table 40320)

/-- The method `generate_sep_move_table`. -/
def generate_sep_move_table : Option MoveTable :=
  generate_move_table 24 Phase2Coord.init Phase2Coord.AVAILABLE_MOVES Phase2Coord.apply_move
    Phase2Coord.set_slice_edge_permutation
    (fun coord => coord.slice_edge_permutation) (zero_move_table 24)

/-- The innermost loop of `generate_pruning_table` for one popped
coordinate; the state is `(table, q)` with `q` the coordinates pushed so far
in this layer. `none` is the `std::out_of_range` thrown for a successor of
40320 or more. The stored depth is a byte. -/
def pruning_expand (moves : List Move) (get_next_coord : Nat → Move → Nat)
    (current_depth : Nat) (st : PruningTable × List Nat) (current_coord : Nat) :
    Option (PruningTable × List Nat) :=
  moves.foldlM
    (fun (st : PruningTable × List Nat) move =>
      let next_coord := get_next_coord current_coord move
      if next_coord ≥ 40320 then none
      else if st.1.getD next_coord 0 = 0xFF then
        some (st.1.set next_coord ((current_depth + 1) % 256), st.2 ++ [next_coord])
      else some st)
    st

/-- The `while (!q.empty())` loop of `generate_pruning_table`: each pass
pops the `layer_size` coordinates in the queue and leaves the ones pushed
meanwhile. -/
def pruning_loop (moves : List Move) (get_next_coord : Nat → Move → Nat) :
    Nat → PruningTable → List Nat → Nat → Result PruningTable
  | 0, _, _, _ => Result.out_of_fuel
  | fuel + 1, table, q, current_depth =>
    if q.isEmpty then Result.value table
    else
      match q.foldlM (pruning_expand moves get_next_coord current_depth) (table, []) with
      | none => Result.exception
      | some st => pruning_loop moves get_next_coord fuel st.1 st.2 (current_depth + 1)

/-- The template `generate_pruning_table`. Every pass of the `while` loop
but the last marks at least one new entry, so `SIZE + 1` passes are allowed. -/
def generate_pruning_table (SIZE : Nat) (moves : List Move)
    (get_next_coord : Nat → Move → Nat) : Result PruningTable :=
  pruning_loop moves get_next_coord (SIZE + 1) ((List.replicate SIZE 0xFF).set 0 0) [0] 0

/-- The depth bound `MAX_DEPTH` of `generate_endgame_db`. -/
def endgame_generation_depth (PHASE : Nat) : Nat := if PHASE = 1 then 5 else 6

/-- The innermost loop of `generate_endgame_db` for one popped queue entry
`(x, path)`; the state is `(endgame_db, q)` with `q` the entries pushed so
far in this layer. -/
def endgame_expand (moves : List Move) (next : (Nat × Nat × Nat) → Move → (Nat × Nat × Nat))
    (MAX_DEPTH current_depth : Nat)
    (st : EndgameDB × List ((Nat × Nat × Nat) × List Move))
    (entry : (Nat × Nat × Nat) × List Move) :
    EndgameDB × List ((Nat × Nat × Nat) × List Move) :=
  moves.foldl
    (fun (st : EndgameDB × List ((Nat × Nat × Nat) × List Move)) move =>
      let next_x := next entry.1 move
      let next_key := get_key next_x
      if (st.1.lookup next_key).isNone then
        let next_path := entry.2 ++ [invert_move move]
        ((next_key, next_path.reverse) :: st.1,
         if current_depth < MAX_DEPTH then st.2 ++ [(next_x, next_path)] else st.2)
      else st)
    st

/-- The `while (!q.empty())` loop of `generate_endgame_db`. -/
def endgame_loop (moves : List Move) (next : (Nat × Nat × Nat) → Move → (Nat × Nat × Nat))
    (MAX_DEPTH : Nat) :
    Nat → EndgameDB → List ((Nat × Nat × Nat) × List Move) → Nat → Result EndgameDB
  | 0, _, _, _ => Result.out_of_fuel
  | fuel + 1, endgame_db, q, current_depth =>
    if q.isEmpty then Result.value endgame_db
    else
      let st := q.foldl (endgame_expand moves next MAX_DEPTH current_depth) (endgame_db, [])
      endgame_loop moves next MAX_DEPTH fuel st.1 st.2 (current_depth + 1)

/-- The template `generate_endgame_db`. Nothing is pushed from depth
`MAX_DEPTH` on, so `MAX_DEPTH + 2` passes of the `while` loop are allowed. -/
def generate_endgame_db (PHASE : Nat) (next : (Nat × Nat × Nat) → Move → (Nat × Nat × Nat)) :
    Result EndgameDB :=
  endgame_loop (phase_moves PHASE) next (endgame_generation_depth PHASE)
    (endgame_generation_depth PHASE + 2) [(0, [])] [((0, 0, 0), [])] 0

/-- The generating branches of `TableManager::initialize`, in the source's
order: move tables, then pruning tables over them, then the endgame databases. -/
def initialize_tables : Result TableManager :=
  (Result.ofOption generate_co_move_table).bind fun co =>
  (Result.ofOption generate_eo_move_table).bind fun eo =>
  (Result.ofOption generate_uds_move_table).bind fun uds =>
  (Result.ofOption generate_cp_move_table).bind fun cp =>
  (Result.ofOption generate_udep_move_table).bind fun udep =>
  (Result.ofOption generate_sep_move_table).bind fun sep =>
  (generate_pruning_table 2187 Phase1Coord.AVAILABLE_MOVES co.entry).bind fun cop =>
  (generate_pruning_table 2048 Phase1Coord.AVAILABLE_MOVES eo.entry).bind fun eop =>
  (generate_pruning_table 495 Phase1Coord.AVAILABLE_MOVES uds.entry).bind fun udsp =>
  (generate_pruning_table 40320 Phase2Coord.AVAILABLE_MOVES cp.entry).bind fun cpp =>
  (generate_pruning_table 40320 Phase2Coord.AVAILABLE_MOVES udep.entry).bind fun udepp =>
  (generate_pruning_table 24 Phase2Coord.AVAILABLE_MOVES sep.entry).bind fun sepp =>
  (generate_endgame_db 1 (fun x m => (co.entry x.1 m, eo.entry x.2.1 m, uds.entry x.2.2 m))).bind
    fun db1 =>
  (generate_endgame_db 2 (fun x m => (cp.entry x.1 m, udep.entry x.2.1 m, sep.entry x.2.2 m))).bind
    fun db2 =>
  Result.value
    { co_move_table := co, eo_move_table := eo, uds_move_table := uds,
      cp_move_table := cp, udep_move_table := udep, sep_move_table := sep,
      co_pruning_table := cop, eo_pruning_table := eop, uds_pruning_table := udsp,
      cp_pruning_table := cpp, udep_pruning_table := udepp, sep_pruning_table := sepp,
      p1_endgame_db := db1, p2_endgame_db := db2 }

/-- The method `get_phase1_pruning`. -/
def get_phase1_pruning (self : TableManager) (coord : Phase1Coord) : Nat :=
  max (max (self.get_co_pruning coord.corner_orientation)
    (self.get_eo_pruning coord.edge_orientation))
    (self.get_uds_pruning coord.uds_edge_position)

/-- The method `get_phase2_pruning`. -/
def get_phase2_pruning (self : TableManager) (coord : Phase2Coord) : Nat :=
  max (max (self.get_cp_pruning coord.corner_permutation)
    (self.get_udep_pruning coord.ud_edge_permutation))
    (self.get_sep_pruning coord.slice_edge_permutation)

end TableManager

/-! ## solver.h, solver.cpp -/

/-- The struct `SearchState`. -/
structure SearchState where
  x1 : Nat
  x2 : Nat
  x3 : Nat
  last_move : Move
  depth : Nat
  h : Nat
deriving DecidableEq, Repr, Inhabited

/-- The class `Solver`: the reference to the tables, the build flag
`USE_ENHANCED_HEURISTIC`, and the ordering `std::sort` produces for the
comparison `a.h < b.h` (the standard fixes it only up to the order of equal
elements). -/
structure Solver where
  tables_ : TableManager
  enhanced : Bool
  sort : List SearchState → List SearchState

namespace Solver

/-- The method `is_valid_move`. -/
def is_valid_move (current last : Move) : Bool :=
  if last = Move.COUNT then true
  else if get_face current = get_face last then false
  else true

/-- The method `heuristic_phase1(x1, x2, x3)`. -/
def heuristic_phase1 (self : Solver) (x : Nat × Nat × Nat) : Nat :=
  max (max (self.tables_.get_co_pruning x.1) (self.tables_.get_eo_pruning x.2.1))
    (self.tables_.get_uds_pruning x.2.2)

/-- The method `heuristic_phase2(x1, x2, x3)`. -/
def heuristic_phase2 (self : Solver) (x : Nat × Nat × Nat) : Nat :=
  max (max (self.tables_.get_cp_pruning x.1) (self.tables_.get_udep_pruning x.2.1))
    (self.tables_.get_sep_pruning x.2.2)

/-- The template `heuristic<PHASE>`. -/
def heuristic (self : Solver) (PHASE : Nat) (x : Nat × Nat × Nat) : Nat :=
  if PHASE = 1 then self.heuristic_phase1 x else self.heuristic_phase2 x

/-- The template `get_next_coord<PHASE>`. -/
def get_next_coord (self : Solver) (PHASE : Nat) (x : Nat × Nat × Nat) (move : Move) :
    Nat × Nat × Nat :=
  self.tables_.get_phase_moves PHASE x move

/-- The constant `ENDGAME_DB_MAX_DEPTH` of `search_iterative`. -/
def ENDGAME_DB_MAX_DEPTH (PHASE : Nat) : Nat := if PHASE = 1 then 6 else 7

/-- The value `static_cast<uint8_t>(current.h - 1)`. -/
def pred_as_byte (h : Nat) : Nat := if h = 0 then 255 else (h - 1) % 256

/-- The successors kept at an expansion, in the order of `MOVES`: the moves
that pass `is_valid_move` and whose successor satisfies
`depth + 1 + next_h <= max_depth`. -/
def scored_moves (self : Solver) (PHASE : Nat) (MOVES : List Move) (max_depth : Nat)
    (current : SearchState) : List SearchState :=
  MOVES.filterMap (fun move =>
    if !is_valid_move move current.last_move then none
    else
      let next := self.get_next_coord PHASE (current.x1, current.x2, current.x3) move
      let next_h :=
        if self.enhanced then max (self.heuristic PHASE next) (pred_as_byte current.h)
        else self.heuristic PHASE next
      if current.depth + 1 + next_h ≤ max_depth then
        some { x1 := next.1, x2 := next.2.1, x3 := next.2.2, last_move := move,
               depth := current.depth + 1, h := next_h }
      else none)

/-- What one pass of the `while` loop of `search_iterative` does. -/
inductive SearchStep where
  | found : List Move → SearchStep
  | continue : List SearchState → List Move → SearchStep

/-- One pass of the `while (!stack.empty())` loop of `search_iterative`, for
the popped state `current` and the rest of the stack (top first). -/
def search_step (self : Solver) (PHASE : Nat) (MOVES : List Move) (max_depth : Nat)
    (current : SearchState) (stack : List SearchState) (path : List Move) : SearchStep :=
  let path := path.set current.depth current.last_move
  let expand := fun (current : SearchState) =>
    if current.x1 = 0 ∧ current.x2 = 0 ∧ current.x3 = 0 then
      SearchStep.found (path.take (current.depth + 1))
    else
      SearchStep.continue
        (self.sort (self.scored_moves PHASE MOVES max_depth current) ++ stack) path
  if current.h ≤ ENDGAME_DB_MAX_DEPTH PHASE then
    match self.tables_.search_endgame_db PHASE (current.x1, current.x2, current.x3) with
    | some endgame_path => SearchStep.found (path.take (current.depth + 1) ++ endgame_path)
    | none =>
      if self.enhanced then
        if current.depth + ENDGAME_DB_MAX_DEPTH PHASE > max_depth then
          SearchStep.continue stack path
        else expand { current with h := ENDGAME_DB_MAX_DEPTH PHASE + 1 }
      else expand current
  else expand current

/-- The template `search_iterative`: the stack is a list with the top first;
the result is the path when the search returns `true`, `none` when the stack
runs empty. -/
def search_iterative (self : Solver) (PHASE : Nat) (MOVES : List Move) (max_depth : Nat) :
    Nat → List SearchState → List Move → Result (Option (List Move))
  | 0, _, _ => Result.out_of_fuel
  | _ + 1, [], _ => Result.value none
  | fuel + 1, current :: stack, path =>
    match self.search_step PHASE MOVES max_depth current stack path with
    | SearchStep.found solution => Result.value (some solution)
    | SearchStep.continue stack path => self.search_iterative PHASE MOVES max_depth fuel stack path

/-- The number of passes allowed to `search_iterative` for `max_depth`: a
state at depth `d` weighs `19 ^ (max_depth + 1 - d)`, more than the at most 18
successors it is replaced with. -/
def search_fuel (max_depth : Nat) : Nat := 19 ^ (max_depth + 1) + 1

/-- The `for (max_depth = min_depth; max_depth <= limit; ++max_depth)` loop of
`ida_star`, with `count` passes left. -/
def ida_star_loop (self : Solver) (PHASE : Nat) (MOVES : List Move) (x : Nat × Nat × Nat)
    (min_depth limit : Nat) : Nat → Nat → Result (Option (List Move))
  | 0, _ => Result.value none
  | count + 1, max_depth =>
    match self.search_iterative PHASE MOVES max_depth (search_fuel max_depth)
        [{ x1 := x.1, x2 := x.2.1, x3 := x.2.2, last_move := Move.COUNT, depth := 0,
           h := min_depth }]
        (List.replicate (limit + 1) Move.U1) with
    | Result.value none => self.ida_star_loop PHASE MOVES x min_depth limit count (max_depth + 1)
    | r => r

/-- The template `ida_star`: `solved` is `start_coord.is_solved()` and `x` the
three coordinates of `start_coord`; the result is the content of `solution`
when the call returns `true`, `none` when it returns `false`. -/
def ida_star (self : Solver) (PHASE : Nat) (solved : Bool) (x : Nat × Nat × Nat) (limit : Nat) :
    Result (Option (List Move)) :=
  if solved then Result.value (some [])
  else
    let min_depth := self.heuristic PHASE x
    self.ida_star_loop PHASE (TableManager.phase_moves PHASE) x min_depth limit
      (limit + 1 - min_depth) min_depth

/-- The method `Solver::solve`. The exceptions are the two `runtime_error`s
for a phase without solution and whatever `apply_sequence` and the
`Phase2Coord` constructor throw. -/
def solve (self : Solver) (scrambled_cube : Cube) : Result (List Move) :=
  let p1_coord := Phase1Coord.of_cube scrambled_cube
  (self.ida_star 1 p1_coord.is_solved
    (p1_coord.corner_orientation, p1_coord.edge_orientation, p1_coord.uds_edge_position)
    12).bind fun r1 =>
  match r1 with
  | none => Result.exception
  | some phase1_solution =>
    let phase1_solution := phase1_solution.filter (fun m => m ≠ Move.COUNT)
    (Result.ofOption (apply_sequence scrambled_cube phase1_solution)).bind fun intermediate_cube =>
    (Result.ofOption (Phase2Coord.of_cube intermediate_cube)).bind fun p2_coord =>
    let max_phase2_moves := max 8 (25 - phase1_solution.length)
    (self.ida_star 2 p2_coord.is_solved
      (p2_coord.corner_permutation, p2_coord.ud_edge_permutation,
        p2_coord.slice_edge_permutation)
      max_phase2_moves).bind fun r2 =>
    match r2 with
    | none => Result.exception
    | some phase2_solution =>
      let phase2_solution := phase2_solution.filter (fun m => m ≠ Move.COUNT)
      Result.value (phase1_solution ++ phase2_solution)

end Solver

/-! ## Invariants of the cubes a sequence of moves can produce -/

/-- The properties every cube reachable from the solved one has: the array
sizes, orientations in range, piece ids a permutation of the slots, and the
two orientation sums. -/
def Cube.Legal (k : Cube) : Prop :=
  k.corners.length = 8 ∧ k.edges.length = 12 ∧
  (∀ c ∈ k.corners, c.orientation < 3) ∧ (∀ e ∈ k.edges, e.orientation < 2) ∧
  (Phase2Coord.corner_pieces k.corners).Perm (List.range 8) ∧
  (Phase2Coord.edge_pieces k.edges).Perm (List.range 12) ∧
  (k.corners.map (fun c => c.orientation)).sum % 3 = 0 ∧
  (k.edges.map (fun e => e.orientation)).sum % 2 = 0

/-! ## The Phase-1 coordinates on orientation lists, used by the proofs -/

/-- The rank `encode_corner_orientation` computes, from the list of corner
orientations. -/
def coRank (oris : List Nat) : Nat :=
  (List.range 7).foldl (fun co_coord i => co_coord * 3 + oris.getD i 0) 0

/-- The rank `encode_edge_orientation` computes, from the list of edge
orientations. -/
def eoRank (oris : List Nat) : Nat :=
  (List.range 11).foldl (fun eo_coord i => eo_coord * 2 + oris.getD i 0) 0

/-- The corner orientations after move `m`, from those before. -/
def moveOriC (m : Move) (oris : List Nat) : List Nat :=
  (List.range 8).map (fun t => (oris.getD (srcC m t) 0 + deltaC m t) % 3)

/-- The edge orientations after move `m`, from those before. -/
def moveOriE (m : Move) (oris : List Nat) : List Nat :=
  (List.range 12).map (fun t => (oris.getD (srcE m t) 0 + deltaE m t) % 2)

/-- The slot indicator after move `m`, from the one before. -/
def moveInd (m : Move) (ind : List Bool) : List Bool :=
  (List.range 12).map (fun t => ind.getD (srcE m t) false)

/-- The piece ids after move `m`, from those before (corners). -/
def movePiecesC (m : Move) (pieces : List Nat) : List Nat :=
  ((List.range 8).map (srcC m)).map (fun s => pieces.getD s 0)

/-- The piece ids after move `m`, from those before (edges). -/
def movePiecesE (m : Move) (pieces : List Nat) : List Nat :=
  ((List.range 12).map (srcE m)).map (fun s => pieces.getD s 0)

/-- The corner orientations `decode_corner_orientation` writes for `c`. -/
def coDigits (c : Nat) : List Nat :=
  (Phase1Coord.decode_corner_orientation
    { Phase1Coord.init with corner_orientation := c }).cube.corners.map (fun x => x.orientation)

/-- The edge orientations `decode_edge_orientation` writes for `c`. -/
def eoDigits (c : Nat) : List Nat :=
  (Phase1Coord.decode_edge_orientation
    { Phase1Coord.init with edge_orientation := c }).cube.edges.map (fun x => x.orientation)

/-- The entry the corner-orientation move table holds at `[c][m]`. -/
def co_move_entry (c : Nat) (m : Move) : Nat := coRank (moveOriC m (coDigits c))

/-- The entry the edge-orientation move table holds at `[c][m]`. -/
def eo_move_entry (c : Nat) (m : Move) : Nat := eoRank (moveOriE m (eoDigits c))

/-- The entry the UD-slice move table holds at `[c][m]`. -/
def uds_move_entry (c : Nat) (m : Move) : Nat :=
  udsEncodeInd C_nk (moveInd m (udsDecodeInd C_nk c).2.1)

/-! ## The Phase-2 coordinates on piece lists, used by the proofs -/

/-- The arrangement `decode_perm` writes for rank `r` on a span of `n`. -/
def permOfRank (n r : Nat) : List Nat :=
  (Phase2Coord.decode_perm (List.replicate n 0) r).getD []

/-- The entry the corner-permutation move table holds at `[c][m]` for a
Phase-2 move `m`. -/
def cp_move_entry (c : Nat) (m : Move) : Nat :=
  (Phase2Coord.encode_perm (movePiecesC m (permOfRank 8 c))).getD 0

/-- The entry the UD-edge-permutation move table holds at `[c][m]` for a
Phase-2 move `m`. -/
def udep_move_entry (c : Nat) (m : Move) : Nat :=
  (Phase2Coord.encode_perm
    ((List.range 8).map (fun t => (permOfRank 8 c).getD (srcE m t) 0))).getD 0

/-- The entry the slice-edge-permutation move table holds at `[c][m]` for a
Phase-2 move `m`. -/
def sep_move_entry (c : Nat) (m : Move) : Nat :=
  (Phase2Coord.encode_perm
    ((List.range' 8 4).map (fun t => (permOfRank 4 c).getD (srcE m t - 8) 0))).getD 0

/-- The slot indicator of a cube whose slice pieces are in the slice slots. -/
def g1Indicator : List Bool :=
  [false, false, false, false, false, false, false, false, true, true, true, true]

/-- The shape of a cube inside G1 as far as the Phase-2 encoders look: array
sizes, orientations in range, the corner pieces an arrangement of `0..7`, the
pieces in edge slots 0..7 an arrangement of `0..7` and those in slots 8..11 an
arrangement of `8..11`. -/
def Cube.G1Pieces (k : Cube) : Prop :=
  k.corners.length = 8 ∧ k.edges.length = 12 ∧
  (∀ c ∈ k.corners, c.orientation < 3) ∧ (∀ e ∈ k.edges, e.orientation < 2) ∧
  (Phase2Coord.corner_pieces k.corners).Perm (Phase2Coord.initial_available_pieces 8) ∧
  (Phase2Coord.edge_pieces (k.edges.take 8)).Perm (Phase2Coord.initial_available_pieces 8) ∧
  (Phase2Coord.edge_pieces ((k.edges.drop 8).take 4)).Perm
    (Phase2Coord.initial_available_pieces 4)

/-- The two spans `encode_perm` is used on: eight pieces over `0..7` with
`8!` ranks and four pieces over `8..11` with `4!` ranks. -/
def LehmerSpan (n fact : Nat) : Prop :=
  n ≤ 8 ∧ factorials.getD n 0 = fact ∧ fact ≤ 40320 ∧
  (Phase2Coord.initial_available_pieces n).Nodup ∧
  (Phase2Coord.initial_available_pieces n).length = n

/-- A cube inside G1: the G1 shape with every orientation zero. -/
def Cube.InG1 (k : Cube) : Prop :=
  k.G1Pieces ∧ (∀ c ∈ k.corners, c.orientation = 0) ∧ (∀ e ∈ k.edges, e.orientation = 0)

/-! ## Paths through the move tables, used by the proofs -/

/-- The triple reached from `x` by the moves of `path`, through `next`. -/
def follow (next : (Nat × Nat × Nat) → Move → (Nat × Nat × Nat)) (x : Nat × Nat × Nat)
    (path : List Move) : Nat × Nat × Nat :=
  path.foldl next x

/-- A database entry is sound when its key packs a triple from which the stored
path leads to `(0, 0, 0)` by moves of the phase. -/
def EntrySound (moves : List Move) (next : (Nat × Nat × Nat) → Move → (Nat × Nat × Nat))
    (Good : (Nat × Nat × Nat) → Prop) (e : Nat × List Move) : Prop :=
  ∃ x, Good x ∧ TableManager.get_key x = e.1 ∧ (∀ m ∈ e.2, m ∈ moves) ∧
    follow next x e.2 = (0, 0, 0)

/-- A queue entry of `generate_endgame_db` is sound when its path, reversed,
leads from its triple to `(0, 0, 0)` by moves of the phase. -/
def QueueSound (moves : List Move) (next : (Nat × Nat × Nat) → Move → (Nat × Nat × Nat))
    (Good : (Nat × Nat × Nat) → Prop) (e : (Nat × Nat × Nat) × List Move) : Prop :=
  Good e.1 ∧ (∀ m ∈ e.2, m ∈ moves) ∧ follow next e.1 e.2.reverse = (0, 0, 0)

/-- What the soundness of the endgame database needs of the triples met: the
start is among them, moves keep them, and the inverse move leads back. -/
def PhaseClosed (moves : List Move) (next : (Nat × Nat × Nat) → Move → (Nat × Nat × Nat))
    (Good : (Nat × Nat × Nat) → Prop) : Prop :=
  Good (0, 0, 0) ∧
  ∀ x m, Good x → m ∈ moves →
    Good (next x m) ∧ invert_move m ∈ moves ∧ next (next x m) (invert_move m) = x

/-- The moves that lead to a stack entry `s` of `search_iterative`: positions
`1..s.depth` of the path once `s.last_move` is written at `s.depth`. -/
def pathTo (path : List Move) (s : SearchState) : List Move :=
  ((path.set s.depth s.last_move).take (s.depth + 1)).drop 1

/-- A stack entry of `search_iterative` agrees with the path: its depth is a
position of the path, position 0 holds the sentinel once the entry is written,
and the moves to it lead from the start triple `x0` to its triple. -/
def NodeOK (moves : List Move) (next : (Nat × Nat × Nat) → Move → (Nat × Nat × Nat))
    (Good : (Nat × Nat × Nat) → Prop) (x0 : Nat × Nat × Nat) (path : List Move)
    (s : SearchState) : Prop :=
  s.depth < path.length ∧ Good (s.x1, s.x2, s.x3) ∧
  (path.set s.depth s.last_move).take 1 = [Move.COUNT] ∧
  (∀ m ∈ pathTo path s, m ∈ moves) ∧
  follow next x0 (pathTo path s) = (s.x1, s.x2, s.x3)

/-- The invariant of the `while` loop of `search_iterative`: depths do not
increase from the top of the stack down, and every entry agrees with the path. -/
def StackInv (moves : List Move) (next : (Nat × Nat × Nat) → Move → (Nat × Nat × Nat))
    (Good : (Nat × Nat × Nat) → Prop) (x0 : Nat × Nat × Nat) (path : List Move)
    (stack : List SearchState) : Prop :=
  stack.Pairwise (fun a b => b.depth ≤ a.depth) ∧
  ∀ s ∈ stack, NodeOK moves next Good x0 path s

/-- A solution of a phase: after the sentinel is erased, moves of the phase
that lead from `x0` to `(0, 0, 0)`. -/
def PhaseSolution (moves : List Move) (next : (Nat × Nat × Nat) → Move → (Nat × Nat × Nat))
    (x0 : Nat × Nat × Nat) (solution : List Move) : Prop :=
  (∀ m ∈ solution.filter (fun m => m ≠ Move.COUNT), m ∈ moves) ∧
  follow next x0 (solution.filter (fun m => m ≠ Move.COUNT)) = (0, 0, 0)

/-! ## The setting of the two searches, used by the proofs -/

/-- What the soundness of a search needs of its solver and phase. -/
structure SearchSetting (S : Solver) (PHASE : Nat) (moves : List Move)
    (Good : (Nat × Nat × Nat) → Prop) : Prop where
  closed : PhaseClosed moves (S.get_next_coord PHASE) Good
  bounded : ∀ x, Good x → x.2.1 < 65536 ∧ x.2.2 < 65536
  real : ∀ m ∈ moves, m < 18
  db_sound : ∀ e ∈ S.tables_.get_endgame_db PHASE,
    EntrySound moves (S.get_next_coord PHASE) Good e
  sort_mem : ∀ l, ∀ x ∈ S.sort l, x ∈ l

/-- The tables of a manager are the ones the generators produce: the six move
tables, and the two endgame databases generated over them. -/
structure TablesGenerated (tm : TableManager) : Prop where
  co : TableManager.generate_co_move_table = some tm.co_move_table
  eo : TableManager.generate_eo_move_table = some tm.eo_move_table
  uds : TableManager.generate_uds_move_table = some tm.uds_move_table
  cp : TableManager.generate_cp_move_table = some tm.cp_move_table
  udep : TableManager.generate_udep_move_table = some tm.udep_move_table
  sep : TableManager.generate_sep_move_table = some tm.sep_move_table
  db1 : TableManager.generate_endgame_db 1 tm.get_phase1_moves = Result.value tm.p1_endgame_db
  db2 : TableManager.generate_endgame_db 2 tm.get_phase2_moves = Result.value tm.p2_endgame_db

/-- The triples the Phase-1 search meets: the coordinates of a legal cube. -/
def Good1 (x : Nat × Nat × Nat) : Prop :=
  ∃ k : Cube, k.Legal ∧
    x = (Phase1Coord.encode_corner_orientation k, Phase1Coord.encode_edge_orientation k,
         Phase1Coord.encode_ud_slice_position k)

/-- The triples the Phase-2 search meets: the coordinates of a cube of G1
shape. -/
def Good2 (x : Nat × Nat × Nat) : Prop :=
  ∃ k : Cube, k.G1Pieces ∧
    Phase2Coord.encode_corner_permutation k = some x.1 ∧
    Phase2Coord.encode_ud_edge_permutation k = some x.2.1 ∧
    Phase2Coord.encode_slice_edge_permutation k = some x.2.2

/-! ## The tables as generated -/

/-- The value of an outcome, or `d` when there is none. -/
def Result.getD {α : Type} (r : Result α) (d : α) : α :=
  match r with
  | Result.value a => a
  | Result.exception => d
  | Result.out_of_fuel => d

namespace TableManager

/-- The table `generate_co_move_table` leaves. -/
def generated_co : MoveTable := generate_co_move_table.getD []

/-- The table `generate_eo_move_table` leaves. -/
def generated_eo : MoveTable := generate_eo_move_table.getD []

/-- The table `generate_uds_move_table` leaves. -/
def generated_uds : MoveTable := generate_uds_move_table.getD []

/-- The table `generate_cp_move_table` leaves. -/
def generated_cp : MoveTable := generate_cp_move_table.getD []

/-- The table `generate_udep_move_table` leaves. -/
def generated_udep : MoveTable := generate_udep_move_table.getD []

/-- The table `generate_sep_move_table` leaves. -/
def generated_sep : MoveTable := generate_sep_move_table.getD []

/-- The database `generate_endgame_db<1>` leaves over the generated move
tables. -/
def generated_db1 : EndgameDB :=
  (generate_endgame_db 1 (fun x m =>
    (generated_co.entry x.1 m, generated_eo.entry x.2.1 m, generated_uds.entry x.2.2 m))).getD []

/-- The database `generate_endgame_db<2>` leaves over the generated move
tables. -/
def generated_db2 : EndgameDB :=
  (generate_endgame_db 2 (fun x m =>
    (generated_cp.entry x.1 m, generated_udep.entry x.2.1 m, generated_sep.entry x.2.2 m))).getD []

/-- The tables after `initialize` has run its generators. -/
def generated : TableManager :=
  { co_move_table := generated_co, eo_move_table := generated_eo,
    uds_move_table := generated_uds, cp_move_table := generated_cp,
    udep_move_table := generated_udep, sep_move_table := generated_sep,
    co_pruning_table :=
      (generate_pruning_table 2187 Phase1Coord.AVAILABLE_MOVES generated_co.entry).getD [],
    eo_pruning_table :=
      (generate_pruning_table 2048 Phase1Coord.AVAILABLE_MOVES generated_eo.entry).getD [],
    uds_pruning_table :=
      (generate_pruning_table 495 Phase1Coord.AVAILABLE_MOVES generated_uds.entry).getD [],
    cp_pruning_table :=
      (generate_pruning_table 40320 Phase2Coord.AVAILABLE_MOVES generated_cp.entry).getD [],
    udep_pruning_table :=
      (generate_pruning_table 40320 Phase2Coord.AVAILABLE_MOVES generated_udep.entry).getD [],
    sep_pruning_table :=
      (generate_pruning_table 24 Phase2Coord.AVAILABLE_MOVES generated_sep.entry).getD [],
    p1_endgame_db := generated_db1, p2_endgame_db := generated_db2 }

end TableManager

/-- A solver over the generated tables, without `USE_ENHANCED_HEURISTIC`, whose
`std::sort` is a merge sort on `h`. -/
def Solver.generated : Solver :=
  { tables_ := TableManager.generated, enhanced := false,
    sort := fun l => l.mergeSort (fun a b => decide (a.h ≤ b.h)) }

/-! ## The measure of the search loop, used by the proofs -/

/-- The weight of a stack of `search_iterative` under `max_depth`: an entry at
depth `d` weighs `19 ^ (max_depth + 1 - d)`. -/
def stackWeight (max_depth : Nat) (stack : List SearchState) : Nat :=
  (stack.map (fun s => 19 ^ (max_depth + 1 - s.depth))).sum

/-! ## cube.cpp: `from_scramble` -/

/-- The subranges of `scramble | std::views::split(' ')`: the maximal runs
between space characters, empty runs included. -/
def split_spaces : List Char → List (List Char)
  | [] => [[]]
  | c :: cs =>
    match split_spaces cs with
    | [] => [[]]
    | tok :: rest => if c = ' ' then [] :: tok :: rest else (c :: tok) :: rest

/-- The function `Cube::from_scramble`: the moves named by the non-empty
tokens are applied in order to a default-constructed cube; `none` is the
exception of `string_to_move`. -/
def from_scramble (scramble : String) : Option Cube :=
  (split_spaces scramble.toList).foldlM
    (fun cube move_str =>
      if move_str.isEmpty then some cube
      else (string_to_move (String.mk move_str)).bind (fun move => apply_move cube move))
    Cube.solved

/-! ## Distances along one axis, used by the proofs -/

/-- The coordinate reached from `c` by the moves of `path`, through `next`. -/
def followC (next : Nat → Move → Nat) (c : Nat) (path : List Move) : Nat :=
  path.foldl next c

/-- Coordinate `c` is reached from 0 by at most `n` moves of `moves`. -/
def Within (moves : List Move) (next : Nat → Move → Nat) (n c : Nat) : Prop :=
  ∃ path : List Move, path.length ≤ n ∧ (∀ m ∈ path, m ∈ moves) ∧ followC next 0 path = c

/-- The least number of moves of `moves` that lead from 0 to `c` is `e`. -/
def Dist (moves : List Move) (next : Nat → Move → Nat) (c e : Nat) : Prop :=
  Within moves next e c ∧ ∀ n, Within moves next n c → e ≤ n

/-- The invariant of the `while` loop of `generate_pruning_table` at the start
of the pass for `current_depth = d`: marked entries hold the distance, all
coordinates within `d` moves are marked, and the queue holds the coordinates at
distance `d`. -/
structure PruningInv (SIZE : Nat) (moves : List Move) (next : Nat → Move → Nat) (d : Nat)
    (table : PruningTable) (q : List Nat) : Prop where
  len : table.length = SIZE
  marked : ∀ c, c < SIZE → table.getD c 0 ≠ 0xFF →
    Dist moves next c (table.getD c 0) ∧ table.getD c 0 ≤ d
  within : ∀ c, Within moves next d c → table.getD c 0 ≠ 0xFF
  queue : ∀ c, c ∈ q ↔ Dist moves next c d

/-- The invariant inside a pass of the `while` loop of `generate_pruning_table`
for `current_depth = d`, on the table and the coordinates pushed so far. -/
structure PruningMid (SIZE : Nat) (moves : List Move) (next : Nat → Move → Nat) (d : Nat)
    (st : PruningTable × List Nat) : Prop where
  len : st.1.length = SIZE
  marked : ∀ c, c < SIZE → st.1.getD c 0 ≠ 0xFF →
    Dist moves next c (st.1.getD c 0) ∧ st.1.getD c 0 ≤ d + 1 ∧
    (st.1.getD c 0 = d + 1 → c ∈ st.2)
  within : ∀ c, Within moves next d c → st.1.getD c 0 ≠ 0xFF
  queue : ∀ c, c ∈ st.2 → Dist moves next c (d + 1)

/-- What the breadth-first search of `generate_pruning_table` needs of an axis:
the move table keeps coordinates below `SIZE`, and every coordinate reached
from 0 is reached within `K` moves, where `K` fits a byte below the marker
`0xFF` and the passes allowed. -/
structure AxisGraph (SIZE : Nat) (moves : List Move) (next : Nat → Move → Nat) (K : Nat) :
    Prop where
  pos : 0 < SIZE
  small : SIZE ≤ 40320
  closed : ∀ c, c < SIZE → ∀ m ∈ moves, next c m < SIZE
  bound : ∀ c e, Dist moves next c e → e ≤ K
  byte : K ≤ 253
  fuel : K + 1 ≤ SIZE

/-! ## Coded axes, used by the proofs -/

/-- The arrangement after the moves of `w`, each acting through `act`. -/
def actWord {α : Type} (act : Move → α → α) (a : α) (w : List Move) : α :=
  w.foldl (fun a m => act m a) a

/-- A move table `next` over `SIZE` coordinates codes the action `act` on the
valid arrangements `V`: `dec` and `enc` are inverse to each other between the
coordinates and the valid arrangements, a move keeps validity and is undone by
its inverse, and an entry is the code of the moved arrangement. -/
structure CodedAxis {α : Type} (SIZE : Nat) (moves : List Move) (next : Nat → Move → Nat)
    (dec : Nat → α) (enc : α → Nat) (act : Move → α → α) (V : α → Prop) : Prop where
  dec_valid : ∀ c, c < SIZE → V (dec c)
  enc_dec : ∀ c, c < SIZE → enc (dec c) = c
  dec_enc : ∀ a, V a → enc a < SIZE ∧ dec (enc a) = a
  act_valid : ∀ a m, V a → m ∈ moves → V (act m a)
  act_inv : ∀ a m, V a → m ∈ moves →
    invert_move m ∈ moves ∧ act (invert_move m) (act m a) = a
  entry : ∀ c m, c < SIZE → m ∈ moves → next c m = enc (act m (dec c))

/-- The least number of moves of `moves` that take `c` to 0 through `next` is
`e`. -/
def MinTo (moves : List Move) (next : Nat → Move → Nat) (c e : Nat) : Prop :=
  (∃ p : List Move, p.length = e ∧ (∀ m ∈ p, m ∈ moves) ∧ followC next c p = 0) ∧
  ∀ p : List Move, (∀ m ∈ p, m ∈ moves) → followC next c p = 0 → e ≤ p.length

/-- The list whose slot `t` holds what `a` holds at slot `s t`. -/
def carry {β : Type} (n : Nat) (d : β) (s : Nat → Nat) (a : List β) : List β :=
  (List.range n).map (fun t => a.getD (s t) d)

/-- The slot whose content the moves of a word bring to slot `t`, when move `m`
brings the content of slot `s m t` to slot `t`. -/
def wordSrc (s : Move → Nat → Nat) : List Move → Nat → Nat
  | [], t => t
  | m :: w, t => s m (wordSrc s w t)

/-! ## Words that sort the Phase-2 axes slot by slot, used by the proofs -/

/-- Words of Phase-2 moves on the corner slots: the word at `[i][j]`, for
`i < j`, brings the content of slot `j` to slot `i` and leaves the slots before
`i` alone. -/
def cpWords : List (List (List Move)) :=
  [[[], [1], [2], [0], [8, 0], [14], [17, 0], [8]],
   [[], [], [8, 1, 8], [17, 11], [5, 11], [4, 11], [11], [3, 11]],
   [[], [], [], [14, 1, 14], [3, 17], [5, 17], [4, 17], [17]],
   [[], [], [], [], [0, 8, 1, 14, 0, 14], [5, 17, 4, 14, 0, 14], [4, 17, 4, 14, 0, 14],
    [17, 4, 14, 0, 14]],
   [[], [], [], [], [], [3], [5], [4]],
   [[], [], [], [], [], [], [14, 3, 14, 1, 14, 0, 8, 1, 8, 14],
    [8, 4, 8, 0, 8, 1, 8, 14, 1, 14]],
   [[], [], [], [], [], [], [], [11, 14, 3, 14, 1, 14, 0, 14, 1, 14, 0]]]

/-- The word of `cpWords` at `[i][j]`. -/
def cpWord (i j : Nat) : List Move := (cpWords.getD i []).getD j []

/-- Words of Phase-2 moves on the edge slots 0..7, as `cpWords`. -/
def udepWords : List (List (List Move)) :=
  [[[], [1], [2], [0], [8], [14, 1], [11, 2], [17, 0]],
   [[], [], [11, 3, 14], [17, 5, 14], [4, 14], [14], [3, 14], [5, 14]],
   [[], [], [], [17, 3, 11], [5, 11], [4, 11], [11], [3, 11]],
   [[], [], [], [], [3, 17], [5, 17], [4, 17], [17]],
   [[], [], [], [], [], [3], [5], [4]],
   [[], [], [], [], [], [], [14, 0, 11, 1, 14], [14, 2, 17, 2, 14]],
   [[], [], [], [], [], [], [], [17, 1, 11, 0, 17]]]

/-- The word of `udepWords` at `[i][j]`. -/
def udepWord (i j : Nat) : List Move := (udepWords.getD i []).getD j []

/-- Words of Phase-2 moves on the edge slots 8..11, counted from 0, as
`cpWords`. -/
def sepWords : List (List (List Move)) :=
  [[[], [14], [11, 14], [8]],
   [[], [], [11], [17, 11]],
   [[], [], [], [17]]]

/-- The word of `sepWords` at `[i][j]`. -/
def sepWord (i j : Nat) : List Move := (sepWords.getD i []).getD j []

/-- The slice slot, counted from 0, whose content move `m` brings to slice slot
`t`. -/
def srcS (m : Move) (t : Nat) : Nat := srcE m (t + 8) - 8

/-! ## Words that clear the Phase-1 axes slot by slot, used by the proofs -/

/-- The list whose slot `t` holds what `v` holds at slot `s t`, raised by `d t`
modulo `M`. -/
def twist (n M : Nat) (s d : Nat → Nat) (v : List Nat) : List Nat :=
  (List.range n).map (fun t => (v.getD (s t) 0 + d t) % M)

/-- The orientation change the moves of a word add at slot `t`, when move `m`
brings the content of slot `s m t` to slot `t` and raises it by `dl m t`. -/
def wordDelta (s dl : Move → Nat → Nat) (M : Nat) : List Move → Nat → Nat
  | [], _ => 0
  | m :: w, t => (dl m (wordSrc s w t) + wordDelta s dl M w t) % M

/-- Words on the corner orientations: the word at `[i][a - 1]` leaves the
corner slots up to `i` in place, leaves the orientations before slot `i` alone
and lowers the orientation at slot `i` by `a`. -/
def coWords : List (List (List Move)) :=
  [[[1, 7], [0, 12]],
   [[11, 16, 9], [11, 3, 10]],
   [[15, 4, 17], [17, 3, 16]],
   [[6, 1, 17, 6, 0, 13], [6, 2, 10, 13, 2, 15]],
   [[3, 14, 2, 15, 2, 14], [3, 8, 2, 9, 2, 8]],
   [[6, 4, 7, 4, 13, 6, 12], [13, 10, 3, 6, 12, 0, 7]],
   [[0, 7, 0, 7, 12, 4, 16, 2, 8, 12], [0, 12, 7, 0, 13, 0, 16, 1, 17, 11]]]

/-- The word of `coWords` for slot `i` and orientation `a`. -/
def coWord (i a : Nat) : List Move := (coWords.getD i []).getD (a - 1) []

/-- Words on the edge orientations: the word at `[i]` leaves the edge slots up
to `i` in place, leaves the orientations before slot `i` alone and flips the
orientation at slot `i`. -/
def eoWords : List (List Move) :=
  [[6, 15, 0],
   [0, 9, 1, 12],
   [0, 15, 1, 9],
   [0, 6, 1, 15],
   [13, 6, 12, 7, 3],
   [7, 3, 7, 13, 8, 12],
   [15, 5, 7, 3, 16, 6, 3],
   [3, 7, 5, 6, 4, 12, 5, 13],
   [6, 13, 0, 14, 1, 12, 7, 14],
   [11, 12, 10, 0, 11, 1, 9, 13],
   [6, 16, 3, 17, 4, 15, 7, 17]]

/-- The word of `eoWords` for slot `i`; the orientation to clear is always 1. -/
def eoWord (i _a : Nat) : List Move := eoWords.getD i []

/-- Words on the edge slots: the word at `[s - 8][j]`, for a slice slot `s` and
`j < s`, brings the content of slot `j` to slot `s` and leaves the slots after
`s` alone. -/
def udsWords : List (List (List Move)) :=
  [[[13, 0, 12], [6, 1, 7], [6, 2, 7], [6, 0, 7], [12, 4, 13], [7, 3, 6], [7, 5, 6], [7, 4, 6]],
   [[0, 13], [13], [1, 13], [2, 13], [4, 12], [12], [3, 12], [5, 12], [14]],
   [[2, 10], [0, 10], [10], [1, 10], [5, 9], [4, 9], [9], [3, 9], [14, 11], [11]],
   [[6], [1, 6], [2, 6], [16], [7], [3, 7], [5, 7], [15], [8], [14, 8], [17]]]

/-- The word of `udsWords` for slot `s` and source `j`. -/
def udsWord (s j : Nat) : List Move := (udsWords.getD (s - 8) []).getD j []

/-! ## The pruning tables as generated, used by the proofs -/

/-- The pruning tables of `tm` are the ones `TableManager::initialize`
generates over the move tables of `tm`. -/
structure PruningGenerated (tm : TableManager) : Prop where
  co : TableManager.generate_pruning_table 2187 Phase1Coord.AVAILABLE_MOVES
    tm.co_move_table.entry = Result.value tm.co_pruning_table
  eo : TableManager.generate_pruning_table 2048 Phase1Coord.AVAILABLE_MOVES
    tm.eo_move_table.entry = Result.value tm.eo_pruning_table
  uds : TableManager.generate_pruning_table 495 Phase1Coord.AVAILABLE_MOVES
    tm.uds_move_table.entry = Result.value tm.uds_pruning_table
  cp : TableManager.generate_pruning_table 40320 Phase2Coord.AVAILABLE_MOVES
    tm.cp_move_table.entry = Result.value tm.cp_pruning_table
  udep : TableManager.generate_pruning_table 40320 Phase2Coord.AVAILABLE_MOVES
    tm.udep_move_table.entry = Result.value tm.udep_pruning_table
  sep : TableManager.generate_pruning_table 24 Phase2Coord.AVAILABLE_MOVES
    tm.sep_move_table.entry = Result.value tm.sep_pruning_table

/-! ## Single-move scrambles, used by the proofs -/

/-- The cube after move `m` on the solved cube. -/
def turnedCube (m : Move) : Cube :=
  ⟨moveCorners m Cube.solved.corners, moveEdges m Cube.solved.edges⟩

/-- The Phase-1 triple of `turnedCube m`. -/
def turnedTriple1 (m : Move) : Nat × Nat × Nat :=
  (co_move_entry 0 m, eo_move_entry 0 m, uds_move_entry 0 m)

/-- The Phase-2 triple of `turnedCube m`, for a Phase-2 move `m`. -/
def turnedTriple2 (m : Move) : Nat × Nat × Nat :=
  (cp_move_entry 0 m, udep_move_entry 0 m, sep_move_entry 0 m)

/-- The moves of `moves` tried before `m`. -/
def movesBefore (moves : List Move) (m : Move) : List Move :=
  moves.takeWhile (fun x => decide (x ≠ m))

/-- The moves of `moves` tried after `m`. -/
def movesAfter (moves : List Move) (m : Move) : List Move :=
  (moves.dropWhile (fun x => decide (x ≠ m))).tail

/-! ## Permutation parity, used by the statements about the cube invariants -/

/-- The number of inversions of a list of piece ids: the pairs of positions
`i < j` with `l[i] > l[j]`. -/
def inversions : List Nat → Nat
  | [] => 0
  | a :: l => l.countP (fun b => decide (b < a)) + inversions l

/-- The parity of an arrangement of piece ids: 0 for an even number of
inversions, 1 for an odd one. -/
def permutationParity (l : List Nat) : Nat := inversions l % 2

/-! ## Scramble texts, used by the statements about `from_scramble` -/

/-- The loop of `Cube::from_scramble` over the tokens, from any cube. -/
def scrambleLoop (cube : Cube) (toks : List (List Char)) : Option Cube :=
  toks.foldlM
    (fun cube move_str =>
      if move_str.isEmpty then some cube
      else (string_to_move (String.mk move_str)).bind (fun move => apply_move cube move))
    cube

/-- A scramble text: `lead` spaces, then the tokens of the moves in order; after
a token that is not the last come `g + 1` spaces and after the last token `g`
spaces, for the number `g` paired with the move. -/
def scrambleText : Nat → List (Move × Nat) → List Char
  | lead, [] => List.replicate lead ' '
  | lead, (m, g) :: rest =>
    List.replicate lead ' ' ++ ((move_to_string m).toList ++
      if rest.isEmpty then List.replicate g ' ' else scrambleText (g + 1) rest)

/-! ## A cube with its orientations cleared, used by the proofs -/

/-- The cube with the same piece ids and every orientation 0. -/
def clearOrientations (k : Cube) : Cube :=
  { corners := k.corners.map (fun c => { c with orientation := 0 })
    edges := k.edges.map (fun e => { e with orientation := 0 }) }

/-! ## persistence.h: `load_array_binary` -/

/-- An open `std::ifstream`: the bytes not yet read, and whether the stream is
still good. -/
structure InputFile where
  bytes : List Nat
  good : Bool
deriving DecidableEq, Repr

/-- The call `file.read(buffer, n)` with `n` the size of the buffer. On a good
stream with `n` bytes left the buffer is filled; with fewer left, those are
stored at the start of the buffer and the stream fails; a failed stream stores
nothing. -/
def InputFile.read (file : InputFile) (buffer : List Nat) : InputFile × List Nat :=
  if file.good then
    if buffer.length ≤ file.bytes.length then
      ({ bytes := file.bytes.drop buffer.length, good := true }, file.bytes.take buffer.length)
    else ({ bytes := [], good := false }, file.bytes ++ buffer.drop file.bytes.length)
  else (file, buffer)

/-- The template `load_array_binary` on a one-dimensional array of bytes, the
shape of the pruning tables. The file is `none` when it cannot be opened and
its bytes otherwise; the result is the flag returned and the array after the
call. The stream state is not looked at after the `read`. -/
def load_array_binary (arr : List Nat) (file : Option (List Nat)) : Bool × List Nat :=
  match file with
  | none => (false, arr)
  | some bytes => (true, (InputFile.read { bytes := bytes, good := true } arr).2)

/-- The condition of the second `if` of `TableManager::initialize`: the six
pruning tables are loaded in order, `&&` stopping at the first call that
returns `false`. The result is the condition and the tables after it; on
`false` the tables are generated. -/
def load_pruning_tables (tm : TableManager) (files : String → Option (List Nat)) :
    Bool × TableManager :=
  let r := load_array_binary tm.co_pruning_table (files "data/co_pruning_table.bin")
  let tm := { tm with co_pruning_table := r.2 }
  if r.1 = false then (false, tm) else
  let r := load_array_binary tm.eo_pruning_table (files "data/eo_pruning_table.bin")
  let tm := { tm with eo_pruning_table := r.2 }
  if r.1 = false then (false, tm) else
  let r := load_array_binary tm.uds_pruning_table (files "data/uds_pruning_table.bin")
  let tm := { tm with uds_pruning_table := r.2 }
  if r.1 = false then (false, tm) else
  let r := load_array_binary tm.cp_pruning_table (files "data/cp_pruning_table.bin")
  let tm := { tm with cp_pruning_table := r.2 }
  if r.1 = false then (false, tm) else
  let r := load_array_binary tm.udep_pruning_table (files "data/udep_pruning_table.bin")
  let tm := { tm with udep_pruning_table := r.2 }
  if r.1 = false then (false, tm) else
  let r := load_array_binary tm.sep_pruning_table (files "data/sep_pruning_table.bin")
  let tm := { tm with sep_pruning_table := r.2 }
  if r.1 = false then (false, tm) else
  (true, tm)

/-- A table manager as it is before `initialize` runs: every array zero, the
corner-orientation pruning table with its 2187 bytes. -/
def zeroedTables : TableManager :=
  { co_move_table := [], eo_move_table := [], uds_move_table := [], cp_move_table := [],
    udep_move_table := [], sep_move_table := [],
    co_pruning_table := List.replicate 2187 0,
    eo_pruning_table := List.replicate 2048 0,
    uds_pruning_table := List.replicate 495 0,
    cp_pruning_table := List.replicate 40320 0,
    udep_pruning_table := List.replicate 40320 0,
    sep_pruning_table := List.replicate 24 0,
    p1_endgame_db := [], p2_endgame_db := [] }

/-! ## Distances of triples and the passes of `generate_endgame_db`, used by the proofs -/

/-- Triple `x` is reached from `(0, 0, 0)` by at most `n` moves of `moves`. -/
def Within3 (moves : List Move) (next : (Nat × Nat × Nat) → Move → (Nat × Nat × Nat))
    (n : Nat) (x : Nat × Nat × Nat) : Prop :=
  ∃ w : List Move, w.length ≤ n ∧ (∀ m ∈ w, m ∈ moves) ∧ follow next (0, 0, 0) w = x

/-- The state of `generate_endgame_db` inside the pass for `current_depth = d`,
against the database `db0` the pass started with: what was stored stays, what
is new has a path of `d + 1` moves and waits in the queue, and the queue holds
triples within `d + 1` moves. -/
structure EndgameMid (moves : List Move)
    (next : (Nat × Nat × Nat) → Move → (Nat × Nat × Nat)) (Good : (Nat × Nat × Nat) → Prop)
    (MAX_DEPTH d : Nat) (db0 : EndgameDB)
    (st : EndgameDB × List ((Nat × Nat × Nat) × List Move)) : Prop where
  keep : ∀ key p, db0.lookup key = some p → st.1.lookup key = some p
  fresh : ∀ x p, Good x → st.1.lookup (TableManager.get_key x) = some p →
    db0.lookup (TableManager.get_key x) = some p ∨
    (p.length = d + 1 ∧ Within3 moves next (d + 1) x ∧
      (d < MAX_DEPTH → ∃ path, (x, path) ∈ st.2))
  queue : ∀ e ∈ st.2, Good e.1 ∧ e.2.length = d + 1 ∧ Within3 moves next (d + 1) e.1
  stop : ¬ d < MAX_DEPTH → st.2 = []

/-- The invariant of the `while` loop of `generate_endgame_db` at the start of
the pass for `current_depth = d`: stored paths are as long as a way to the
triple and at most `d`; every successor of a triple stored with fewer than `d`
moves is stored; the queue holds the triples stored with `d` moves. -/
structure EndgameInv (moves : List Move)
    (next : (Nat × Nat × Nat) → Move → (Nat × Nat × Nat)) (Good : (Nat × Nat × Nat) → Prop)
    (MAX_DEPTH d : Nat) (db : EndgameDB) (q : List ((Nat × Nat × Nat) × List Move)) : Prop where
  root : db.lookup (TableManager.get_key (0, 0, 0)) = some []
  entries : ∀ x p, Good x → db.lookup (TableManager.get_key x) = some p →
    Within3 moves next p.length x ∧ p.length ≤ d
  closed : ∀ x p, Good x → db.lookup (TableManager.get_key x) = some p → p.length < d →
    ∀ m ∈ moves, ∃ p1, db.lookup (TableManager.get_key (next x m)) = some p1 ∧
      p1.length ≤ p.length + 1
  queue : ∀ e ∈ q, Good e.1 ∧ e.2.length = d ∧ Within3 moves next d e.1
  frontier : ∀ x p, Good x → db.lookup (TableManager.get_key x) = some p → p.length = d →
    d ≤ MAX_DEPTH → ∃ path, (x, path) ∈ q
  stop : MAX_DEPTH < d → q = []

/-- What the database `generate_endgame_db` returns has: the start, and every
successor of a triple stored with at most `MAX_DEPTH` moves, with a path at
most one move longer. -/
structure EndgameFinal (moves : List Move)
    (next : (Nat × Nat × Nat) → Move → (Nat × Nat × Nat)) (Good : (Nat × Nat × Nat) → Prop)
    (MAX_DEPTH : Nat) (db : EndgameDB) : Prop where
  root : db.lookup (TableManager.get_key (0, 0, 0)) = some []
  closed : ∀ x p, Good x → db.lookup (TableManager.get_key x) = some p →
    p.length < MAX_DEPTH + 1 →
    ∀ m ∈ moves, ∃ p1, db.lookup (TableManager.get_key (next x m)) = some p1 ∧
      p1.length ≤ p.length + 1

/-! ## The solver built with `USE_ENHANCED_HEURISTIC` -/

/-- The solver over the generated tables in the build with
`USE_ENHANCED_HEURISTIC` defined, with a stable sort for `std::sort`. -/
def Solver.generatedEnhanced : Solver :=
  { tables_ := TableManager.generated, enhanced := true,
    sort := fun l => l.mergeSort (fun a b => decide (a.h ≤ b.h)) }

/-! ## The ordering `std::sort` leaves, used by the statements about move ordering -/

/-- A sort by `h` that keeps the order of entries with equal `h`: the result
is an arrangement of the input in ascending `h`, and for every value the
entries with that `h` stand in the order they had. -/
def StableByH (sort : List SearchState → List SearchState) : Prop :=
  ∀ l, (sort l).Perm l ∧ (sort l).Pairwise (fun a b => a.h ≤ b.h) ∧
    ∀ v, (sort l).filter (fun s => decide (s.h = v)) = l.filter (fun s => decide (s.h = v))

/-- What `std::sort` with the comparator `a.h < b.h` guarantees: the result is
an arrangement of the input in ascending `h`. -/
def SortsByH (sort : List SearchState → List SearchState) : Prop :=
  ∀ l, (sort l).Perm l ∧ (sort l).Pairwise (fun a b => a.h ≤ b.h)

/-! ## The start node of the scramble `F U F B R F L`, used by the proofs -/

/-- The entry `co_move_table[c][m]` of the generated table: the value the
generator writes where it writes, 0 elsewhere. -/
def co_table_entry (c : Nat) (m : Move) : Nat :=
  if c < 2187 ∧ m < 18 then co_move_entry c m else 0

/-- The entry `eo_move_table[c][m]` of the generated table. -/
def eo_table_entry (c : Nat) (m : Move) : Nat :=
  if c < 2048 ∧ m < 18 then eo_move_entry c m else 0

/-- The entry `uds_move_table[c][m]` of the generated table. -/
def uds_table_entry (c : Nat) (m : Move) : Nat :=
  if c < 495 ∧ m < 18 then uds_move_entry c m else 0

/-- For eight moves from the triple `(1498, 2044, 427)`: the move and, for each
of the three coordinates of the successor, a sequence of moves that leads it
to 0. -/
def farSuccessorPaths : List (Move × List Move × List Move × List Move) :=
  [(Move.L1, [Move.F2, Move.D2, Move.L3, Move.D2, Move.F2],
      [Move.F2, Move.R2, Move.B2, Move.F1, Move.D1, Move.F2], [Move.B2, Move.D1, Move.F2]),
   (Move.L2, [Move.B2, Move.D2, Move.F3, Move.U2, Move.F2],
      [Move.F2, Move.R2, Move.B2, Move.F2, Move.U2, Move.F2], [Move.F1, Move.L1, Move.B2]),
   (Move.L3, [Move.B2, Move.D3, Move.L2, Move.D1, Move.F2],
      [Move.F2, Move.R2, Move.L1, Move.B2, Move.U2, Move.F2], [Move.B1, Move.D3, Move.F2]),
   (Move.R1, [Move.B1, Move.U2, Move.B1, Move.U1, Move.F2],
      [Move.F2, Move.L2, Move.B2, Move.F1, Move.U1, Move.F2],
      [Move.L1, Move.B2, Move.D1, Move.F2]),
   (Move.R2, [Move.B1, Move.U2, Move.B1, Move.U1, Move.F2],
      [Move.F2, Move.L2, Move.B2, Move.F2, Move.D2, Move.F2],
      [Move.L1, Move.B2, Move.D1, Move.F2]),
   (Move.R3, [Move.U2, Move.R1, Move.B3, Move.U1, Move.F2],
      [Move.F1, Move.R2, Move.L2, Move.B2, Move.U1, Move.F2],
      [Move.L1, Move.B2, Move.D1, Move.F2]),
   (Move.F1, [Move.L1, Move.D3, Move.B3, Move.U2, Move.F2],
      [Move.R2, Move.F2, Move.L2, Move.B2, Move.U2, Move.F2],
      [Move.R2, Move.B2, Move.D2, Move.F2]),
   (Move.F2, [Move.D3, Move.R2, Move.U1, Move.F2],
      [Move.R2, Move.F2, Move.L2, Move.B2, Move.U2, Move.F2],
      [Move.L2, Move.B2, Move.U2, Move.F2])]

/-! ## Edge-orientation coordinates near 0 and near 2044, used by the proofs

Sets of coordinates are numbers: coordinate `c` belongs to the set `A` when bit
`c` of `A` is set. -/

/-- The edge slot whose content move `m` brings to slot `t`, for the 18 moves
and 12 slots, in base 16: digit `12 * m + t`. -/
def eoSrcCode : Nat :=
  0xAB98365472103798B654A2107398A654B210BA8976143250BA1576943280BA5176843290B9A872543610B2687A543910B62879543A108A9B765032144A907658321B0A94765B3218BA9854763210BA9865473210BA9847653210BA9876541032BA9876540321BA9876542103

/-- The orientation change move `m` applies at edge slot `t`: bit `12 * m + t`. -/
def eoDeltaCode : Nat :=
  0x644644000911911000000000000000000

/-- Digit `12 * m + t` of `eoSrcCode`. -/
def eoSrc (m t : Nat) : Nat := eoSrcCode / 16 ^ (12 * m + t) % 16

/-- Bit `12 * m + t` of `eoDeltaCode`. -/
def eoDelta (m t : Nat) : Nat := eoDeltaCode / 2 ^ (12 * m + t) % 2

/-- The orientation `decode_edge_orientation` writes at slot `s` for the
coordinate `c`: a binary digit of `c` for the slots 0..10, the parity of the
digits for slot 11. -/
def eoBit (c s : Nat) : Nat :=
  if s < 11 then c / 2 ^ (10 - s) % 2
  else (2 - (c % 2 + c / 2 % 2 + c / 4 % 2 + c / 8 % 2 + c / 16 % 2 + c / 32 % 2 + c / 64 % 2
    + c / 128 % 2 + c / 256 % 2 + c / 512 % 2 + c / 1024 % 2) % 2) % 2

/-- The orientation at slot `t` after move `m` on the decoding of `c`. -/
def eoOut (c m t : Nat) : Nat := (eoBit c (eoSrc m t) + eoDelta m t) % 2

/-- The edge-orientation coordinate after move `m` on the decoding of `c`, by
arithmetic on `c`. -/
def eoFast (c m : Nat) : Nat :=
  ((((((((((eoOut c m 0 * 2 + eoOut c m 1) * 2 + eoOut c m 2) * 2 + eoOut c m 3) * 2
    + eoOut c m 4) * 2 + eoOut c m 5) * 2 + eoOut c m 6) * 2 + eoOut c m 7) * 2
    + eoOut c m 8) * 2 + eoOut c m 9) * 2 + eoOut c m 10)

/-- Whether `f` holds of every number below `n`. -/
def allBelow : Nat → (Nat → Bool) → Bool
  | 0, _ => true
  | n + 1, f => f n && allBelow n f

/-- Whether the set `B` holds every member of the set `A` and what each of the
18 moves makes of it. -/
def ballStepOK (A B : Nat) : Bool :=
  allBelow 2048 (fun c => !A.testBit c ||
    (B.testBit c && Phase1Coord.AVAILABLE_MOVES.all (fun m => B.testBit (eoFast c m))))

/-- The set of the 3 edge-orientation coordinates that at most one of the 18
moves lead to from 0. -/
def eoZero1 : Nat :=
  0x1000000000000000000000000000000000000000000000000000000000000000000000000000000000000000000000000000000000000000000000000000000000000000000000000000000000000000000000000000000000000000000000000000000000000800000000000000000000000000000000000000000000000000000000000000000001

/-- The set of the 28 edge-orientation coordinates that at most two of the 18
moves lead to from 0. -/
def eoZero2 : Nat :=
  0x10000000000000000000000000000000000000000000000000000000000800000000000000000000000000000000000100000000000000000000000010000103400000010001810000000000000000000000000000000000000000000000000000000000000020000000000000000000000000000000000000000000000000010000000000008000000000000000000000000000000040000000000000000001800020008042C08000000000000000010000000000008000000000000000000000000000000000001

/-- The set of the 230 edge-orientation coordinates that at most three of the 18
moves lead to from 0. -/
def eoZero3 : Nat :=
  0x2000000280000000000000000000000000000000000010000000000000000000000000080011300000001000701150000000040C00000000000000000000000280080C0808088008080008060001800000001008000150000001000161031000001130088157E0013113D153C3D06000000000000000000000000000100000000000000800013000000020107022900000000008000110000000000060000000000010000103D00020018043D18170000000000800015000100040016040D000000070060163C0107063D167E3D11000000010000103D00020018043D18170000001500183106002900170D111701

/-- The set of the 8 edge-orientation coordinates that at most one of the 18
moves lead to from 2044. -/
def eoFar1 : Nat :=
  0x34200000400000000000000000000000200000000000000000000000000000000000000000000000000000000000000000000000000000000000000000000000400000000000000000000000000000000000000000000000000000000000000000000000000000000000000000000000000000000000000000000000000000000000000000000000010000000000000000000000000000000000000000000000000000000000000000000000000000000000000000000000000000000000000000000000000000000000000000000000000000000000000000000000000000000000000000000000000000000000000000000000000000000000000000000000

/-- The set of the 59 edge-orientation coordinates that at most two of the 18
moves lead to from 2044. -/
def eoFar2 : Nat :=
  0x7E687110E08010006600000000000000680010008000000001000000000000007110000010000000010000000000000010000000000000000000000000000000E08010000000000001000000000000008000000000000000000000000000000010000000000000000000000000000000000000000000000000000000000000006601010001000000010200000400000000000000000000000202000000000000000000000000000000000000000000000000000000000000000000000000000000000000000000000400000040000000000000000000000000000000000000000000000000000000000000000000000000000000000000000000000000000000

/-- The set of the 304 edge-orientation coordinates that at most three of the 18
moves lead to from 2044. -/
def eoFar3 : Nat :=
  0x7EFFFFB6FF80F460FF9B9100D9000000FF91B720910060009B2B000004000000FFB71101F56010101102000004000000B6200100600010000602000040000000FF91F56091004000D9020000D400000080006000000000000002000040000000F460101040000000060200004000000060001000000000000000000000000000FF9B1106D900060067070601160801009B2B020202020200072601014A0800009100000000000000060100000100000000000000000000000101000000000000D9040440D4404000164A010064801000000000000000000008080000808000000000000000000000010000001000000000000000000000000000000000000000

/-! ## Theorems -/

theorem list_length_eight {T : Type} (l : List T) (h : l.length = 8) :
    ∃ a0 a1 a2 a3 a4 a5 a6 a7, l = [a0, a1, a2, a3, a4, a5, a6, a7] := by
  match l, h with
  | [a0, a1, a2, a3, a4, a5, a6, a7], _ => exact ⟨a0, a1, a2, a3, a4, a5, a6, a7, rfl⟩

theorem list_length_twelve {T : Type} (l : List T) (h : l.length = 12) :
    ∃ a0 a1 a2 a3 a4 a5 a6 a7 a8 a9 a10 a11,
      l = [a0, a1, a2, a3, a4, a5, a6, a7, a8, a9, a10, a11] := by
  match l, h with
  | [a0, a1, a2, a3, a4, a5, a6, a7, a8, a9, a10, a11], _ =>
    exact ⟨a0, a1, a2, a3, a4, a5, a6, a7, a8, a9, a10, a11, rfl⟩

/-! ### Lists of fixed length -/

theorem range4 : List.range 4 = [0, 1, 2, 3] := by decide

theorem range8 : List.range 8 = [0, 1, 2, 3, 4, 5, 6, 7] := by decide

theorem range12 : List.range 12 = [0, 1, 2, 3, 4, 5, 6, 7, 8, 9, 10, 11] := by decide

theorem map_getD_range {T : Type} (l : List T) (d : T) (n : Nat) (h : l.length = n) :
    (List.range n).map (fun t => l.getD t d) = l := by
  apply List.ext_getElem
  · simp [h]
  · intro i h1 h2
    simp [List.getD_eq_getElem?_getD, List.getElem?_eq_getElem h2]

theorem getD_map_range {T : Type} (g : Nat → T) (d : T) (n t : Nat) (h : t < n) :
    ((List.range n).map g).getD t d = g t := by
  simp [List.getD_eq_getElem?_getD, h]

theorem getD_mem {T : Type} (l : List T) (d : T) (t : Nat) (h : t < l.length) :
    l.getD t d ∈ l := by
  rw [List.getD_eq_getElem _ _ h]
  exact List.getElem_mem _

/-! ### The closed form of `apply_move` -/

set_option maxHeartbeats 1000000 in
theorem apply_move_eq (k : Cube) (m : Move) (hm : m < 18)
    (hc : k.corners.length = 8) (he : k.edges.length = 12) :
    apply_move k m = some ⟨moveCorners m k.corners, moveEdges m k.edges⟩ := by
  obtain ⟨cs, es⟩ := k
  simp only at hc he
  obtain ⟨c0, c1, c2, c3, c4, c5, c6, c7, rfl⟩ := list_length_eight cs hc
  obtain ⟨e0, e1, e2, e3, e4, e5, e6, e7, e8, e9, e10, e11, rfl⟩ := list_length_twelve es he
  interval_cases m <;>
  simp only [apply_move, ALL_MOVES_DATA, cycle_pieces, apply_orientation_step, range4, range8,
    range12, moveCorners, moveEdges, cornerEffect, edgeEffect, slotEffect,
    List.indexOf_cons, List.indexOf_nil, Nat.reduceBEq, cond_true, cond_false, Nat.reduceLT,
    List.foldl_cons, List.foldl_nil, List.map_cons, List.map_nil, List.getD_cons_zero,
    List.getD_cons_succ, List.set_cons_zero, List.set_cons_succ, Move.COUNT,
    Nat.reduceDiv, Nat.reduceMul, Nat.reduceMod, Nat.reduceAdd, Nat.reduceSub,
    Nat.reduceEqDiff, Nat.reduceLeDiff, ge_iff_le, ↓reduceIte,
    UFL, UBL, UBR, UFR, DFL, DBL, DBR, DFR, UF, UL, UB, UR, DF, DL, DB, DR, FL, BL, BR, FR]

theorem apply_move_none (k : Cube) (m : Move) (hm : 18 ≤ m) : apply_move k m = none := by
  simp [apply_move, Move.COUNT, hm]

theorem apply_move_some_lt (k k1 : Cube) (m : Move) (h : apply_move k m = some k1) : m < 18 := by
  by_contra hm
  rw [apply_move_none k m (Nat.not_lt.mp hm)] at h
  exact Option.noConfusion h

theorem moveCorners_length (m : Move) (cs : List Corner) : (moveCorners m cs).length = 8 := by
  simp [moveCorners]

theorem moveEdges_length (m : Move) (es : List Edge) : (moveEdges m es).length = 12 := by
  simp [moveEdges]

/-- With orientations below 3 every slot of the moved corner array has the
same shape: the piece of the source slot, its orientation plus the change. -/
theorem moveCorners_inRange (m : Move) (cs : List Corner) (hc : cs.length = 8)
    (ho : ∀ c ∈ cs, c.orientation < 3) :
    moveCorners m cs = (List.range 8).map (fun t =>
      ({ piece := (cs.getD (srcC m t) default).piece,
         orientation := ((cs.getD (srcC m t) default).orientation + deltaC m t) % 3 }
        : Corner)) := by
  unfold moveCorners
  apply List.map_congr_left
  intro t ht
  simp only [srcC, deltaC]
  cases h : cornerEffect m t with
  | some sd => rfl
  | none =>
    simp only
    have := ho _ (getD_mem cs default t (by rw [hc]; exact List.mem_range.mp ht))
    rcases hcs : cs.getD t default with ⟨p, o⟩
    rw [hcs] at this
    simp only at this
    simp only [Nat.add_zero, Corner.mk.injEq, true_and]
    omega

/-- With orientations below 2 every slot of the moved edge array has the
same shape. -/
theorem moveEdges_inRange (m : Move) (es : List Edge) (he : es.length = 12)
    (ho : ∀ e ∈ es, e.orientation < 2) :
    moveEdges m es = (List.range 12).map (fun t =>
      ({ piece := (es.getD (srcE m t) default).piece,
         orientation := ((es.getD (srcE m t) default).orientation + deltaE m t) % 2 }
        : Edge)) := by
  unfold moveEdges
  apply List.map_congr_left
  intro t ht
  simp only [srcE, deltaE]
  cases h : edgeEffect m t with
  | some sd => rfl
  | none =>
    simp only
    have := ho _ (getD_mem es default t (by rw [he]; exact List.mem_range.mp ht))
    rcases hes : es.getD t default with ⟨p, o⟩
    rw [hes] at this
    simp only at this
    simp only [Nat.add_zero, Edge.mk.injEq, true_and]
    omega

theorem moveCorners_ori_lt (m : Move) (cs : List Corner) (hc : cs.length = 8)
    (ho : ∀ c ∈ cs, c.orientation < 3) : ∀ c ∈ moveCorners m cs, c.orientation < 3 := by
  rw [moveCorners_inRange m cs hc ho]
  intro c hcm
  simp only [List.mem_map] at hcm
  obtain ⟨t, _, rfl⟩ := hcm
  exact Nat.mod_lt _ (by decide)

theorem moveEdges_ori_lt (m : Move) (es : List Edge) (he : es.length = 12)
    (ho : ∀ e ∈ es, e.orientation < 2) : ∀ e ∈ moveEdges m es, e.orientation < 2 := by
  rw [moveEdges_inRange m es he ho]
  intro e hem
  simp only [List.mem_map] at hem
  obtain ⟨t, _, rfl⟩ := hem
  exact Nat.mod_lt _ (by decide)

theorem invert_move_lt_aux : ∀ m < 18, invert_move m < 18 := by decide

theorem invert_move_lt (m : Move) (hm : m < 18) : invert_move m < 18 :=
  invert_move_lt_aux m hm

/-- The corner effect of `invert_move m` undoes the corner effect of `m`. -/
theorem corner_effect_inverse : ∀ m < 18, ∀ t < 8,
    srcC m (srcC (invert_move m) t) = t ∧ srcC (invert_move m) t < 8 ∧
    (deltaC m (srcC (invert_move m) t) + deltaC (invert_move m) t) % 3 = 0 := by decide

/-- The edge effect of `invert_move m` undoes the edge effect of `m`. -/
theorem edge_effect_inverse : ∀ m < 18, ∀ t < 12,
    srcE m (srcE (invert_move m) t) = t ∧ srcE (invert_move m) t < 12 ∧
    (deltaE m (srcE (invert_move m) t) + deltaE (invert_move m) t) % 2 = 0 := by decide

theorem moveCorners_inv (m : Move) (hm : m < 18) (cs : List Corner) (hc : cs.length = 8)
    (ho : ∀ c ∈ cs, c.orientation < 3) :
    moveCorners (invert_move m) (moveCorners m cs) = cs := by
  rw [moveCorners_inRange (invert_move m) _ (moveCorners_length m cs)
    (moveCorners_ori_lt m cs hc ho)]
  rw [moveCorners_inRange m cs hc ho]
  conv_rhs => rw [← map_getD_range cs default 8 hc]
  apply List.map_congr_left
  intro t ht
  have ht8 : t < 8 := List.mem_range.mp ht
  obtain ⟨h1, h2, h3⟩ := corner_effect_inverse m hm t ht8
  rw [getD_map_range _ _ _ _ h2]
  simp only [h1]
  have := ho _ (getD_mem cs default t (by omega))
  rcases hcs : cs.getD t default with ⟨p, o⟩
  rw [hcs] at this
  simp only at this
  simp only [Corner.mk.injEq, true_and]
  omega

theorem moveEdges_inv (m : Move) (hm : m < 18) (es : List Edge) (he : es.length = 12)
    (ho : ∀ e ∈ es, e.orientation < 2) :
    moveEdges (invert_move m) (moveEdges m es) = es := by
  rw [moveEdges_inRange (invert_move m) _ (moveEdges_length m es)
    (moveEdges_ori_lt m es he ho)]
  rw [moveEdges_inRange m es he ho]
  conv_rhs => rw [← map_getD_range es default 12 he]
  apply List.map_congr_left
  intro t ht
  have ht12 : t < 12 := List.mem_range.mp ht
  obtain ⟨h1, h2, h3⟩ := edge_effect_inverse m hm t ht12
  rw [getD_map_range _ _ _ _ h2]
  simp only [h1]
  have := ho _ (getD_mem es default t (by omega))
  rcases hes : es.getD t default with ⟨p, o⟩
  rw [hes] at this
  simp only at this
  simp only [Edge.mk.injEq, true_and]
  omega

theorem solved_inRange : Cube.solved.InRange := by
  refine ⟨by decide, by decide, ?_, ?_⟩
  · decide
  · decide

/-- C3. Move inversion: for each of the 18 moves `m` and every cube `k` with
8 corners and 12 edges whose piece ids and orientations are within their
ranges, applying `m` and then `invert_move m` gives `k` back. -/
theorem move_inversion (k : Cube) (m : Move) (hm : m < 18) (hk : k.InRange) :
    (apply_move k m).bind (fun k1 => apply_move k1 (invert_move m)) = some k := by
  obtain ⟨hc, he, hco, heo⟩ := hk
  rw [apply_move_eq k m hm hc he]
  simp only [Option.some_bind]
  rw [apply_move_eq _ (invert_move m) (invert_move_lt m hm) (moveCorners_length _ _)
    (moveEdges_length _ _)]
  simp only
  rw [moveCorners_inv m hm _ hc (fun c h => (hco c h).2),
    moveEdges_inv m hm _ he (fun e h => (heo e h).2)]

theorem move_inversion_witness :
    (Move.F1 < 18 ∧ Cube.solved.InRange) ∧
    (apply_move Cube.solved Move.F1).bind (fun k1 => apply_move k1 (invert_move Move.F1))
      = some Cube.solved :=
  ⟨⟨by decide, solved_inRange⟩, move_inversion Cube.solved Move.F1 (by decide) solved_inRange⟩

/-! ### Orientation coordinates -/


theorem range7 : List.range 7 = [0, 1, 2, 3, 4, 5, 6] := by decide
theorem range11 : List.range 11 = [0, 1, 2, 3, 4, 5, 6, 7, 8, 9, 10] := by decide

/-- Corner half of the orientation round trip. -/
theorem co_round_trip (self : Phase1Coord) (c : Nat) (hlen : self.cube.corners.length = 8)
    (hc : c < 2187) :
    Phase1Coord.encode_corner_orientation
      (Phase1Coord.decode_corner_orientation { self with corner_orientation := c }).cube = c := by
  obtain ⟨⟨cs, es⟩, co, eo, uds⟩ := self
  simp only at hlen
  obtain ⟨c0, c1, c2, c3, c4, c5, c6, c7, rfl⟩ := list_length_eight cs hlen
  simp only [Phase1Coord.encode_corner_orientation, Phase1Coord.decode_corner_orientation,
    range7, range8, List.reverse_cons, List.reverse_nil, List.nil_append, List.cons_append,
    List.foldl_cons, List.foldl_nil, List.getD_cons_zero, List.getD_cons_succ,
    List.set_cons_zero, List.set_cons_succ]
  dsimp only [Coord] at *
  omega

/-- Edge half of the orientation round trip. -/
theorem eo_round_trip (self : Phase1Coord) (c : Nat) (hlen : self.cube.edges.length = 12)
    (hc : c < 2048) :
    Phase1Coord.encode_edge_orientation
      (Phase1Coord.decode_edge_orientation { self with edge_orientation := c }).cube = c := by
  obtain ⟨⟨cs, es⟩, co, eo, uds⟩ := self
  simp only at hlen
  obtain ⟨e0, e1, e2, e3, e4, e5, e6, e7, e8, e9, e10, e11, rfl⟩ := list_length_twelve es hlen
  simp only [Phase1Coord.encode_edge_orientation, Phase1Coord.decode_edge_orientation,
    range11, range12, List.reverse_cons, List.reverse_nil, List.nil_append, List.cons_append,
    List.foldl_cons, List.foldl_nil, List.getD_cons_zero, List.getD_cons_succ,
    List.set_cons_zero, List.set_cons_succ]
  dsimp only [Coord] at *
  omega

/-! ### The UD-slice coordinate -/


theorem C_nk_table_eq : C_nk_table = binomialRows := by decide

theorem C_nk_eq : C_nk = binomialAt := by
  funext n k
  simp only [C_nk, binomialAt, C_nk_table_eq]

theorem sliceIndicator_getD (es : List Edge) (i : Nat) :
    (sliceIndicator es).getD i false = isSlicePiece (es.getD i default).piece := by
  have h : isSlicePiece (default : Edge).piece = false := by decide
  rw [← h]
  unfold sliceIndicator
  exact List.getD_map es default (fun (e : Edge) => isSlicePiece e.piece)

theorem encode_ud_slice_position_ind (cube : Cube) :
    Phase1Coord.encode_ud_slice_position cube = udsEncodeInd C_nk (sliceIndicator cube.edges) := by
  unfold Phase1Coord.encode_ud_slice_position Phase1Coord.collect_slice_edge_indices udsEncodeInd
  simp only [sliceIndicator_getD, isSlicePiece, decide_eq_true_eq]

theorem udsDecodeStep_hom (st : Coord × List Edge × Nat) (i : Nat) :
    udsDecodeStepInd C_nk (udsView st) i = udsView (Phase1Coord.decode_ud_slice_step st i) := by
  unfold udsDecodeStepInd Phase1Coord.decode_ud_slice_step udsView
  simp only
  split
  · split
    · simp only [sliceIndicator, List.map_set]
    · rfl
  · rfl

theorem decode_ud_slice_loop_ind (uds : Coord) (es : List Edge) :
    udsView ((List.range 12).foldl Phase1Coord.decode_ud_slice_step (uds, es, 4)) =
      (List.range 12).foldl (udsDecodeStepInd C_nk) (uds, sliceIndicator es, 4) :=
  (List.foldl_hom udsView Phase1Coord.decode_ud_slice_step (udsDecodeStepInd C_nk)
    (List.range 12) (uds, es, 4) udsDecodeStep_hom).symm

/-- The clearing loop of `decode_ud_slice_position` as a map. -/
theorem clear_slice_pieces (es : List Edge) (he : es.length = 12) :
    (List.range 12).foldl
      (fun es i =>
        let piece := (es.getD i default).piece
        es.set i { es.getD i default with piece := if piece < 8 then piece else piece - 4 })
      es
    = es.map (fun e => { e with piece := if e.piece < 8 then e.piece else e.piece - 4 }) := by
  obtain ⟨e0, e1, e2, e3, e4, e5, e6, e7, e8, e9, e10, e11, rfl⟩ := list_length_twelve es he
  simp only [range12, List.foldl_cons, List.foldl_nil, List.getD_cons_zero, List.getD_cons_succ,
    List.set_cons_zero, List.set_cons_succ, List.map_cons, List.map_nil]

theorem cleared_piece_lt : ∀ p < 12, (if p < 8 then p else p - 4) < 8 := by decide

theorem cleared_indicator (es : List Edge) (he : es.length = 12)
    (hp : ∀ e ∈ es, e.piece < 12) :
    sliceIndicator (es.map (fun e =>
      ({ e with piece := if e.piece < 8 then e.piece else e.piece - 4 } : Edge)))
      = List.replicate 12 false := by
  unfold sliceIndicator
  rw [List.map_map, ← he]
  apply List.eq_replicate_iff.mpr
  refine ⟨by simp, ?_⟩
  intro b hb
  simp only [List.mem_map, Function.comp] at hb
  obtain ⟨e, hmem, rfl⟩ := hb
  have := cleared_piece_lt e.piece (hp e hmem)
  simp only [isSlicePiece, decide_eq_false_iff_not]
  omega


theorem foldl_invariant {α β : Type} (P : α → Prop) (f : α → β → α) (l : List β) (a : α)
    (h0 : P a) (hs : ∀ a b, P a → P (f a b)) : P (l.foldl f a) := by
  induction l generalizing a with
  | nil => exact h0
  | cons b l ih => exact ih (f a b) (hs a b h0)

theorem decode_ud_slice_step_le (st : Coord × List Edge × Nat) (i : Nat)
    (h : st.2.2 ≤ 4 ∧ ∀ e ∈ st.2.1, e.piece ≤ 11) :
    (Phase1Coord.decode_ud_slice_step st i).2.2 ≤ 4 ∧
      ∀ e ∈ (Phase1Coord.decode_ud_slice_step st i).2.1, e.piece ≤ 11 := by
  unfold Phase1Coord.decode_ud_slice_step
  split
  · split
    · refine ⟨by simp only; omega, ?_⟩
      intro e he
      simp only at he
      rcases List.mem_or_eq_of_mem_set he with h1 | h1
      · exact h.2 e h1
      · rw [h1]; simp only; omega
    · exact h
  · exact h

set_option maxHeartbeats 4000000 in
/-- On slot indicators: decoding `c < 495` marks exactly four slots and the
marked slots encode to `c`. -/
theorem uds_ind_round_trip : ∀ c < 495,
    udsEncodeInd binomialAt (udsDecodeInd binomialAt c).2.1 = c ∧
    (udsDecodeInd binomialAt c).2.1.count true = 4 := by decide!

set_option maxHeartbeats 4000000 in
/-- On slot indicators: every choice of four slots out of twelve encodes to a
value below 495 whose decoding marks the same four slots. -/
theorem uds_ind_inverse : ∀ b0 b1 b2 b3 b4 b5 b6 b7 b8 b9 b10 b11 : Bool,
    [b0, b1, b2, b3, b4, b5, b6, b7, b8, b9, b10, b11].count true = 4 →
    udsEncodeInd binomialAt [b0, b1, b2, b3, b4, b5, b6, b7, b8, b9, b10, b11] < 495 ∧
    (udsDecodeInd binomialAt
      (udsEncodeInd binomialAt [b0, b1, b2, b3, b4, b5, b6, b7, b8, b9, b10, b11])).2.1
      = [b0, b1, b2, b3, b4, b5, b6, b7, b8, b9, b10, b11] := by decide!

/-- C9. UD-slice round trip: for every `c` in 0..494 and every prior edge
array of twelve edges with piece ids 0..11, `decode_ud_slice_position` for `c`
leaves exactly four pieces with id at least 8, and `encode_ud_slice_position`
of the resulting cube is `c`. -/
theorem uds_round_trip (self : Phase1Coord) (c : Nat) (hlen : self.cube.edges.length = 12)
    (hp : ∀ e ∈ self.cube.edges, e.piece < 12) (hc : c < 495) :
    ((Phase1Coord.decode_ud_slice_position { self with uds_edge_position := c }).cube.edges.countP
        (fun e => decide (e.piece ≥ 8)) = 4) ∧
    Phase1Coord.encode_ud_slice_position
      (Phase1Coord.decode_ud_slice_position { self with uds_edge_position := c }).cube = c := by
  have hview := decode_ud_slice_loop_ind c
    (self.cube.edges.map (fun e =>
      ({ e with piece := if e.piece < 8 then e.piece else e.piece - 4 } : Edge)))
  rw [cleared_indicator _ hlen hp, C_nk_eq] at hview
  have hinv := foldl_invariant
    (fun (st : Coord × List Edge × Nat) => st.2.2 ≤ 4 ∧ ∀ e ∈ st.2.1, e.piece ≤ 11)
    Phase1Coord.decode_ud_slice_step (List.range 12)
    (c, self.cube.edges.map (fun e =>
      ({ e with piece := if e.piece < 8 then e.piece else e.piece - 4 } : Edge)), 4)
    ⟨Nat.le_refl 4, by
      intro e he
      simp only [List.mem_map] at he
      obtain ⟨e1, hmem, rfl⟩ := he
      have := cleared_piece_lt e1.piece (hp e1 hmem)
      simp only
      omega⟩
    (fun a b h => decode_ud_slice_step_le a b h)
  obtain ⟨hrt, hcount⟩ := uds_ind_round_trip c hc
  have hedges : (Phase1Coord.decode_ud_slice_position
      { self with uds_edge_position := c }).cube.edges =
      ((List.range 12).foldl Phase1Coord.decode_ud_slice_step
        (c, self.cube.edges.map (fun e =>
          ({ e with piece := if e.piece < 8 then e.piece else e.piece - 4 } : Edge)), 4)).2.1 := by
    simp only [Phase1Coord.decode_ud_slice_position, clear_slice_pieces _ hlen]
  have hind : sliceIndicator (Phase1Coord.decode_ud_slice_position
      { self with uds_edge_position := c }).cube.edges = (udsDecodeInd binomialAt c).2.1 := by
    rw [hedges]
    have := congrArg (fun v => v.2.1) hview
    simpa only [udsView, udsDecodeInd] using this
  constructor
  · rw [← hcount, ← hind, hedges]
    unfold sliceIndicator
    rw [List.count_eq_countP, List.countP_map]
    apply List.countP_congr
    intro e he
    have := hinv.2 e he
    simp only [Function.comp, isSlicePiece, beq_iff_eq, decide_eq_true_eq]
    omega
  · rw [encode_ud_slice_position_ind, hind, C_nk_eq]
    exact hrt

/-- C8. Orientation round trip: for every `c` in 0..2186 the cube produced by
`decode_corner_orientation` for `c` encodes to `c`, and for every `c` in
0..2047 the cube produced by `decode_edge_orientation` for `c` encodes to `c`
(whatever the member cube held before, with its 8 corners and 12 edges). -/
theorem orientation_round_trip (self : Phase1Coord) (c1 c2 : Nat)
    (hcs : self.cube.corners.length = 8) (hes : self.cube.edges.length = 12)
    (h1 : c1 < 2187) (h2 : c2 < 2048) :
    Phase1Coord.encode_corner_orientation
      (Phase1Coord.decode_corner_orientation { self with corner_orientation := c1 }).cube = c1 ∧
    Phase1Coord.encode_edge_orientation
      (Phase1Coord.decode_edge_orientation { self with edge_orientation := c2 }).cube = c2 :=
  ⟨co_round_trip self c1 hcs h1, eo_round_trip self c2 hes h2⟩

theorem orientation_round_trip_witness :
    Phase1Coord.encode_corner_orientation
      (Phase1Coord.decode_corner_orientation
        { Phase1Coord.init with corner_orientation := 2186 }).cube = 2186 ∧
    Phase1Coord.encode_edge_orientation
      (Phase1Coord.decode_edge_orientation
        { Phase1Coord.init with edge_orientation := 2047 }).cube = 2047 :=
  orientation_round_trip Phase1Coord.init 2186 2047 (by decide) (by decide) (by decide)
    (by decide)

theorem uds_round_trip_witness :
    ((Phase1Coord.decode_ud_slice_position
        { Phase1Coord.init with uds_edge_position := 494 }).cube.edges.countP
        (fun e => decide (e.piece ≥ 8)) = 4) ∧
    Phase1Coord.encode_ud_slice_position
      (Phase1Coord.decode_ud_slice_position
        { Phase1Coord.init with uds_edge_position := 494 }).cube = 494 :=
  uds_round_trip Phase1Coord.init 494 (by decide) (by decide) (by decide)

/-! ### Lehmer codes -/


theorem factorials_succ : ∀ m < 8,
    factorials.getD (m + 1) 0 = (m + 1) * factorials.getD m 0 := by decide

theorem factorials_pos : ∀ m < 9, 0 < factorials.getD m 0 := by decide

/-- The decode loop from position `i` on succeeds, consumes the alphabet and
the rank, and the encode loop from position `i` on over the pieces it wrote adds
the rank back. -/
theorem lehmer_loops (n : Nat) (hn : n ≤ 8) :
    ∀ (m i : Nat) (perm avail : List Nat) (rank : Nat),
      i + m = n → perm.length = n → avail.length = m → avail.Nodup →
      rank < factorials.getD m 0 →
      ∃ perm1 : List Nat,
        (List.range' i m).foldlM (Phase2Coord.decode_perm_step n) (perm, avail, rank) = some (perm1, [], 0) ∧
        perm1.length = n ∧
        (∀ j < i, perm1.getD j 0 = perm.getD j 0) ∧
        (perm1.drop i).Perm avail ∧
        ∀ acc : Nat, acc + rank < 65536 →
          (List.range' i m).foldlM (Phase2Coord.encode_perm_step n perm1) (acc, avail) = some (acc + rank, []) := by
  intro m
  induction m with
  | zero =>
    intro i perm avail rank _ hp ha _ hr
    have hr0 : rank = 0 := by
      have : factorials.getD 0 0 = 1 := by decide
      omega
    have ha0 : avail = [] := List.length_eq_zero.mp ha
    subst hr0 ha0
    have hd : perm.drop i = [] := by
      have hi : i = perm.length := by omega
      rw [hi]; exact List.drop_length perm
    exact ⟨perm, rfl, hp, fun _ _ => rfl, by rw [hd], fun acc _ => rfl⟩
  | succ m ih =>
    intro i perm avail rank him hp ha hnd hr
    have hm8 : m < 8 := by omega
    have hfs := factorials_succ m hm8
    have hfp := factorials_pos m (by omega)
    have hidx : n - 1 - i = m := by omega
    have hlt : rank / factorials.getD m 0 < avail.length := by
      rw [ha]
      apply Nat.div_lt_of_lt_mul
      rw [hfs] at hr
      rw [Nat.mul_comm]
      exact hr
    obtain ⟨perm1, hdec, hlen1, hpre, hmem, henc⟩ :=
      ih (i + 1) (perm.set i avail[rank / factorials.getD m 0])
        (avail.eraseIdx (rank / factorials.getD m 0)) (rank % factorials.getD m 0)
        (by omega) (by simp [hp]) (by rw [List.length_eraseIdx_of_lt hlt]; omega)
        (hnd.eraseIdx _) (Nat.mod_lt _ hfp)
    refine ⟨perm1, ?_, hlen1, ?_, ?_, ?_⟩
    · rw [List.range'_succ, List.foldlM_cons]
      simp only [Phase2Coord.decode_perm_step, hidx, List.get?_eq_getElem?, List.getElem?_eq_getElem hlt,
        Option.bind_eq_bind, Option.some_bind]
      exact hdec
    · intro j hj
      rw [hpre j (by omega)]
      simp only [List.getD_eq_getElem?_getD]
      rw [List.getElem?_set_ne (by omega)]
    · have hilt : i < perm1.length := by omega
      have hpi : perm1[i] = avail[rank / factorials.getD m 0] := by
        have h1 := hpre i (by omega)
        rw [List.getD_eq_getElem _ _ hilt,
          List.getD_eq_getElem _ _ (by rw [List.length_set]; omega), List.getElem_set_self] at h1
        exact h1
      rw [List.drop_eq_getElem_cons hilt, hpi]
      have hio := List.indexOf_getElem hnd _ hlt
      have herase := List.eraseIdx_indexOf_eq_erase avail[rank / factorials.getD m 0] avail
      rw [hio] at herase
      rw [herase] at hmem
      exact (List.Perm.cons _ hmem).trans (List.perm_cons_erase (List.getElem_mem _)).symm
    · intro acc hacc
      have hpi : perm1.getD i 0 = avail[rank / factorials.getD m 0] := by
        rw [hpre i (by omega)]
        simp only [List.getD_eq_getElem?_getD]
        rw [List.getElem?_set_self (by omega)]
        rfl
      have hio : avail.indexOf (perm1.getD i 0) = rank / factorials.getD m 0 := by
        rw [hpi]
        exact List.indexOf_getElem hnd _ hlt
      have hdm := Nat.div_add_mod rank (factorials.getD m 0)
      have hmul : rank / factorials.getD m 0 * factorials.getD m 0 + rank % factorials.getD m 0
          = rank := by rw [Nat.mul_comm]; exact hdm
      have hle : rank / factorials.getD m 0 * factorials.getD m 0 ≤ rank := by omega
      rw [List.range'_succ, List.foldlM_cons]
      simp only [Phase2Coord.encode_perm_step, hidx, hio, Option.bind_eq_bind]
      rw [if_neg (by omega)]
      simp only [Option.some_bind]
      rw [Nat.mod_eq_of_lt (by omega)]
      rw [henc _ (by omega)]
      congr 2
      omega

theorem lehmer_round_trip_aux (n fact : Nat) (hn : n ≤ 8) (hf : factorials.getD n 0 = fact)
    (hfb : fact ≤ 40320)
    (hnd : (Phase2Coord.initial_available_pieces n).Nodup) (hal : (Phase2Coord.initial_available_pieces n).length = n)
    (perm : List Nat) (r : Nat) (hp : perm.length = n) (hr : r < fact) :
    ∃ p, Phase2Coord.decode_perm perm r = some p ∧ Phase2Coord.encode_perm p = some r ∧ p.length = n ∧
      p.Perm (Phase2Coord.initial_available_pieces n) := by
  obtain ⟨p, hdec, hlen, _, hmem, henc⟩ :=
    lehmer_loops n hn n 0 perm (Phase2Coord.initial_available_pieces n) r (by omega) hp hal hnd
      (by rw [hf]; exact hr)
  refine ⟨p, ?_, ?_, hlen, by simpa using hmem⟩
  · simp only [Phase2Coord.decode_perm, hp, List.range_eq_range', hdec, Option.map_some']
  · have h := henc 0 (by omega)
    simp only [Nat.zero_add] at h
    simp only [Phase2Coord.encode_perm, hlen, List.range_eq_range', h]
    rw [if_neg (by dsimp only [Coord]; omega)]

/-- C10. Lehmer round trip: for every rank below 40320 `Phase2Coord.decode_perm` on a span
of eight succeeds (it never reads past the remaining alphabet) and
`Phase2Coord.encode_perm` of what it wrote is the rank; the same for every rank below 24 on
a span of four, over the alphabet 8..11. -/
theorem lehmer_round_trip (perm8 perm4 : List Nat) (r8 r4 : Nat)
    (h8 : perm8.length = 8) (h4 : perm4.length = 4) (hr8 : r8 < 40320) (hr4 : r4 < 24) :
    (∃ p, Phase2Coord.decode_perm perm8 r8 = some p ∧ Phase2Coord.encode_perm p = some r8) ∧
    (∃ p, Phase2Coord.decode_perm perm4 r4 = some p ∧ Phase2Coord.encode_perm p = some r4) := by
  obtain ⟨p, h1, h2, _⟩ := lehmer_round_trip_aux 8 40320 (by decide) (by decide) (by decide)
    (by decide) (by decide) perm8 r8 h8 hr8
  obtain ⟨q, h3, h4, _⟩ := lehmer_round_trip_aux 4 24 (by decide) (by decide) (by decide)
    (by decide) (by decide) perm4 r4 h4 hr4
  exact ⟨⟨p, h1, h2⟩, ⟨q, h3, h4⟩⟩

theorem lehmer_round_trip_witness :
    (∃ p, Phase2Coord.decode_perm [0, 0, 0, 0, 0, 0, 0, 0] 40319 = some p ∧ Phase2Coord.encode_perm p = some 40319) ∧
    (∃ p, Phase2Coord.decode_perm [0, 0, 0, 0] 23 = some p ∧ Phase2Coord.encode_perm p = some 23) :=
  lehmer_round_trip [0, 0, 0, 0, 0, 0, 0, 0] [0, 0, 0, 0] 40319 23 (by decide) (by decide)
    (by decide) (by decide)

/-! ### Invariants of reachable cubes -/


theorem srcC_perm : ∀ m < 18, ((List.range 8).map (srcC m)).Perm (List.range 8) := by decide
theorem srcE_perm : ∀ m < 18, ((List.range 12).map (srcE m)).Perm (List.range 12) := by decide
theorem deltaC_sum : ∀ m < 18, ((List.range 8).map (deltaC m)).sum % 3 = 0 := by decide
theorem deltaE_sum : ∀ m < 18, ((List.range 12).map (deltaE m)).sum % 2 = 0 := by decide

theorem sum_map_add_mod (q : Nat) (l : List Nat) (f g : Nat → Nat) :
    ((l.map (fun t => (f t + g t) % q)).sum) % q = ((l.map f).sum + (l.map g).sum) % q := by
  induction l with
  | nil => rfl
  | cons a l ih =>
    simp only [List.map_cons, List.sum_cons]
    rw [Nat.add_mod, Nat.mod_mod, ih, ← Nat.add_mod]
    congr 1
    omega

theorem moveCorners_pieces (m : Move) (cs : List Corner) (hc : cs.length = 8)
    (ho : ∀ c ∈ cs, c.orientation < 3) :
    Phase2Coord.corner_pieces (moveCorners m cs) =
      ((List.range 8).map (srcC m)).map (fun s => (Phase2Coord.corner_pieces cs).getD s 0) := by
  rw [moveCorners_inRange m cs hc ho]
  simp only [Phase2Coord.corner_pieces, List.map_map]
  apply List.map_congr_left
  intro t _
  simp only [Function.comp]
  exact (List.getD_map cs default (fun (c : Corner) => c.piece)).symm

theorem moveEdges_pieces (m : Move) (es : List Edge) (he : es.length = 12)
    (ho : ∀ e ∈ es, e.orientation < 2) :
    Phase2Coord.edge_pieces (moveEdges m es) =
      ((List.range 12).map (srcE m)).map (fun s => (Phase2Coord.edge_pieces es).getD s 0) := by
  rw [moveEdges_inRange m es he ho]
  simp only [Phase2Coord.edge_pieces, List.map_map]
  apply List.map_congr_left
  intro t _
  simp only [Function.comp]
  exact (List.getD_map es default (fun (e : Edge) => e.piece)).symm

theorem moveCorners_oris (m : Move) (cs : List Corner) (hc : cs.length = 8)
    (ho : ∀ c ∈ cs, c.orientation < 3) :
    (moveCorners m cs).map (fun c => c.orientation) =
      (List.range 8).map (fun t =>
        ((cs.map (fun c => c.orientation)).getD (srcC m t) 0 + deltaC m t) % 3) := by
  rw [moveCorners_inRange m cs hc ho]
  simp only [List.map_map]
  apply List.map_congr_left
  intro t _
  simp only [Function.comp]
  rw [← List.getD_map cs default (fun (c : Corner) => c.orientation)]
  rfl

theorem moveEdges_oris (m : Move) (es : List Edge) (he : es.length = 12)
    (ho : ∀ e ∈ es, e.orientation < 2) :
    (moveEdges m es).map (fun e => e.orientation) =
      (List.range 12).map (fun t =>
        ((es.map (fun e => e.orientation)).getD (srcE m t) 0 + deltaE m t) % 2) := by
  rw [moveEdges_inRange m es he ho]
  simp only [List.map_map]
  apply List.map_congr_left
  intro t _
  simp only [Function.comp]
  rw [← List.getD_map es default (fun (e : Edge) => e.orientation)]
  rfl

/-- Reading a list at a permutation of its positions permutes it. -/
theorem perm_map_getD (n : Nat) (l : List Nat) (hl : l.length = n) (srcs : List Nat)
    (hs : srcs.Perm (List.range n)) : (srcs.map (fun s => l.getD s 0)).Perm l := by
  have h := hs.map (fun s => l.getD s 0)
  rw [map_getD_range l 0 n hl] at h
  exact h

/-- A move keeps a cube legal. -/
theorem legal_step (k : Cube) (m : Move) (hm : m < 18) (hk : k.Legal) :
    Cube.Legal ⟨moveCorners m k.corners, moveEdges m k.edges⟩ := by
  obtain ⟨hc, he, hco, heo, hcp, hep, hcs, hes⟩ := hk
  refine ⟨moveCorners_length _ _, moveEdges_length _ _, moveCorners_ori_lt m _ hc hco,
    moveEdges_ori_lt m _ he heo, ?_, ?_, ?_, ?_⟩
  · simp only
    rw [moveCorners_pieces m _ hc hco]
    exact (perm_map_getD 8 _ (by simp [Phase2Coord.corner_pieces, hc]) _ (srcC_perm m hm)).trans hcp
  · simp only
    rw [moveEdges_pieces m _ he heo]
    exact (perm_map_getD 12 _ (by simp [Phase2Coord.edge_pieces, he]) _ (srcE_perm m hm)).trans hep
  · simp only
    rw [moveCorners_oris m _ hc hco, sum_map_add_mod, Nat.add_mod, deltaC_sum m hm, Nat.add_zero,
      Nat.mod_mod]
    have h := (perm_map_getD 8 (k.corners.map (fun c => c.orientation)) (by simp [hc]) _
      (srcC_perm m hm)).sum_eq
    rw [List.map_map] at h
    have h2 : ((List.range 8).map (fun t =>
        (k.corners.map (fun c => c.orientation)).getD (srcC m t) 0)).sum =
        (k.corners.map (fun c => c.orientation)).sum := h
    rw [h2]
    exact hcs
  · simp only
    rw [moveEdges_oris m _ he heo, sum_map_add_mod, Nat.add_mod, deltaE_sum m hm, Nat.add_zero,
      Nat.mod_mod]
    have h := (perm_map_getD 12 (k.edges.map (fun e => e.orientation)) (by simp [he]) _
      (srcE_perm m hm)).sum_eq
    rw [List.map_map] at h
    have h2 : ((List.range 12).map (fun t =>
        (k.edges.map (fun e => e.orientation)).getD (srcE m t) 0)).sum =
        (k.edges.map (fun e => e.orientation)).sum := h
    rw [h2]
    exact hes

theorem solved_legal : Cube.solved.Legal := by
  refine ⟨by decide, by decide, by decide, by decide, by decide, by decide, by decide, by decide⟩

/-- Every cube reachable from the solved cube is legal. -/
theorem reachable_legal (k : Cube) (h : Reachable k) : k.Legal := by
  induction h with
  | solved => exact solved_legal
  | step k k1 m _ hstep ih =>
    have hm := apply_move_some_lt k k1 m hstep
    rw [apply_move_eq k m hm ih.1 ih.2.1] at hstep
    cases hstep
    exact legal_step k m hm ih

/-! ### Move table generation -/


theorem entry_set_set (table : MoveTable) (i m : Nat) (x : Nat) (j m1 : Nat)
    (hi : i < table.length) (hm : m < (table.getD i []).length) :
    MoveTable.entry (table.set i ((table.getD i []).set m x)) j m1 =
      if j = i ∧ m1 = m then x else MoveTable.entry table j m1 := by
  unfold MoveTable.entry
  by_cases hj : j = i
  · subst hj
    simp only [List.getD_eq_getElem?_getD, List.getElem?_set_self hi, Option.getD_some, true_and]
    by_cases hm1 : m1 = m
    · subst hm1
      simp only [List.getD_eq_getElem?_getD] at hm
      rw [List.getElem?_set_self hm]
      simp
    · rw [List.getElem?_set_ne (Ne.symm hm1)]
      simp [hm1]
  · simp only [List.getD_eq_getElem?_getD, hj, false_and, if_false]
    rw [List.getElem?_set_ne (Ne.symm hj)]

theorem rows_set_set (table : MoveTable) (i m : Nat) (x : Nat)
    (hrows : ∀ row ∈ table, row.length = 18) :
    ∀ row ∈ table.set i ((table.getD i []).set m x), row.length = 18 := by
  intro row hrow
  rcases List.mem_or_eq_of_mem_set hrow with h | h
  · exact hrows row h
  · rw [h, List.length_set]
    by_cases hi : i < table.length
    · exact hrows _ (getD_mem table [] i hi)
    · exfalso
      rw [List.set_eq_of_length_le (by omega)] at hrow
      rw [List.getD_eq_default _ _ (by omega)] at h
      have := hrows row hrow
      rw [h] at this
      simp at this

theorem generate_move_table_row_spec {C : Type} (apply : C → Move → Option C) (get : C → Nat)
    (coord : C) (i : Nat) (v : Move → Nat) :
    ∀ (moves : List Move) (table : MoveTable),
      (∀ m ∈ moves, m < 18 ∧ ∃ temp, apply coord m = some temp ∧ get temp = v m) →
      i < table.length → (∀ row ∈ table, row.length = 18) →
      ∃ T, TableManager.generate_move_table_row moves apply get coord i table = some T ∧
        T.length = table.length ∧ (∀ row ∈ T, row.length = 18) ∧
        ∀ j m, T.entry j m = if j = i ∧ m ∈ moves then v m else table.entry j m := by
  intro moves
  induction moves with
  | nil =>
    intro table _ _ hrows
    exact ⟨table, rfl, rfl, hrows, fun j m => by simp⟩
  | cons m0 moves ih =>
    intro table hmv hi hrows
    obtain ⟨hm0, temp, hap, hget⟩ := hmv m0 (List.mem_cons_self _ _)
    have hrow : (table.getD i []).length = 18 := hrows _ (getD_mem table [] i hi)
    obtain ⟨T, hT, hlen, hrowsT, hent⟩ := ih (table.set i ((table.getD i []).set m0 (get temp)))
      (fun m hm => hmv m (List.mem_cons_of_mem _ hm)) (by simp [hi])
      (rows_set_set table i m0 _ hrows)
    refine ⟨T, ?_, by simp [hlen], hrowsT, ?_⟩
    · simp only [TableManager.generate_move_table_row, List.foldlM_cons, hap, Option.map_some',
        Option.bind_eq_bind, Option.some_bind]
      exact hT
    · intro j m
      rw [hent j m, entry_set_set table i m0 _ j m hi (by rw [hrow]; exact hm0)]
      by_cases hj : j = i
      · by_cases hmm : m = m0
        · subst hmm
          by_cases hmem : m ∈ moves
          · simp only [hj, hmem, and_self, if_true, List.mem_cons, or_true]
          · simp [hj, hmem, hget]
        · simp [hj, hmm]
      · simp [hj]

theorem generate_move_table_steps_spec {C : Type} (N : Nat) (moves : List Move)
    (apply : C → Move → Option C) (set : C → Nat → Option C) (get : C → Nat)
    (inv : C → Prop) (val : Nat → Move → Nat)
    (hset : ∀ coord i, inv coord → i < N → ∃ coord1, set coord i = some coord1 ∧ inv coord1 ∧
      ∀ m ∈ moves, m < 18 ∧ ∃ temp, apply coord1 m = some temp ∧ get temp = val i m) :
    ∀ (is : List Nat) (coord : C) (table : MoveTable),
      (∀ i ∈ is, i < N) → inv coord → table.length = N → (∀ row ∈ table, row.length = 18) →
      ∃ coord1 T, is.foldlM (TableManager.generate_move_table_step moves apply set get) (coord, table)
          = some (coord1, T) ∧ inv coord1 ∧
        T.length = N ∧ (∀ row ∈ T, row.length = 18) ∧
        ∀ j m, T.entry j m = if j ∈ is ∧ m ∈ moves then val j m else table.entry j m := by
  intro is
  induction is with
  | nil =>
    intro coord table _ hinv hlen hrows
    exact ⟨coord, table, rfl, hinv, hlen, hrows, fun j m => by simp⟩
  | cons i0 is ih =>
    intro coord table his hinv hlen hrows
    have hi0 : i0 < N := his i0 (List.mem_cons_self _ _)
    obtain ⟨coord1, hs, hinv1, hmoves⟩ := hset coord i0 hinv hi0
    obtain ⟨T1, hT1, hlen1, hrows1, hent1⟩ := generate_move_table_row_spec apply get coord1 i0
      (val i0) moves table hmoves (by omega) hrows
    obtain ⟨coord2, T2, hT2, hinv2, hlen2, hrows2, hent2⟩ := ih coord1 T1
      (fun i hi => his i (List.mem_cons_of_mem _ hi)) hinv1 (by omega) hrows1
    refine ⟨coord2, T2, ?_, hinv2, hlen2, hrows2, ?_⟩
    · simp only [List.foldlM_cons, TableManager.generate_move_table_step, hs, hT1, Option.map_some',
        Option.bind_eq_bind, Option.some_bind]
      exact hT2
    · intro j m
      rw [hent2 j m, hent1 j m]
      by_cases hj : j = i0
      · subst hj
        by_cases hmem : m ∈ moves
        · simp [hmem]
        · simp [hmem]
      · simp [hj]

/-- The table `TableManager.generate_move_table` builds, given what `set` and the moved
copies produce. -/
theorem generate_move_table_spec {C : Type} (N : Nat) (init : C) (moves : List Move)
    (apply : C → Move → Option C) (set : C → Nat → Option C) (get : C → Nat)
    (table : MoveTable) (inv : C → Prop) (val : Nat → Move → Nat)
    (h0 : inv init)
    (hset : ∀ coord i, inv coord → i < N → ∃ coord1, set coord i = some coord1 ∧ inv coord1 ∧
      ∀ m ∈ moves, m < 18 ∧ ∃ temp, apply coord1 m = some temp ∧ get temp = val i m)
    (hlen : table.length = N) (hrows : ∀ row ∈ table, row.length = 18) :
    ∃ T, TableManager.generate_move_table N init moves apply set get table = some T ∧
      T.length = N ∧ (∀ row ∈ T, row.length = 18) ∧
      ∀ i m, T.entry i m = if i < N ∧ m ∈ moves then val i m else table.entry i m := by
  obtain ⟨coord1, T, hT, _, hlenT, hrowsT, hent⟩ :=
    generate_move_table_steps_spec N moves apply set get inv val hset (List.range N) init table
      (fun i hi => List.mem_range.mp hi) h0 hlen hrows
  refine ⟨T, ?_, hlenT, hrowsT, ?_⟩
  · simp only [TableManager.generate_move_table, hT, Option.map_some']
  · intro i m
    rw [hent i m]
    simp only [List.mem_range]

/-! ### Phase-1 coordinates and their move tables -/


theorem encode_corner_orientation_eq (k : Cube) :
    Phase1Coord.encode_corner_orientation k = coRank (k.corners.map (fun c => c.orientation)) := by
  unfold Phase1Coord.encode_corner_orientation coRank
  congr 1
  funext a i
  rw [← List.getD_map k.corners default (fun (c : Corner) => c.orientation)]
  rfl

theorem encode_edge_orientation_eq (k : Cube) :
    Phase1Coord.encode_edge_orientation k = eoRank (k.edges.map (fun e => e.orientation)) := by
  unfold Phase1Coord.encode_edge_orientation eoRank
  congr 1
  funext a i
  rw [← List.getD_map k.edges default (fun (e : Edge) => e.orientation)]
  rfl

/-- What `decode_corner_orientation` leaves in the member cube. -/
theorem decode_corner_orientation_cube (self : Phase1Coord) (c : Nat)
    (hlen : self.cube.corners.length = 8) :
    let r := Phase1Coord.decode_corner_orientation { self with corner_orientation := c }
    r.cube.corners.map (fun x => x.orientation) = coDigits c ∧
    r.cube.corners.map (fun x => x.piece) = self.cube.corners.map (fun x => x.piece) ∧
    r.cube.edges = self.cube.edges ∧
    (∀ x ∈ r.cube.corners, x.orientation < 3) := by
  obtain ⟨⟨cs, es⟩, co, eo, uds⟩ := self
  simp only at hlen
  obtain ⟨c0, c1, c2, c3, c4, c5, c6, c7, rfl⟩ := list_length_eight cs hlen
  simp only [coDigits, Phase1Coord.init, Cube.solved, Phase1Coord.decode_corner_orientation,
    range7, range8, List.reverse_cons, List.reverse_nil, List.nil_append, List.cons_append,
    List.foldl_cons, List.foldl_nil, List.getD_cons_zero, List.getD_cons_succ,
    List.set_cons_zero, List.set_cons_succ, List.map_cons, List.map_nil,
    List.mem_cons, List.mem_singleton, forall_eq_or_imp, forall_eq, List.not_mem_nil,
    IsEmpty.forall_iff, implies_true, and_true, true_and]
  dsimp only [Coord]
  omega

/-- What `decode_edge_orientation` leaves in the member cube. -/
theorem decode_edge_orientation_cube (self : Phase1Coord) (c : Nat)
    (hlen : self.cube.edges.length = 12) :
    let r := Phase1Coord.decode_edge_orientation { self with edge_orientation := c }
    r.cube.edges.map (fun x => x.orientation) = eoDigits c ∧
    r.cube.edges.map (fun x => x.piece) = self.cube.edges.map (fun x => x.piece) ∧
    r.cube.corners = self.cube.corners ∧
    (∀ x ∈ r.cube.edges, x.orientation < 2) := by
  obtain ⟨⟨cs, es⟩, co, eo, uds⟩ := self
  simp only at hlen
  obtain ⟨e0, e1, e2, e3, e4, e5, e6, e7, e8, e9, e10, e11, rfl⟩ := list_length_twelve es hlen
  simp only [eoDigits, Phase1Coord.init, Cube.solved, Phase1Coord.decode_edge_orientation,
    range11, range12, List.reverse_cons, List.reverse_nil, List.nil_append, List.cons_append,
    List.foldl_cons, List.foldl_nil, List.getD_cons_zero, List.getD_cons_succ,
    List.set_cons_zero, List.set_cons_succ, List.map_cons, List.map_nil,
    List.mem_cons, List.mem_singleton, forall_eq_or_imp, forall_eq, List.not_mem_nil,
    IsEmpty.forall_iff, implies_true, and_true, true_and]
  dsimp only [Coord]
  omega

theorem horner3_div (a b : Nat) (h : b < 3) : (a * 3 + b) / 3 = a := by omega

theorem horner3_mod (a b : Nat) (h : b < 3) : (a * 3 + b) % 3 = b := by omega

theorem horner2_div (a b : Nat) (h : b < 2) : (a * 2 + b) / 2 = a := by omega

theorem horner2_mod (a b : Nat) (h : b < 2) : (a * 2 + b) % 2 = b := by omega

/-- On a legal orientation list the digits of the rank are the list. -/
theorem coDigits_coRank (oris : List Nat) (hlen : oris.length = 8) (ho : ∀ o ∈ oris, o < 3)
    (hs : oris.sum % 3 = 0) : coRank oris < 2187 ∧ coDigits (coRank oris) = oris := by
  obtain ⟨o0, o1, o2, o3, o4, o5, o6, o7, rfl⟩ := list_length_eight oris hlen
  simp only [List.mem_cons, List.mem_singleton, forall_eq_or_imp, forall_eq, List.not_mem_nil,
    IsEmpty.forall_iff, implies_true, and_true, List.sum_cons, List.sum_nil] at ho hs
  obtain ⟨h0, h1, h2, h3, h4, h5, h6, h7⟩ := ho
  simp only [coDigits, coRank, Phase1Coord.init, Cube.solved, Phase1Coord.decode_corner_orientation,
    range7, range8, List.reverse_cons, List.reverse_nil, List.nil_append, List.cons_append,
    List.foldl_cons, List.foldl_nil, List.getD_cons_zero, List.getD_cons_succ,
    List.set_cons_zero, List.set_cons_succ, List.map_cons, List.map_nil,
    List.cons.injEq, and_true]
  dsimp only [Coord]
  simp only [horner3_div _ _ h6, horner3_mod _ _ h6, horner3_div _ _ h5, horner3_mod _ _ h5,
    horner3_div _ _ h4, horner3_mod _ _ h4, horner3_div _ _ h3, horner3_mod _ _ h3,
    horner3_div _ _ h2, horner3_mod _ _ h2, horner3_div _ _ h1, horner3_mod _ _ h1,
    horner3_div _ _ h0, horner3_mod _ _ h0, true_and]
  omega

/-- On a legal orientation list the digits of the rank are the list. -/
theorem eoDigits_eoRank (oris : List Nat) (hlen : oris.length = 12) (ho : ∀ o ∈ oris, o < 2)
    (hs : oris.sum % 2 = 0) : eoRank oris < 2048 ∧ eoDigits (eoRank oris) = oris := by
  obtain ⟨o0, o1, o2, o3, o4, o5, o6, o7, o8, o9, o10, o11, rfl⟩ := list_length_twelve oris hlen
  simp only [List.mem_cons, List.mem_singleton, forall_eq_or_imp, forall_eq, List.not_mem_nil,
    IsEmpty.forall_iff, implies_true, and_true, List.sum_cons, List.sum_nil] at ho hs
  obtain ⟨h0, h1, h2, h3, h4, h5, h6, h7, h8, h9, h10, h11⟩ := ho
  simp only [eoDigits, eoRank, Phase1Coord.init, Cube.solved, Phase1Coord.decode_edge_orientation,
    range11, range12, List.reverse_cons, List.reverse_nil, List.nil_append, List.cons_append,
    List.foldl_cons, List.foldl_nil, List.getD_cons_zero, List.getD_cons_succ,
    List.set_cons_zero, List.set_cons_succ, List.map_cons, List.map_nil,
    List.cons.injEq, and_true]
  dsimp only [Coord]
  simp only [horner2_div _ _ h10, horner2_mod _ _ h10, horner2_div _ _ h9, horner2_mod _ _ h9,
    horner2_div _ _ h8, horner2_mod _ _ h8, horner2_div _ _ h7, horner2_mod _ _ h7,
    horner2_div _ _ h6, horner2_mod _ _ h6, horner2_div _ _ h5, horner2_mod _ _ h5,
    horner2_div _ _ h4, horner2_mod _ _ h4, horner2_div _ _ h3, horner2_mod _ _ h3,
    horner2_div _ _ h2, horner2_mod _ _ h2, horner2_div _ _ h1, horner2_mod _ _ h1,
    horner2_div _ _ h0, horner2_mod _ _ h0, true_and]
  omega

theorem moveCorners_oris_eq (m : Move) (cs : List Corner) (hc : cs.length = 8)
    (ho : ∀ c ∈ cs, c.orientation < 3) :
    (moveCorners m cs).map (fun c => c.orientation) =
      moveOriC m (cs.map (fun c => c.orientation)) :=
  moveCorners_oris m cs hc ho

theorem moveEdges_oris_eq (m : Move) (es : List Edge) (he : es.length = 12)
    (ho : ∀ e ∈ es, e.orientation < 2) :
    (moveEdges m es).map (fun e => e.orientation) =
      moveOriE m (es.map (fun e => e.orientation)) :=
  moveEdges_oris m es he ho

theorem moveEdges_indicator (m : Move) (es : List Edge) (he : es.length = 12)
    (ho : ∀ e ∈ es, e.orientation < 2) :
    sliceIndicator (moveEdges m es) = moveInd m (sliceIndicator es) := by
  rw [moveEdges_inRange m es he ho]
  simp only [sliceIndicator, moveInd, List.map_map]
  apply List.map_congr_left
  intro t _
  simp only [Function.comp]
  have h : isSlicePiece (default : Edge).piece = false := by decide
  rw [← h]
  exact (List.getD_map es default (fun (e : Edge) => isSlicePiece e.piece)).symm

theorem phase1_moves_lt : ∀ m ∈ Phase1Coord.AVAILABLE_MOVES, m < 18 := by decide

theorem phase1_moves_all : ∀ m < 18, m ∈ Phase1Coord.AVAILABLE_MOVES := by decide

theorem phase2_moves_lt : ∀ m ∈ Phase2Coord.AVAILABLE_MOVES, m < 18 := by decide

theorem zero_move_table_rows (N : Nat) : ∀ row ∈ TableManager.zero_move_table N, row.length = 18 := by
  intro row h
  rw [List.eq_of_mem_replicate h]
  simp

theorem zero_move_table_length (N : Nat) : (TableManager.zero_move_table N).length = N := by
  simp [TableManager.zero_move_table]

theorem replicate_getD {T : Type} (n i : Nat) (a d : T) :
    (List.replicate n a).getD i d = if i < n then a else d := by
  by_cases hi : i < n
  · have h1 : i < (List.replicate n a).length := by rw [List.length_replicate]; exact hi
    rw [List.getD_eq_getElem _ _ h1, List.getElem_replicate, if_pos hi]
  · have h1 : (List.replicate n a).length ≤ i := by rw [List.length_replicate]; omega
    rw [List.getD_eq_default _ _ h1, if_neg hi]

theorem zero_move_table_entry (N i m : Nat) : (TableManager.zero_move_table N).entry i m = 0 := by
  unfold MoveTable.entry TableManager.zero_move_table
  rw [replicate_getD]
  split
  · rw [replicate_getD]
    split <;> rfl
  · rfl

/-- The Phase-1 coordinate object after a move: the moved cube and its three
coordinates. -/
theorem phase1_apply_move_eq (coord : Phase1Coord) (m : Move) (hm : m < 18)
    (hc : coord.cube.corners.length = 8) (he : coord.cube.edges.length = 12) :
    Phase1Coord.apply_move coord m = some
      (Phase1Coord.encode_from_cube
        { coord with cube := ⟨moveCorners m coord.cube.corners, moveEdges m coord.cube.edges⟩ }
        ⟨moveCorners m coord.cube.corners, moveEdges m coord.cube.edges⟩) := by
  simp only [Phase1Coord.apply_move, apply_move_eq coord.cube m hm hc he, Option.map_some']

/-- The table `generate_co_move_table` builds. -/
theorem co_move_table_spec :
    ∃ T, TableManager.generate_co_move_table = some T ∧ T.length = 2187 ∧
      (∀ row ∈ T, row.length = 18) ∧
      ∀ c m, T.entry c m = if c < 2187 ∧ m < 18 then co_move_entry c m else 0 := by
  obtain ⟨T, hT, hlen, hrows, hent⟩ := generate_move_table_spec 2187 Phase1Coord.init
    Phase1Coord.AVAILABLE_MOVES Phase1Coord.apply_move
    (fun coord i => some (Phase1Coord.set_corner_orientation coord i))
    (fun coord => coord.corner_orientation) (TableManager.zero_move_table 2187)
    (fun coord => coord.cube.corners.length = 8 ∧ coord.cube.edges.length = 12)
    co_move_entry ⟨by decide, by decide⟩
    (by
      intro coord i hinv _
      obtain ⟨h1, h2, h3, h4⟩ := decode_corner_orientation_cube coord i hinv.1
      have hlen8 : (Phase1Coord.set_corner_orientation coord i).cube.corners.length = 8 := by
        have := congrArg List.length h2
        simp only [List.length_map] at this
        rw [← hinv.1]; exact this
      have hlen12 : (Phase1Coord.set_corner_orientation coord i).cube.edges.length = 12 := by
        rw [← hinv.2]; exact congrArg List.length h3
      refine ⟨_, rfl, ⟨hlen8, hlen12⟩, ?_⟩
      intro m hm
      have hm18 := phase1_moves_lt m hm
      refine ⟨hm18, _, phase1_apply_move_eq _ m hm18 hlen8 hlen12, ?_⟩
      simp only [Phase1Coord.encode_from_cube, encode_corner_orientation_eq, co_move_entry]
      rw [moveCorners_oris_eq m _ hlen8 h4]
      exact congrArg (fun l => coRank (moveOriC m l)) h1)
    (zero_move_table_length _) (zero_move_table_rows _)
  refine ⟨T, hT, hlen, hrows, ?_⟩
  intro c m
  rw [hent c m, zero_move_table_entry]
  by_cases hc : c < 2187
  · by_cases hm : m < 18
    · simp [hc, hm, phase1_moves_all m hm]
    · have : m ∉ Phase1Coord.AVAILABLE_MOVES := fun h => hm (phase1_moves_lt m h)
      simp [hm, this]
  · simp [hc]

/-- The table `generate_eo_move_table` builds. -/
theorem eo_move_table_spec :
    ∃ T, TableManager.generate_eo_move_table = some T ∧ T.length = 2048 ∧
      (∀ row ∈ T, row.length = 18) ∧
      ∀ c m, T.entry c m = if c < 2048 ∧ m < 18 then eo_move_entry c m else 0 := by
  obtain ⟨T, hT, hlen, hrows, hent⟩ := generate_move_table_spec 2048 Phase1Coord.init
    Phase1Coord.AVAILABLE_MOVES Phase1Coord.apply_move
    (fun coord i => some (Phase1Coord.set_edge_orientation coord i))
    (fun coord => coord.edge_orientation) (TableManager.zero_move_table 2048)
    (fun coord => coord.cube.corners.length = 8 ∧ coord.cube.edges.length = 12)
    eo_move_entry ⟨by decide, by decide⟩
    (by
      intro coord i hinv _
      obtain ⟨h1, h2, h3, h4⟩ := decode_edge_orientation_cube coord i hinv.2
      have hlen12 : (Phase1Coord.set_edge_orientation coord i).cube.edges.length = 12 := by
        have := congrArg List.length h2
        simp only [List.length_map] at this
        rw [← hinv.2]; exact this
      have hlen8 : (Phase1Coord.set_edge_orientation coord i).cube.corners.length = 8 := by
        rw [← hinv.1]; exact congrArg List.length h3
      refine ⟨_, rfl, ⟨hlen8, hlen12⟩, ?_⟩
      intro m hm
      have hm18 := phase1_moves_lt m hm
      refine ⟨hm18, _, phase1_apply_move_eq _ m hm18 hlen8 hlen12, ?_⟩
      simp only [Phase1Coord.encode_from_cube, encode_edge_orientation_eq, eo_move_entry]
      rw [moveEdges_oris_eq m _ hlen12 h4]
      exact congrArg (fun l => eoRank (moveOriE m l)) h1)
    (zero_move_table_length _) (zero_move_table_rows _)
  refine ⟨T, hT, hlen, hrows, ?_⟩
  intro c m
  rw [hent c m, zero_move_table_entry]
  by_cases hc : c < 2048
  · by_cases hm : m < 18
    · simp [hc, hm, phase1_moves_all m hm]
    · have : m ∉ Phase1Coord.AVAILABLE_MOVES := fun h => hm (phase1_moves_lt m h)
      simp [hm, this]
  · simp [hc]

theorem set_getD_self {A : Type} (l : List A) (i : Nat) (d : A) : l.set i (l.getD i d) = l := by
  apply List.ext_getElem?
  intro j
  rw [List.getElem?_set]
  split
  · rename_i hij
    subst hij
    split
    · rename_i hi
      rw [List.getD_eq_getElem _ _ hi, List.getElem?_eq_getElem hi]
    · rename_i hi
      rw [List.getElem?_eq_none (by omega)]
  · rfl

theorem map_set_getD_self {A B : Type} (f : A → B) (l : List A) (i : Nat) (d x : A)
    (h : f x = f (l.getD i d)) : (l.set i x).map f = l.map f := by
  rw [List.map_set, h, ← List.getD_map l d f]
  exact set_getD_self _ _ _

theorem decode_ud_slice_step_shape (oris : List Nat) (st : Coord × List Edge × Nat) (i : Nat)
    (h : st.2.1.length = 12 ∧ st.2.1.map (fun e => e.orientation) = oris) :
    (Phase1Coord.decode_ud_slice_step st i).2.1.length = 12 ∧
      (Phase1Coord.decode_ud_slice_step st i).2.1.map (fun e => e.orientation) = oris := by
  unfold Phase1Coord.decode_ud_slice_step
  split
  · split
    · refine ⟨by simp only [List.length_set]; exact h.1, ?_⟩
      exact (map_set_getD_self (fun (e : Edge) => e.orientation) st.2.1 i default
        { st.2.1.getD i default with piece := 7 + st.2.2 } rfl).trans h.2
    · exact h
  · exact h

/-- What `decode_ud_slice_position` leaves in the member cube. -/
theorem decode_ud_slice_position_cube (self : Phase1Coord) (c : Nat)
    (hlen : self.cube.edges.length = 12) (hp : ∀ e ∈ self.cube.edges, e.piece < 12) :
    sliceIndicator (Phase1Coord.decode_ud_slice_position
        { self with uds_edge_position := c }).cube.edges = (udsDecodeInd C_nk c).2.1 ∧
    (Phase1Coord.decode_ud_slice_position
        { self with uds_edge_position := c }).cube.edges.length = 12 ∧
    (∀ e ∈ (Phase1Coord.decode_ud_slice_position
        { self with uds_edge_position := c }).cube.edges, e.piece < 12) ∧
    (Phase1Coord.decode_ud_slice_position
        { self with uds_edge_position := c }).cube.corners = self.cube.corners ∧
    (Phase1Coord.decode_ud_slice_position
        { self with uds_edge_position := c }).cube.edges.map (fun e => e.orientation)
      = self.cube.edges.map (fun e => e.orientation) := by
  have hview := decode_ud_slice_loop_ind c
    (self.cube.edges.map (fun e =>
      ({ e with piece := if e.piece < 8 then e.piece else e.piece - 4 } : Edge)))
  rw [cleared_indicator _ hlen hp] at hview
  have hinv := foldl_invariant
    (fun (st : Coord × List Edge × Nat) => st.2.2 ≤ 4 ∧ ∀ e ∈ st.2.1, e.piece ≤ 11)
    Phase1Coord.decode_ud_slice_step (List.range 12)
    (c, self.cube.edges.map (fun e =>
      ({ e with piece := if e.piece < 8 then e.piece else e.piece - 4 } : Edge)), 4)
    ⟨Nat.le_refl 4, by
      intro e he
      simp only [List.mem_map] at he
      obtain ⟨e1, hmem, rfl⟩ := he
      have := cleared_piece_lt e1.piece (hp e1 hmem)
      simp only
      omega⟩
    (fun a b h => decode_ud_slice_step_le a b h)
  have hshape := foldl_invariant
    (fun (st : Coord × List Edge × Nat) => st.2.1.length = 12 ∧
      st.2.1.map (fun e => e.orientation) = self.cube.edges.map (fun e => e.orientation))
    Phase1Coord.decode_ud_slice_step (List.range 12)
    (c, self.cube.edges.map (fun e =>
      ({ e with piece := if e.piece < 8 then e.piece else e.piece - 4 } : Edge)), 4)
    ⟨by simp only [List.length_map]; exact hlen, by simp only [List.map_map]; rfl⟩
    (fun a b h => decode_ud_slice_step_shape _ a b h)
  have hedges : (Phase1Coord.decode_ud_slice_position
      { self with uds_edge_position := c }).cube.edges =
      ((List.range 12).foldl Phase1Coord.decode_ud_slice_step
        (c, self.cube.edges.map (fun e =>
          ({ e with piece := if e.piece < 8 then e.piece else e.piece - 4 } : Edge)), 4)).2.1 := by
    simp only [Phase1Coord.decode_ud_slice_position, clear_slice_pieces _ hlen]
  refine ⟨?_, ?_, ?_, ?_, ?_⟩
  · rw [hedges]
    have := congrArg (fun v => v.2.1) hview
    simpa only [udsView, udsDecodeInd] using this
  · rw [hedges]; exact hshape.1
  · rw [hedges]
    intro e he
    have := hinv.2 e he
    omega
  · simp only [Phase1Coord.decode_ud_slice_position]
  · rw [hedges]; exact hshape.2

theorem oris_lt_of_map_eq (es1 es2 : List Edge) (q : Nat)
    (h : es1.map (fun e => e.orientation) = es2.map (fun e => e.orientation))
    (h2 : ∀ e ∈ es2, e.orientation < q) : ∀ e ∈ es1, e.orientation < q := by
  intro e he
  have : e.orientation ∈ es1.map (fun e => e.orientation) := List.mem_map_of_mem _ he
  rw [h] at this
  obtain ⟨e2, he2, heq⟩ := List.mem_map.mp this
  rw [← heq]
  exact h2 e2 he2

/-- The table `generate_uds_move_table` builds. -/
theorem uds_move_table_spec :
    ∃ T, TableManager.generate_uds_move_table = some T ∧ T.length = 495 ∧
      (∀ row ∈ T, row.length = 18) ∧
      ∀ c m, T.entry c m = if c < 495 ∧ m < 18 then uds_move_entry c m else 0 := by
  obtain ⟨T, hT, hlen, hrows, hent⟩ := generate_move_table_spec 495 Phase1Coord.init
    Phase1Coord.AVAILABLE_MOVES Phase1Coord.apply_move
    (fun coord i => some (Phase1Coord.set_ud_slice_edges coord i))
    (fun coord => coord.uds_edge_position) (TableManager.zero_move_table 495)
    (fun coord => coord.cube.corners.length = 8 ∧ coord.cube.edges.length = 12 ∧
      (∀ e ∈ coord.cube.edges, e.piece < 12) ∧ (∀ e ∈ coord.cube.edges, e.orientation < 2))
    uds_move_entry ⟨by decide, by decide, by decide, by decide⟩
    (by
      intro coord i hinv _
      obtain ⟨h8, h12, hp, ho⟩ := hinv
      obtain ⟨h1, h2, h3, h4, h5⟩ := decode_ud_slice_position_cube coord i h12 hp
      have hlen8 : (Phase1Coord.set_ud_slice_edges coord i).cube.corners.length = 8 := by
        rw [← h8]; exact congrArg List.length h4
      have ho2 : ∀ e ∈ (Phase1Coord.set_ud_slice_edges coord i).cube.edges, e.orientation < 2 :=
        oris_lt_of_map_eq _ _ 2 h5 ho
      have h1 : sliceIndicator (Phase1Coord.set_ud_slice_edges coord i).cube.edges
          = (udsDecodeInd C_nk i).2.1 := h1
      have h2 : (Phase1Coord.set_ud_slice_edges coord i).cube.edges.length = 12 := h2
      refine ⟨_, rfl, ⟨hlen8, h2, h3, ho2⟩, ?_⟩
      intro m hm
      have hm18 := phase1_moves_lt m hm
      refine ⟨hm18, _, phase1_apply_move_eq _ m hm18 hlen8 h2, ?_⟩
      simp only [Phase1Coord.encode_from_cube, encode_ud_slice_position_ind, uds_move_entry]
      rw [moveEdges_indicator m _ h2 ho2]
      exact congrArg (fun l => udsEncodeInd C_nk (moveInd m l)) h1)
    (zero_move_table_length _) (zero_move_table_rows _)
  refine ⟨T, hT, hlen, hrows, ?_⟩
  intro c m
  rw [hent c m, zero_move_table_entry]
  by_cases hc : c < 495
  · by_cases hm : m < 18
    · simp [hc, hm, phase1_moves_all m hm]
    · have : m ∉ Phase1Coord.AVAILABLE_MOVES := fun h => hm (phase1_moves_lt m h)
      simp [hm, this]
  · simp [hc]

/-- A legal cube has exactly four slice slots; its UD-slice coordinate is
below 495 and decodes to its slot indicator. -/
theorem legal_uds (k : Cube) (hk : k.Legal) :
    Phase1Coord.encode_ud_slice_position k < 495 ∧
    (udsDecodeInd C_nk (Phase1Coord.encode_ud_slice_position k)).2.1 = sliceIndicator k.edges := by
  obtain ⟨_, he, _, _, _, hep, _, _⟩ := hk
  have hcount : (sliceIndicator k.edges).count true = 4 := by
    have h1 : sliceIndicator k.edges = (Phase2Coord.edge_pieces k.edges).map isSlicePiece := by
      simp only [sliceIndicator, Phase2Coord.edge_pieces, List.map_map]
      rfl
    rw [h1, (hep.map isSlicePiece).count_eq]
    decide
  have hlen : (sliceIndicator k.edges).length = 12 := by simp [sliceIndicator, he]
  rw [encode_ud_slice_position_ind, C_nk_eq]
  obtain ⟨b0, b1, b2, b3, b4, b5, b6, b7, b8, b9, b10, b11, hb⟩ :=
    list_length_twelve _ hlen
  rw [hb] at hcount ⊢
  exact uds_ind_inverse b0 b1 b2 b3 b4 b5 b6 b7 b8 b9 b10 b11 hcount

theorem legal_co (k : Cube) (hk : k.Legal) :
    Phase1Coord.encode_corner_orientation k < 2187 ∧
    coDigits (Phase1Coord.encode_corner_orientation k) = k.corners.map (fun c => c.orientation) := by
  obtain ⟨hc, _, hco, _, _, _, hcs, _⟩ := hk
  rw [encode_corner_orientation_eq]
  apply coDigits_coRank _ (by simp [hc]) _ hcs
  intro o ho
  obtain ⟨c, hc1, rfl⟩ := List.mem_map.mp ho
  exact hco c hc1

theorem legal_eo (k : Cube) (hk : k.Legal) :
    Phase1Coord.encode_edge_orientation k < 2048 ∧
    eoDigits (Phase1Coord.encode_edge_orientation k) = k.edges.map (fun e => e.orientation) := by
  obtain ⟨_, he, _, heo, _, _, _, hes⟩ := hk
  rw [encode_edge_orientation_eq]
  apply eoDigits_eoRank _ (by simp [he]) _ hes
  intro o ho
  obtain ⟨e, he1, rfl⟩ := List.mem_map.mp ho
  exact heo e he1

/-- The three Phase-1 coordinates after a move on a legal cube are the
entries written for the coordinates before the move. -/
theorem phase1_entries (k : Cube) (m : Move) (_ : m < 18) (hk : k.Legal) :
    Phase1Coord.encode_corner_orientation ⟨moveCorners m k.corners, moveEdges m k.edges⟩
      = co_move_entry (Phase1Coord.encode_corner_orientation k) m ∧
    Phase1Coord.encode_edge_orientation ⟨moveCorners m k.corners, moveEdges m k.edges⟩
      = eo_move_entry (Phase1Coord.encode_edge_orientation k) m ∧
    Phase1Coord.encode_ud_slice_position ⟨moveCorners m k.corners, moveEdges m k.edges⟩
      = uds_move_entry (Phase1Coord.encode_ud_slice_position k) m := by
  have hk2 := hk
  obtain ⟨hc, he, hco, heo, _, _, _, _⟩ := hk2
  refine ⟨?_, ?_, ?_⟩
  · rw [encode_corner_orientation_eq, co_move_entry, (legal_co k hk).2]
    simp only
    rw [moveCorners_oris_eq m _ hc hco]
  · rw [encode_edge_orientation_eq, eo_move_entry, (legal_eo k hk).2]
    simp only
    rw [moveEdges_oris_eq m _ he heo]
  · rw [encode_ud_slice_position_ind, uds_move_entry, (legal_uds k hk).2]
    simp only
    rw [moveEdges_indicator m _ he heo]

/-- C4. Phase-1 coordinates commute with moves on real cubes: the three
generators of the Phase-1 move tables succeed, and for every cube `k` reachable
from the solved cube and each of the 18 moves `m`, the three coordinates of the
moved cube are the entries `[CO k][m]`, `[EO k][m]` and `[UDS k][m]` of the
tables built. -/
theorem phase1_coordinates_commute (k : Cube) (m : Move) (hk : Reachable k) (hm : m < 18) :
    ∃ co eo uds k1,
      TableManager.generate_co_move_table = some co ∧
      TableManager.generate_eo_move_table = some eo ∧
      TableManager.generate_uds_move_table = some uds ∧
      apply_move k m = some k1 ∧
      Phase1Coord.encode_corner_orientation k1
        = co.entry (Phase1Coord.encode_corner_orientation k) m ∧
      Phase1Coord.encode_edge_orientation k1
        = eo.entry (Phase1Coord.encode_edge_orientation k) m ∧
      Phase1Coord.encode_ud_slice_position k1
        = uds.entry (Phase1Coord.encode_ud_slice_position k) m := by
  have hleg := reachable_legal k hk
  obtain ⟨T1, h1, _, _, e1⟩ := co_move_table_spec
  obtain ⟨T2, h2, _, _, e2⟩ := eo_move_table_spec
  obtain ⟨T3, h3, _, _, e3⟩ := uds_move_table_spec
  obtain ⟨p1, p2, p3⟩ := phase1_entries k m hm hleg
  refine ⟨T1, T2, T3, _, h1, h2, h3, apply_move_eq k m hm hleg.1 hleg.2.1, ?_, ?_, ?_⟩
  · rw [e1, if_pos ⟨(legal_co k hleg).1, hm⟩]; exact p1
  · rw [e2, if_pos ⟨(legal_eo k hleg).1, hm⟩]; exact p2
  · rw [e3, if_pos ⟨(legal_uds k hleg).1, hm⟩]; exact p3

theorem phase1_coordinates_commute_witness :
    ∃ co eo uds k1,
      TableManager.generate_co_move_table = some co ∧
      TableManager.generate_eo_move_table = some eo ∧
      TableManager.generate_uds_move_table = some uds ∧
      apply_move Cube.solved Move.R1 = some k1 ∧
      Phase1Coord.encode_corner_orientation k1
        = co.entry (Phase1Coord.encode_corner_orientation Cube.solved) Move.R1 ∧
      Phase1Coord.encode_edge_orientation k1
        = eo.entry (Phase1Coord.encode_edge_orientation Cube.solved) Move.R1 ∧
      Phase1Coord.encode_ud_slice_position k1
        = uds.entry (Phase1Coord.encode_ud_slice_position Cube.solved) Move.R1 :=
  phase1_coordinates_commute Cube.solved Move.R1 Reachable.solved (by decide)

theorem factorials_mono : ∀ m < 8, factorials.getD m 0 ≤ factorials.getD (m + 1) 0 := by decide

/-- The encode loop from position `i` on succeeds on an arrangement of the
available pieces, and the decode loop from position `i` on turns the rank it
adds back into the arrangement. -/
theorem lehmer_loops_inverse (n : Nat) (hn : n ≤ 8) (p : List Nat) (hp : p.length = n) :
    ∀ (m i : Nat) (avail : List Nat) (acc : Nat),
      i + m = n → (p.drop i).Perm avail → acc + factorials.getD m 0 ≤ 65536 →
      ∃ rank, rank < factorials.getD m 0 ∧
        (List.range' i m).foldlM (Phase2Coord.encode_perm_step n p) (acc, avail) = some (acc + rank, []) ∧
        ∀ perm0 : List Nat, perm0.length = n →
          (List.range' i m).foldlM (Phase2Coord.decode_perm_step n) (perm0, avail, rank)
            = some (perm0.take i ++ p.drop i, [], 0) := by
  intro m
  induction m with
  | zero =>
    intro i avail acc him hperm _
    have hi : i = n := by omega
    have hd : p.drop i = [] := by rw [hi, ← hp]; exact List.drop_length p
    rw [hd] at hperm
    have ha : avail = [] := List.Perm.nil_eq hperm |>.symm
    subst ha
    refine ⟨0, by decide, rfl, ?_⟩
    intro perm0 hp0
    simp only [List.range'_zero, List.foldlM_nil, hd, List.append_nil]
    rw [hi, ← hp0, List.take_length]
    rfl
  | succ m ih =>
    intro i avail acc him hperm hacc
    have hm8 : m < 8 := by omega
    have hfs := factorials_succ m hm8
    have hfp := factorials_pos m (by omega)
    have hidx : n - 1 - i = m := by omega
    have hilt : i < p.length := by omega
    have hdrop : p.drop i = p[i] :: p.drop (i + 1) := List.drop_eq_getElem_cons hilt
    have hpi : p.getD i 0 = p[i] := List.getD_eq_getElem _ _ hilt
    rw [hdrop] at hperm
    have hmem : p[i] ∈ avail := hperm.subset (List.mem_cons_self _ _)
    have hlen : avail.length = m + 1 := by
      have := hperm.length_eq
      simp only [List.length_cons, List.length_drop] at this
      omega
    have hio : avail.indexOf p[i] < avail.length := List.indexOf_lt_length.mpr hmem
    have hget : avail[avail.indexOf p[i]] = p[i] := List.getElem_indexOf hio
    have herase : avail.eraseIdx (avail.indexOf p[i]) = avail.erase p[i] :=
      List.eraseIdx_indexOf_eq_erase p[i] avail
    have hperm2 : (p.drop (i + 1)).Perm (avail.eraseIdx (avail.indexOf p[i])) := by
      rw [herase]
      have := hperm.erase p[i]
      rwa [List.erase_cons_head] at this
    have hmul : avail.indexOf p[i] * factorials.getD m 0 + factorials.getD m 0
        ≤ factorials.getD (m + 1) 0 := by
      rw [hfs]
      have : avail.indexOf p[i] + 1 ≤ m + 1 := by omega
      calc avail.indexOf p[i] * factorials.getD m 0 + factorials.getD m 0
          = (avail.indexOf p[i] + 1) * factorials.getD m 0 := by ring
        _ ≤ (m + 1) * factorials.getD m 0 := Nat.mul_le_mul_right _ this
    obtain ⟨rank1, hr1, henc, hdec⟩ := ih (i + 1) (avail.eraseIdx (avail.indexOf p[i]))
      (acc + avail.indexOf p[i] * factorials.getD m 0) (by omega) hperm2 (by omega)
    refine ⟨avail.indexOf p[i] * factorials.getD m 0 + rank1, by omega, ?_, ?_⟩
    · rw [List.range'_succ, List.foldlM_cons]
      simp only [Phase2Coord.encode_perm_step, hidx, hpi, Option.bind_eq_bind]
      rw [if_neg (by omega)]
      simp only [Option.some_bind]
      rw [Nat.mod_eq_of_lt (by omega), henc]
      congr 2
      omega
    · intro perm0 hp0
      have hdiv : (avail.indexOf p[i] * factorials.getD m 0 + rank1) / factorials.getD m 0
          = avail.indexOf p[i] := by
        rw [Nat.add_comm, Nat.add_mul_div_right _ _ hfp, Nat.div_eq_of_lt hr1, Nat.zero_add]
      have hmod : (avail.indexOf p[i] * factorials.getD m 0 + rank1) % factorials.getD m 0
          = rank1 := by
        rw [Nat.add_comm, Nat.add_mul_mod_self_right, Nat.mod_eq_of_lt hr1]
      rw [List.range'_succ, List.foldlM_cons]
      simp only [Phase2Coord.decode_perm_step, hidx, hdiv, hmod, List.get?_eq_getElem?,
        List.getElem?_eq_getElem hio, hget, Option.bind_eq_bind, Option.some_bind]
      rw [hdec (perm0.set i p[i]) (by simp [hp0])]
      congr 2
      rw [hdrop]
      have hilt0 : i < perm0.length := by omega
      rw [List.take_succ, List.getElem?_set_self hilt0]
      have htake : (perm0.set i p[i]).take i = perm0.take i := by
        apply List.ext_getElem?
        intro j
        by_cases hj : j < i
        · rw [List.getElem?_take_of_lt hj, List.getElem?_take_of_lt hj,
            List.getElem?_set_ne (by omega)]
        · rw [List.getElem?_eq_none (by simp; omega), List.getElem?_eq_none (by simp; omega)]
      rw [htake]
      simp

theorem lehmerSpan_eight : LehmerSpan 8 40320 :=
  ⟨by decide, by decide, by decide, by decide, by decide⟩

theorem lehmerSpan_four : LehmerSpan 4 24 :=
  ⟨by decide, by decide, by decide, by decide, by decide⟩

/-- An arrangement of the alphabet has a rank, and the rank decodes to it. -/
theorem encode_perm_of_perm (n fact : Nat) (hs : LehmerSpan n fact) (p : List Nat)
    (hp : p.Perm (Phase2Coord.initial_available_pieces n)) :
    ∃ r, r < fact ∧ Phase2Coord.encode_perm p = some r ∧
      ∀ perm0 : List Nat, perm0.length = n → Phase2Coord.decode_perm perm0 r = some p := by
  obtain ⟨hn, hf, hfb, _, hal⟩ := hs
  have hlen : p.length = n := by rw [hp.length_eq, hal]
  obtain ⟨r, hr, henc, hdec⟩ := lehmer_loops_inverse n hn p hlen n 0
    (Phase2Coord.initial_available_pieces n) 0 (by omega) (by simpa using hp)
    (by rw [hf]; omega)
  rw [hf] at hr
  refine ⟨r, hr, ?_, ?_⟩
  · simp only [Nat.zero_add] at henc
    simp only [Phase2Coord.encode_perm, hlen, List.range_eq_range', henc]
    rw [if_neg (by dsimp only [Coord]; omega)]
  · intro perm0 hp0
    have := hdec perm0 hp0
    simp only [List.take_zero, List.nil_append, List.drop_zero] at this
    simp only [Phase2Coord.decode_perm, hp0, List.range_eq_range', this, Option.map_some']

/-- Below `n!` every rank decodes, whatever the span held, to `permOfRank`,
an arrangement of the alphabet with that rank. -/
theorem decode_perm_eq (n fact : Nat) (hs : LehmerSpan n fact) (r : Nat) (hr : r < fact) :
    (permOfRank n r).Perm (Phase2Coord.initial_available_pieces n) ∧
    Phase2Coord.encode_perm (permOfRank n r) = some r ∧
    ∀ perm0 : List Nat, perm0.length = n →
      Phase2Coord.decode_perm perm0 r = some (permOfRank n r) := by
  have hs2 := hs
  obtain ⟨hn, hf, hfb, hnd, hal⟩ := hs2
  obtain ⟨p, hdec, henc, _, hperm⟩ := lehmer_round_trip_aux n fact hn hf hfb hnd hal
    (List.replicate n 0) r (by simp) hr
  have hp : permOfRank n r = p := by simp only [permOfRank, hdec, Option.getD_some]
  rw [hp]
  obtain ⟨r1, _, henc1, hdec1⟩ := encode_perm_of_perm n fact hs p hperm
  rw [henc] at henc1
  cases henc1
  exact ⟨hperm, henc, hdec1⟩

/-- The rank of an arrangement determines it. -/
theorem permOfRank_encode (n fact : Nat) (hs : LehmerSpan n fact) (p : List Nat)
    (hp : p.Perm (Phase2Coord.initial_available_pieces n)) (r : Nat)
    (hr : Phase2Coord.encode_perm p = some r) : r < fact ∧ permOfRank n r = p := by
  obtain ⟨r1, hr1, henc1, hdec1⟩ := encode_perm_of_perm n fact hs p hp
  rw [hr] at henc1
  cases henc1
  refine ⟨hr1, ?_⟩
  simp only [permOfRank, hdec1 (List.replicate n 0) (by simp), Option.getD_some]

theorem nodup_perm_of_subset {l a : List Nat} (hl : l.Nodup) (hsub : ∀ x ∈ l, x ∈ a)
    (hlen : a.length ≤ l.length) : l.Perm a :=
  (List.subperm_of_subset hl hsub).perm_of_length_le hlen

/-! ### Phase-2 coordinates and their move tables -/


theorem phase2_srcE_low : ∀ m ∈ Phase2Coord.AVAILABLE_MOVES, ∀ t < 8, srcE m t < 8 := by decide

theorem phase2_srcE_high : ∀ m ∈ Phase2Coord.AVAILABLE_MOVES, ∀ t < 12, 8 ≤ t →
    8 ≤ srcE m t ∧ srcE m t < 12 := by decide

theorem phase2_srcE_perm_low : ∀ m ∈ Phase2Coord.AVAILABLE_MOVES,
    ((List.range 8).map (srcE m)).Perm (List.range 8) := by decide

theorem phase2_srcE_perm_high : ∀ m ∈ Phase2Coord.AVAILABLE_MOVES,
    ((List.range' 8 4).map (fun t => srcE m t - 8)).Perm (List.range 4) := by decide

theorem getD_take_of_lt {T : Type} (l : List T) (n i : Nat) (d : T) (h : i < n) :
    (l.take n).getD i d = l.getD i d := by
  simp only [List.getD_eq_getElem?_getD, List.getElem?_take_of_lt h]

theorem getD_drop {T : Type} (l : List T) (n i : Nat) (d : T) :
    (l.drop n).getD i d = l.getD (n + i) d := by
  simp only [List.getD_eq_getElem?_getD, List.getElem?_drop]

theorem moveEdges_take_pieces (m : Move) (hm : m ∈ Phase2Coord.AVAILABLE_MOVES)
    (es : List Edge) (he : es.length = 12) (ho : ∀ e ∈ es, e.orientation < 2) :
    Phase2Coord.edge_pieces ((moveEdges m es).take 8) =
      (List.range 8).map (fun t => (Phase2Coord.edge_pieces (es.take 8)).getD (srcE m t) 0) := by
  have h1 : Phase2Coord.edge_pieces ((moveEdges m es).take 8)
      = (Phase2Coord.edge_pieces (moveEdges m es)).take 8 := by
    simp only [Phase2Coord.edge_pieces, List.map_take]
  have h2 : Phase2Coord.edge_pieces (es.take 8) = (Phase2Coord.edge_pieces es).take 8 := by
    simp only [Phase2Coord.edge_pieces, List.map_take]
  rw [h1, h2, moveEdges_pieces m es he ho, List.map_map, ← List.map_take]
  have h3 : (List.range 12).take 8 = List.range 8 := by decide
  rw [h3]
  apply List.map_congr_left
  intro t ht
  simp only [Function.comp]
  rw [getD_take_of_lt _ _ _ _ (phase2_srcE_low m hm t (List.mem_range.mp ht))]

theorem moveEdges_drop_pieces (m : Move) (hm : m ∈ Phase2Coord.AVAILABLE_MOVES)
    (es : List Edge) (he : es.length = 12) (ho : ∀ e ∈ es, e.orientation < 2) :
    Phase2Coord.edge_pieces (((moveEdges m es).drop 8).take 4) =
      (List.range' 8 4).map
        (fun t => (Phase2Coord.edge_pieces ((es.drop 8).take 4)).getD (srcE m t - 8) 0) := by
  have h1 : Phase2Coord.edge_pieces (((moveEdges m es).drop 8).take 4)
      = ((Phase2Coord.edge_pieces (moveEdges m es)).drop 8).take 4 := by
    simp only [Phase2Coord.edge_pieces, List.map_take, List.map_drop]
  have h2 : Phase2Coord.edge_pieces ((es.drop 8).take 4)
      = ((Phase2Coord.edge_pieces es).drop 8).take 4 := by
    simp only [Phase2Coord.edge_pieces, List.map_take, List.map_drop]
  rw [h1, h2, moveEdges_pieces m es he ho, List.map_map, ← List.map_drop, ← List.map_take]
  have h3 : ((List.range 12).drop 8).take 4 = List.range' 8 4 := by decide
  rw [h3]
  apply List.map_congr_left
  intro t ht
  simp only [Function.comp]
  have ht2 : 8 ≤ t ∧ t < 12 := by
    simp only [List.mem_range'_1] at ht
    omega
  obtain ⟨h4, h5⟩ := phase2_srcE_high m hm t ht2.2 ht2.1
  rw [getD_take_of_lt _ _ _ _ (by omega), getD_drop]
  congr 1
  omega

theorem alphabet_eight : Phase2Coord.initial_available_pieces 8 = List.range 8 := by decide

theorem alphabet_four : Phase2Coord.initial_available_pieces 4 = (List.range 4).map (fun x => x + 8) := by
  decide

/-- A Phase-2 move keeps the shape of a cube inside G1. -/
theorem g1Pieces_step (k : Cube) (m : Move) (hm : m ∈ Phase2Coord.AVAILABLE_MOVES)
    (hk : k.G1Pieces) : Cube.G1Pieces ⟨moveCorners m k.corners, moveEdges m k.edges⟩ := by
  obtain ⟨hc, he, hco, heo, hcp, hup, hsp⟩ := hk
  have hm18 := phase2_moves_lt m hm
  refine ⟨moveCorners_length _ _, moveEdges_length _ _, moveCorners_ori_lt m _ hc hco,
    moveEdges_ori_lt m _ he heo, ?_, ?_, ?_⟩
  · simp only
    rw [moveCorners_pieces m _ hc hco]
    exact (perm_map_getD 8 _ (by simp [Phase2Coord.corner_pieces, hc]) _ (srcC_perm m hm18)).trans
      hcp
  · simp only
    rw [moveEdges_take_pieces m hm _ he heo]
    have h := perm_map_getD 8 (Phase2Coord.edge_pieces (k.edges.take 8))
      (by simp [Phase2Coord.edge_pieces, he]) _ (phase2_srcE_perm_low m hm)
    rw [List.map_map] at h
    exact h.trans hup
  · simp only
    rw [moveEdges_drop_pieces m hm _ he heo]
    have h := perm_map_getD 4 (Phase2Coord.edge_pieces ((k.edges.drop 8).take 4))
      (by simp [Phase2Coord.edge_pieces, he]) _ (phase2_srcE_perm_high m hm)
    rw [List.map_map] at h
    exact h.trans hsp

/-- On a cube of G1 shape the three Phase-2 encoders succeed, with ranks in
range that decode to the piece lists. -/
theorem g1Pieces_encode (k : Cube) (hk : k.G1Pieces) :
    ∃ c1 c2 c3, c1 < 40320 ∧ c2 < 40320 ∧ c3 < 24 ∧
      Phase2Coord.encode_corner_permutation k = some c1 ∧
      Phase2Coord.encode_ud_edge_permutation k = some c2 ∧
      Phase2Coord.encode_slice_edge_permutation k = some c3 ∧
      permOfRank 8 c1 = Phase2Coord.corner_pieces k.corners ∧
      permOfRank 8 c2 = Phase2Coord.edge_pieces (k.edges.take 8) ∧
      permOfRank 4 c3 = Phase2Coord.edge_pieces ((k.edges.drop 8).take 4) := by
  obtain ⟨_, _, _, _, hcp, hup, hsp⟩ := hk
  obtain ⟨c1, h1, e1, _⟩ := encode_perm_of_perm 8 40320 lehmerSpan_eight _ hcp
  obtain ⟨c2, h2, e2, _⟩ := encode_perm_of_perm 8 40320 lehmerSpan_eight _ hup
  obtain ⟨c3, h3, e3, _⟩ := encode_perm_of_perm 4 24 lehmerSpan_four _ hsp
  exact ⟨c1, c2, c3, h1, h2, h3, e1, e2, e3,
    (permOfRank_encode 8 40320 lehmerSpan_eight _ hcp c1 e1).2,
    (permOfRank_encode 8 40320 lehmerSpan_eight _ hup c2 e2).2,
    (permOfRank_encode 4 24 lehmerSpan_four _ hsp c3 e3).2⟩

/-- The Phase-2 coordinates of a cube of G1 shape after a Phase-2 move are
the entries written for the coordinates before the move. -/
theorem phase2_entries (k : Cube) (m : Move) (hm : m ∈ Phase2Coord.AVAILABLE_MOVES)
    (hk : k.G1Pieces) (c1 c2 c3 : Nat)
    (h1 : Phase2Coord.encode_corner_permutation k = some c1)
    (h2 : Phase2Coord.encode_ud_edge_permutation k = some c2)
    (h3 : Phase2Coord.encode_slice_edge_permutation k = some c3) :
    Phase2Coord.encode_corner_permutation ⟨moveCorners m k.corners, moveEdges m k.edges⟩
      = some (cp_move_entry c1 m) ∧
    Phase2Coord.encode_ud_edge_permutation ⟨moveCorners m k.corners, moveEdges m k.edges⟩
      = some (udep_move_entry c2 m) ∧
    Phase2Coord.encode_slice_edge_permutation ⟨moveCorners m k.corners, moveEdges m k.edges⟩
      = some (sep_move_entry c3 m) := by
  obtain ⟨d1, d2, d3, _, _, _, e1, e2, e3, p1, p2, p3⟩ := g1Pieces_encode k hk
  rw [h1] at e1; rw [h2] at e2; rw [h3] at e3
  cases e1; cases e2; cases e3
  obtain ⟨f1, f2, f3, _, _, _, g1, g2, g3, _, _, _⟩ :=
    g1Pieces_encode _ (g1Pieces_step k m hm hk)
  have hk2 := hk
  obtain ⟨hc, he, hco, heo, _, _, _⟩ := hk2
  refine ⟨?_, ?_, ?_⟩
  · rw [g1]
    simp only [Phase2Coord.encode_corner_permutation] at g1
    rw [moveCorners_pieces m _ hc hco] at g1
    simp only [cp_move_entry, movePiecesC, p1, g1, Option.getD_some]
  · rw [g2]
    simp only [Phase2Coord.encode_ud_edge_permutation] at g2
    rw [moveEdges_take_pieces m hm _ he heo] at g2
    simp only [udep_move_entry, p2, g2, Option.getD_some]
  · rw [g3]
    simp only [Phase2Coord.encode_slice_edge_permutation] at g3
    rw [moveEdges_drop_pieces m hm _ he heo] at g3
    simp only [sep_move_entry, p3, g3, Option.getD_some]

/-- The Phase-2 coordinate object of a cube of G1 shape after a Phase-2 move. -/
theorem phase2_apply_move_eq (coord : Phase2Coord) (m : Move)
    (hm : m ∈ Phase2Coord.AVAILABLE_MOVES) (hk : coord.cube.G1Pieces) (c1 c2 c3 : Nat)
    (h1 : Phase2Coord.encode_corner_permutation coord.cube = some c1)
    (h2 : Phase2Coord.encode_ud_edge_permutation coord.cube = some c2)
    (h3 : Phase2Coord.encode_slice_edge_permutation coord.cube = some c3) :
    Phase2Coord.apply_move coord m = some
      { cube := ⟨moveCorners m coord.cube.corners, moveEdges m coord.cube.edges⟩
        corner_permutation := cp_move_entry c1 m
        ud_edge_permutation := udep_move_entry c2 m
        slice_edge_permutation := sep_move_entry c3 m } := by
  obtain ⟨q1, q2, q3⟩ := phase2_entries coord.cube m hm hk c1 c2 c3 h1 h2 h3
  simp only [Phase2Coord.apply_move,
    apply_move_eq coord.cube m (phase2_moves_lt m hm) hk.1 hk.2.1, Option.some_bind,
    Phase2Coord.encode_from_cube, q1, q2, q3]

theorem with_corner_pieces_pieces (cs : List Corner) (ps : List Nat) (h : cs.length = ps.length) :
    Phase2Coord.corner_pieces (Phase2Coord.with_corner_pieces cs ps) = ps := by
  induction cs generalizing ps with
  | nil =>
    cases ps with
    | nil => rfl
    | cons p ps => simp at h
  | cons c cs ih =>
    cases ps with
    | nil => simp at h
    | cons p ps =>
      simp only [List.length_cons, Nat.add_right_cancel_iff] at h
      have := ih ps h
      simp only [Phase2Coord.corner_pieces, Phase2Coord.with_corner_pieces, List.zipWith_cons_cons,
        List.map_cons, List.cons.injEq, true_and] at this ⊢
      exact this

theorem with_corner_pieces_oris (cs : List Corner) (ps : List Nat) (h : cs.length = ps.length) :
    (Phase2Coord.with_corner_pieces cs ps).map (fun c => c.orientation)
      = cs.map (fun c => c.orientation) := by
  induction cs generalizing ps with
  | nil =>
    cases ps with
    | nil => rfl
    | cons p ps => simp at h
  | cons c cs ih =>
    cases ps with
    | nil => simp at h
    | cons p ps =>
      simp only [List.length_cons, Nat.add_right_cancel_iff] at h
      have := ih ps h
      simp only [Phase2Coord.with_corner_pieces, List.zipWith_cons_cons,
        List.map_cons, List.cons.injEq, true_and] at this ⊢
      exact this

theorem with_edge_pieces_pieces (es : List Edge) (ps : List Nat) (h : es.length = ps.length) :
    Phase2Coord.edge_pieces (Phase2Coord.with_edge_pieces es ps) = ps := by
  induction es generalizing ps with
  | nil =>
    cases ps with
    | nil => rfl
    | cons p ps => simp at h
  | cons c cs ih =>
    cases ps with
    | nil => simp at h
    | cons p ps =>
      simp only [List.length_cons, Nat.add_right_cancel_iff] at h
      have := ih ps h
      simp only [Phase2Coord.edge_pieces, Phase2Coord.with_edge_pieces, List.zipWith_cons_cons,
        List.map_cons, List.cons.injEq, true_and] at this ⊢
      exact this

theorem with_edge_pieces_oris (es : List Edge) (ps : List Nat) (h : es.length = ps.length) :
    (Phase2Coord.with_edge_pieces es ps).map (fun c => c.orientation)
      = es.map (fun c => c.orientation) := by
  induction es generalizing ps with
  | nil =>
    cases ps with
    | nil => rfl
    | cons p ps => simp at h
  | cons c cs ih =>
    cases ps with
    | nil => simp at h
    | cons p ps =>
      simp only [List.length_cons, Nat.add_right_cancel_iff] at h
      have := ih ps h
      simp only [Phase2Coord.with_edge_pieces, List.zipWith_cons_cons,
        List.map_cons, List.cons.injEq, true_and] at this ⊢
      exact this

theorem corner_oris_lt_of_map_eq (cs1 cs2 : List Corner) (q : Nat)
    (h : cs1.map (fun c => c.orientation) = cs2.map (fun c => c.orientation))
    (h2 : ∀ c ∈ cs2, c.orientation < q) : ∀ c ∈ cs1, c.orientation < q := by
  intro c hc
  have : c.orientation ∈ cs1.map (fun c => c.orientation) := List.mem_map_of_mem _ hc
  rw [h] at this
  obtain ⟨c2, hc2, heq⟩ := List.mem_map.mp this
  rw [← heq]
  exact h2 c2 hc2

/-- What `set_corner_permutation` leaves in the member cube. -/
theorem set_corner_permutation_cube (coord : Phase2Coord) (i : Nat) (hi : i < 40320)
    (hk : coord.cube.G1Pieces) :
    ∃ coord1, Phase2Coord.set_corner_permutation coord i = some coord1 ∧ coord1.cube.G1Pieces ∧
      Phase2Coord.encode_corner_permutation coord1.cube = some i ∧
      coord1.cube.edges = coord.cube.edges := by
  obtain ⟨hc, he, hco, heo, hcp, hup, hsp⟩ := hk
  obtain ⟨hperm, henc, hdec⟩ := decode_perm_eq 8 40320 lehmerSpan_eight i hi
  have hlenp : (permOfRank 8 i).length = 8 := by rw [hperm.length_eq]; rfl
  have hd := hdec (Phase2Coord.corner_pieces coord.cube.corners)
    (by simp [Phase2Coord.corner_pieces, hc])
  refine ⟨{ cube := { corners := Phase2Coord.with_corner_pieces coord.cube.corners
                        (permOfRank 8 i),
                      edges := coord.cube.edges },
            corner_permutation := i, ud_edge_permutation := coord.ud_edge_permutation,
            slice_edge_permutation := coord.slice_edge_permutation },
    by simp only [Phase2Coord.set_corner_permutation,
      Phase2Coord.decode_corner_permutation, hd, Option.map_some'], ?_, ?_, rfl⟩
  · refine ⟨?_, he, ?_, heo, ?_, hup, hsp⟩
    · simp [Phase2Coord.with_corner_pieces, hc, hlenp]
    · exact corner_oris_lt_of_map_eq _ _ 3
        (with_corner_pieces_oris _ _ (by rw [hc, hlenp])) hco
    · simp only
      rw [with_corner_pieces_pieces _ _ (by rw [hc, hlenp])]
      exact hperm
  · simp only [Phase2Coord.encode_corner_permutation]
    rw [with_corner_pieces_pieces _ _ (by rw [hc, hlenp])]
    exact henc

theorem phase2_moves_iff : ∀ m, m ∈ Phase2Coord.AVAILABLE_MOVES ↔
    (m < 6 ∨ m = 8 ∨ m = 11 ∨ m = 14 ∨ m = 17) := by
  intro m
  simp only [Phase2Coord.AVAILABLE_MOVES, List.mem_cons, List.mem_singleton, List.not_mem_nil,
    or_false, Move.U1, Move.U2, Move.U3, Move.D1, Move.D2, Move.D3, Move.L3, Move.R3, Move.F3,
    Move.B3]
  dsimp only [Move]
  omega

/-- The table `generate_cp_move_table` builds: the columns of the ten Phase-2
moves hold the entries, the other columns stay as they were. -/
theorem cp_move_table_spec :
    ∃ T, TableManager.generate_cp_move_table = some T ∧ T.length = 40320 ∧
      (∀ row ∈ T, row.length = 18) ∧
      ∀ c m, T.entry c m =
        if c < 40320 ∧ m ∈ Phase2Coord.AVAILABLE_MOVES then cp_move_entry c m else 0 := by
  obtain ⟨T, hT, hlen, hrows, hent⟩ := generate_move_table_spec 40320 Phase2Coord.init
    Phase2Coord.AVAILABLE_MOVES Phase2Coord.apply_move Phase2Coord.set_corner_permutation
    (fun coord => coord.corner_permutation) (TableManager.zero_move_table 40320)
    (fun coord => coord.cube.G1Pieces) cp_move_entry
    ⟨by decide, by decide, by decide, by decide, by decide, by decide, by decide⟩
    (by
      intro coord i hinv hi
      obtain ⟨coord1, hs, hk1, henc, _⟩ := set_corner_permutation_cube coord i hi hinv
      refine ⟨coord1, hs, hk1, ?_⟩
      intro m hm
      obtain ⟨c1, c2, c3, _, _, _, e1, e2, e3, _⟩ := g1Pieces_encode _ hk1
      rw [henc] at e1
      cases e1
      exact ⟨phase2_moves_lt m hm, _, phase2_apply_move_eq coord1 m hm hk1 _ c2 c3 henc e2 e3,
        rfl⟩)
    (zero_move_table_length _) (zero_move_table_rows _)
  refine ⟨T, hT, hlen, hrows, ?_⟩
  intro c m
  rw [hent c m, zero_move_table_entry]

/-- What `set_ud_edge_permutation` leaves in the member cube. -/
theorem set_ud_edge_permutation_cube (coord : Phase2Coord) (i : Nat) (hi : i < 40320)
    (hk : coord.cube.G1Pieces) :
    ∃ coord1, Phase2Coord.set_ud_edge_permutation coord i = some coord1 ∧ coord1.cube.G1Pieces ∧
      Phase2Coord.encode_ud_edge_permutation coord1.cube = some i := by
  obtain ⟨hc, he, hco, heo, hcp, hup, hsp⟩ := hk
  obtain ⟨hperm, henc, hdec⟩ := decode_perm_eq 8 40320 lehmerSpan_eight i hi
  have hlenp : (permOfRank 8 i).length = 8 := by rw [hperm.length_eq]; rfl
  have hlt : (coord.cube.edges.take 8).length = 8 := by simp [he]
  have hd := hdec (Phase2Coord.edge_pieces (coord.cube.edges.take 8))
    (by simp [Phase2Coord.edge_pieces, he])
  have hwl : (Phase2Coord.with_edge_pieces (coord.cube.edges.take 8) (permOfRank 8 i)).length
      = 8 := by
    simp [Phase2Coord.with_edge_pieces, he, hlenp]
  have htake : (Phase2Coord.with_edge_pieces (coord.cube.edges.take 8) (permOfRank 8 i)
      ++ coord.cube.edges.drop 8).take 8
      = Phase2Coord.with_edge_pieces (coord.cube.edges.take 8) (permOfRank 8 i) := by
    rw [List.take_append_of_le_length (by omega), List.take_of_length_le (by omega)]
  have hdrop : (Phase2Coord.with_edge_pieces (coord.cube.edges.take 8) (permOfRank 8 i)
      ++ coord.cube.edges.drop 8).drop 8 = coord.cube.edges.drop 8 := by
    rw [List.drop_append_of_le_length (by omega), List.drop_of_length_le (by omega),
      List.nil_append]
  refine ⟨{ cube := { corners := coord.cube.corners,
                      edges := Phase2Coord.with_edge_pieces (coord.cube.edges.take 8)
                        (permOfRank 8 i) ++ coord.cube.edges.drop 8 },
            corner_permutation := coord.corner_permutation, ud_edge_permutation := i,
            slice_edge_permutation := coord.slice_edge_permutation },
    by simp only [Phase2Coord.set_ud_edge_permutation,
      Phase2Coord.decode_ud_edge_permutation, hd, Option.map_some'], ?_, ?_⟩
  · refine ⟨hc, ?_, hco, ?_, hcp, ?_, ?_⟩
    · simp only [List.length_append, hwl, List.length_drop, he]
    · apply oris_lt_of_map_eq _ coord.cube.edges 2 _ heo
      simp only [List.map_append]
      rw [with_edge_pieces_oris _ _ (by rw [hlt, hlenp]), ← List.map_append,
        List.take_append_drop]
    · simp only
      rw [htake, with_edge_pieces_pieces _ _ (by rw [hlt, hlenp])]
      exact hperm
    · simp only
      rw [hdrop]
      exact hsp
  · simp only [Phase2Coord.encode_ud_edge_permutation]
    rw [htake, with_edge_pieces_pieces _ _ (by rw [hlt, hlenp])]
    exact henc

/-- What `set_slice_edge_permutation` leaves in the member cube. -/
theorem set_slice_edge_permutation_cube (coord : Phase2Coord) (i : Nat) (hi : i < 24)
    (hk : coord.cube.G1Pieces) :
    ∃ coord1, Phase2Coord.set_slice_edge_permutation coord i = some coord1 ∧
      coord1.cube.G1Pieces ∧
      Phase2Coord.encode_slice_edge_permutation coord1.cube = some i := by
  obtain ⟨hc, he, hco, heo, hcp, hup, hsp⟩ := hk
  obtain ⟨hperm, henc, hdec⟩ := decode_perm_eq 4 24 lehmerSpan_four i hi
  have hlenp : (permOfRank 4 i).length = 4 := by rw [hperm.length_eq]; rfl
  have hlt : ((coord.cube.edges.drop 8).take 4).length = 4 := by simp [he]
  have hd := hdec (Phase2Coord.edge_pieces ((coord.cube.edges.drop 8).take 4))
    (by simp [Phase2Coord.edge_pieces, he])
  have hwl : (Phase2Coord.with_edge_pieces ((coord.cube.edges.drop 8).take 4)
      (permOfRank 4 i)).length = 4 := by
    simp [Phase2Coord.with_edge_pieces, he, hlenp]
  have hd12 : coord.cube.edges.drop 12 = [] := List.drop_of_length_le (by omega)
  have ht8 : (coord.cube.edges.take 8).length = 8 := by simp [he]
  have htake : (coord.cube.edges.take 8 ++ Phase2Coord.with_edge_pieces
      ((coord.cube.edges.drop 8).take 4) (permOfRank 4 i) ++ coord.cube.edges.drop 12).take 8
      = coord.cube.edges.take 8 := by
    rw [hd12, List.append_nil, List.take_append_of_le_length (by omega),
      List.take_of_length_le (by omega)]
  have hdrop : (coord.cube.edges.take 8 ++ Phase2Coord.with_edge_pieces
      ((coord.cube.edges.drop 8).take 4) (permOfRank 4 i) ++ coord.cube.edges.drop 12).drop 8
      = Phase2Coord.with_edge_pieces ((coord.cube.edges.drop 8).take 4) (permOfRank 4 i) := by
    rw [hd12, List.append_nil, List.drop_append_of_le_length (by omega),
      List.drop_of_length_le (by omega), List.nil_append]
  have hes : coord.cube.edges = coord.cube.edges.take 8 ++ (coord.cube.edges.drop 8).take 4 := by
    have h4 : ((coord.cube.edges.drop 8).take 4) = coord.cube.edges.drop 8 :=
      List.take_of_length_le (by rw [List.length_drop]; omega)
    rw [h4, List.take_append_drop]
  refine ⟨{ cube := { corners := coord.cube.corners,
                      edges := coord.cube.edges.take 8 ++ Phase2Coord.with_edge_pieces
                        ((coord.cube.edges.drop 8).take 4) (permOfRank 4 i)
                        ++ coord.cube.edges.drop 12 },
            corner_permutation := coord.corner_permutation,
            ud_edge_permutation := coord.ud_edge_permutation,
            slice_edge_permutation := i },
    by simp only [Phase2Coord.set_slice_edge_permutation,
      Phase2Coord.decode_slice_edge_permutation, hd, Option.map_some'], ?_, ?_⟩
  · refine ⟨hc, ?_, hco, ?_, hcp, ?_, ?_⟩
    · simp only [List.length_append, hwl, ht8, hd12, List.length_nil]
    · apply oris_lt_of_map_eq _ coord.cube.edges 2 _ heo
      simp only [List.map_append, hd12, List.map_nil, List.append_nil]
      rw [with_edge_pieces_oris _ _ (by rw [hlt, hlenp]), ← List.map_append, ← hes]
    · simp only
      rw [htake]
      exact hup
    · simp only
      rw [hdrop, List.take_of_length_le (by omega),
        with_edge_pieces_pieces _ _ (by rw [hlt, hlenp])]
      exact hperm
  · simp only [Phase2Coord.encode_slice_edge_permutation]
    rw [hdrop, List.take_of_length_le (by omega),
      with_edge_pieces_pieces _ _ (by rw [hlt, hlenp])]
    exact henc

/-- The table `generate_udep_move_table` builds. -/
theorem udep_move_table_spec :
    ∃ T, TableManager.generate_udep_move_table = some T ∧ T.length = 40320 ∧
      (∀ row ∈ T, row.length = 18) ∧
      ∀ c m, T.entry c m =
        if c < 40320 ∧ m ∈ Phase2Coord.AVAILABLE_MOVES then udep_move_entry c m else 0 := by
  obtain ⟨T, hT, hlen, hrows, hent⟩ := generate_move_table_spec 40320 Phase2Coord.init
    Phase2Coord.AVAILABLE_MOVES Phase2Coord.apply_move Phase2Coord.set_ud_edge_permutation
    (fun coord => coord.ud_edge_permutation) (TableManager.zero_move_table 40320)
    (fun coord => coord.cube.G1Pieces) udep_move_entry
    ⟨by decide, by decide, by decide, by decide, by decide, by decide, by decide⟩
    (by
      intro coord i hinv hi
      obtain ⟨coord1, hs, hk1, henc⟩ := set_ud_edge_permutation_cube coord i hi hinv
      refine ⟨coord1, hs, hk1, ?_⟩
      intro m hm
      obtain ⟨c1, c2, c3, _, _, _, e1, e2, e3, _⟩ := g1Pieces_encode _ hk1
      rw [henc] at e2
      cases e2
      exact ⟨phase2_moves_lt m hm, _, phase2_apply_move_eq coord1 m hm hk1 c1 _ c3 e1 henc e3,
        rfl⟩)
    (zero_move_table_length _) (zero_move_table_rows _)
  refine ⟨T, hT, hlen, hrows, ?_⟩
  intro c m
  rw [hent c m, zero_move_table_entry]

/-- The table `generate_sep_move_table` builds. -/
theorem sep_move_table_spec :
    ∃ T, TableManager.generate_sep_move_table = some T ∧ T.length = 24 ∧
      (∀ row ∈ T, row.length = 18) ∧
      ∀ c m, T.entry c m =
        if c < 24 ∧ m ∈ Phase2Coord.AVAILABLE_MOVES then sep_move_entry c m else 0 := by
  obtain ⟨T, hT, hlen, hrows, hent⟩ := generate_move_table_spec 24 Phase2Coord.init
    Phase2Coord.AVAILABLE_MOVES Phase2Coord.apply_move Phase2Coord.set_slice_edge_permutation
    (fun coord => coord.slice_edge_permutation) (TableManager.zero_move_table 24)
    (fun coord => coord.cube.G1Pieces) sep_move_entry
    ⟨by decide, by decide, by decide, by decide, by decide, by decide, by decide⟩
    (by
      intro coord i hinv hi
      obtain ⟨coord1, hs, hk1, henc⟩ := set_slice_edge_permutation_cube coord i hi hinv
      refine ⟨coord1, hs, hk1, ?_⟩
      intro m hm
      obtain ⟨c1, c2, c3, _, _, _, e1, e2, e3, _⟩ := g1Pieces_encode _ hk1
      rw [henc] at e3
      cases e3
      exact ⟨phase2_moves_lt m hm, _, phase2_apply_move_eq coord1 m hm hk1 c1 c2 _ e1 e2 henc,
        rfl⟩)
    (zero_move_table_length _) (zero_move_table_rows _)
  refine ⟨T, hT, hlen, hrows, ?_⟩
  intro c m
  rw [hent c m, zero_move_table_entry]

theorem udsDecodeInd_zero : (udsDecodeInd binomialAt 0).2.1 = g1Indicator := by decide

theorem udsEncodeInd_g1 : udsEncodeInd binomialAt g1Indicator = 0 := by decide

theorem not_slice_lt : ∀ p < 12, isSlicePiece p = false → p < 8 := by decide

theorem slice_mem : ∀ p < 12, isSlicePiece p = true →
    p ∈ Phase2Coord.initial_available_pieces 4 := by decide

theorem lt_eight_mem : ∀ p < 8, p ∈ Phase2Coord.initial_available_pieces 8 := by decide

/-- A legal cube whose slot indicator is that of G1 has the G1 shape. -/
theorem legal_g1Pieces (k : Cube) (hk : k.Legal) (hind : sliceIndicator k.edges = g1Indicator) :
    k.G1Pieces := by
  obtain ⟨hc, he, hco, heo, hcp, hep, _, _⟩ := hk
  refine ⟨hc, he, hco, heo, by rw [alphabet_eight]; exact hcp, ?_, ?_⟩
  · have hnd : (Phase2Coord.edge_pieces k.edges).Nodup := hep.nodup_iff.mpr (List.nodup_range 12)
    have hlt : ∀ p ∈ Phase2Coord.edge_pieces k.edges, p < 12 := fun p hp =>
      List.mem_range.mp (hep.subset hp)
    obtain ⟨e0, e1, e2, e3, e4, e5, e6, e7, e8, e9, e10, e11, hes⟩ :=
      list_length_twelve k.edges he
    rw [hes] at hind hnd hlt ⊢
    simp only [sliceIndicator, g1Indicator, List.map_cons, List.map_nil, List.cons.injEq,
      and_true] at hind
    simp only [Phase2Coord.edge_pieces, List.map_cons, List.map_nil, List.mem_cons,
      List.mem_singleton, forall_eq_or_imp, forall_eq, List.not_mem_nil, IsEmpty.forall_iff,
      implies_true, and_true] at hlt
    obtain ⟨i0, i1, i2, i3, i4, i5, i6, i7, _⟩ := hind
    obtain ⟨l0, l1, l2, l3, l4, l5, l6, l7, _⟩ := hlt
    apply nodup_perm_of_subset
    · exact (List.take_sublist 8 _).nodup hnd
    · simp only [Phase2Coord.edge_pieces, List.take_succ_cons, List.take_zero, List.map_cons,
        List.map_nil, List.mem_cons, List.mem_singleton, forall_eq_or_imp, forall_eq,
        List.not_mem_nil, IsEmpty.forall_iff, implies_true, and_true]
      exact ⟨lt_eight_mem _ (not_slice_lt _ l0 i0), lt_eight_mem _ (not_slice_lt _ l1 i1),
        lt_eight_mem _ (not_slice_lt _ l2 i2), lt_eight_mem _ (not_slice_lt _ l3 i3),
        lt_eight_mem _ (not_slice_lt _ l4 i4), lt_eight_mem _ (not_slice_lt _ l5 i5),
        lt_eight_mem _ (not_slice_lt _ l6 i6), lt_eight_mem _ (not_slice_lt _ l7 i7)⟩
    · simp [Phase2Coord.edge_pieces, Phase2Coord.initial_available_pieces]
  · have hnd : (Phase2Coord.edge_pieces k.edges).Nodup := hep.nodup_iff.mpr (List.nodup_range 12)
    have hlt : ∀ p ∈ Phase2Coord.edge_pieces k.edges, p < 12 := fun p hp =>
      List.mem_range.mp (hep.subset hp)
    obtain ⟨e0, e1, e2, e3, e4, e5, e6, e7, e8, e9, e10, e11, hes⟩ :=
      list_length_twelve k.edges he
    rw [hes] at hind hnd hlt ⊢
    simp only [sliceIndicator, g1Indicator, List.map_cons, List.map_nil, List.cons.injEq,
      and_true] at hind
    simp only [Phase2Coord.edge_pieces, List.map_cons, List.map_nil, List.mem_cons,
      List.mem_singleton, forall_eq_or_imp, forall_eq, List.not_mem_nil, IsEmpty.forall_iff,
      implies_true, and_true] at hlt
    obtain ⟨_, _, _, _, _, _, _, _, i8, i9, i10, i11⟩ := hind
    obtain ⟨_, _, _, _, _, _, _, _, l8, l9, l10, l11⟩ := hlt
    apply nodup_perm_of_subset
    · exact (List.take_sublist 4 _).nodup ((List.drop_sublist 8 _).nodup hnd)
    · simp only [Phase2Coord.edge_pieces, List.drop_succ_cons, List.drop_zero,
        List.take_succ_cons, List.take_zero, List.map_cons,
        List.map_nil, List.mem_cons, List.mem_singleton, forall_eq_or_imp, forall_eq,
        List.not_mem_nil, IsEmpty.forall_iff, implies_true, and_true]
      exact ⟨slice_mem _ l8 i8, slice_mem _ l9 i9, slice_mem _ l10 i10, slice_mem _ l11 i11⟩
    · simp [Phase2Coord.edge_pieces, Phase2Coord.initial_available_pieces]

/-- A legal cube with UD-slice coordinate 0 has the G1 shape. -/
theorem legal_uds_zero (k : Cube) (hk : k.Legal)
    (h : Phase1Coord.encode_ud_slice_position k = 0) : k.G1Pieces := by
  apply legal_g1Pieces k hk
  have := (legal_uds k hk).2
  rw [h, C_nk_eq, udsDecodeInd_zero] at this
  exact this.symm

/-- C5. Phase-2 coordinates commute with moves inside G1: the three
generators of the Phase-2 move tables succeed, and for every cube `k` reachable
from the solved cube with `UDS k = 0` and each of the ten Phase-2 moves `m`,
the three encoders succeed on `k` and on the moved cube, and the coordinates of
the moved cube are the entries `[CP k][m]`, `[UDEP k][m]` and `[SEP k][m]` of
the tables built. -/
theorem phase2_coordinates_commute (k : Cube) (m : Move) (hk : Reachable k)
    (huds : Phase1Coord.encode_ud_slice_position k = 0)
    (hm : m ∈ Phase2Coord.AVAILABLE_MOVES) :
    ∃ cp udep sep k1 c1 c2 c3,
      TableManager.generate_cp_move_table = some cp ∧
      TableManager.generate_udep_move_table = some udep ∧
      TableManager.generate_sep_move_table = some sep ∧
      apply_move k m = some k1 ∧
      Phase2Coord.encode_corner_permutation k = some c1 ∧
      Phase2Coord.encode_ud_edge_permutation k = some c2 ∧
      Phase2Coord.encode_slice_edge_permutation k = some c3 ∧
      Phase2Coord.encode_corner_permutation k1 = some (cp.entry c1 m) ∧
      Phase2Coord.encode_ud_edge_permutation k1 = some (udep.entry c2 m) ∧
      Phase2Coord.encode_slice_edge_permutation k1 = some (sep.entry c3 m) := by
  have hleg := reachable_legal k hk
  have hg1 := legal_uds_zero k hleg huds
  obtain ⟨T1, h1, _, _, e1⟩ := cp_move_table_spec
  obtain ⟨T2, h2, _, _, e2⟩ := udep_move_table_spec
  obtain ⟨T3, h3, _, _, e3⟩ := sep_move_table_spec
  obtain ⟨c1, c2, c3, b1, b2, b3, g1, g2, g3, _⟩ := g1Pieces_encode k hg1
  obtain ⟨p1, p2, p3⟩ := phase2_entries k m hm hg1 c1 c2 c3 g1 g2 g3
  refine ⟨T1, T2, T3, _, c1, c2, c3, h1, h2, h3,
    apply_move_eq k m (phase2_moves_lt m hm) hleg.1 hleg.2.1, g1, g2, g3, ?_, ?_, ?_⟩
  · rw [e1, if_pos ⟨b1, hm⟩]; exact p1
  · rw [e2, if_pos ⟨b2, hm⟩]; exact p2
  · rw [e3, if_pos ⟨b3, hm⟩]; exact p3

theorem solved_uds_zero : Phase1Coord.encode_ud_slice_position Cube.solved = 0 := by
  rw [encode_ud_slice_position_ind, C_nk_eq]
  decide

theorem phase2_coordinates_commute_witness :
    ∃ cp udep sep k1 c1 c2 c3,
      TableManager.generate_cp_move_table = some cp ∧
      TableManager.generate_udep_move_table = some udep ∧
      TableManager.generate_sep_move_table = some sep ∧
      apply_move Cube.solved Move.U1 = some k1 ∧
      Phase2Coord.encode_corner_permutation Cube.solved = some c1 ∧
      Phase2Coord.encode_ud_edge_permutation Cube.solved = some c2 ∧
      Phase2Coord.encode_slice_edge_permutation Cube.solved = some c3 ∧
      Phase2Coord.encode_corner_permutation k1 = some (cp.entry c1 Move.U1) ∧
      Phase2Coord.encode_ud_edge_permutation k1 = some (udep.entry c2 Move.U1) ∧
      Phase2Coord.encode_slice_edge_permutation k1 = some (sep.entry c3 Move.U1) :=
  phase2_coordinates_commute Cube.solved Move.U1 Reachable.solved solved_uds_zero (by decide)

/-! ### G1 and the solved state -/


theorem phase2_deltaC_zero : ∀ m ∈ Phase2Coord.AVAILABLE_MOVES, ∀ t < 8, deltaC m t = 0 := by
  decide

theorem phase2_deltaE_zero : ∀ m ∈ Phase2Coord.AVAILABLE_MOVES, ∀ t < 12, deltaE m t = 0 := by
  decide

theorem srcC_lt : ∀ m < 18, ∀ t < 8, srcC m t < 8 := by decide

theorem srcE_lt : ∀ m < 18, ∀ t < 12, srcE m t < 12 := by decide

/-- A Phase-2 move keeps a cube inside G1. -/
theorem inG1_step (k : Cube) (m : Move) (hm : m ∈ Phase2Coord.AVAILABLE_MOVES) (hk : k.InG1) :
    Cube.InG1 ⟨moveCorners m k.corners, moveEdges m k.edges⟩ := by
  obtain ⟨hg, hco, heo⟩ := hk
  have hm18 := phase2_moves_lt m hm
  refine ⟨g1Pieces_step k m hm hg, ?_, ?_⟩
  · simp only
    rw [moveCorners_inRange m _ hg.1 hg.2.2.1]
    intro c hc
    obtain ⟨t, ht, rfl⟩ := List.mem_map.mp hc
    have ht8 := List.mem_range.mp ht
    simp only
    rw [phase2_deltaC_zero m hm t ht8,
      hco _ (getD_mem _ _ _ (by rw [hg.1]; exact srcC_lt m hm18 t ht8))]
  · simp only
    rw [moveEdges_inRange m _ hg.2.1 hg.2.2.2.1]
    intro e he
    obtain ⟨t, ht, rfl⟩ := List.mem_map.mp he
    have ht12 := List.mem_range.mp ht
    simp only
    rw [phase2_deltaE_zero m hm t ht12,
      heo _ (getD_mem _ _ _ (by rw [hg.2.1]; exact srcE_lt m hm18 t ht12))]

theorem alphabet_eight_lt : ∀ p ∈ Phase2Coord.initial_available_pieces 8, isSlicePiece p = false := by
  decide

theorem alphabet_four_slice : ∀ p ∈ Phase2Coord.initial_available_pieces 4, isSlicePiece p = true := by
  decide

/-- The slot indicator of a cube of G1 shape. -/
theorem g1Pieces_indicator (k : Cube) (hk : k.G1Pieces) : sliceIndicator k.edges = g1Indicator := by
  obtain ⟨_, he, _, _, _, hup, hsp⟩ := hk
  obtain ⟨e0, e1, e2, e3, e4, e5, e6, e7, e8, e9, e10, e11, hes⟩ :=
    list_length_twelve k.edges he
  rw [hes] at hup hsp ⊢
  have h1 : ∀ p ∈ Phase2Coord.edge_pieces
      (List.take 8 [e0, e1, e2, e3, e4, e5, e6, e7, e8, e9, e10, e11]),
      isSlicePiece p = false := fun p hp => alphabet_eight_lt p (hup.subset hp)
  have h2 : ∀ p ∈ Phase2Coord.edge_pieces
      (List.take 4 (List.drop 8 [e0, e1, e2, e3, e4, e5, e6, e7, e8, e9, e10, e11])),
      isSlicePiece p = true := fun p hp => alphabet_four_slice p (hsp.subset hp)
  simp only [Phase2Coord.edge_pieces, List.drop_succ_cons, List.drop_zero,
    List.take_succ_cons, List.take_zero, List.map_cons,
    List.map_nil, List.mem_cons, List.mem_singleton, forall_eq_or_imp, forall_eq,
    List.not_mem_nil, IsEmpty.forall_iff, implies_true, and_true] at h1 h2
  obtain ⟨a0, a1, a2, a3, a4, a5, a6, a7⟩ := h1
  obtain ⟨a8, a9, a10, a11⟩ := h2
  simp only [sliceIndicator, g1Indicator, List.map_cons, List.map_nil, a0, a1, a2, a3, a4, a5,
    a6, a7, a8, a9, a10, a11]

theorem coRank_zeros (oris : List Nat) (h : ∀ o ∈ oris, o = 0) : coRank oris = 0 := by
  have hg : ∀ i, oris.getD i 0 = 0 := by
    intro i
    by_cases hi : i < oris.length
    · exact h _ (getD_mem oris 0 i hi)
    · exact List.getD_eq_default _ _ (by omega)
  simp only [coRank, range7, List.foldl_cons, List.foldl_nil, hg]

theorem eoRank_zeros (oris : List Nat) (h : ∀ o ∈ oris, o = 0) : eoRank oris = 0 := by
  have hg : ∀ i, oris.getD i 0 = 0 := by
    intro i
    by_cases hi : i < oris.length
    · exact h _ (getD_mem oris 0 i hi)
    · exact List.getD_eq_default _ _ (by omega)
  simp only [eoRank, range11, List.foldl_cons, List.foldl_nil, hg]

/-- Inside G1 the three Phase-1 coordinates are zero. -/
theorem inG1_coords (k : Cube) (hk : k.InG1) :
    Phase1Coord.encode_corner_orientation k = 0 ∧ Phase1Coord.encode_edge_orientation k = 0 ∧
    Phase1Coord.encode_ud_slice_position k = 0 := by
  obtain ⟨hg, hco, heo⟩ := hk
  refine ⟨?_, ?_, ?_⟩
  · rw [encode_corner_orientation_eq]
    apply coRank_zeros
    intro o ho
    obtain ⟨c, hc, rfl⟩ := List.mem_map.mp ho
    exact hco c hc
  · rw [encode_edge_orientation_eq]
    apply eoRank_zeros
    intro o ho
    obtain ⟨e, he, rfl⟩ := List.mem_map.mp ho
    exact heo e he
  · rw [encode_ud_slice_position_ind, g1Pieces_indicator k hg, C_nk_eq]
    exact udsEncodeInd_g1

theorem solved_inG1 : Cube.solved.InG1 :=
  ⟨⟨by decide, by decide, by decide, by decide, by decide, by decide, by decide⟩,
    by decide, by decide⟩

/-- Sequences of Phase-2 moves stay inside G1. -/
theorem inG1_sequence (seq : List Move) (hseq : ∀ m ∈ seq, m ∈ Phase2Coord.AVAILABLE_MOVES) :
    ∀ k : Cube, k.InG1 → ∃ k1, apply_sequence k seq = some k1 ∧ k1.InG1 := by
  induction seq with
  | nil => intro k hk; exact ⟨k, rfl, hk⟩
  | cons m seq ih =>
    intro k hk
    have hm := hseq m (List.mem_cons_self _ _)
    obtain ⟨k1, h1, h2⟩ := ih (fun x hx => hseq x (List.mem_cons_of_mem _ hx)) _ (inG1_step k m hm hk)
    refine ⟨k1, ?_, h2⟩
    simp only [apply_sequence, List.foldlM_cons,
      apply_move_eq k m (phase2_moves_lt m hm) hk.1.1 hk.1.2.1, Option.bind_eq_bind,
      Option.some_bind]
    exact h1

/-- C7. G1 is closed under the Phase-2 moves: every finite sequence of moves
drawn from `Phase2Coord::AVAILABLE_MOVES` applies to the solved cube, and the
cube obtained has Phase-1 coordinates `(CO, EO, UDS) = (0, 0, 0)`. -/
theorem g1_closed (seq : List Move) (hseq : ∀ m ∈ seq, m ∈ Phase2Coord.AVAILABLE_MOVES) :
    ∃ k, apply_sequence Cube.solved seq = some k ∧
      Phase1Coord.encode_corner_orientation k = 0 ∧
      Phase1Coord.encode_edge_orientation k = 0 ∧
      Phase1Coord.encode_ud_slice_position k = 0 := by
  obtain ⟨k, h1, h2⟩ := inG1_sequence seq hseq Cube.solved solved_inG1
  exact ⟨k, h1, inG1_coords k h2⟩

theorem g1_closed_witness :
    ∃ k, apply_sequence Cube.solved [Move.U1, Move.R3, Move.D2, Move.F3] = some k ∧
      Phase1Coord.encode_corner_orientation k = 0 ∧
      Phase1Coord.encode_edge_orientation k = 0 ∧
      Phase1Coord.encode_ud_slice_position k = 0 :=
  g1_closed [Move.U1, Move.R3, Move.D2, Move.F3] (by decide)

theorem coDigits_zero : coDigits 0 = [0, 0, 0, 0, 0, 0, 0, 0] := by decide

theorem eoDigits_zero : eoDigits 0 = [0, 0, 0, 0, 0, 0, 0, 0, 0, 0, 0, 0] := by decide

theorem permOfRank_eight_zero : permOfRank 8 0 = [0, 1, 2, 3, 4, 5, 6, 7] := by decide

theorem permOfRank_four_zero : permOfRank 4 0 = [8, 9, 10, 11] := by decide

theorem solved_coordinates :
    Phase1Coord.encode_corner_orientation Cube.solved = 0 ∧
    Phase1Coord.encode_edge_orientation Cube.solved = 0 ∧
    Phase1Coord.encode_ud_slice_position Cube.solved = 0 ∧
    Phase2Coord.encode_corner_permutation Cube.solved = some 0 ∧
    Phase2Coord.encode_ud_edge_permutation Cube.solved = some 0 ∧
    Phase2Coord.encode_slice_edge_permutation Cube.solved = some 0 :=
  ⟨by decide, by decide, solved_uds_zero, by decide, by decide, by decide⟩

/-- On arrays of the right sizes `is_solved` holds of the solved cube only. -/
theorem is_solved_iff (k : Cube) (hc : k.corners.length = 8) (he : k.edges.length = 12) :
    is_solved k = true ↔ k = Cube.solved := by
  obtain ⟨cs, es⟩ := k
  simp only at hc he
  obtain ⟨⟨p0, o0⟩, ⟨p1, o1⟩, ⟨p2, o2⟩, ⟨p3, o3⟩, ⟨p4, o4⟩, ⟨p5, o5⟩, ⟨p6, o6⟩, ⟨p7, o7⟩, rfl⟩ :=
    list_length_eight cs hc
  obtain ⟨⟨q0, r0⟩, ⟨q1, r1⟩, ⟨q2, r2⟩, ⟨q3, r3⟩, ⟨q4, r4⟩, ⟨q5, r5⟩, ⟨q6, r6⟩, ⟨q7, r7⟩,
    ⟨q8, r8⟩, ⟨q9, r9⟩, ⟨q10, r10⟩, ⟨q11, r11⟩, rfl⟩ := list_length_twelve es he
  simp only [is_solved, Cube.solved, range8, range12, List.all_cons, List.all_nil,
    List.getD_cons_zero, List.getD_cons_succ, List.map_cons, List.map_nil, Bool.and_true,
    Bool.and_eq_true, Bool.not_eq_true', Bool.or_eq_false_iff, bne_eq_false_iff_eq,
    Cube.mk.injEq, List.cons.injEq, Corner.mk.injEq, Edge.mk.injEq, and_true]

/-- A legal cube with Phase-1 coordinates zero is inside G1. -/
theorem legal_zero_inG1 (k : Cube) (hk : k.Legal)
    (h1 : Phase1Coord.encode_corner_orientation k = 0)
    (h2 : Phase1Coord.encode_edge_orientation k = 0)
    (h3 : Phase1Coord.encode_ud_slice_position k = 0) : k.InG1 := by
  have hco := (legal_co k hk).2
  have heo := (legal_eo k hk).2
  rw [h1, coDigits_zero] at hco
  rw [h2, eoDigits_zero] at heo
  refine ⟨legal_uds_zero k hk h3, ?_, ?_⟩
  · intro c hc
    have : c.orientation ∈ k.corners.map (fun c => c.orientation) :=
      List.mem_map.mpr ⟨c, hc, rfl⟩
    rw [← hco] at this
    simpa using this
  · intro e he
    have : e.orientation ∈ k.edges.map (fun e => e.orientation) :=
      List.mem_map.mpr ⟨e, he, rfl⟩
    rw [← heo] at this
    simpa using this

/-- Inside G1 the cube with Phase-2 coordinates zero is the solved one. -/
theorem inG1_zero_solved (k : Cube) (hk : k.InG1)
    (h4 : Phase2Coord.encode_corner_permutation k = some 0)
    (h5 : Phase2Coord.encode_ud_edge_permutation k = some 0)
    (h6 : Phase2Coord.encode_slice_edge_permutation k = some 0) : k = Cube.solved := by
  obtain ⟨hg, hco, heo⟩ := hk
  have hcp := (permOfRank_encode 8 40320 lehmerSpan_eight _ hg.2.2.2.2.1 0 h4).2
  have hup := (permOfRank_encode 8 40320 lehmerSpan_eight _ hg.2.2.2.2.2.1 0 h5).2
  have hsp := (permOfRank_encode 4 24 lehmerSpan_four _ hg.2.2.2.2.2.2 0 h6).2
  rw [permOfRank_eight_zero] at hcp hup
  rw [permOfRank_four_zero] at hsp
  obtain ⟨cs, es⟩ := k
  obtain ⟨⟨p0, o0⟩, ⟨p1, o1⟩, ⟨p2, o2⟩, ⟨p3, o3⟩, ⟨p4, o4⟩, ⟨p5, o5⟩, ⟨p6, o6⟩, ⟨p7, o7⟩,
    hcs⟩ := list_length_eight cs hg.1
  obtain ⟨⟨q0, r0⟩, ⟨q1, r1⟩, ⟨q2, r2⟩, ⟨q3, r3⟩, ⟨q4, r4⟩, ⟨q5, r5⟩, ⟨q6, r6⟩, ⟨q7, r7⟩,
    ⟨q8, r8⟩, ⟨q9, r9⟩, ⟨q10, r10⟩, ⟨q11, r11⟩, hes⟩ := list_length_twelve es hg.2.1
  subst hcs hes
  simp only [Phase2Coord.corner_pieces, Phase2Coord.edge_pieces, List.drop_succ_cons,
    List.drop_zero, List.take_succ_cons, List.take_zero, List.map_cons, List.map_nil,
    List.cons.injEq, and_true, List.mem_cons, List.mem_singleton, forall_eq_or_imp, forall_eq,
    List.not_mem_nil, IsEmpty.forall_iff, implies_true] at hco heo hcp hup hsp
  simp only [Cube.solved, range8, range12, List.map_cons, List.map_nil,
    Cube.mk.injEq, List.cons.injEq, Corner.mk.injEq, Edge.mk.injEq, and_true]
  omega

/-- C6. The six coordinates characterise the solved state: for every cube `k`
reachable from the solved cube, `is_solved k` holds if and only if
`CO k = EO k = UDS k = 0` and the three Phase-2 encoders return 0. -/
theorem solved_iff_coordinates_zero (k : Cube) (hk : Reachable k) :
    is_solved k = true ↔
      (Phase1Coord.encode_corner_orientation k = 0 ∧
       Phase1Coord.encode_edge_orientation k = 0 ∧
       Phase1Coord.encode_ud_slice_position k = 0 ∧
       Phase2Coord.encode_corner_permutation k = some 0 ∧
       Phase2Coord.encode_ud_edge_permutation k = some 0 ∧
       Phase2Coord.encode_slice_edge_permutation k = some 0) := by
  have hleg := reachable_legal k hk
  rw [is_solved_iff k hleg.1 hleg.2.1]
  constructor
  · intro h
    rw [h]
    exact solved_coordinates
  · rintro ⟨h1, h2, h3, h4, h5, h6⟩
    exact inG1_zero_solved k (legal_zero_inG1 k hleg h1 h2 h3) h4 h5 h6

theorem solved_iff_coordinates_zero_witness :
    is_solved Cube.solved = true ↔
      (Phase1Coord.encode_corner_orientation Cube.solved = 0 ∧
       Phase1Coord.encode_edge_orientation Cube.solved = 0 ∧
       Phase1Coord.encode_ud_slice_position Cube.solved = 0 ∧
       Phase2Coord.encode_corner_permutation Cube.solved = some 0 ∧
       Phase2Coord.encode_ud_edge_permutation Cube.solved = some 0 ∧
       Phase2Coord.encode_slice_edge_permutation Cube.solved = some 0) :=
  solved_iff_coordinates_zero Cube.solved Reachable.solved

/-! ### Soundness of the endgame databases -/


theorem foldl_invariant_mem {α β : Type} (P : α → Prop) (f : α → β → α) (l : List β) (a : α)
    (h0 : P a) (hs : ∀ a, ∀ b ∈ l, P a → P (f a b)) : P (l.foldl f a) := by
  induction l generalizing a with
  | nil => exact h0
  | cons b l ih =>
    exact ih (f a b) (hs a b (List.mem_cons_self _ _) h0)
      (fun a1 b1 hb1 => hs a1 b1 (List.mem_cons_of_mem _ hb1))

/-- One pass of the inner loops of `generate_endgame_db` keeps the database
and the queue sound. -/
theorem endgame_expand_sound (moves : List Move)
    (next : (Nat × Nat × Nat) → Move → (Nat × Nat × Nat)) (Good : (Nat × Nat × Nat) → Prop)
    (hclosed : PhaseClosed moves next Good) (MAX_DEPTH current_depth : Nat)
    (st : EndgameDB × List ((Nat × Nat × Nat) × List Move))
    (entry : (Nat × Nat × Nat) × List Move)
    (hst : (∀ e ∈ st.1, EntrySound moves next Good e) ∧
      (∀ e ∈ st.2, QueueSound moves next Good e))
    (hentry : QueueSound moves next Good entry) :
    (∀ e ∈ (TableManager.endgame_expand moves next MAX_DEPTH current_depth st entry).1,
        EntrySound moves next Good e) ∧
    (∀ e ∈ (TableManager.endgame_expand moves next MAX_DEPTH current_depth st entry).2,
        QueueSound moves next Good e) := by
  unfold TableManager.endgame_expand
  apply foldl_invariant_mem
    (fun (st : EndgameDB × List ((Nat × Nat × Nat) × List Move)) =>
      (∀ e ∈ st.1, EntrySound moves next Good e) ∧ (∀ e ∈ st.2, QueueSound moves next Good e))
  · exact hst
  · intro st1 m hm hst1
    obtain ⟨hg, hmv, hfol⟩ := hentry
    obtain ⟨hg2, hinv, hback⟩ := hclosed.2 entry.1 m hg hm
    have hmoves : ∀ x ∈ entry.2 ++ [invert_move m], x ∈ moves := by
      intro x hx
      rcases List.mem_append.mp hx with h | h
      · exact hmv x h
      · rw [List.mem_singleton.mp h]; exact hinv
    have hfol2 : follow next (next entry.1 m) (entry.2 ++ [invert_move m]).reverse = (0, 0, 0) := by
      rw [List.reverse_append, List.reverse_singleton, List.singleton_append]
      simp only [follow, List.foldl_cons, hback]
      exact hfol
    simp only
    split
    · refine ⟨?_, ?_⟩
      · intro e he
        rcases List.mem_cons.mp he with h | h
        · rw [h]
          exact ⟨next entry.1 m, hg2, rfl,
            fun x hx => hmoves x (List.mem_reverse.mp hx), hfol2⟩
        · exact hst1.1 e h
      · intro e he
        split at he
        · rcases List.mem_append.mp he with h | h
          · exact hst1.2 e h
          · rw [List.mem_singleton.mp h]
            exact ⟨hg2, hmoves, hfol2⟩
        · exact hst1.2 e he
    · exact hst1

theorem foldl_invariant_list {α β : Type} (P : α → Prop) (Q : β → Prop) (f : α → β → α)
    (l : List β) (a : α) (h0 : P a) (hl : ∀ b ∈ l, Q b)
    (hs : ∀ a b, P a → Q b → P (f a b)) : P (l.foldl f a) := by
  induction l generalizing a with
  | nil => exact h0
  | cons b l ih =>
    exact ih (f a b) (hs a b h0 (hl b (List.mem_cons_self _ _)))
      (fun b1 hb1 => hl b1 (List.mem_cons_of_mem _ hb1))

/-- Every entry of a database `generate_endgame_db` returns is sound. -/
theorem endgame_loop_sound (moves : List Move)
    (next : (Nat × Nat × Nat) → Move → (Nat × Nat × Nat)) (Good : (Nat × Nat × Nat) → Prop)
    (hclosed : PhaseClosed moves next Good) (MAX_DEPTH : Nat) :
    ∀ (fuel : Nat) (db : EndgameDB) (q : List ((Nat × Nat × Nat) × List Move))
      (current_depth : Nat) (result : EndgameDB),
      (∀ e ∈ db, EntrySound moves next Good e) → (∀ e ∈ q, QueueSound moves next Good e) →
      TableManager.endgame_loop moves next MAX_DEPTH fuel db q current_depth
        = Result.value result →
      ∀ e ∈ result, EntrySound moves next Good e := by
  intro fuel
  induction fuel with
  | zero =>
    intro db q d result _ _ h
    simp only [TableManager.endgame_loop] at h
    exact Result.noConfusion h
  | succ fuel ih =>
    intro db q d result hdb hq h
    simp only [TableManager.endgame_loop] at h
    split at h
    · cases h
      exact hdb
    · have hst := foldl_invariant_list
        (fun (st : EndgameDB × List ((Nat × Nat × Nat) × List Move)) =>
          (∀ e ∈ st.1, EntrySound moves next Good e) ∧
          (∀ e ∈ st.2, QueueSound moves next Good e))
        (QueueSound moves next Good)
        (TableManager.endgame_expand moves next MAX_DEPTH d) q (db, [])
        ⟨hdb, fun e he => absurd he (List.not_mem_nil e)⟩ hq
        (fun st entry hst hentry =>
          endgame_expand_sound moves next Good hclosed MAX_DEPTH d st entry hst hentry)
      exact ih _ _ _ result hst.1 hst.2 h

/-- Every entry of the database `generate_endgame_db` builds is sound. -/
theorem generate_endgame_db_sound (PHASE : Nat)
    (next : (Nat × Nat × Nat) → Move → (Nat × Nat × Nat)) (Good : (Nat × Nat × Nat) → Prop)
    (hclosed : PhaseClosed (TableManager.phase_moves PHASE) next Good) (db : EndgameDB)
    (h : TableManager.generate_endgame_db PHASE next = Result.value db) :
    ∀ e ∈ db, EntrySound (TableManager.phase_moves PHASE) next Good e := by
  apply endgame_loop_sound _ next Good hclosed _ _ _ _ _ db _ _ h
  · intro e he
    rw [List.mem_singleton.mp he]
    exact ⟨(0, 0, 0), hclosed.1, by decide, fun m hm => absurd hm (List.not_mem_nil m), rfl⟩
  · intro e he
    rw [List.mem_singleton.mp he]
    exact ⟨hclosed.1, fun m hm => absurd hm (List.not_mem_nil m), rfl⟩

/-- For 16-bit fields the packed key is `x1 * 2^32 + x2 * 2^16 + x3`. -/
theorem get_key_eq (x : Nat × Nat × Nat) (h2 : x.2.1 < 65536) (h3 : x.2.2 < 65536) :
    TableManager.get_key x = x.1 * 4294967296 + x.2.1 * 65536 + x.2.2 := by
  unfold TableManager.get_key
  have e1 : x.1 <<< 32 = 2 ^ 32 * x.1 := by rw [Nat.shiftLeft_eq, Nat.mul_comm]
  have e2 : x.2.1 <<< 16 = 2 ^ 16 * x.2.1 := by rw [Nat.shiftLeft_eq, Nat.mul_comm]
  have a1 : 2 ^ 16 * x.2.1 + x.2.2 = 2 ^ 16 * x.2.1 ||| x.2.2 :=
    Nat.mul_add_lt_is_or (by norm_num; exact h3) _
  have a2 : 2 ^ 32 * x.1 + (2 ^ 16 * x.2.1 + x.2.2) = 2 ^ 32 * x.1 ||| (2 ^ 16 * x.2.1 + x.2.2) :=
    Nat.mul_add_lt_is_or (by norm_num; omega) _
  rw [e1, e2, Nat.lor_assoc, ← a1, ← a2]
  norm_num
  omega

theorem get_key_injective (x y : Nat × Nat × Nat)
    (hx2 : x.2.1 < 65536) (hx3 : x.2.2 < 65536) (hy2 : y.2.1 < 65536) (hy3 : y.2.2 < 65536)
    (h : TableManager.get_key x = TableManager.get_key y) : x = y := by
  rw [get_key_eq x hx2 hx3, get_key_eq y hy2 hy3] at h
  obtain ⟨x1, x2, x3⟩ := x
  obtain ⟨y1, y2, y3⟩ := y
  simp only at hx2 hx3 hy2 hy3 h
  simp only [Prod.mk.injEq]
  omega

/-! ### Soundness of the search -/


theorem take_set_set {T : Type} (l : List T) (d e : Nat) (v w : T) (h : e ≤ d) :
    ((l.set d v).set e w).take (e + 1) = (l.set e w).take (e + 1) := by
  apply List.ext_getElem?
  intro j
  by_cases hj : j < e + 1
  · rw [List.getElem?_take_of_lt hj, List.getElem?_take_of_lt hj]
    by_cases hje : e = j
    · subst hje
      simp only [List.getElem?_set, if_true, List.length_set]
    · rw [List.getElem?_set_ne hje, List.getElem?_set_ne hje, List.getElem?_set_ne (by omega)]
  · rw [List.getElem?_eq_none (by simp; omega), List.getElem?_eq_none (by simp; omega)]

theorem take_set_of_le {T : Type} (l : List T) (d k : Nat) (v : T) (h : k ≤ d) :
    (l.set d v).take k = l.take k := by
  apply List.ext_getElem?
  intro j
  by_cases hj : j < k
  · rw [List.getElem?_take_of_lt hj, List.getElem?_take_of_lt hj, List.getElem?_set_ne (by omega)]
  · rw [List.getElem?_eq_none (by simp; omega), List.getElem?_eq_none (by simp; omega)]

/-- Writing the path at a depth at least that of an entry keeps the entry in
agreement with the path. -/
theorem nodeOK_frame (moves : List Move) (next : (Nat × Nat × Nat) → Move → (Nat × Nat × Nat))
    (Good : (Nat × Nat × Nat) → Prop) (x0 : Nat × Nat × Nat) (path : List Move)
    (s : SearchState) (d : Nat) (v : Move) (hd : s.depth ≤ d)
    (h : NodeOK moves next Good x0 path s) : NodeOK moves next Good x0 (path.set d v) s := by
  obtain ⟨h1, h2, h3, h4, h5⟩ := h
  have hp : pathTo (path.set d v) s = pathTo path s := by
    unfold pathTo
    rw [take_set_set path d s.depth v s.last_move hd]
  have h0 : ((path.set d v).set s.depth s.last_move).take 1
      = (path.set s.depth s.last_move).take 1 := by
    have := congrArg (List.take 1) (take_set_set path d s.depth v s.last_move hd)
    rw [List.take_take, List.take_take] at this
    have hmin : min 1 (s.depth + 1) = 1 := by omega
    rw [hmin] at this
    exact this
  refine ⟨by rw [List.length_set]; exact h1, h2, by rw [h0]; exact h3, ?_, ?_⟩
  · rw [hp]; exact h4
  · rw [hp]; exact h5

/-- A child pushed at an expansion agrees with the path. -/
theorem nodeOK_child (moves : List Move) (next : (Nat × Nat × Nat) → Move → (Nat × Nat × Nat))
    (Good : (Nat × Nat × Nat) → Prop) (hclosed : PhaseClosed moves next Good)
    (x0 : Nat × Nat × Nat) (path : List Move) (s : SearchState) (m : Move) (hm : m ∈ moves)
    (h : NodeOK moves next Good x0 path s) (hlen : s.depth + 1 < path.length) (hh : Nat) :
    NodeOK moves next Good x0 (path.set s.depth s.last_move)
      { x1 := (next (s.x1, s.x2, s.x3) m).1, x2 := (next (s.x1, s.x2, s.x3) m).2.1,
        x3 := (next (s.x1, s.x2, s.x3) m).2.2, last_move := m, depth := s.depth + 1, h := hh } := by
  obtain ⟨h1, h2, h3, h4, h5⟩ := h
  have hp : pathTo (path.set s.depth s.last_move)
      { x1 := (next (s.x1, s.x2, s.x3) m).1, x2 := (next (s.x1, s.x2, s.x3) m).2.1,
        x3 := (next (s.x1, s.x2, s.x3) m).2.2, last_move := m, depth := s.depth + 1, h := hh }
      = pathTo path s ++ [m] := by
    unfold pathTo
    simp only
    have hl : s.depth + 1 < (path.set s.depth s.last_move).length := by
      rw [List.length_set]; exact hlen
    rw [List.take_succ, List.getElem?_set_self hl, take_set_of_le _ _ _ _ (Nat.le_refl _)]
    simp only [Option.toList_some]
    rw [List.drop_append_of_le_length (by simp; omega)]
  refine ⟨by rw [List.length_set]; exact hlen, (hclosed.2 _ m h2 hm).1, ?_, ?_, ?_⟩
  · simp only
    rw [take_set_of_le _ _ _ _ (by omega)]
    exact h3
  · rw [hp]
    intro x hx
    rcases List.mem_append.mp hx with h | h
    · exact h4 x h
    · rw [List.mem_singleton.mp h]; exact hm
  · rw [hp]
    simp only [follow, List.foldl_append, List.foldl_cons, List.foldl_nil]
    have : List.foldl next x0 (pathTo path s) = (s.x1, s.x2, s.x3) := h5
    rw [this]

theorem lookup_mem (db : EndgameDB) (key : Nat) (path : List Move)
    (h : db.lookup key = some path) : (key, path) ∈ db := by
  induction db with
  | nil => simp at h
  | cons e db ih =>
    obtain ⟨k1, p1⟩ := e
    simp only [List.lookup_cons] at h
    split at h
    · rename_i heq
      cases h
      have : key = k1 := by simpa using heq
      rw [this]
      exact List.mem_cons_self _ _
    · exact List.mem_cons_of_mem _ (ih h)

theorem filter_real (moves : List Move) (hreal : ∀ m ∈ moves, m < 18) (l : List Move)
    (hl : ∀ m ∈ l, m ∈ moves) : l.filter (fun m => m ≠ Move.COUNT) = l := by
  apply List.filter_eq_self.mpr
  intro m hm
  have := hreal m (hl m hm)
  simp only [Move.COUNT, ne_eq, decide_not, Bool.not_eq_true', decide_eq_false_iff_not]
  dsimp only [Move] at *
  omega

theorem filter_count_cons (l : List Move) :
    (Move.COUNT :: l).filter (fun m => m ≠ Move.COUNT) = l.filter (fun m => m ≠ Move.COUNT) := by
  simp [List.filter_cons]

/-- The path of a popped entry, cut at its depth, is the sentinel followed by
the moves to the entry. -/
theorem take_eq_count_pathTo (moves : List Move)
    (next : (Nat × Nat × Nat) → Move → (Nat × Nat × Nat)) (Good : (Nat × Nat × Nat) → Prop)
    (x0 : Nat × Nat × Nat) (path : List Move) (s : SearchState)
    (h : NodeOK moves next Good x0 path s) :
    (path.set s.depth s.last_move).take (s.depth + 1) = Move.COUNT :: pathTo path s := by
  obtain ⟨_, _, h3, _, _⟩ := h
  have h1 := (List.take_append_drop 1 ((path.set s.depth s.last_move).take (s.depth + 1))).symm
  rw [List.take_take] at h1
  have hmin : min 1 (s.depth + 1) = 1 := by omega
  rw [hmin, h3] at h1
  exact h1

theorem scored_moves_mem (S : Solver) (PHASE : Nat) (MOVES : List Move) (max_depth : Nat)
    (current c : SearchState) (hc : c ∈ S.scored_moves PHASE MOVES max_depth current) :
    ∃ m ∈ MOVES, ∃ hh, current.depth + 1 + hh ≤ max_depth ∧
      c = { x1 := (S.get_next_coord PHASE (current.x1, current.x2, current.x3) m).1,
            x2 := (S.get_next_coord PHASE (current.x1, current.x2, current.x3) m).2.1,
            x3 := (S.get_next_coord PHASE (current.x1, current.x2, current.x3) m).2.2,
            last_move := m, depth := current.depth + 1, h := hh } := by
  unfold Solver.scored_moves at hc
  obtain ⟨m, hm, hsome⟩ := List.mem_filterMap.mp hc
  refine ⟨m, hm, ?_⟩
  simp only at hsome
  split_ifs at hsome with h1 h2 h3 h4
  · cases hsome
    exact ⟨_, h3, rfl⟩
  · cases hsome
    exact ⟨_, h4, rfl⟩

/-- The expansion of a popped entry: a solution, or a stack and path that
keep the invariant. -/
theorem expand_sound (S : Solver) (PHASE : Nat) (moves : List Move)
    (Good : (Nat × Nat × Nat) → Prop) (hS : SearchSetting S PHASE moves Good)
    (x0 : Nat × Nat × Nat) (max_depth : Nat) (current : SearchState) (hnew : Nat)
    (stack : List SearchState) (path : List Move)
    (hinv : StackInv moves (S.get_next_coord PHASE) Good x0 path (current :: stack))
    (hmax : max_depth < path.length) :
    (current.x1 = 0 ∧ current.x2 = 0 ∧ current.x3 = 0 ∧
      PhaseSolution moves (S.get_next_coord PHASE) x0
        ((path.set current.depth current.last_move).take (current.depth + 1))) ∨
    (¬ (current.x1 = 0 ∧ current.x2 = 0 ∧ current.x3 = 0) ∧
      StackInv moves (S.get_next_coord PHASE) Good x0 (path.set current.depth current.last_move)
        (S.sort (S.scored_moves PHASE moves max_depth { current with h := hnew }) ++ stack)) := by
  obtain ⟨hpw, hall⟩ := hinv
  have hcur := hall current (List.mem_cons_self _ _)
  have htake := take_eq_count_pathTo _ _ _ _ _ _ hcur
  by_cases hz : current.x1 = 0 ∧ current.x2 = 0 ∧ current.x3 = 0
  · left
    refine ⟨hz.1, hz.2.1, hz.2.2, ?_⟩
    unfold PhaseSolution
    rw [htake, filter_count_cons, filter_real moves hS.real _ hcur.2.2.2.1]
    refine ⟨hcur.2.2.2.1, ?_⟩
    rw [hcur.2.2.2.2, hz.1, hz.2.1, hz.2.2]
  · right
    refine ⟨hz, ?_, ?_⟩
    · rw [List.pairwise_append]
      refine ⟨?_, (List.pairwise_cons.mp hpw).2, ?_⟩
      · apply List.Pairwise.imp_of_mem (R := fun _ _ => True) _ (List.pairwise_of_forall
          (fun _ _ => trivial))
        intro a b ha hb _
        obtain ⟨_, _, _, _, rfl⟩ := scored_moves_mem S PHASE moves max_depth _ a
          (hS.sort_mem _ a ha)
        obtain ⟨_, _, _, _, rfl⟩ := scored_moves_mem S PHASE moves max_depth _ b
          (hS.sort_mem _ b hb)
        exact Nat.le_refl _
      · intro a ha b hb
        obtain ⟨_, _, _, _, rfl⟩ := scored_moves_mem S PHASE moves max_depth _ a
          (hS.sort_mem _ a ha)
        have := (List.pairwise_cons.mp hpw).1 b hb
        simp only
        omega
    · intro s hs
      rcases List.mem_append.mp hs with h | h
      · obtain ⟨m, hm, hh, hle, rfl⟩ := scored_moves_mem S PHASE moves max_depth _ s
          (hS.sort_mem _ s h)
        exact nodeOK_child moves _ Good hS.closed x0 path current m hm hcur
          (by simp only at hle; omega) hh
      · exact nodeOK_frame moves _ Good x0 path s _ _
          ((List.pairwise_cons.mp hpw).1 s h) (hall s (List.mem_cons_of_mem _ h))

/-- One pass of the loop of `search_iterative`: a solution, or a stack and
path that keep the invariant. -/
theorem search_step_sound (S : Solver) (PHASE : Nat) (moves : List Move)
    (Good : (Nat × Nat × Nat) → Prop) (hS : SearchSetting S PHASE moves Good)
    (x0 : Nat × Nat × Nat) (max_depth : Nat) (current : SearchState)
    (stack : List SearchState) (path : List Move)
    (hinv : StackInv moves (S.get_next_coord PHASE) Good x0 path (current :: stack))
    (hmax : max_depth < path.length) :
    match S.search_step PHASE moves max_depth current stack path with
    | Solver.SearchStep.found solution =>
      PhaseSolution moves (S.get_next_coord PHASE) x0 solution
    | Solver.SearchStep.continue stack1 path1 =>
      StackInv moves (S.get_next_coord PHASE) Good x0 path1 stack1 ∧
      path1.length = path.length := by
  have hcur := hinv.2 current (List.mem_cons_self _ _)
  have htake := take_eq_count_pathTo _ _ _ _ _ _ hcur
  have hexp : ∀ hnew : Nat,
      match (if current.x1 = 0 ∧ current.x2 = 0 ∧ current.x3 = 0 then
          Solver.SearchStep.found
            ((path.set current.depth current.last_move).take (current.depth + 1))
        else
          Solver.SearchStep.continue
            (S.sort (S.scored_moves PHASE moves max_depth { current with h := hnew }) ++ stack)
            (path.set current.depth current.last_move)) with
      | Solver.SearchStep.found solution =>
        PhaseSolution moves (S.get_next_coord PHASE) x0 solution
      | Solver.SearchStep.continue stack1 path1 =>
        StackInv moves (S.get_next_coord PHASE) Good x0 path1 stack1 ∧
        path1.length = path.length := by
    intro hnew
    rcases expand_sound S PHASE moves Good hS x0 max_depth current hnew stack path hinv hmax
      with ⟨h1, h2, h3, h4⟩ | ⟨h1, h2⟩
    · rw [if_pos ⟨h1, h2, h3⟩]
      exact h4
    · rw [if_neg h1]
      exact ⟨h2, List.length_set _ _ _⟩
  have hskip : StackInv moves (S.get_next_coord PHASE) Good x0
      (path.set current.depth current.last_move) stack := by
    refine ⟨(List.pairwise_cons.mp hinv.1).2, ?_⟩
    intro s hs
    exact nodeOK_frame moves _ Good x0 path s _ _
      ((List.pairwise_cons.mp hinv.1).1 s hs) (hinv.2 s (List.mem_cons_of_mem _ hs))
  unfold Solver.search_step
  simp only
  by_cases hh : current.h ≤ Solver.ENDGAME_DB_MAX_DEPTH PHASE
  · rw [if_pos hh]
    cases hlook : S.tables_.search_endgame_db PHASE (current.x1, current.x2, current.x3) with
    | some endgame_path =>
      simp only
      have hmem : (TableManager.get_key (current.x1, current.x2, current.x3), endgame_path)
          ∈ S.tables_.get_endgame_db PHASE := by
        unfold TableManager.search_endgame_db at hlook
        exact lookup_mem _ _ _ hlook
      obtain ⟨x, hgx, hkey, hmoves, hfol⟩ := hS.db_sound _ hmem
      have hx : x = (current.x1, current.x2, current.x3) :=
        get_key_injective _ _ (hS.bounded x hgx).1 (hS.bounded x hgx).2
          (hS.bounded _ hcur.2.1).1 (hS.bounded _ hcur.2.1).2 hkey
      subst hx
      have hall : ∀ m ∈ pathTo path current ++ endgame_path, m ∈ moves := by
        intro m hm
        rcases List.mem_append.mp hm with h | h
        · exact hcur.2.2.2.1 m h
        · exact hmoves m h
      unfold PhaseSolution
      rw [htake, List.cons_append, filter_count_cons, filter_real moves hS.real _ hall]
      refine ⟨hall, ?_⟩
      simp only [follow, List.foldl_append]
      have h5 : List.foldl (S.get_next_coord PHASE) x0 (pathTo path current)
          = (current.x1, current.x2, current.x3) := hcur.2.2.2.2
      rw [h5]
      exact hfol
    | none =>
      simp only
      by_cases he : S.enhanced = true
      · rw [if_pos he]
        by_cases hd : current.depth + Solver.ENDGAME_DB_MAX_DEPTH PHASE > max_depth
        · rw [if_pos hd]
          exact ⟨hskip, List.length_set _ _ _⟩
        · rw [if_neg hd]
          exact hexp _
      · rw [if_neg he]
        exact hexp current.h
  · rw [if_neg hh]
    exact hexp current.h

/-- A search that returns a path returns a solution of the phase. -/
theorem search_iterative_sound (S : Solver) (PHASE : Nat) (moves : List Move)
    (Good : (Nat × Nat × Nat) → Prop) (hS : SearchSetting S PHASE moves Good)
    (x0 : Nat × Nat × Nat) (max_depth : Nat) (solution : List Move) :
    ∀ (fuel : Nat) (stack : List SearchState) (path : List Move),
      StackInv moves (S.get_next_coord PHASE) Good x0 path stack → max_depth < path.length →
      S.search_iterative PHASE moves max_depth fuel stack path = Result.value (some solution) →
      PhaseSolution moves (S.get_next_coord PHASE) x0 solution := by
  intro fuel
  induction fuel with
  | zero =>
    intro stack path _ _ h
    simp only [Solver.search_iterative] at h
    exact Result.noConfusion h
  | succ fuel ih =>
    intro stack path hinv hmax h
    cases stack with
    | nil =>
      simp only [Solver.search_iterative] at h
      cases h
    | cons current stack =>
      simp only [Solver.search_iterative] at h
      have hstep := search_step_sound S PHASE moves Good hS x0 max_depth current stack path
        hinv hmax
      cases hs : S.search_step PHASE moves max_depth current stack path with
      | found sol =>
        rw [hs] at h hstep
        simp only at h hstep
        cases h
        exact hstep
      | «continue» stack1 path1 =>
        rw [hs] at h hstep
        simp only at h hstep
        exact ih stack1 path1 hstep.1 (by rw [hstep.2]; exact hmax) h

/-- The loop of `ida_star` returns solutions of the phase only. -/
theorem ida_star_loop_sound (S : Solver) (PHASE : Nat) (moves : List Move)
    (Good : (Nat × Nat × Nat) → Prop) (hS : SearchSetting S PHASE moves Good)
    (x0 : Nat × Nat × Nat) (hx0 : Good x0) (min_depth limit : Nat) (solution : List Move) :
    ∀ (count max_depth : Nat), (count = 0 ∨ max_depth + count ≤ limit + 1) →
      S.ida_star_loop PHASE moves x0 min_depth limit count max_depth
        = Result.value (some solution) →
      PhaseSolution moves (S.get_next_coord PHASE) x0 solution := by
  intro count
  induction count with
  | zero =>
    intro max_depth _ h
    simp only [Solver.ida_star_loop] at h
    cases h
  | succ count ih =>
    intro max_depth hle h
    have hle : max_depth + (count + 1) ≤ limit + 1 := by
      rcases hle with h0 | h0
      · omega
      · exact h0
    simp only [Solver.ida_star_loop] at h
    have hroot : StackInv moves (S.get_next_coord PHASE) Good x0
        (List.replicate (limit + 1) Move.U1)
        [{ x1 := x0.1, x2 := x0.2.1, x3 := x0.2.2, last_move := Move.COUNT, depth := 0,
           h := min_depth }] := by
      refine ⟨List.pairwise_singleton _ _, ?_⟩
      intro s hs
      rw [List.mem_singleton.mp hs]
      refine ⟨by simp, hx0, ?_, ?_, ?_⟩
      · simp [List.replicate_succ]
      · intro m hm
        simp [pathTo, List.replicate_succ] at hm
      · simp [pathTo, follow, List.replicate_succ]
    cases hsearch : S.search_iterative PHASE moves max_depth (Solver.search_fuel max_depth)
        [{ x1 := x0.1, x2 := x0.2.1, x3 := x0.2.2, last_move := Move.COUNT, depth := 0,
           h := min_depth }]
        (List.replicate (limit + 1) Move.U1) with
    | value r =>
      rw [hsearch] at h
      cases r with
      | none =>
        simp only at h
        exact ih (max_depth + 1) (Or.inr (by omega)) h
      | some sol =>
        simp only at h
        cases h
        exact search_iterative_sound S PHASE moves Good hS x0 max_depth solution _ _ _ hroot
          (by simp; omega) hsearch
    | exception =>
      rw [hsearch] at h
      simp only at h
      cases h
    | out_of_fuel =>
      rw [hsearch] at h
      simp only at h
      cases h

/-- A call of `ida_star` that returns `true` leaves a solution of the phase. -/
theorem ida_star_sound (S : Solver) (PHASE : Nat)
    (Good : (Nat × Nat × Nat) → Prop)
    (hS : SearchSetting S PHASE (TableManager.phase_moves PHASE) Good)
    (solved : Bool) (x0 : Nat × Nat × Nat) (hx0 : Good x0)
    (hsolved : solved = true → x0 = (0, 0, 0)) (limit : Nat) (solution : List Move)
    (h : S.ida_star PHASE solved x0 limit = Result.value (some solution)) :
    PhaseSolution (TableManager.phase_moves PHASE) (S.get_next_coord PHASE) x0 solution := by
  unfold Solver.ida_star at h
  by_cases hs : solved = true
  · rw [if_pos hs] at h
    cases h
    refine ⟨fun m hm => by simp at hm, ?_⟩
    rw [hsolved hs]
    rfl
  · rw [if_neg hs] at h
    simp only at h
    exact ida_star_loop_sound S PHASE _ Good hS x0 hx0 _ limit solution _ _ (by omega) h

/-! ### The passes allowed to the search suffice -/

theorem stackWeight_append (md : Nat) (a b : List SearchState) :
    stackWeight md (a ++ b) = stackWeight md a + stackWeight md b := by
  simp [stackWeight]

theorem stackWeight_perm (md : Nat) (a b : List SearchState) (h : a.Perm b) :
    stackWeight md a = stackWeight md b :=
  (h.map _).sum_eq

theorem stackWeight_cons (md : Nat) (s : SearchState) (b : List SearchState) :
    stackWeight md (s :: b) = 19 ^ (md + 1 - s.depth) + stackWeight md b := by
  simp [stackWeight]

/-- The successors kept at an expansion weigh less than the expanded entry. -/
theorem scored_moves_weight (S : Solver) (PHASE : Nat) (MOVES : List Move)
    (hlen : MOVES.length ≤ 18) (md : Nat) (current : SearchState) :
    stackWeight md (S.scored_moves PHASE MOVES md current) < 19 ^ (md + 1 - current.depth) := by
  by_cases hd : current.depth + 1 ≤ md
  · have hb : ∀ x ∈ (S.scored_moves PHASE MOVES md current).map
        (fun s => 19 ^ (md + 1 - s.depth)), x ≤ 19 ^ (md - current.depth) := by
      intro x hx
      obtain ⟨c, hc, rfl⟩ := List.mem_map.mp hx
      obtain ⟨m, _, hh, _, rfl⟩ := scored_moves_mem S PHASE MOVES md current c hc
      have : md + 1 - (current.depth + 1) = md - current.depth := by omega
      simp only [this]
      exact le_refl _
    have h1 := List.sum_le_card_nsmul _ _ hb
    have h2 : (S.scored_moves PHASE MOVES md current).length ≤ 18 :=
      le_trans (List.length_filterMap_le _ _) hlen
    have h3 : md + 1 - current.depth = (md - current.depth) + 1 := by omega
    rw [h3, pow_succ]
    simp only [List.length_map, smul_eq_mul] at h1
    have h4 : 0 < 19 ^ (md - current.depth) := Nat.pow_pos (by omega)
    unfold stackWeight
    calc _ ≤ (S.scored_moves PHASE MOVES md current).length * 19 ^ (md - current.depth) := h1
      _ ≤ 18 * 19 ^ (md - current.depth) := Nat.mul_le_mul_right _ h2
      _ < 19 ^ (md - current.depth) * 19 := by omega
  · have hnil : S.scored_moves PHASE MOVES md current = [] := by
      apply List.eq_nil_iff_forall_not_mem.mpr
      intro c hc
      obtain ⟨m, _, hh, hle, _⟩ := scored_moves_mem S PHASE MOVES md current c hc
      omega
    rw [hnil]
    exact Nat.pow_pos (by omega)

/-- One pass of the loop of `search_iterative` lowers the weight of the stack. -/
theorem search_step_weight (S : Solver) (hsort : ∀ l, (S.sort l).Perm l) (PHASE : Nat)
    (MOVES : List Move) (hlen : MOVES.length ≤ 18) (md : Nat) (current : SearchState)
    (stack : List SearchState) (path : List Move) (stack1 : List SearchState)
    (path1 : List Move)
    (h : S.search_step PHASE MOVES md current stack path
      = Solver.SearchStep.continue stack1 path1) :
    stackWeight md stack1 < stackWeight md (current :: stack) := by
  rw [stackWeight_cons]
  have hpos : 0 < 19 ^ (md + 1 - current.depth) := Nat.pow_pos (by omega)
  have hexp : ∀ c : SearchState, c.depth = current.depth →
      stackWeight md (S.sort (S.scored_moves PHASE MOVES md c) ++ stack)
        < 19 ^ (md + 1 - current.depth) + stackWeight md stack := by
    intro c hc
    rw [stackWeight_append, stackWeight_perm md _ _ (hsort _), ← hc]
    exact Nat.add_lt_add_right (scored_moves_weight S PHASE MOVES hlen md c) _
  unfold Solver.search_step at h
  simp only at h
  split_ifs at h with h1 h2 h3 h4 h5 h6
  all_goals first
    | (split at h <;> first
        | exact Solver.SearchStep.noConfusion h
        | (simp only [Solver.SearchStep.continue.injEq] at h
           obtain ⟨rfl, _⟩ := h
           first
             | exact hexp _ rfl
             | omega))
    | (simp only [Solver.SearchStep.continue.injEq] at h
       obtain ⟨rfl, _⟩ := h
       exact hexp _ rfl)

/-- With more passes than the weight of the stack `search_iterative` returns. -/
theorem search_iterative_fuel (S : Solver) (hsort : ∀ l, (S.sort l).Perm l) (PHASE : Nat)
    (MOVES : List Move) (hlen : MOVES.length ≤ 18) (md : Nat) :
    ∀ (fuel : Nat) (stack : List SearchState) (path : List Move),
      stackWeight md stack < fuel →
      S.search_iterative PHASE MOVES md fuel stack path ≠ Result.out_of_fuel := by
  intro fuel
  induction fuel with
  | zero => intro stack path h; omega
  | succ fuel ih =>
    intro stack path hw
    cases stack with
    | nil =>
      simp only [Solver.search_iterative]
      exact fun h => Result.noConfusion h
    | cons current stack =>
      simp only [Solver.search_iterative]
      cases hs : S.search_step PHASE MOVES md current stack path with
      | found sol =>
        simp only
        exact fun h => Result.noConfusion h
      | «continue» stack1 path1 =>
        simp only
        have := search_step_weight S hsort PHASE MOVES hlen md current stack path stack1 path1 hs
        exact ih stack1 path1 (by omega)

/-- The passes `ida_star` allows to `search_iterative` suffice. -/
theorem ida_star_loop_fuel (S : Solver) (hsort : ∀ l, (S.sort l).Perm l) (PHASE : Nat)
    (MOVES : List Move) (hlen : MOVES.length ≤ 18) (x : Nat × Nat × Nat)
    (min_depth limit : Nat) :
    ∀ (count max_depth : Nat),
      S.ida_star_loop PHASE MOVES x min_depth limit count max_depth ≠ Result.out_of_fuel := by
  intro count
  induction count with
  | zero =>
    intro max_depth
    simp only [Solver.ida_star_loop]
    exact fun h => Result.noConfusion h
  | succ count ih =>
    intro max_depth
    simp only [Solver.ida_star_loop]
    have hf := search_iterative_fuel S hsort PHASE MOVES hlen max_depth
      (Solver.search_fuel max_depth)
      [{ x1 := x.1, x2 := x.2.1, x3 := x.2.2, last_move := Move.COUNT, depth := 0,
         h := min_depth }]
      (List.replicate (limit + 1) Move.U1)
      (by simp [stackWeight, Solver.search_fuel])
    cases hsearch : S.search_iterative PHASE MOVES max_depth (Solver.search_fuel max_depth)
        [{ x1 := x.1, x2 := x.2.1, x3 := x.2.2, last_move := Move.COUNT, depth := 0,
           h := min_depth }]
        (List.replicate (limit + 1) Move.U1) with
    | value r =>
      cases r with
      | none => exact ih (max_depth + 1)
      | some sol => exact fun h => Result.noConfusion h
    | exception => exact fun h => Result.noConfusion h
    | out_of_fuel => exact absurd hsearch hf

theorem phase_moves_length (PHASE : Nat) : (TableManager.phase_moves PHASE).length ≤ 18 := by
  unfold TableManager.phase_moves
  split <;> decide

theorem ida_star_fuel (S : Solver) (hsort : ∀ l, (S.sort l).Perm l) (PHASE : Nat)
    (solved : Bool) (x : Nat × Nat × Nat) (limit : Nat) :
    S.ida_star PHASE solved x limit ≠ Result.out_of_fuel := by
  unfold Solver.ida_star
  split
  · exact fun h => Result.noConfusion h
  · exact ida_star_loop_fuel S hsort PHASE _ (phase_moves_length PHASE) x _ limit _ _

/-- The passes allowed to the loops of the search are enough: `solve` returns
a list or throws. -/
theorem solve_fuel (S : Solver) (hsort : ∀ l, (S.sort l).Perm l) (k : Cube) :
    S.solve k ≠ Result.out_of_fuel := by
  unfold Solver.solve
  simp only
  have h1 := ida_star_fuel S hsort 1 (Phase1Coord.of_cube k).is_solved
    ((Phase1Coord.of_cube k).corner_orientation, (Phase1Coord.of_cube k).edge_orientation,
      (Phase1Coord.of_cube k).uds_edge_position) 12
  cases hr1 : S.ida_star 1 (Phase1Coord.of_cube k).is_solved
    ((Phase1Coord.of_cube k).corner_orientation, (Phase1Coord.of_cube k).edge_orientation,
      (Phase1Coord.of_cube k).uds_edge_position) 12 with
  | out_of_fuel => exact absurd hr1 h1
  | exception => exact fun h => Result.noConfusion h
  | value r1 =>
    simp only [Result.bind]
    cases r1 with
    | none => exact fun h => Result.noConfusion h
    | some sol1 =>
      simp only
      cases ha : apply_sequence k (sol1.filter (fun m => m ≠ Move.COUNT)) with
      | none => exact fun h => Result.noConfusion h
      | some k1 =>
        simp only [Result.ofOption]
        cases hp : Phase2Coord.of_cube k1 with
        | none => exact fun h => Result.noConfusion h
        | some p2 =>
          simp only
          have h2 := ida_star_fuel S hsort 2 p2.is_solved
            (p2.corner_permutation, p2.ud_edge_permutation, p2.slice_edge_permutation)
            (max 8 (25 - (sol1.filter (fun m => m ≠ Move.COUNT)).length))
          cases hr2 : S.ida_star 2 p2.is_solved
            (p2.corner_permutation, p2.ud_edge_permutation, p2.slice_edge_permutation)
            (max 8 (25 - (sol1.filter (fun m => m ≠ Move.COUNT)).length)) with
          | out_of_fuel => exact absurd hr2 h2
          | exception => exact fun h => Result.noConfusion h
          | value r2 =>
            simp only
            cases r2 with
            | none => exact fun h => Result.noConfusion h
            | some sol2 => exact fun h => Result.noConfusion h

/-! ### The two phases as search settings -/

theorem co_entry (tm : TableManager) (ht : TablesGenerated tm) (c : Nat) (m : Move) :
    tm.co_move_table.entry c m = if c < 2187 ∧ m < 18 then co_move_entry c m else 0 := by
  obtain ⟨T, hT, _, _, he⟩ := co_move_table_spec
  have := ht.co
  rw [hT] at this
  cases this
  exact he c m

theorem eo_entry (tm : TableManager) (ht : TablesGenerated tm) (c : Nat) (m : Move) :
    tm.eo_move_table.entry c m = if c < 2048 ∧ m < 18 then eo_move_entry c m else 0 := by
  obtain ⟨T, hT, _, _, he⟩ := eo_move_table_spec
  have := ht.eo
  rw [hT] at this
  cases this
  exact he c m

theorem uds_entry (tm : TableManager) (ht : TablesGenerated tm) (c : Nat) (m : Move) :
    tm.uds_move_table.entry c m = if c < 495 ∧ m < 18 then uds_move_entry c m else 0 := by
  obtain ⟨T, hT, _, _, he⟩ := uds_move_table_spec
  have := ht.uds
  rw [hT] at this
  cases this
  exact he c m

theorem cp_entry (tm : TableManager) (ht : TablesGenerated tm) (c : Nat) (m : Move) :
    tm.cp_move_table.entry c m =
      if c < 40320 ∧ m ∈ Phase2Coord.AVAILABLE_MOVES then cp_move_entry c m else 0 := by
  obtain ⟨T, hT, _, _, he⟩ := cp_move_table_spec
  have := ht.cp
  rw [hT] at this
  cases this
  exact he c m

theorem udep_entry (tm : TableManager) (ht : TablesGenerated tm) (c : Nat) (m : Move) :
    tm.udep_move_table.entry c m =
      if c < 40320 ∧ m ∈ Phase2Coord.AVAILABLE_MOVES then udep_move_entry c m else 0 := by
  obtain ⟨T, hT, _, _, he⟩ := udep_move_table_spec
  have := ht.udep
  rw [hT] at this
  cases this
  exact he c m

theorem sep_entry (tm : TableManager) (ht : TablesGenerated tm) (c : Nat) (m : Move) :
    tm.sep_move_table.entry c m =
      if c < 24 ∧ m ∈ Phase2Coord.AVAILABLE_MOVES then sep_move_entry c m else 0 := by
  obtain ⟨T, hT, _, _, he⟩ := sep_move_table_spec
  have := ht.sep
  rw [hT] at this
  cases this
  exact he c m

/-- The Phase-1 tables follow a move of a legal cube. -/
theorem next1_eq (tm : TableManager) (ht : TablesGenerated tm) (k : Cube) (hk : k.Legal)
    (m : Move) (hm : m < 18) :
    tm.get_phase1_moves
        (Phase1Coord.encode_corner_orientation k, Phase1Coord.encode_edge_orientation k,
         Phase1Coord.encode_ud_slice_position k) m
      = (Phase1Coord.encode_corner_orientation ⟨moveCorners m k.corners, moveEdges m k.edges⟩,
         Phase1Coord.encode_edge_orientation ⟨moveCorners m k.corners, moveEdges m k.edges⟩,
         Phase1Coord.encode_ud_slice_position ⟨moveCorners m k.corners, moveEdges m k.edges⟩) := by
  obtain ⟨h1, h2, h3⟩ := phase1_entries k m hm hk
  simp only [TableManager.get_phase1_moves, co_entry tm ht, eo_entry tm ht, uds_entry tm ht]
  rw [if_pos ⟨(legal_co k hk).1, hm⟩, if_pos ⟨(legal_eo k hk).1, hm⟩,
    if_pos ⟨(legal_uds k hk).1, hm⟩, h1, h2, h3]

/-- The Phase-2 tables follow a Phase-2 move of a cube of G1 shape. -/
theorem next2_eq (tm : TableManager) (ht : TablesGenerated tm) (k : Cube) (hk : k.G1Pieces)
    (m : Move) (hm : m ∈ Phase2Coord.AVAILABLE_MOVES) (x : Nat × Nat × Nat)
    (h1 : Phase2Coord.encode_corner_permutation k = some x.1)
    (h2 : Phase2Coord.encode_ud_edge_permutation k = some x.2.1)
    (h3 : Phase2Coord.encode_slice_edge_permutation k = some x.2.2) :
    Phase2Coord.encode_corner_permutation ⟨moveCorners m k.corners, moveEdges m k.edges⟩
      = some (tm.get_phase2_moves x m).1 ∧
    Phase2Coord.encode_ud_edge_permutation ⟨moveCorners m k.corners, moveEdges m k.edges⟩
      = some (tm.get_phase2_moves x m).2.1 ∧
    Phase2Coord.encode_slice_edge_permutation ⟨moveCorners m k.corners, moveEdges m k.edges⟩
      = some (tm.get_phase2_moves x m).2.2 := by
  obtain ⟨e1, e2, e3⟩ := phase2_entries k m hm hk x.1 x.2.1 x.2.2 h1 h2 h3
  obtain ⟨c1, c2, c3, b1, b2, b3, g1, g2, g3, _⟩ := g1Pieces_encode k hk
  rw [h1] at g1
  rw [h2] at g2
  rw [h3] at g3
  cases g1
  cases g2
  cases g3
  simp only [TableManager.get_phase2_moves, cp_entry tm ht, udep_entry tm ht, sep_entry tm ht]
  rw [if_pos ⟨b1, hm⟩, if_pos ⟨b2, hm⟩, if_pos ⟨b3, hm⟩]
  exact ⟨e1, e2, e3⟩

theorem phase2_invert_mem : ∀ m ∈ Phase2Coord.AVAILABLE_MOVES,
    invert_move m ∈ Phase2Coord.AVAILABLE_MOVES := by decide

theorem phase1_closed (tm : TableManager) (ht : TablesGenerated tm) :
    PhaseClosed Phase1Coord.AVAILABLE_MOVES tm.get_phase1_moves Good1 := by
  refine ⟨⟨Cube.solved, solved_legal, ?_⟩, ?_⟩
  · rw [solved_coordinates.1, solved_coordinates.2.1, solved_coordinates.2.2.1]
  · rintro x m ⟨k, hk, rfl⟩ hm
    have hm18 := phase1_moves_lt m hm
    have hk1 := legal_step k m hm18 hk
    have hi18 := invert_move_lt m hm18
    refine ⟨⟨_, hk1, next1_eq tm ht k hk m hm18⟩, phase1_moves_all _ hi18, ?_⟩
    rw [next1_eq tm ht k hk m hm18, next1_eq tm ht _ hk1 _ hi18]
    simp only [moveCorners_inv m hm18 k.corners hk.1 hk.2.2.1,
      moveEdges_inv m hm18 k.edges hk.2.1 hk.2.2.2.1]

theorem phase2_closed (tm : TableManager) (ht : TablesGenerated tm) :
    PhaseClosed Phase2Coord.AVAILABLE_MOVES tm.get_phase2_moves Good2 := by
  refine ⟨⟨Cube.solved, solved_inG1.1, solved_coordinates.2.2.2.1, solved_coordinates.2.2.2.2.1,
    solved_coordinates.2.2.2.2.2⟩, ?_⟩
  rintro x m ⟨k, hk, h1, h2, h3⟩ hm
  have hm18 := phase2_moves_lt m hm
  have hk1 := g1Pieces_step k m hm hk
  have hi := phase2_invert_mem m hm
  have hn := next2_eq tm ht k hk m hm x h1 h2 h3
  refine ⟨⟨_, hk1, hn⟩, hi, ?_⟩
  have hn2 := next2_eq tm ht _ hk1 _ hi _ hn.1 hn.2.1 hn.2.2
  simp only [moveCorners_inv m hm18 k.corners hk.1 hk.2.2.1,
    moveEdges_inv m hm18 k.edges hk.2.1 hk.2.2.2.1] at hn2
  rw [h1, h2, h3] at hn2
  obtain ⟨a, b, c⟩ := hn2
  exact (Prod.ext (Option.some.inj a) (Prod.ext (Option.some.inj b) (Option.some.inj c))).symm

theorem get_next_coord_one (S : Solver) : S.get_next_coord 1 = S.tables_.get_phase1_moves := by
  funext x m
  simp [Solver.get_next_coord, TableManager.get_phase_moves]

theorem get_next_coord_two (S : Solver) : S.get_next_coord 2 = S.tables_.get_phase2_moves := by
  funext x m
  simp [Solver.get_next_coord, TableManager.get_phase_moves]

theorem phase1_setting (S : Solver) (ht : TablesGenerated S.tables_)
    (hsort : ∀ l, (S.sort l).Perm l) :
    SearchSetting S 1 (TableManager.phase_moves 1) Good1 := by
  have hc := phase1_closed S.tables_ ht
  refine ⟨?_, ?_, ?_, ?_, fun l x hx => (hsort l).subset hx⟩
  · rw [get_next_coord_one]
    exact hc
  · rintro x ⟨k, hk, rfl⟩
    have := (legal_eo k hk).1
    have := (legal_uds k hk).1
    dsimp only [Coord] at *
    constructor <;> omega
  · exact phase1_moves_lt
  · rw [get_next_coord_one]
    exact generate_endgame_db_sound 1 _ Good1 hc _ ht.db1

theorem phase2_setting (S : Solver) (ht : TablesGenerated S.tables_)
    (hsort : ∀ l, (S.sort l).Perm l) :
    SearchSetting S 2 (TableManager.phase_moves 2) Good2 := by
  have hc := phase2_closed S.tables_ ht
  refine ⟨?_, ?_, ?_, ?_, fun l x hx => (hsort l).subset hx⟩
  · rw [get_next_coord_two]
    exact hc
  · rintro x ⟨k, hk, h1, h2, h3⟩
    obtain ⟨c1, c2, c3, b1, b2, b3, g1, g2, g3, _⟩ := g1Pieces_encode k hk
    rw [h2] at g2
    rw [h3] at g3
    have e2 := Option.some.inj g2
    have e3 := Option.some.inj g3
    dsimp only [Coord] at *
    constructor <;> omega
  · exact phase2_moves_lt
  · rw [get_next_coord_two]
    exact generate_endgame_db_sound 2 _ Good2 hc _ ht.db2

/-! ### From paths through the tables to cubes -/

theorem apply_sequence_cons (k : Cube) (m : Move) (path : List Move) (hm : m < 18)
    (hc : k.corners.length = 8) (he : k.edges.length = 12) :
    apply_sequence k (m :: path)
      = apply_sequence ⟨moveCorners m k.corners, moveEdges m k.edges⟩ path := by
  simp only [apply_sequence, List.foldlM_cons, apply_move_eq k m hm hc he, Option.bind_eq_bind,
    Option.some_bind]

theorem apply_sequence_append (k k1 : Cube) (p q : List Move)
    (h : apply_sequence k p = some k1) :
    apply_sequence k (p ++ q) = apply_sequence k1 q := by
  simp only [apply_sequence, List.foldlM_append] at h ⊢
  rw [h]
  rfl

/-- Along any moves the Phase-1 tables follow the cube. -/
theorem phase1_follow (tm : TableManager) (ht : TablesGenerated tm) (path : List Move)
    (hp : ∀ m ∈ path, m < 18) :
    ∀ k : Cube, k.Legal → ∃ k1, apply_sequence k path = some k1 ∧ k1.Legal ∧
      follow tm.get_phase1_moves
        (Phase1Coord.encode_corner_orientation k, Phase1Coord.encode_edge_orientation k,
         Phase1Coord.encode_ud_slice_position k) path
      = (Phase1Coord.encode_corner_orientation k1, Phase1Coord.encode_edge_orientation k1,
         Phase1Coord.encode_ud_slice_position k1) := by
  induction path with
  | nil => intro k hk; exact ⟨k, rfl, hk, rfl⟩
  | cons m path ih =>
    intro k hk
    have hm := hp m (List.mem_cons_self _ _)
    obtain ⟨k1, h1, h2, h3⟩ :=
      ih (fun x hx => hp x (List.mem_cons_of_mem _ hx)) _ (legal_step k m hm hk)
    refine ⟨k1, ?_, h2, ?_⟩
    · rw [apply_sequence_cons k m path hm hk.1 hk.2.1]
      exact h1
    · simp only [follow, List.foldl_cons] at h3 ⊢
      rw [next1_eq tm ht k hk m hm]
      exact h3

/-- Along Phase-2 moves the Phase-2 tables follow a cube inside G1. -/
theorem phase2_follow (tm : TableManager) (ht : TablesGenerated tm) (path : List Move)
    (hp : ∀ m ∈ path, m ∈ Phase2Coord.AVAILABLE_MOVES) :
    ∀ (k : Cube) (x : Nat × Nat × Nat), k.InG1 →
      Phase2Coord.encode_corner_permutation k = some x.1 →
      Phase2Coord.encode_ud_edge_permutation k = some x.2.1 →
      Phase2Coord.encode_slice_edge_permutation k = some x.2.2 →
      ∃ k1, apply_sequence k path = some k1 ∧ k1.InG1 ∧
        Phase2Coord.encode_corner_permutation k1
          = some (follow tm.get_phase2_moves x path).1 ∧
        Phase2Coord.encode_ud_edge_permutation k1
          = some (follow tm.get_phase2_moves x path).2.1 ∧
        Phase2Coord.encode_slice_edge_permutation k1
          = some (follow tm.get_phase2_moves x path).2.2 := by
  induction path with
  | nil => intro k x hk h1 h2 h3; exact ⟨k, rfl, hk, h1, h2, h3⟩
  | cons m path ih =>
    intro k x hk h1 h2 h3
    have hm := hp m (List.mem_cons_self _ _)
    have hn := next2_eq tm ht k hk.1 m hm x h1 h2 h3
    obtain ⟨k1, g1, g2, g3⟩ :=
      ih (fun y hy => hp y (List.mem_cons_of_mem _ hy)) _ _ (inG1_step k m hm hk)
        hn.1 hn.2.1 hn.2.2
    refine ⟨k1, ?_, g2, ?_⟩
    · rw [apply_sequence_cons k m path (phase2_moves_lt m hm) hk.1.1 hk.1.2.1]
      exact g1
    · simpa only [follow, List.foldl_cons] using g3

theorem phase1_is_solved_zero (k : Cube) (a b c : Nat)
    (h : Phase1Coord.is_solved (Phase1Coord.mk k a b c) = true) : (a, b, c) = (0, 0, 0) := by
  simp only [Phase1Coord.is_solved, Bool.and_eq_true, beq_iff_eq] at h
  rw [h.1.1, h.1.2, h.2]

theorem phase2_is_solved_zero (k : Cube) (a b c : Nat)
    (h : Phase2Coord.is_solved (Phase2Coord.mk k a b c) = true) : (a, b, c) = (0, 0, 0) := by
  simp only [Phase2Coord.is_solved, Bool.and_eq_true, beq_iff_eq] at h
  rw [h.1.1, h.1.2, h.2]

/-- What `solve` returns on a legal cube solves it, when the tables are the
generated ones. -/
theorem solve_sound (S : Solver) (ht : TablesGenerated S.tables_)
    (hsort : ∀ l, (S.sort l).Perm l) (k : Cube) (hk : k.Legal) (L : List Move)
    (h : S.solve k = Result.value L) :
    ∃ k1, apply_sequence k L = some k1 ∧ is_solved k1 = true := by
  unfold Solver.solve at h
  simp only [Phase1Coord.of_cube, Phase1Coord.encode_from_cube] at h
  cases hr1 : S.ida_star 1
      (Phase1Coord.is_solved (Phase1Coord.mk k (Phase1Coord.encode_corner_orientation k)
        (Phase1Coord.encode_edge_orientation k) (Phase1Coord.encode_ud_slice_position k)))
      (Phase1Coord.encode_corner_orientation k, Phase1Coord.encode_edge_orientation k,
        Phase1Coord.encode_ud_slice_position k) 12 with
  | exception => rw [hr1] at h; cases h
  | out_of_fuel => rw [hr1] at h; cases h
  | value r1 =>
    rw [hr1] at h
    simp only [Result.bind] at h
    cases r1 with
    | none => cases h
    | some sol1 =>
      simp only at h
      have hgood1 : Good1 (Phase1Coord.encode_corner_orientation k,
          Phase1Coord.encode_edge_orientation k, Phase1Coord.encode_ud_slice_position k) :=
        ⟨k, hk, rfl⟩
      have hps := ida_star_sound S 1 Good1 (phase1_setting S ht hsort)
        (Phase1Coord.is_solved (Phase1Coord.mk k (Phase1Coord.encode_corner_orientation k)
          (Phase1Coord.encode_edge_orientation k) (Phase1Coord.encode_ud_slice_position k)))
        (Phase1Coord.encode_corner_orientation k, Phase1Coord.encode_edge_orientation k,
          Phase1Coord.encode_ud_slice_position k) hgood1
        (phase1_is_solved_zero k _ _ _) 12 sol1 hr1
      rw [get_next_coord_one] at hps
      obtain ⟨hmem1, hfol1⟩ := hps
      obtain ⟨k1, ha1, hleg1, hc1⟩ := phase1_follow S.tables_ ht _
        (fun m hm => phase1_moves_lt m (hmem1 m hm)) k hk
      have hc1 : (0, 0, 0) = (Phase1Coord.encode_corner_orientation k1,
          Phase1Coord.encode_edge_orientation k1, Phase1Coord.encode_ud_slice_position k1) := by
        rw [← hc1]
        exact hfol1.symm
      simp only [Prod.mk.injEq] at hc1
      have hg1 := legal_zero_inG1 k1 hleg1 hc1.1.symm hc1.2.1.symm hc1.2.2.symm
      obtain ⟨c1, c2, c3, _, _, _, e1, e2, e3, _⟩ := g1Pieces_encode k1 hg1.1
      rw [ha1] at h
      simp only [Result.ofOption, Result.bind, Phase2Coord.of_cube, Phase2Coord.encode_from_cube,
        e1, e2, e3] at h
      cases hr2 : S.ida_star 2
          (Phase2Coord.is_solved (Phase2Coord.mk k1 c1 c2 c3)) (c1, c2, c3)
          (max 8 (25 - (sol1.filter (fun m => m ≠ Move.COUNT)).length)) with
      | exception => rw [hr2] at h; cases h
      | out_of_fuel => rw [hr2] at h; cases h
      | value r2 =>
        rw [hr2] at h
        simp only at h
        cases r2 with
        | none => cases h
        | some sol2 =>
          simp only [Result.value.injEq] at h
          have hps2 := ida_star_sound S 2 Good2 (phase2_setting S ht hsort)
            (Phase2Coord.is_solved (Phase2Coord.mk k1 c1 c2 c3)) (c1, c2, c3)
            ⟨k1, hg1.1, e1, e2, e3⟩
            (phase2_is_solved_zero k1 c1 c2 c3) _ sol2 hr2
          rw [get_next_coord_two] at hps2
          obtain ⟨hmem2, hfol2⟩ := hps2
          have hmem2 : ∀ m ∈ sol2.filter (fun m => m ≠ Move.COUNT),
              m ∈ Phase2Coord.AVAILABLE_MOVES := hmem2
          obtain ⟨k2, ha2, hg2, f1, f2, f3⟩ := phase2_follow S.tables_ ht _ hmem2 k1 (c1, c2, c3)
            hg1 e1 e2 e3
          rw [hfol2] at f1 f2 f3
          have hsolved := inG1_zero_solved k2 hg2 f1 f2 f3
          refine ⟨k2, ?_, ?_⟩
          · rw [← h, apply_sequence_append k k1 _ _ ha1]
            exact ha2
          · rw [hsolved]
            decide

/-! ### The generators of the endgame databases return -/

theorem endgame_expand_queue (moves : List Move)
    (next : (Nat × Nat × Nat) → Move → (Nat × Nat × Nat)) (MAX_DEPTH current_depth : Nat)
    (h : ¬ current_depth < MAX_DEPTH)
    (st : EndgameDB × List ((Nat × Nat × Nat) × List Move))
    (entry : (Nat × Nat × Nat) × List Move) (hst : st.2 = []) :
    (TableManager.endgame_expand moves next MAX_DEPTH current_depth st entry).2 = [] := by
  unfold TableManager.endgame_expand
  apply foldl_invariant (fun (st : EndgameDB × List ((Nat × Nat × Nat) × List Move)) => st.2 = [])
  · exact hst
  · intro a b ha
    simp only
    split
    · simp only [if_neg h]
      exact ha
    · exact ha

/-- With a pass left for every depth up to `MAX_DEPTH + 1` the loop of
`generate_endgame_db` returns. -/
theorem endgame_loop_value (moves : List Move)
    (next : (Nat × Nat × Nat) → Move → (Nat × Nat × Nat)) (MAX_DEPTH : Nat) :
    ∀ (fuel : Nat) (db : EndgameDB) (q : List ((Nat × Nat × Nat) × List Move))
      (current_depth : Nat),
      MAX_DEPTH + 2 ≤ current_depth + fuel → 1 ≤ fuel → (MAX_DEPTH < current_depth → q = []) →
      ∃ result, TableManager.endgame_loop moves next MAX_DEPTH fuel db q current_depth
        = Result.value result := by
  intro fuel
  induction fuel with
  | zero =>
    intro db q d _ h1 _
    omega
  | succ fuel ih =>
    intro db q d hf _ hq
    unfold TableManager.endgame_loop
    by_cases hqe : q.isEmpty = true
    · rw [if_pos hqe]
      exact ⟨db, rfl⟩
    · rw [if_neg hqe]
      have hd : d ≤ MAX_DEPTH := by
        by_contra hc
        rw [hq (by omega)] at hqe
        exact hqe rfl
      apply ih
      · omega
      · omega
      · intro hlt
        apply foldl_invariant
          (fun (st : EndgameDB × List ((Nat × Nat × Nat) × List Move)) => st.2 = [])
        · rfl
        · intro a b ha
          exact endgame_expand_queue moves next MAX_DEPTH d (by omega) a b ha

theorem generate_endgame_db_value (PHASE : Nat)
    (next : (Nat × Nat × Nat) → Move → (Nat × Nat × Nat)) :
    ∃ db, TableManager.generate_endgame_db PHASE next = Result.value db := by
  unfold TableManager.generate_endgame_db
  apply endgame_loop_value
  · omega
  · omega
  · intro h
    omega

theorem option_getD_of_some {α : Type} (o : Option α) (d a : α) (h : o = some a) :
    o = some (o.getD d) := by
  rw [h]
  rfl

theorem result_getD_of_value {α : Type} (r : Result α) (d a : α) (h : r = Result.value a) :
    r = Result.value (r.getD d) := by
  rw [h]
  rfl

theorem tables_generated_mk (co eo uds cp udep sep : MoveTable)
    (p1 p2 p3 p4 p5 p6 : PruningTable) (db1 db2 : EndgameDB)
    (h1 : TableManager.generate_co_move_table = some co)
    (h2 : TableManager.generate_eo_move_table = some eo)
    (h3 : TableManager.generate_uds_move_table = some uds)
    (h4 : TableManager.generate_cp_move_table = some cp)
    (h5 : TableManager.generate_udep_move_table = some udep)
    (h6 : TableManager.generate_sep_move_table = some sep)
    (h7 : TableManager.generate_endgame_db 1
      (fun x m => (co.entry x.1 m, eo.entry x.2.1 m, uds.entry x.2.2 m)) = Result.value db1)
    (h8 : TableManager.generate_endgame_db 2
      (fun x m => (cp.entry x.1 m, udep.entry x.2.1 m, sep.entry x.2.2 m)) = Result.value db2) :
    TablesGenerated (TableManager.mk co eo uds cp udep sep p1 p2 p3 p4 p5 p6 db1 db2) :=
  ⟨h1, h2, h3, h4, h5, h6, h7, h8⟩

theorem generated_co_ok :
    TableManager.generate_co_move_table = some TableManager.generated_co := by
  obtain ⟨T, h, _⟩ := co_move_table_spec
  rw [TableManager.generated_co]
  exact option_getD_of_some _ _ T h

theorem generated_eo_ok :
    TableManager.generate_eo_move_table = some TableManager.generated_eo := by
  obtain ⟨T, h, _⟩ := eo_move_table_spec
  rw [TableManager.generated_eo]
  exact option_getD_of_some _ _ T h

theorem generated_uds_ok :
    TableManager.generate_uds_move_table = some TableManager.generated_uds := by
  obtain ⟨T, h, _⟩ := uds_move_table_spec
  rw [TableManager.generated_uds]
  exact option_getD_of_some _ _ T h

theorem generated_cp_ok :
    TableManager.generate_cp_move_table = some TableManager.generated_cp := by
  obtain ⟨T, h, _⟩ := cp_move_table_spec
  rw [TableManager.generated_cp]
  exact option_getD_of_some _ _ T h

theorem generated_udep_ok :
    TableManager.generate_udep_move_table = some TableManager.generated_udep := by
  obtain ⟨T, h, _⟩ := udep_move_table_spec
  rw [TableManager.generated_udep]
  exact option_getD_of_some _ _ T h

theorem generated_sep_ok :
    TableManager.generate_sep_move_table = some TableManager.generated_sep := by
  obtain ⟨T, h, _⟩ := sep_move_table_spec
  rw [TableManager.generated_sep]
  exact option_getD_of_some _ _ T h

theorem generated_db1_ok :
    TableManager.generate_endgame_db 1 (fun x m =>
      (TableManager.generated_co.entry x.1 m, TableManager.generated_eo.entry x.2.1 m,
       TableManager.generated_uds.entry x.2.2 m)) = Result.value TableManager.generated_db1 := by
  obtain ⟨db, h⟩ := generate_endgame_db_value 1 (fun x m =>
      (TableManager.generated_co.entry x.1 m, TableManager.generated_eo.entry x.2.1 m,
       TableManager.generated_uds.entry x.2.2 m))
  rw [TableManager.generated_db1]
  exact result_getD_of_value _ _ db h

theorem generated_db2_ok :
    TableManager.generate_endgame_db 2 (fun x m =>
      (TableManager.generated_cp.entry x.1 m, TableManager.generated_udep.entry x.2.1 m,
       TableManager.generated_sep.entry x.2.2 m)) = Result.value TableManager.generated_db2 := by
  obtain ⟨db, h⟩ := generate_endgame_db_value 2 (fun x m =>
      (TableManager.generated_cp.entry x.1 m, TableManager.generated_udep.entry x.2.1 m,
       TableManager.generated_sep.entry x.2.2 m))
  rw [TableManager.generated_db2]
  exact result_getD_of_value _ _ db h

/-- The tables of `Solver.generated` are the generated ones. -/
theorem generated_tables_ok : TablesGenerated Solver.generated.tables_ :=
  tables_generated_mk _ _ _ _ _ _ _ _ _ _ _ _ _ _ generated_co_ok generated_eo_ok
    generated_uds_ok generated_cp_ok generated_udep_ok generated_sep_ok generated_db1_ok
    generated_db2_ok

theorem generated_sort_perm : ∀ l, (Solver.generated.sort l).Perm l :=
  fun l => List.mergeSort_perm l _

/-- On the solved cube both phases return at once and `solve` returns the
empty list. -/
theorem solve_solved (S : Solver) : S.solve Cube.solved = Result.value [] := by
  have h1 : Phase1Coord.of_cube Cube.solved = Phase1Coord.mk Cube.solved 0 0 0 := by
    simp only [Phase1Coord.of_cube, Phase1Coord.encode_from_cube, solved_coordinates.1,
      solved_coordinates.2.1, solved_coordinates.2.2.1]
  have h2 : Phase2Coord.of_cube Cube.solved = some (Phase2Coord.mk Cube.solved 0 0 0) := by
    simp only [Phase2Coord.of_cube, Phase2Coord.encode_from_cube, solved_coordinates.2.2.2.1,
      solved_coordinates.2.2.2.2.1, solved_coordinates.2.2.2.2.2]
  unfold Solver.solve
  simp only [h1, h2, Solver.ida_star, Phase1Coord.is_solved, Phase2Coord.is_solved,
    beq_self_eq_true, Bool.and_self, if_true, Result.bind, List.filter_nil, apply_sequence,
    List.foldlM_nil, Result.ofOption, List.append_nil, pure]

/-! ### What the first move of a generator leaves in its table -/

theorem foldlM_option_invariant {α β : Type} (P : α → Prop) (f : α → β → Option α)
    (hs : ∀ a b a1, P a → f a b = some a1 → P a1) (l : List β) :
    ∀ a r, P a → l.foldlM f a = some r → P r := by
  induction l with
  | nil =>
    intro a r ha h
    simp only [List.foldlM_nil, pure, Option.some.injEq] at h
    exact h ▸ ha
  | cons b l ih =>
    intro a r ha h
    simp only [List.foldlM_cons, bind, Option.bind_eq_some] at h
    obtain ⟨a1, h1, h2⟩ := h
    exact ih a1 r (hs a b a1 ha h1) h2

/-- An entry of the endgame database is kept by every later insertion. -/
theorem endgame_expand_keep (moves : List Move)
    (next : (Nat × Nat × Nat) → Move → (Nat × Nat × Nat)) (MAX_DEPTH current_depth : Nat)
    (key : Nat) (p : List Move)
    (st : EndgameDB × List ((Nat × Nat × Nat) × List Move))
    (entry : (Nat × Nat × Nat) × List Move) (h : st.1.lookup key = some p) :
    (TableManager.endgame_expand moves next MAX_DEPTH current_depth st entry).1.lookup key
      = some p := by
  unfold TableManager.endgame_expand
  apply foldl_invariant
    (fun (st : EndgameDB × List ((Nat × Nat × Nat) × List Move)) => st.1.lookup key = some p)
  · exact h
  · intro a m ha
    simp only
    split
    · rename_i hnone
      simp only [List.lookup_cons]
      have hne : (key == TableManager.get_key (next entry.1 m)) = false := by
        apply beq_false_of_ne
        intro heq
        rw [← heq, ha] at hnone
        simp at hnone
      rw [hne]
      exact ha
    · exact ha

theorem endgame_loop_keep (moves : List Move)
    (next : (Nat × Nat × Nat) → Move → (Nat × Nat × Nat)) (MAX_DEPTH : Nat)
    (key : Nat) (p : List Move) :
    ∀ (fuel : Nat) (db : EndgameDB) (q : List ((Nat × Nat × Nat) × List Move))
      (current_depth : Nat) (result : EndgameDB),
      db.lookup key = some p →
      TableManager.endgame_loop moves next MAX_DEPTH fuel db q current_depth
        = Result.value result →
      result.lookup key = some p := by
  intro fuel
  induction fuel with
  | zero =>
    intro db q d result _ h
    simp only [TableManager.endgame_loop] at h
    exact Result.noConfusion h
  | succ fuel ih =>
    intro db q d result hdb h
    unfold TableManager.endgame_loop at h
    by_cases hq : q.isEmpty = true
    · rw [if_pos hq] at h
      cases h
      exact hdb
    · rw [if_neg hq] at h
      refine ih _ _ _ result ?_ h
      apply foldl_invariant
        (fun (st : EndgameDB × List ((Nat × Nat × Nat) × List Move)) =>
          st.1.lookup key = some p)
      · exact hdb
      · intro a b ha
        exact endgame_expand_keep moves next MAX_DEPTH d key p a b ha

theorem get_key_zero : TableManager.get_key (0, 0, 0) = 0 := by
  simp [TableManager.get_key]

/-- The database holds, for the triple the first move of the phase leads to
from `(0, 0, 0)`, the inverse of that move. -/
theorem endgame_first_move (PHASE : Nat)
    (next : (Nat × Nat × Nat) → Move → (Nat × Nat × Nat)) (m0 : Move) (rest : List Move)
    (hmoves : TableManager.phase_moves PHASE = m0 :: rest)
    (hkey : TableManager.get_key (next (0, 0, 0) m0) ≠ 0) (db : EndgameDB)
    (h : TableManager.generate_endgame_db PHASE next = Result.value db) :
    db.lookup (TableManager.get_key (next (0, 0, 0) m0)) = some [invert_move m0] := by
  unfold TableManager.generate_endgame_db at h
  rw [hmoves] at h
  unfold TableManager.endgame_loop at h
  simp only [List.isEmpty_cons, Bool.false_eq_true, if_false, List.foldl_cons,
    List.foldl_nil] at h
  refine endgame_loop_keep _ next _ _ _ _ _ _ _ _ ?_ h
  unfold TableManager.endgame_expand
  simp only [List.foldl_cons]
  apply foldl_invariant
    (fun (st : EndgameDB × List ((Nat × Nat × Nat) × List Move)) =>
      st.1.lookup (TableManager.get_key (next (0, 0, 0) m0)) = some [invert_move m0])
  · have hne : (TableManager.get_key (next (0, 0, 0) m0) == 0) = false :=
      beq_false_of_ne hkey
    have h0 : List.lookup (TableManager.get_key (next (0, 0, 0) m0))
        [((0 : Nat), ([] : List Move))] = none := by
      simp only [List.lookup_cons, hne, List.lookup_nil]
    simp only [h0, Option.isNone_none, if_true, List.lookup_cons, beq_self_eq_true,
      List.nil_append, List.reverse_cons, List.reverse_nil]
  · intro a m ha
    split
    · rename_i hnone
      simp only [List.lookup_cons]
      have hne : (TableManager.get_key (next (0, 0, 0) m0)
          == TableManager.get_key (next (0, 0, 0) m)) = false := by
        apply beq_false_of_ne
        intro heq
        rw [← heq, ha] at hnone
        simp at hnone
      rw [hne]
      exact ha
    · exact ha

theorem getD_set_ne (l : List Nat) (i j v : Nat) (h : i ≠ j) :
    (l.set i v).getD j 0 = l.getD j 0 := by
  simp only [List.getD_eq_getElem?_getD, List.getElem?_set_ne h]

theorem getD_set_eq (l : List Nat) (i v : Nat) (h : i < l.length) :
    (l.set i v).getD i 0 = v := by
  simp only [List.getD_eq_getElem?_getD, List.getElem?_set_self h, Option.getD_some]

/-- A pruning entry that is not the marker `0xFF` is never written again. -/
theorem pruning_expand_keep (moves : List Move) (next : Nat → Move → Nat)
    (current_depth c v : Nat) (hv : v ≠ 0xFF) (coord : Nat) :
    ∀ (st r : PruningTable × List Nat), st.1.getD c 0 = v →
      TableManager.pruning_expand moves next current_depth st coord = some r →
      r.1.getD c 0 = v := by
  unfold TableManager.pruning_expand
  apply foldlM_option_invariant (fun (st : PruningTable × List Nat) => st.1.getD c 0 = v)
  intro a m a1 ha h
  simp only at h
  split_ifs at h with h1 h2
  · cases h
    simp only
    rw [getD_set_ne _ _ _ _ (by rintro rfl; exact hv (ha ▸ h2))]
    exact ha
  · cases h
    exact ha

theorem pruning_loop_keep (moves : List Move) (next : Nat → Move → Nat)
    (c v : Nat) (hv : v ≠ 0xFF) :
    ∀ (fuel : Nat) (table : PruningTable) (q : List Nat) (current_depth : Nat)
      (result : PruningTable), table.getD c 0 = v →
      TableManager.pruning_loop moves next fuel table q current_depth = Result.value result →
      result.getD c 0 = v := by
  intro fuel
  induction fuel with
  | zero =>
    intro table q d result _ h
    simp only [TableManager.pruning_loop] at h
    exact Result.noConfusion h
  | succ fuel ih =>
    intro table q d result ht h
    unfold TableManager.pruning_loop at h
    by_cases hq : q.isEmpty = true
    · rw [if_pos hq] at h
      cases h
      exact ht
    · rw [if_neg hq] at h
      cases hfold : q.foldlM (TableManager.pruning_expand moves next d) (table, []) with
      | none =>
        rw [hfold] at h
        exact Result.noConfusion h
      | some st =>
        rw [hfold] at h
        simp only at h
        refine ih _ _ _ result ?_ h
        exact foldlM_option_invariant
          (fun (st : PruningTable × List Nat) => st.1.getD c 0 = v)
          (TableManager.pruning_expand moves next d)
          (fun a b a1 ha hs => pruning_expand_keep moves next d c v hv b a a1 ha hs)
          q (table, []) st ht hfold

theorem pruning_initial_getD (SIZE n : Nat) :
    ((List.replicate SIZE 0xFF).set 0 0).getD n 0 = 0 ∨
    (((List.replicate SIZE 0xFF).set 0 0).getD n 0 = 0xFF ∧
      n < ((List.replicate SIZE 0xFF).set 0 0).length) := by
  by_cases hn : n < SIZE
  · by_cases h0 : n = 0
    · left
      subst h0
      exact getD_set_eq _ _ _ (by simpa using hn)
    · right
      refine ⟨?_, by simpa using hn⟩
      rw [getD_set_ne _ _ _ _ (Ne.symm h0)]
      simp only [List.getD_eq_getElem?_getD, List.getElem?_replicate, hn, if_true,
        Option.getD_some]
  · left
    apply List.getD_eq_default
    simp only [List.length_set, List.length_replicate]
    omega

/-- The coordinate the first move leads to from 0 has pruning value at most 1
in the generated table. -/
theorem pruning_first_move (SIZE : Nat) (next : Nat → Move → Nat) (m0 : Move)
    (rest : List Move) :
    ((TableManager.generate_pruning_table SIZE (m0 :: rest) next).getD []).getD (next 0 m0) 0
      ≤ 1 := by
  cases hgen : TableManager.generate_pruning_table SIZE (m0 :: rest) next with
  | exception => simp [Result.getD]
  | out_of_fuel => simp [Result.getD]
  | value T =>
    simp only [Result.getD]
    unfold TableManager.generate_pruning_table at hgen
    unfold TableManager.pruning_loop at hgen
    simp only [List.isEmpty_cons, Bool.false_eq_true, if_false, List.foldlM_cons,
      List.foldlM_nil] at hgen
    cases hfold : (TableManager.pruning_expand (m0 :: rest) next 0
        ((List.replicate SIZE 0xFF).set 0 0, []) 0 >>= pure) with
    | none =>
      rw [hfold] at hgen
      exact Result.noConfusion hgen
    | some st =>
      rw [hfold] at hgen
      simp only at hgen
      simp only [bind_pure] at hfold
      unfold TableManager.pruning_expand at hfold
      simp only [List.foldlM_cons, bind, Option.bind_eq_some] at hfold
      obtain ⟨st1, h1, h2⟩ := hfold
      have hst1 : st1.1.getD (next 0 m0) 0 ≤ 1 := by
        split_ifs at h1 with ha hb
        · cases h1
          simp only
          rcases pruning_initial_getD SIZE (next 0 m0) with h0 | ⟨_, hlen⟩
          · rw [h0] at hb
            exact absurd hb (by decide)
          · rw [getD_set_eq _ _ _ hlen]
        · cases h1
          simp only
          rcases pruning_initial_getD SIZE (next 0 m0) with h0 | ⟨h0, _⟩
          · rw [h0]
            decide
          · exact absurd h0 hb
      have hv : st1.1.getD (next 0 m0) 0 ≠ 0xFF := by omega
      have hst : st.1.getD (next 0 m0) 0 = st1.1.getD (next 0 m0) 0 :=
        pruning_expand_keep rest next 0 _ _ hv 0 st1 st rfl h2
      rw [pruning_loop_keep (m0 :: rest) next _ _ hv _ _ _ _ T hst hgen]
      exact hst1

/-! ### A search that ends at its first database query -/

/-- When the heuristic of the start triple is within the range of the
database and the database holds the triple, `ida_star` returns the sentinel
followed by the stored path. -/
theorem ida_star_db_hit (S : Solver) (PHASE : Nat) (x : Nat × Nat × Nat) (limit : Nat)
    (p : List Move) (hv : S.heuristic PHASE x ≤ Solver.ENDGAME_DB_MAX_DEPTH PHASE)
    (hlim : S.heuristic PHASE x ≤ limit)
    (hdb : S.tables_.search_endgame_db PHASE x = some p) :
    S.ida_star PHASE false x limit = Result.value (some (Move.COUNT :: p)) := by
  unfold Solver.ida_star
  simp only [Bool.false_eq_true, if_false]
  obtain ⟨c, hc⟩ : ∃ c, limit + 1 - S.heuristic PHASE x = c + 1 :=
    ⟨limit - S.heuristic PHASE x, by omega⟩
  rw [hc]
  simp only [Solver.ida_star_loop, Solver.search_fuel, Solver.search_iterative,
    Solver.search_step, if_pos hv, hdb, List.replicate_succ, List.set_cons_zero,
    List.take_succ_cons, List.take_zero, List.singleton_append, zero_add]

theorem cp_first_entry : cp_move_entry 0 Move.U1 = 15120 := by decide

theorem udep_first_entry : udep_move_entry 0 Move.U1 = 15120 := by decide

theorem sep_first_entry : sep_move_entry 0 Move.U1 = 0 := by decide

/-- The triple the Phase-2 tables give for `U` from `(0, 0, 0)`. -/
theorem phase2_first_triple (tm : TableManager) (ht : TablesGenerated tm) :
    tm.get_phase2_moves (0, 0, 0) Move.U1 = (15120, 15120, 0) := by
  simp only [TableManager.get_phase2_moves, cp_entry tm ht, udep_entry tm ht, sep_entry tm ht]
  rw [if_pos ⟨by decide, by decide⟩, if_pos ⟨by decide, by decide⟩,
    if_pos ⟨by decide, by decide⟩, cp_first_entry, udep_first_entry, sep_first_entry]

/-- The cube after `U` is solved by `solve` with the single move `U'`, found
in the Phase-2 database at the first query. -/
theorem solve_first_move (S : Solver) (ht : TablesGenerated S.tables_)
    (hh : S.heuristic 2 (S.tables_.get_phase2_moves (0, 0, 0) Move.U1) ≤ 1) :
    S.solve ⟨moveCorners Move.U1 Cube.solved.corners, moveEdges Move.U1 Cube.solved.edges⟩
      = Result.value [Move.U2] := by
  have hg := inG1_step Cube.solved Move.U1 (by decide) solved_inG1
  obtain ⟨c1, c2, c3⟩ := inG1_coords _ hg
  have hx := phase2_first_triple S.tables_ ht
  have hn := next2_eq S.tables_ ht Cube.solved solved_inG1.1 Move.U1 (by decide) (0, 0, 0)
    solved_coordinates.2.2.2.1 solved_coordinates.2.2.2.2.1 solved_coordinates.2.2.2.2.2
  rw [hx] at hn hh
  obtain ⟨n1, n2, n3⟩ := hn
  obtain ⟨db, hdbv⟩ : ∃ db, S.tables_.p2_endgame_db = db := ⟨_, rfl⟩
  have hlook := endgame_first_move 2 S.tables_.get_phase2_moves Move.U1
    [Move.U2, Move.U3, Move.D1, Move.D2, Move.D3, Move.L3, Move.R3, Move.F3, Move.B3] rfl
    (by rw [hx]; decide) _ ht.db2
  rw [hx] at hlook
  have hdb : S.tables_.search_endgame_db 2 (15120, 15120, 0) = some [Move.U2] := by
    simp only [TableManager.search_endgame_db, TableManager.get_endgame_db]
    exact hlook
  have hida := ida_star_db_hit S 2 (15120, 15120, 0) (max 8 (25 - 0)) [Move.U2]
    (le_trans hh (by decide)) (le_trans hh (by decide)) hdb
  have hs1 : Phase1Coord.is_solved (Phase1Coord.mk
      ⟨moveCorners Move.U1 Cube.solved.corners, moveEdges Move.U1 Cube.solved.edges⟩
      0 0 0) = true := by decide
  have hs2 : Phase2Coord.is_solved (Phase2Coord.mk
      ⟨moveCorners Move.U1 Cube.solved.corners, moveEdges Move.U1 Cube.solved.edges⟩
      15120 15120 0) = false := by decide
  have hida1 : ∀ x limit, S.ida_star 1 true x limit = Result.value (some []) := by
    intro x limit
    simp only [Solver.ida_star, if_true]
  unfold Solver.solve
  simp only [Phase1Coord.of_cube, Phase1Coord.encode_from_cube, c1, c2, c3, hs1, hida1,
    Result.bind, List.filter_nil, apply_sequence, List.foldlM_nil, pure, Result.ofOption,
    Phase2Coord.of_cube, Phase2Coord.encode_from_cube, n1, n2, n3, List.length_nil, hs2, hida,
    List.nil_append]
  decide

/-- Over pruning tables generated from the Phase-2 move tables, the heuristic
of the triple `U` leads to from `(0, 0, 0)` is at most 1. -/
theorem heuristic_first_move_mk (co eo uds cp udep sep : MoveTable) (p1 p2 p3 : PruningTable)
    (db1 db2 : EndgameDB) (enhanced : Bool) (sort : List SearchState → List SearchState) :
    Solver.heuristic
      (Solver.mk
        (TableManager.mk co eo uds cp udep sep p1 p2 p3
          ((TableManager.generate_pruning_table 40320 Phase2Coord.AVAILABLE_MOVES
            cp.entry).getD [])
          ((TableManager.generate_pruning_table 40320 Phase2Coord.AVAILABLE_MOVES
            udep.entry).getD [])
          ((TableManager.generate_pruning_table 24 Phase2Coord.AVAILABLE_MOVES
            sep.entry).getD [])
          db1 db2) enhanced sort) 2
      (TableManager.get_phase2_moves
        (TableManager.mk co eo uds cp udep sep p1 p2 p3
          ((TableManager.generate_pruning_table 40320 Phase2Coord.AVAILABLE_MOVES
            cp.entry).getD [])
          ((TableManager.generate_pruning_table 40320 Phase2Coord.AVAILABLE_MOVES
            udep.entry).getD [])
          ((TableManager.generate_pruning_table 24 Phase2Coord.AVAILABLE_MOVES
            sep.entry).getD [])
          db1 db2) (0, 0, 0) Move.U1) ≤ 1 := by
  have h1 := pruning_first_move 40320 cp.entry Move.U1
    [Move.U2, Move.U3, Move.D1, Move.D2, Move.D3, Move.L3, Move.R3, Move.F3, Move.B3]
  have h2 := pruning_first_move 40320 udep.entry Move.U1
    [Move.U2, Move.U3, Move.D1, Move.D2, Move.D3, Move.L3, Move.R3, Move.F3, Move.B3]
  have h3 := pruning_first_move 24 sep.entry Move.U1
    [Move.U2, Move.U3, Move.D1, Move.D2, Move.D3, Move.L3, Move.R3, Move.F3, Move.B3]
  simp only [Solver.heuristic, Solver.heuristic_phase2, TableManager.get_cp_pruning,
    TableManager.get_udep_pruning, TableManager.get_sep_pruning,
    TableManager.get_phase2_moves, Phase2Coord.AVAILABLE_MOVES]
  rw [if_neg (by decide)]
  exact max_le (max_le h1 h2) h3

theorem generated_heuristic_first_move :
    Solver.generated.heuristic 2
      (Solver.generated.tables_.get_phase2_moves (0, 0, 0) Move.U1) ≤ 1 :=
  heuristic_first_move_mk _ _ _ _ _ _ _ _ _ _ _ _ _

/-- C1. Partial correctness of `solve`: let the six move tables of the solver
be the ones their generators produce and the two endgame databases the ones
`generate_endgame_db` produces over them, and let `std::sort` return an
arrangement of its input (the pruning tables, and with them the heuristic, may
be any, and so may `USE_ENHANCED_HEURISTIC`). Then for every cube `k` reachable
from the solved cube by face turns, whenever `solve k` returns a move list `L`,
`apply_sequence k L` yields a cube for which `is_solved` is true. -/
theorem solve_partial_correctness (S : Solver) (k : Cube) (L : List Move)
    (hco : TableManager.generate_co_move_table = some S.tables_.co_move_table)
    (heo : TableManager.generate_eo_move_table = some S.tables_.eo_move_table)
    (huds : TableManager.generate_uds_move_table = some S.tables_.uds_move_table)
    (hcp : TableManager.generate_cp_move_table = some S.tables_.cp_move_table)
    (hudep : TableManager.generate_udep_move_table = some S.tables_.udep_move_table)
    (hsep : TableManager.generate_sep_move_table = some S.tables_.sep_move_table)
    (hdb1 : TableManager.generate_endgame_db 1 S.tables_.get_phase1_moves
      = Result.value S.tables_.p1_endgame_db)
    (hdb2 : TableManager.generate_endgame_db 2 S.tables_.get_phase2_moves
      = Result.value S.tables_.p2_endgame_db)
    (hsort : ∀ l, (S.sort l).Perm l)
    (hk : Reachable k)
    (h : S.solve k = Result.value L) :
    ∃ k1, apply_sequence k L = some k1 ∧ is_solved k1 = true :=
  solve_sound S ⟨hco, heo, huds, hcp, hudep, hsep, hdb1, hdb2⟩ hsort k (reachable_legal k hk) L h

theorem solve_partial_correctness_witness :
    TablesGenerated Solver.generated.tables_ ∧ (∀ l, (Solver.generated.sort l).Perm l) ∧
    ∃ k, apply_move Cube.solved Move.U1 = some k ∧ Reachable k ∧
      Solver.generated.solve k = Result.value [Move.U2] ∧
      ∃ k1, apply_sequence k [Move.U2] = some k1 ∧ is_solved k1 = true :=
  ⟨generated_tables_ok, generated_sort_perm,
    ⟨moveCorners Move.U1 Cube.solved.corners, moveEdges Move.U1 Cube.solved.edges⟩,
    apply_move_eq Cube.solved Move.U1 (by decide) (by decide) (by decide),
    Reachable.step Cube.solved _ Move.U1 Reachable.solved
      (apply_move_eq Cube.solved Move.U1 (by decide) (by decide) (by decide)),
    solve_first_move Solver.generated generated_tables_ok generated_heuristic_first_move,
    solve_partial_correctness Solver.generated
      ⟨moveCorners Move.U1 Cube.solved.corners, moveEdges Move.U1 Cube.solved.edges⟩ [Move.U2]
      generated_tables_ok.co generated_tables_ok.eo generated_tables_ok.uds
      generated_tables_ok.cp generated_tables_ok.udep generated_tables_ok.sep
      generated_tables_ok.db1 generated_tables_ok.db2
      generated_sort_perm
      (Reachable.step Cube.solved _ Move.U1 Reachable.solved
        (apply_move_eq Cube.solved Move.U1 (by decide) (by decide) (by decide)))
      (solve_first_move Solver.generated generated_tables_ok generated_heuristic_first_move)⟩

/-! ### The outline of `solve` -/

theorem search_iterative_no_exception (S : Solver) (PHASE : Nat) (MOVES : List Move)
    (md : Nat) :
    ∀ (fuel : Nat) (stack : List SearchState) (path : List Move),
      S.search_iterative PHASE MOVES md fuel stack path ≠ Result.exception := by
  intro fuel
  induction fuel with
  | zero =>
    intro stack path
    simp only [Solver.search_iterative]
    exact fun h => Result.noConfusion h
  | succ fuel ih =>
    intro stack path
    cases stack with
    | nil =>
      simp only [Solver.search_iterative]
      exact fun h => Result.noConfusion h
    | cons current stack =>
      simp only [Solver.search_iterative]
      cases hs : S.search_step PHASE MOVES md current stack path with
      | found sol =>
        simp only
        exact fun h => Result.noConfusion h
      | «continue» stack1 path1 =>
        simp only
        exact ih stack1 path1

theorem ida_star_loop_no_exception (S : Solver) (PHASE : Nat) (MOVES : List Move)
    (x : Nat × Nat × Nat) (min_depth limit : Nat) :
    ∀ (count max_depth : Nat),
      S.ida_star_loop PHASE MOVES x min_depth limit count max_depth ≠ Result.exception := by
  intro count
  induction count with
  | zero =>
    intro max_depth
    simp only [Solver.ida_star_loop]
    exact fun h => Result.noConfusion h
  | succ count ih =>
    intro max_depth
    simp only [Solver.ida_star_loop]
    have hf := search_iterative_no_exception S PHASE MOVES max_depth
      (Solver.search_fuel max_depth)
      [{ x1 := x.1, x2 := x.2.1, x3 := x.2.2, last_move := Move.COUNT, depth := 0,
         h := min_depth }]
      (List.replicate (limit + 1) Move.U1)
    cases hsearch : S.search_iterative PHASE MOVES max_depth (Solver.search_fuel max_depth)
        [{ x1 := x.1, x2 := x.2.1, x3 := x.2.2, last_move := Move.COUNT, depth := 0,
           h := min_depth }]
        (List.replicate (limit + 1) Move.U1) with
    | value r =>
      cases r with
      | none => exact ih (max_depth + 1)
      | some sol => exact fun h => Result.noConfusion h
    | exception => exact absurd hsearch hf
    | out_of_fuel => exact fun h => Result.noConfusion h

/-- A call of `ida_star` returns `true` with a path or `false`. -/
theorem ida_star_value (S : Solver) (hsort : ∀ l, (S.sort l).Perm l) (PHASE : Nat)
    (solved : Bool) (x : Nat × Nat × Nat) (limit : Nat) :
    ∃ r, S.ida_star PHASE solved x limit = Result.value r := by
  have h1 := ida_star_fuel S hsort PHASE solved x limit
  have h2 : S.ida_star PHASE solved x limit ≠ Result.exception := by
    unfold Solver.ida_star
    split
    · exact fun h => Result.noConfusion h
    · exact ida_star_loop_no_exception S PHASE _ x _ limit _ _
  cases h : S.ida_star PHASE solved x limit with
  | value r => exact ⟨r, rfl⟩
  | exception => exact absurd h h2
  | out_of_fuel => exact absurd h h1

/-- The course of `solve` on a legal cube over the generated tables: both
searches return; a Phase-1 path leads into G1, where the Phase-2 coordinates
exist; a Phase-2 path leads to the solved cube. -/
theorem solve_outline (S : Solver) (ht : TablesGenerated S.tables_)
    (hsort : ∀ l, (S.sort l).Perm l) (k : Cube) (hk : k.Legal) :
    ∃ r1, S.ida_star 1
        (Phase1Coord.is_solved (Phase1Coord.mk k (Phase1Coord.encode_corner_orientation k)
          (Phase1Coord.encode_edge_orientation k) (Phase1Coord.encode_ud_slice_position k)))
        (Phase1Coord.encode_corner_orientation k, Phase1Coord.encode_edge_orientation k,
          Phase1Coord.encode_ud_slice_position k) 12 = Result.value r1 ∧
      ((r1 = none ∧ S.solve k = Result.exception) ∨
       ∃ sol1 k1 c1 c2 c3 r2, r1 = some sol1 ∧
        (∀ m ∈ sol1.filter (fun m => m ≠ Move.COUNT), m ∈ Phase1Coord.AVAILABLE_MOVES) ∧
        apply_sequence k (sol1.filter (fun m => m ≠ Move.COUNT)) = some k1 ∧ k1.InG1 ∧
        Phase2Coord.of_cube k1 = some (Phase2Coord.mk k1 c1 c2 c3) ∧
        S.ida_star 2 (Phase2Coord.is_solved (Phase2Coord.mk k1 c1 c2 c3)) (c1, c2, c3)
          (max 8 (25 - (sol1.filter (fun m => m ≠ Move.COUNT)).length)) = Result.value r2 ∧
        ((r2 = none ∧ S.solve k = Result.exception) ∨
         ∃ sol2, r2 = some sol2 ∧
          (∀ m ∈ sol2.filter (fun m => m ≠ Move.COUNT), m ∈ Phase2Coord.AVAILABLE_MOVES) ∧
          apply_sequence k1 (sol2.filter (fun m => m ≠ Move.COUNT)) = some Cube.solved ∧
          S.solve k = Result.value
            (sol1.filter (fun m => m ≠ Move.COUNT) ++ sol2.filter (fun m => m ≠ Move.COUNT)))) := by
  obtain ⟨r1, hr1⟩ := ida_star_value S hsort 1
    (Phase1Coord.is_solved (Phase1Coord.mk k (Phase1Coord.encode_corner_orientation k)
      (Phase1Coord.encode_edge_orientation k) (Phase1Coord.encode_ud_slice_position k)))
    (Phase1Coord.encode_corner_orientation k, Phase1Coord.encode_edge_orientation k,
      Phase1Coord.encode_ud_slice_position k) 12
  refine ⟨r1, hr1, ?_⟩
  have hsolve : S.solve k = (Result.value r1).bind fun r1 =>
      match r1 with
      | none => Result.exception
      | some phase1_solution =>
        (Result.ofOption (apply_sequence k
          (phase1_solution.filter (fun m => m ≠ Move.COUNT)))).bind fun intermediate_cube =>
        (Result.ofOption (Phase2Coord.of_cube intermediate_cube)).bind fun p2_coord =>
        (S.ida_star 2 p2_coord.is_solved
          (p2_coord.corner_permutation, p2_coord.ud_edge_permutation,
            p2_coord.slice_edge_permutation)
          (max 8 (25 - (phase1_solution.filter (fun m => m ≠ Move.COUNT)).length))).bind
            fun r2 =>
        match r2 with
        | none => Result.exception
        | some phase2_solution =>
          Result.value (phase1_solution.filter (fun m => m ≠ Move.COUNT)
            ++ phase2_solution.filter (fun m => m ≠ Move.COUNT)) := by
    rw [← hr1]
    unfold Solver.solve
    simp only [Phase1Coord.of_cube, Phase1Coord.encode_from_cube]
  cases r1 with
  | none =>
    left
    exact ⟨rfl, by rw [hsolve]; rfl⟩
  | some sol1 =>
    right
    have hgood1 : Good1 (Phase1Coord.encode_corner_orientation k,
        Phase1Coord.encode_edge_orientation k, Phase1Coord.encode_ud_slice_position k) :=
      ⟨k, hk, rfl⟩
    have hps := ida_star_sound S 1 Good1 (phase1_setting S ht hsort)
      (Phase1Coord.is_solved (Phase1Coord.mk k (Phase1Coord.encode_corner_orientation k)
        (Phase1Coord.encode_edge_orientation k) (Phase1Coord.encode_ud_slice_position k)))
      (Phase1Coord.encode_corner_orientation k, Phase1Coord.encode_edge_orientation k,
        Phase1Coord.encode_ud_slice_position k) hgood1
      (phase1_is_solved_zero k _ _ _) 12 sol1 hr1
    rw [get_next_coord_one] at hps
    obtain ⟨hmem1, hfol1⟩ := hps
    have hmem1 : ∀ m ∈ sol1.filter (fun m => m ≠ Move.COUNT),
        m ∈ Phase1Coord.AVAILABLE_MOVES := hmem1
    obtain ⟨k1, ha1, hleg1, hc1⟩ := phase1_follow S.tables_ ht _
      (fun m hm => phase1_moves_lt m (hmem1 m hm)) k hk
    have hc1 : (0, 0, 0) = (Phase1Coord.encode_corner_orientation k1,
        Phase1Coord.encode_edge_orientation k1, Phase1Coord.encode_ud_slice_position k1) := by
      rw [← hc1]
      exact hfol1.symm
    simp only [Prod.mk.injEq] at hc1
    have hg1 := legal_zero_inG1 k1 hleg1 hc1.1.symm hc1.2.1.symm hc1.2.2.symm
    obtain ⟨c1, c2, c3, _, _, _, e1, e2, e3, _⟩ := g1Pieces_encode k1 hg1.1
    have hof : Phase2Coord.of_cube k1 = some (Phase2Coord.mk k1 c1 c2 c3) := by
      simp only [Phase2Coord.of_cube, Phase2Coord.encode_from_cube, e1, e2, e3]
    obtain ⟨r2, hr2⟩ := ida_star_value S hsort 2
      (Phase2Coord.is_solved (Phase2Coord.mk k1 c1 c2 c3)) (c1, c2, c3)
      (max 8 (25 - (sol1.filter (fun m => m ≠ Move.COUNT)).length))
    refine ⟨sol1, k1, c1, c2, c3, r2, rfl, hmem1, ha1, hg1, hof, hr2, ?_⟩
    simp only [Result.bind, ha1, Result.ofOption, hof, hr2] at hsolve
    cases r2 with
    | none =>
      left
      exact ⟨rfl, hsolve⟩
    | some sol2 =>
      right
      have hps2 := ida_star_sound S 2 Good2 (phase2_setting S ht hsort)
        (Phase2Coord.is_solved (Phase2Coord.mk k1 c1 c2 c3)) (c1, c2, c3)
        ⟨k1, hg1.1, e1, e2, e3⟩
        (phase2_is_solved_zero k1 c1 c2 c3) _ sol2 hr2
      rw [get_next_coord_two] at hps2
      obtain ⟨hmem2, hfol2⟩ := hps2
      have hmem2 : ∀ m ∈ sol2.filter (fun m => m ≠ Move.COUNT),
          m ∈ Phase2Coord.AVAILABLE_MOVES := hmem2
      obtain ⟨k2, ha2, hg2, f1, f2, f3⟩ := phase2_follow S.tables_ ht _ hmem2 k1 (c1, c2, c3)
        hg1 e1 e2 e3
      rw [hfol2] at f1 f2 f3
      have hsolved := inG1_zero_solved k2 hg2 f1 f2 f3
      rw [hsolved] at ha2
      exact ⟨sol2, rfl, hmem2, ha2, hsolve⟩

/-- What `solve` returns on a legal cube consists of moves of Phase 1 followed
by moves of Phase 2. -/
theorem solve_parts (S : Solver) (ht : TablesGenerated S.tables_)
    (hsort : ∀ l, (S.sort l).Perm l) (k : Cube) (hk : k.Legal) (L : List Move)
    (h : S.solve k = Result.value L) :
    ∃ p1 p2 k1, L = p1 ++ p2 ∧ (∀ m ∈ p1, m ∈ Phase1Coord.AVAILABLE_MOVES) ∧
      (∀ m ∈ p2, m ∈ Phase2Coord.AVAILABLE_MOVES) ∧ apply_sequence k p1 = some k1 ∧ k1.InG1 ∧
      apply_sequence k1 p2 = some Cube.solved := by
  obtain ⟨r1, _, hcase⟩ := solve_outline S ht hsort k hk
  rcases hcase with ⟨_, he⟩ | ⟨sol1, k1, c1, c2, c3, r2, _, hm1, ha1, hg1, _, _, hcase2⟩
  · rw [he] at h
    exact Result.noConfusion h
  · rcases hcase2 with ⟨_, he⟩ | ⟨sol2, _, hm2, ha2, hs⟩
    · rw [he] at h
      exact Result.noConfusion h
    · rw [hs] at h
      cases h
      exact ⟨_, _, k1, rfl, hm1, hm2, ha1, hg1, ha2⟩

/-- C20. The sentinel never leaks: over the generated move tables and endgame
databases (any pruning tables, any `std::sort` that returns an arrangement of
its input), every list `solve` returns for a cube reachable from the solved
one contains only the 18 real moves; `Move::COUNT` does not occur in it. -/
theorem sentinel_never_leaks (S : Solver) (k : Cube) (L : List Move)
    (hco : TableManager.generate_co_move_table = some S.tables_.co_move_table)
    (heo : TableManager.generate_eo_move_table = some S.tables_.eo_move_table)
    (huds : TableManager.generate_uds_move_table = some S.tables_.uds_move_table)
    (hcp : TableManager.generate_cp_move_table = some S.tables_.cp_move_table)
    (hudep : TableManager.generate_udep_move_table = some S.tables_.udep_move_table)
    (hsep : TableManager.generate_sep_move_table = some S.tables_.sep_move_table)
    (hdb1 : TableManager.generate_endgame_db 1 S.tables_.get_phase1_moves
      = Result.value S.tables_.p1_endgame_db)
    (hdb2 : TableManager.generate_endgame_db 2 S.tables_.get_phase2_moves
      = Result.value S.tables_.p2_endgame_db)
    (hsort : ∀ l, (S.sort l).Perm l)
    (hk : Reachable k)
    (h : S.solve k = Result.value L) :
    ∀ m ∈ L, m < 18 ∧ m ≠ Move.COUNT := by
  obtain ⟨p1, p2, k1, rfl, h1, h2, _⟩ := solve_parts S
    ⟨hco, heo, huds, hcp, hudep, hsep, hdb1, hdb2⟩ hsort k (reachable_legal k hk) L h
  intro m hm
  have hlt : m < 18 := by
    rcases List.mem_append.mp hm with hm | hm
    · exact phase1_moves_lt m (h1 m hm)
    · exact phase2_moves_lt m (h2 m hm)
  refine ⟨hlt, ?_⟩
  intro he
  rw [he] at hlt
  exact absurd hlt (by decide)

theorem sentinel_never_leaks_witness :
    TablesGenerated Solver.generated.tables_ ∧ (∀ l, (Solver.generated.sort l).Perm l) ∧
    ∃ k, apply_move Cube.solved Move.U1 = some k ∧ Reachable k ∧
      Solver.generated.solve k = Result.value [Move.U2] ∧
      ∀ m ∈ [Move.U2], m < 18 ∧ m ≠ Move.COUNT :=
  ⟨generated_tables_ok, generated_sort_perm,
    ⟨moveCorners Move.U1 Cube.solved.corners, moveEdges Move.U1 Cube.solved.edges⟩,
    apply_move_eq Cube.solved Move.U1 (by decide) (by decide) (by decide),
    Reachable.step Cube.solved _ Move.U1 Reachable.solved
      (apply_move_eq Cube.solved Move.U1 (by decide) (by decide) (by decide)),
    solve_first_move Solver.generated generated_tables_ok generated_heuristic_first_move,
    sentinel_never_leaks Solver.generated
      ⟨moveCorners Move.U1 Cube.solved.corners, moveEdges Move.U1 Cube.solved.edges⟩ [Move.U2]
      generated_tables_ok.co generated_tables_ok.eo generated_tables_ok.uds
      generated_tables_ok.cp generated_tables_ok.udep generated_tables_ok.sep
      generated_tables_ok.db1 generated_tables_ok.db2
      generated_sort_perm
      (Reachable.step Cube.solved _ Move.U1 Reachable.solved
        (apply_move_eq Cube.solved Move.U1 (by decide) (by decide) (by decide)))
      (solve_first_move Solver.generated generated_tables_ok generated_heuristic_first_move)⟩

/-- C16. The outer contract of `solve`, over the generated move tables and
endgame databases and for a cube reachable from the solved one: the Phase-1
search runs with depth limit 12 and returns; when it returns no path `solve`
throws; otherwise the path, with the sentinel erased, applies to the cube, the
Phase-2 coordinates of the result exist, and the Phase-2 search runs with depth
limit `max(8, 25 - n)` for `n` the number of Phase-1 moves and returns; when
it returns no path `solve` throws, and otherwise `solve` returns the Phase-1
moves followed by the Phase-2 moves. -/
theorem solve_outer_contract (S : Solver) (k : Cube)
    (hco : TableManager.generate_co_move_table = some S.tables_.co_move_table)
    (heo : TableManager.generate_eo_move_table = some S.tables_.eo_move_table)
    (huds : TableManager.generate_uds_move_table = some S.tables_.uds_move_table)
    (hcp : TableManager.generate_cp_move_table = some S.tables_.cp_move_table)
    (hudep : TableManager.generate_udep_move_table = some S.tables_.udep_move_table)
    (hsep : TableManager.generate_sep_move_table = some S.tables_.sep_move_table)
    (hdb1 : TableManager.generate_endgame_db 1 S.tables_.get_phase1_moves
      = Result.value S.tables_.p1_endgame_db)
    (hdb2 : TableManager.generate_endgame_db 2 S.tables_.get_phase2_moves
      = Result.value S.tables_.p2_endgame_db)
    (hsort : ∀ l, (S.sort l).Perm l)
    (hk : Reachable k) :
    ∃ r1, S.ida_star 1 (Phase1Coord.of_cube k).is_solved
        ((Phase1Coord.of_cube k).corner_orientation, (Phase1Coord.of_cube k).edge_orientation,
          (Phase1Coord.of_cube k).uds_edge_position) 12 = Result.value r1 ∧
      match r1 with
      | none => S.solve k = Result.exception
      | some phase1_solution =>
        ∃ intermediate_cube p2_coord r2,
          apply_sequence k (phase1_solution.filter (fun m => m ≠ Move.COUNT))
            = some intermediate_cube ∧
          Phase2Coord.of_cube intermediate_cube = some p2_coord ∧
          S.ida_star 2 p2_coord.is_solved
            (p2_coord.corner_permutation, p2_coord.ud_edge_permutation,
              p2_coord.slice_edge_permutation)
            (max 8 (25 - (phase1_solution.filter (fun m => m ≠ Move.COUNT)).length))
            = Result.value r2 ∧
          match r2 with
          | none => S.solve k = Result.exception
          | some phase2_solution =>
            S.solve k = Result.value
              (phase1_solution.filter (fun m => m ≠ Move.COUNT)
                ++ phase2_solution.filter (fun m => m ≠ Move.COUNT)) := by
  obtain ⟨r1, hr1, hcase⟩ := solve_outline S
    ⟨hco, heo, huds, hcp, hudep, hsep, hdb1, hdb2⟩ hsort k (reachable_legal k hk)
  refine ⟨r1, ?_, ?_⟩
  · simp only [Phase1Coord.of_cube, Phase1Coord.encode_from_cube]
    exact hr1
  · rcases hcase with ⟨rfl, he⟩ | ⟨sol1, k1, c1, c2, c3, r2, rfl, _, ha1, _, hof, hr2, hcase2⟩
    · exact he
    · refine ⟨k1, _, r2, ha1, hof, hr2, ?_⟩
      rcases hcase2 with ⟨rfl, he⟩ | ⟨sol2, rfl, _, _, hs⟩
      · exact he
      · exact hs

theorem solve_outer_contract_witness :
    TablesGenerated Solver.generated.tables_ ∧ (∀ l, (Solver.generated.sort l).Perm l) ∧
    Reachable Cube.solved ∧
    ∃ r1, Solver.generated.ida_star 1 (Phase1Coord.of_cube Cube.solved).is_solved
        ((Phase1Coord.of_cube Cube.solved).corner_orientation,
          (Phase1Coord.of_cube Cube.solved).edge_orientation,
          (Phase1Coord.of_cube Cube.solved).uds_edge_position) 12 = Result.value r1 ∧
      match r1 with
      | none => Solver.generated.solve Cube.solved = Result.exception
      | some phase1_solution =>
        ∃ intermediate_cube p2_coord r2,
          apply_sequence Cube.solved (phase1_solution.filter (fun m => m ≠ Move.COUNT))
            = some intermediate_cube ∧
          Phase2Coord.of_cube intermediate_cube = some p2_coord ∧
          Solver.generated.ida_star 2 p2_coord.is_solved
            (p2_coord.corner_permutation, p2_coord.ud_edge_permutation,
              p2_coord.slice_edge_permutation)
            (max 8 (25 - (phase1_solution.filter (fun m => m ≠ Move.COUNT)).length))
            = Result.value r2 ∧
          match r2 with
          | none => Solver.generated.solve Cube.solved = Result.exception
          | some phase2_solution =>
            Solver.generated.solve Cube.solved = Result.value
              (phase1_solution.filter (fun m => m ≠ Move.COUNT)
                ++ phase2_solution.filter (fun m => m ≠ Move.COUNT)) :=
  ⟨generated_tables_ok, generated_sort_perm, Reachable.solved,
    solve_outer_contract Solver.generated Cube.solved
      generated_tables_ok.co generated_tables_ok.eo generated_tables_ok.uds
      generated_tables_ok.cp generated_tables_ok.udep generated_tables_ok.sep
      generated_tables_ok.db1 generated_tables_ok.db2
      generated_sort_perm Reachable.solved⟩

/-! ### Scrambles -/

/-- C18. Empty scramble: `from_scramble` of the empty string is the solved
cube, and `solve` on the solved cube returns the empty move list, whatever the
tables hold. -/
theorem empty_scramble :
    from_scramble "" = some Cube.solved ∧
    ∀ S : Solver, S.solve Cube.solved = Result.value [] :=
  ⟨by decide, solve_solved⟩

/-! ### The move tables against decode, move, encode -/

theorem co_decode_apply (coord : Phase1Coord) (hc : coord.cube.corners.length = 8)
    (he : coord.cube.edges.length = 12) (c : Nat) (m : Move) (hm : m < 18) :
    (Phase1Coord.apply_move (Phase1Coord.set_corner_orientation coord c) m).map
      (fun t => t.corner_orientation) = some (co_move_entry c m) := by
  obtain ⟨h1, h2, h3, h4⟩ := decode_corner_orientation_cube coord c hc
  have hlen8 : (Phase1Coord.set_corner_orientation coord c).cube.corners.length = 8 := by
    have := congrArg List.length h2
    simp only [List.length_map] at this
    rw [← hc]; exact this
  have hlen12 : (Phase1Coord.set_corner_orientation coord c).cube.edges.length = 12 := by
    rw [← he]; exact congrArg List.length h3
  rw [phase1_apply_move_eq _ m hm hlen8 hlen12]
  simp only [Option.map_some', Phase1Coord.encode_from_cube, encode_corner_orientation_eq,
    co_move_entry, Option.some.injEq]
  rw [moveCorners_oris_eq m _ hlen8 h4]
  exact congrArg (fun l => coRank (moveOriC m l)) h1

theorem eo_decode_apply (coord : Phase1Coord) (hc : coord.cube.corners.length = 8)
    (he : coord.cube.edges.length = 12) (c : Nat) (m : Move) (hm : m < 18) :
    (Phase1Coord.apply_move (Phase1Coord.set_edge_orientation coord c) m).map
      (fun t => t.edge_orientation) = some (eo_move_entry c m) := by
  obtain ⟨h1, h2, h3, h4⟩ := decode_edge_orientation_cube coord c he
  have hlen12 : (Phase1Coord.set_edge_orientation coord c).cube.edges.length = 12 := by
    have := congrArg List.length h2
    simp only [List.length_map] at this
    rw [← he]; exact this
  have hlen8 : (Phase1Coord.set_edge_orientation coord c).cube.corners.length = 8 := by
    rw [← hc]; exact congrArg List.length h3
  rw [phase1_apply_move_eq _ m hm hlen8 hlen12]
  simp only [Option.map_some', Phase1Coord.encode_from_cube, encode_edge_orientation_eq,
    eo_move_entry, Option.some.injEq]
  rw [moveEdges_oris_eq m _ hlen12 h4]
  exact congrArg (fun l => eoRank (moveOriE m l)) h1

theorem uds_decode_apply (coord : Phase1Coord) (h8 : coord.cube.corners.length = 8)
    (h12 : coord.cube.edges.length = 12) (hp : ∀ e ∈ coord.cube.edges, e.piece < 12)
    (ho : ∀ e ∈ coord.cube.edges, e.orientation < 2) (c : Nat) (m : Move) (hm : m < 18) :
    (Phase1Coord.apply_move (Phase1Coord.set_ud_slice_edges coord c) m).map
      (fun t => t.uds_edge_position) = some (uds_move_entry c m) := by
  obtain ⟨h1, h2, h3, h4, h5⟩ := decode_ud_slice_position_cube coord c h12 hp
  have hlen8 : (Phase1Coord.set_ud_slice_edges coord c).cube.corners.length = 8 := by
    rw [← h8]; exact congrArg List.length h4
  have ho2 : ∀ e ∈ (Phase1Coord.set_ud_slice_edges coord c).cube.edges, e.orientation < 2 :=
    oris_lt_of_map_eq _ _ 2 h5 ho
  have h1 : sliceIndicator (Phase1Coord.set_ud_slice_edges coord c).cube.edges
      = (udsDecodeInd C_nk c).2.1 := h1
  have h2 : (Phase1Coord.set_ud_slice_edges coord c).cube.edges.length = 12 := h2
  rw [phase1_apply_move_eq _ m hm hlen8 h2]
  simp only [Option.map_some', Phase1Coord.encode_from_cube, encode_ud_slice_position_ind,
    uds_move_entry, Option.some.injEq]
  rw [moveEdges_indicator m _ h2 ho2]
  exact congrArg (fun l => udsEncodeInd C_nk (moveInd m l)) h1

theorem cp_decode_apply (coord : Phase2Coord) (hk : coord.cube.G1Pieces) (c : Nat)
    (hc : c < 40320) (m : Move) (hm : m ∈ Phase2Coord.AVAILABLE_MOVES) :
    ((Phase2Coord.set_corner_permutation coord c).bind
      (fun d => Phase2Coord.apply_move d m)).map (fun t => t.corner_permutation)
      = some (cp_move_entry c m) := by
  obtain ⟨coord1, hs, hk1, henc, _⟩ := set_corner_permutation_cube coord c hc hk
  obtain ⟨c1, c2, c3, _, _, _, e1, e2, e3, _⟩ := g1Pieces_encode _ hk1
  rw [hs, Option.some_bind, phase2_apply_move_eq coord1 m hm hk1 c c2 c3 henc e2 e3]
  rfl

theorem udep_decode_apply (coord : Phase2Coord) (hk : coord.cube.G1Pieces) (c : Nat)
    (hc : c < 40320) (m : Move) (hm : m ∈ Phase2Coord.AVAILABLE_MOVES) :
    ((Phase2Coord.set_ud_edge_permutation coord c).bind
      (fun d => Phase2Coord.apply_move d m)).map (fun t => t.ud_edge_permutation)
      = some (udep_move_entry c m) := by
  obtain ⟨coord1, hs, hk1, henc⟩ := set_ud_edge_permutation_cube coord c hc hk
  obtain ⟨c1, c2, c3, _, _, _, e1, e2, e3, _⟩ := g1Pieces_encode _ hk1
  rw [hs, Option.some_bind, phase2_apply_move_eq coord1 m hm hk1 c1 c c3 e1 henc e3]
  rfl

theorem sep_decode_apply (coord : Phase2Coord) (hk : coord.cube.G1Pieces) (c : Nat)
    (hc : c < 24) (m : Move) (hm : m ∈ Phase2Coord.AVAILABLE_MOVES) :
    ((Phase2Coord.set_slice_edge_permutation coord c).bind
      (fun d => Phase2Coord.apply_move d m)).map (fun t => t.slice_edge_permutation)
      = some (sep_move_entry c m) := by
  obtain ⟨coord1, hs, hk1, henc⟩ := set_slice_edge_permutation_cube coord c hc hk
  obtain ⟨c1, c2, c3, _, _, _, e1, e2, e3, _⟩ := g1Pieces_encode _ hk1
  rw [hs, Option.some_bind, phase2_apply_move_eq coord1 m hm hk1 c1 c2 c e1 e2 henc]
  rfl

/-- C11, as amended. Move-table agreement on the columns the generators write:
the six generators return; for the axes CO, EO and UDS, every coordinate `c` in
range and each of the 18 moves `m`, and for the axes CP, UDEP and SEP, every
coordinate `c` in range and each of the ten moves `m` of
`Phase2Coord::AVAILABLE_MOVES`, the entry `T[c][m]` is the coordinate of the
default-constructed coordinate object after `set(c)` and `apply_move(m)`; the
other eight columns of the three Phase-2 tables hold 0. -/
theorem move_table_agreement :
    ∃ co eo uds cp udep sep,
      TableManager.generate_co_move_table = some co ∧
      TableManager.generate_eo_move_table = some eo ∧
      TableManager.generate_uds_move_table = some uds ∧
      TableManager.generate_cp_move_table = some cp ∧
      TableManager.generate_udep_move_table = some udep ∧
      TableManager.generate_sep_move_table = some sep ∧
      (∀ c < 2187, ∀ m < 18,
        (Phase1Coord.apply_move (Phase1Coord.set_corner_orientation Phase1Coord.init c) m).map
          (fun t => t.corner_orientation) = some (co.entry c m)) ∧
      (∀ c < 2048, ∀ m < 18,
        (Phase1Coord.apply_move (Phase1Coord.set_edge_orientation Phase1Coord.init c) m).map
          (fun t => t.edge_orientation) = some (eo.entry c m)) ∧
      (∀ c < 495, ∀ m < 18,
        (Phase1Coord.apply_move (Phase1Coord.set_ud_slice_edges Phase1Coord.init c) m).map
          (fun t => t.uds_edge_position) = some (uds.entry c m)) ∧
      (∀ c < 40320, ∀ m ∈ Phase2Coord.AVAILABLE_MOVES,
        ((Phase2Coord.set_corner_permutation Phase2Coord.init c).bind
          (fun d => Phase2Coord.apply_move d m)).map (fun t => t.corner_permutation)
          = some (cp.entry c m)) ∧
      (∀ c < 40320, ∀ m ∈ Phase2Coord.AVAILABLE_MOVES,
        ((Phase2Coord.set_ud_edge_permutation Phase2Coord.init c).bind
          (fun d => Phase2Coord.apply_move d m)).map (fun t => t.ud_edge_permutation)
          = some (udep.entry c m)) ∧
      (∀ c < 24, ∀ m ∈ Phase2Coord.AVAILABLE_MOVES,
        ((Phase2Coord.set_slice_edge_permutation Phase2Coord.init c).bind
          (fun d => Phase2Coord.apply_move d m)).map (fun t => t.slice_edge_permutation)
          = some (sep.entry c m)) ∧
      (∀ c m, m ∉ Phase2Coord.AVAILABLE_MOVES →
        cp.entry c m = 0 ∧ udep.entry c m = 0 ∧ sep.entry c m = 0) := by
  obtain ⟨co, h1, _, _, e1⟩ := co_move_table_spec
  obtain ⟨eo, h2, _, _, e2⟩ := eo_move_table_spec
  obtain ⟨uds, h3, _, _, e3⟩ := uds_move_table_spec
  obtain ⟨cp, h4, _, _, e4⟩ := cp_move_table_spec
  obtain ⟨udep, h5, _, _, e5⟩ := udep_move_table_spec
  obtain ⟨sep, h6, _, _, e6⟩ := sep_move_table_spec
  refine ⟨co, eo, uds, cp, udep, sep, h1, h2, h3, h4, h5, h6, ?_, ?_, ?_, ?_, ?_, ?_, ?_⟩
  · intro c hc m hm
    rw [e1 c m, if_pos ⟨hc, hm⟩]
    exact co_decode_apply Phase1Coord.init (by decide) (by decide) c m hm
  · intro c hc m hm
    rw [e2 c m, if_pos ⟨hc, hm⟩]
    exact eo_decode_apply Phase1Coord.init (by decide) (by decide) c m hm
  · intro c hc m hm
    rw [e3 c m, if_pos ⟨hc, hm⟩]
    exact uds_decode_apply Phase1Coord.init (by decide) (by decide) (by decide) (by decide)
      c m hm
  · intro c hc m hm
    rw [e4 c m, if_pos ⟨hc, hm⟩]
    exact cp_decode_apply Phase2Coord.init solved_inG1.1 c hc m hm
  · intro c hc m hm
    rw [e5 c m, if_pos ⟨hc, hm⟩]
    exact udep_decode_apply Phase2Coord.init solved_inG1.1 c hc m hm
  · intro c hc m hm
    rw [e6 c m, if_pos ⟨hc, hm⟩]
    exact sep_decode_apply Phase2Coord.init solved_inG1.1 c hc m hm
  · intro c m hm
    rw [e4 c m, e5 c m, e6 c m, if_neg (fun h => hm h.2), if_neg (fun h => hm h.2),
      if_neg (fun h => hm h.2)]
    exact ⟨rfl, rfl, rfl⟩

/-- The claim C11 fails on the corner-permutation table at `c = 0` and the
move `F`: the generator leaves `T[0][F] = 0`, while on the cube decoded from 0
`Phase2Coord::apply_move(F)` throws and the corner permutation of the moved
cube encodes to 21021. -/
theorem move_table_agreement_counterexample :
    ∃ cp coord, TableManager.generate_cp_move_table = some cp ∧
      Phase2Coord.set_corner_permutation Phase2Coord.init 0 = some coord ∧
      cp.entry 0 Move.F1 = 0 ∧
      Phase2Coord.apply_move coord Move.F1 = none ∧
      (apply_move coord.cube Move.F1).bind Phase2Coord.encode_corner_permutation
        = some 21021 := by
  obtain ⟨cp, h4, _, _, e4⟩ := cp_move_table_spec
  refine ⟨cp, Phase2Coord.init, h4, by decide, ?_, by decide, by decide⟩
  rw [e4 0 Move.F1, if_neg (by decide)]

/-! ### The entries of the endgame databases -/

theorem good1_bounds (x : Nat × Nat × Nat) (h : Good1 x) :
    x.1 < 65536 ∧ x.2.1 < 65536 ∧ x.2.2 < 65536 := by
  obtain ⟨k, hk, rfl⟩ := h
  have h1 := (legal_co k hk).1
  have h2 := (legal_eo k hk).1
  have h3 := (legal_uds k hk).1
  dsimp only [Coord] at *
  exact ⟨by omega, by omega, by omega⟩

theorem good2_bounds (x : Nat × Nat × Nat) (h : Good2 x) :
    x.1 < 65536 ∧ x.2.1 < 65536 ∧ x.2.2 < 65536 := by
  obtain ⟨k, hk, h1, h2, h3⟩ := h
  obtain ⟨c1, c2, c3, b1, b2, b3, g1, g2, g3, _⟩ := g1Pieces_encode k hk
  rw [h1] at g1
  rw [h2] at g2
  rw [h3] at g3
  have e1 := Option.some.inj g1
  have e2 := Option.some.inj g2
  have e3 := Option.some.inj g3
  dsimp only [Coord] at *
  exact ⟨by omega, by omega, by omega⟩

/-- C15. Endgame-DB soundness: the move-table generators and
`generate_endgame_db` return, and for each phase and every `(key, path)` entry
stored there is exactly one triple of 16-bit coordinates that `get_key` packs
to `key`; following `path` from it through the phase's three move tables
yields `(0, 0, 0)`, and applying `path` to any reachable cube with this triple
(in Phase 2: a cube of G1) yields a cube whose triple is `(0, 0, 0)`. -/
theorem endgame_db_sound :
    ∃ co eo uds cp udep sep db1 db2,
      TableManager.generate_co_move_table = some co ∧
      TableManager.generate_eo_move_table = some eo ∧
      TableManager.generate_uds_move_table = some uds ∧
      TableManager.generate_cp_move_table = some cp ∧
      TableManager.generate_udep_move_table = some udep ∧
      TableManager.generate_sep_move_table = some sep ∧
      TableManager.generate_endgame_db 1
        (fun x m => (co.entry x.1 m, eo.entry x.2.1 m, uds.entry x.2.2 m)) = Result.value db1 ∧
      TableManager.generate_endgame_db 2
        (fun x m => (cp.entry x.1 m, udep.entry x.2.1 m, sep.entry x.2.2 m))
          = Result.value db2 ∧
      (∀ e ∈ db1, ∃ x : Nat × Nat × Nat,
        x.1 < 65536 ∧ x.2.1 < 65536 ∧ x.2.2 < 65536 ∧ TableManager.get_key x = e.1 ∧
        (∀ y : Nat × Nat × Nat, y.2.1 < 65536 → y.2.2 < 65536 →
          TableManager.get_key y = e.1 → y = x) ∧
        follow (fun x m => (co.entry x.1 m, eo.entry x.2.1 m, uds.entry x.2.2 m)) x e.2
          = (0, 0, 0) ∧
        ∀ k, Reachable k →
          (Phase1Coord.encode_corner_orientation k, Phase1Coord.encode_edge_orientation k,
            Phase1Coord.encode_ud_slice_position k) = x →
          ∃ k1, apply_sequence k e.2 = some k1 ∧
            Phase1Coord.encode_corner_orientation k1 = 0 ∧
            Phase1Coord.encode_edge_orientation k1 = 0 ∧
            Phase1Coord.encode_ud_slice_position k1 = 0) ∧
      (∀ e ∈ db2, ∃ x : Nat × Nat × Nat,
        x.1 < 65536 ∧ x.2.1 < 65536 ∧ x.2.2 < 65536 ∧ TableManager.get_key x = e.1 ∧
        (∀ y : Nat × Nat × Nat, y.2.1 < 65536 → y.2.2 < 65536 →
          TableManager.get_key y = e.1 → y = x) ∧
        follow (fun x m => (cp.entry x.1 m, udep.entry x.2.1 m, sep.entry x.2.2 m)) x e.2
          = (0, 0, 0) ∧
        ∀ k, Reachable k →
          Phase1Coord.encode_corner_orientation k = 0 →
          Phase1Coord.encode_edge_orientation k = 0 →
          Phase1Coord.encode_ud_slice_position k = 0 →
          Phase2Coord.encode_corner_permutation k = some x.1 →
          Phase2Coord.encode_ud_edge_permutation k = some x.2.1 →
          Phase2Coord.encode_slice_edge_permutation k = some x.2.2 →
          ∃ k1, apply_sequence k e.2 = some k1 ∧
            Phase2Coord.encode_corner_permutation k1 = some 0 ∧
            Phase2Coord.encode_ud_edge_permutation k1 = some 0 ∧
            Phase2Coord.encode_slice_edge_permutation k1 = some 0) := by
  obtain ⟨co, h1, _⟩ := co_move_table_spec
  obtain ⟨eo, h2, _⟩ := eo_move_table_spec
  obtain ⟨uds, h3, _⟩ := uds_move_table_spec
  obtain ⟨cp, h4, _⟩ := cp_move_table_spec
  obtain ⟨udep, h5, _⟩ := udep_move_table_spec
  obtain ⟨sep, h6, _⟩ := sep_move_table_spec
  obtain ⟨db1, hdb1⟩ := generate_endgame_db_value 1
    (fun x m => (co.entry x.1 m, eo.entry x.2.1 m, uds.entry x.2.2 m))
  obtain ⟨db2, hdb2⟩ := generate_endgame_db_value 2
    (fun x m => (cp.entry x.1 m, udep.entry x.2.1 m, sep.entry x.2.2 m))
  have ht := tables_generated_mk co eo uds cp udep sep [] [] [] [] [] [] db1 db2
    h1 h2 h3 h4 h5 h6 hdb1 hdb2
  have hc1 := phase1_closed _ ht
  have hc2 := phase2_closed _ ht
  have hs1 := generate_endgame_db_sound 1 _ Good1 hc1 db1 hdb1
  have hs2 := generate_endgame_db_sound 2 _ Good2 hc2 db2 hdb2
  refine ⟨co, eo, uds, cp, udep, sep, db1, db2, h1, h2, h3, h4, h5, h6, hdb1, hdb2, ?_, ?_⟩
  · intro e he
    obtain ⟨x, hgood, hkey, hmem, hfol⟩ := hs1 e he
    obtain ⟨b1, b2, b3⟩ := good1_bounds x hgood
    refine ⟨x, b1, b2, b3, hkey, ?_, hfol, ?_⟩
    · intro y hy2 hy3 hy
      exact get_key_injective y x hy2 hy3 b2 b3 (hy.trans hkey.symm)
    · intro k hk hx
      obtain ⟨k1, ha, _, hf⟩ := phase1_follow _ ht e.2
        (fun m hm => phase1_moves_lt m (hmem m hm)) k (reachable_legal k hk)
      rw [hx] at hf
      have hz : (0, 0, 0) = (Phase1Coord.encode_corner_orientation k1,
          Phase1Coord.encode_edge_orientation k1, Phase1Coord.encode_ud_slice_position k1) :=
        hfol.symm.trans hf
      simp only [Prod.mk.injEq] at hz
      exact ⟨k1, ha, hz.1.symm, hz.2.1.symm, hz.2.2.symm⟩
  · intro e he
    obtain ⟨x, hgood, hkey, hmem, hfol⟩ := hs2 e he
    obtain ⟨b1, b2, b3⟩ := good2_bounds x hgood
    refine ⟨x, b1, b2, b3, hkey, ?_, hfol, ?_⟩
    · intro y hy2 hy3 hy
      exact get_key_injective y x hy2 hy3 b2 b3 (hy.trans hkey.symm)
    · intro k hk z1 z2 z3 e1 e2 e3
      have hg := legal_zero_inG1 k (reachable_legal k hk) z1 z2 z3
      obtain ⟨k1, ha, _, f1, f2, f3⟩ := phase2_follow _ ht e.2 hmem k x hg e1 e2 e3
      have hfol2 : follow (TableManager.get_phase2_moves
          (TableManager.mk co eo uds cp udep sep [] [] [] [] [] [] db1 db2)) x e.2 = (0, 0, 0) :=
        hfol
      rw [hfol2] at f1 f2 f3
      exact ⟨k1, ha, f1, f2, f3⟩

/-! ### Breadth-first generation of a pruning table -/

theorem followC_append (next : Nat → Move → Nat) (c : Nat) (p q : List Move) :
    followC next c (p ++ q) = followC next (followC next c p) q := by
  simp [followC, List.foldl_append]

theorem within_zero (moves : List Move) (next : Nat → Move → Nat) (c : Nat) :
    Within moves next 0 c ↔ c = 0 := by
  constructor
  · rintro ⟨path, hlen, _, hf⟩
    have : path = [] := List.length_eq_zero.mp (by omega)
    rw [this] at hf
    exact hf.symm
  · rintro rfl
    exact ⟨[], by simp, by simp, rfl⟩

theorem within_mono (moves : List Move) (next : Nat → Move → Nat) (n n1 c : Nat)
    (h : n ≤ n1) (hw : Within moves next n c) : Within moves next n1 c := by
  obtain ⟨path, hlen, hm, hf⟩ := hw
  exact ⟨path, by omega, hm, hf⟩

theorem within_step (moves : List Move) (next : Nat → Move → Nat) (n c : Nat) (m : Move)
    (hm : m ∈ moves) (hw : Within moves next n c) : Within moves next (n + 1) (next c m) := by
  obtain ⟨path, hlen, hmem, hf⟩ := hw
  refine ⟨path ++ [m], by simp; omega, ?_, ?_⟩
  · intro x hx
    rcases List.mem_append.mp hx with hx | hx
    · exact hmem x hx
    · rw [List.mem_singleton.mp hx]
      exact hm
  · rw [followC_append, hf]
    rfl

theorem within_succ (moves : List Move) (next : Nat → Move → Nat) (n c : Nat)
    (hw : Within moves next (n + 1) c) :
    Within moves next n c ∨
      ∃ c0 m, m ∈ moves ∧ Within moves next n c0 ∧ next c0 m = c := by
  obtain ⟨path, hlen, hmem, hf⟩ := hw
  rcases List.eq_nil_or_concat path with rfl | ⟨p, m, hp⟩
  · left
    exact ⟨[], by simp, by simp, hf⟩
  · rw [List.concat_eq_append] at hp
    subst hp
    right
    refine ⟨followC next 0 p, m, hmem m (by simp), ⟨p, ?_, ?_, rfl⟩, ?_⟩
    · simp at hlen
      omega
    · intro x hx
      exact hmem x (by simp [hx])
    · rw [followC_append] at hf
      exact hf

theorem within_lt (SIZE : Nat) (moves : List Move) (next : Nat → Move → Nat)
    (h0 : 0 < SIZE) (hclosed : ∀ c, c < SIZE → ∀ m ∈ moves, next c m < SIZE) :
    ∀ n c, Within moves next n c → c < SIZE := by
  intro n
  induction n with
  | zero =>
    intro c hw
    rw [(within_zero moves next c).mp hw]
    exact h0
  | succ n ih =>
    intro c hw
    rcases within_succ moves next n c hw with h | ⟨c0, m, hm, h, rfl⟩
    · exact ih c h
    · exact hclosed c0 (ih c0 h) m hm

theorem dist_unique (moves : List Move) (next : Nat → Move → Nat) (c e e1 : Nat)
    (h : Dist moves next c e) (h1 : Dist moves next c e1) : e = e1 :=
  Nat.le_antisymm (h.2 e1 h1.1) (h1.2 e h.1)

theorem dist_zero (moves : List Move) (next : Nat → Move → Nat) : Dist moves next 0 0 :=
  ⟨(within_zero moves next 0).mpr rfl, fun n _ => Nat.zero_le n⟩

theorem dist_zero_iff (moves : List Move) (next : Nat → Move → Nat) (c : Nat) :
    Dist moves next c 0 ↔ c = 0 := by
  constructor
  · intro h
    exact (within_zero moves next c).mp h.1
  · rintro rfl
    exact dist_zero moves next

theorem exists_dist (moves : List Move) (next : Nat → Move → Nat) (n c : Nat)
    (h : Within moves next n c) : ∃ e, e ≤ n ∧ Dist moves next c e := by
  classical
  have hex : ∃ k, Within moves next k c := ⟨n, h⟩
  refine ⟨Nat.find hex, Nat.find_min' hex h, Nat.find_spec hex, ?_⟩
  intro k hk
  exact Nat.find_min' hex hk

theorem dist_of_not_within (moves : List Move) (next : Nat → Move → Nat) (d c : Nat)
    (h1 : Within moves next (d + 1) c) (h2 : ¬ Within moves next d c) :
    Dist moves next c (d + 1) := by
  refine ⟨h1, ?_⟩
  intro n hn
  by_contra hlt
  exact h2 (within_mono moves next n d c (by omega) hn)

theorem foldlM_option_cover {α β : Type} (P : α → Prop) (R : β → Prop) (Q : β → α → Prop)
    (f : α → β → Option α)
    (hstep : ∀ a b, R b → P a → ∃ a1, f a b = some a1 ∧ P a1 ∧ Q b a1)
    (hmono : ∀ a b b1 a1, R b1 → P a → Q b a → f a b1 = some a1 → Q b a1)
    (l : List β) (hl : ∀ b ∈ l, R b) :
    ∀ a, P a → ∃ r, l.foldlM f a = some r ∧ P r ∧ ∀ b ∈ l, Q b r := by
  induction l with
  | nil =>
    intro a ha
    exact ⟨a, rfl, ha, fun b hb => by simp at hb⟩
  | cons b l ih =>
    intro a ha
    obtain ⟨a1, h1, hp1, hq1⟩ := hstep a b (hl b (List.mem_cons_self _ _)) ha
    obtain ⟨r, hr, hpr, hqr⟩ := ih (fun x hx => hl x (List.mem_cons_of_mem _ hx)) a1 hp1
    refine ⟨r, ?_, hpr, ?_⟩
    · simp only [List.foldlM_cons, h1, bind, Option.bind]
      exact hr
    · intro x hx
      rcases List.mem_cons.mp hx with rfl | hx
      · -- `Q x` holds after the first step and is kept by the rest
        have hkeep : ∀ (l1 : List β), (∀ y ∈ l1, R y) → ∀ a2 r2, P a2 → Q x a2 →
            l1.foldlM f a2 = some r2 → Q x r2 := by
          intro l1
          induction l1 with
          | nil =>
            intro _ a2 r2 _ hq h
            simp only [List.foldlM_nil, pure, Option.some.injEq] at h
            exact h ▸ hq
          | cons y l1 ih1 =>
            intro hl1 a2 r2 hp hq h
            simp only [List.foldlM_cons, bind, Option.bind_eq_some] at h
            obtain ⟨a3, h3, h4⟩ := h
            obtain ⟨a4, h5, hp4, _⟩ := hstep a2 y (hl1 y (List.mem_cons_self _ _)) hp
            rw [h3] at h5
            cases h5
            exact ih1 (fun z hz => hl1 z (List.mem_cons_of_mem _ hz)) a3 r2 hp4
              (hmono a2 x y a3 (hl1 y (List.mem_cons_self _ _)) hp hq h3) h4
        exact hkeep l (fun y hy => hl y (List.mem_cons_of_mem _ hy)) a1 r hp1 hq1 hr
      · exact hqr x hx

/-- One popped coordinate of a pass of `generate_pruning_table`: the inner loop
returns, keeps the invariant, and leaves every successor marked. -/
theorem pruning_expand_pass (SIZE : Nat) (moves : List Move) (next : Nat → Move → Nat)
    (K : Nat) (G : AxisGraph SIZE moves next K) (d cur : Nat)
    (hcur : Dist moves next cur d) :
    ∀ st, PruningMid SIZE moves next d st →
      ∃ r, TableManager.pruning_expand moves next d st cur = some r ∧
        PruningMid SIZE moves next d r ∧ ∀ m ∈ moves, r.1.getD (next cur m) 0 ≠ 0xFF := by
  have hc : cur < SIZE := within_lt SIZE moves next G.pos G.closed d cur hcur.1
  unfold TableManager.pruning_expand
  apply foldlM_option_cover (PruningMid SIZE moves next d) (fun m => m ∈ moves)
    (fun m (st : PruningTable × List Nat) => st.1.getD (next cur m) 0 ≠ 0xFF)
  · intro a m hm ha
    have hn : next cur m < SIZE := G.closed cur hc m hm
    have hn2 : ¬ (next cur m ≥ 40320) := by
      have := G.small
      omega
    simp only
    rw [if_neg hn2]
    by_cases h255 : a.1.getD (next cur m) 0 = 0xFF
    · rw [if_pos h255]
      have hnw : ¬ Within moves next d (next cur m) := fun hw => ha.within _ hw h255
      have hdist : Dist moves next (next cur m) (d + 1) :=
        dist_of_not_within moves next d _ (within_step moves next d cur m hm hcur.1) hnw
      have hdK := G.bound _ _ hdist
      have hbyte := G.byte
      have hmod : (d + 1) % 256 = d + 1 := Nat.mod_eq_of_lt (by omega)
      have hlen : next cur m < a.1.length := by rw [ha.len]; exact hn
      refine ⟨_, rfl, ⟨?_, ?_, ?_, ?_⟩, ?_⟩
      · simp only [List.length_set]
        exact ha.len
      · intro c hcS hc255
        simp only at hc255 ⊢
        by_cases hcn : next cur m = c
        · subst hcn
          rw [getD_set_eq _ _ _ hlen, hmod]
          exact ⟨hdist, le_refl _, fun _ => by simp⟩
        · rw [getD_set_ne _ _ _ _ hcn] at hc255 ⊢
          obtain ⟨h1, h2, h3⟩ := ha.marked c hcS hc255
          exact ⟨h1, h2, fun h => List.mem_append_left _ (h3 h)⟩
      · intro c hw
        simp only
        have hcn : next cur m ≠ c := by
          rintro rfl
          exact hnw hw
        rw [getD_set_ne _ _ _ _ hcn]
        exact ha.within c hw
      · intro c hcq
        simp only at hcq
        rcases List.mem_append.mp hcq with h | h
        · exact ha.queue c h
        · rw [List.mem_singleton.mp h]
          exact hdist
      · simp only
        rw [getD_set_eq _ _ _ hlen, hmod]
        omega
    · rw [if_neg h255]
      exact ⟨a, rfl, ha, h255⟩
  · intro a b b1 a1 _ _ hq h
    simp only at h
    split_ifs at h with h1 h2
    · cases h
      simp only
      have hne : next cur b1 ≠ next cur b := by
        intro he
        rw [he] at h2
        exact hq h2
      rw [getD_set_ne _ _ _ _ hne]
      exact hq
    · cases h
      exact hq
  · intro b hb
    exact hb

/-- A mark of the table is kept by the inner loop of a pass. -/
theorem pruning_expand_marked (moves : List Move) (next : Nat → Move → Nat)
    (d c cur : Nat) (st r : PruningTable × List Nat) (h : st.1.getD c 0 ≠ 0xFF)
    (hr : TableManager.pruning_expand moves next d st cur = some r) :
    r.1.getD c 0 ≠ 0xFF := by
  rw [pruning_expand_keep moves next d c (st.1.getD c 0) h cur st r rfl hr]
  exact h

/-- One pass of the `while` loop of `generate_pruning_table` returns and leads
from the invariant at depth `d` to the invariant at depth `d + 1`. -/
theorem pruning_pass (SIZE : Nat) (moves : List Move) (next : Nat → Move → Nat)
    (K : Nat) (G : AxisGraph SIZE moves next K) (d : Nat) (table : PruningTable)
    (q : List Nat) (hinv : PruningInv SIZE moves next d table q) :
    ∃ st, q.foldlM (TableManager.pruning_expand moves next d) (table, []) = some st ∧
      PruningInv SIZE moves next (d + 1) st.1 st.2 := by
  have hmid0 : PruningMid SIZE moves next d (table, []) := by
    refine ⟨hinv.len, ?_, hinv.within, ?_⟩
    · intro c hc h
      obtain ⟨h1, h2⟩ := hinv.marked c hc h
      dsimp only at h ⊢
      exact ⟨h1, by omega, fun h3 => by omega⟩
    · intro c hc
      simp at hc
  obtain ⟨r, hr, hmid, hcov⟩ := foldlM_option_cover (PruningMid SIZE moves next d)
    (fun cur => Dist moves next cur d)
    (fun cur (st : PruningTable × List Nat) => ∀ m ∈ moves, st.1.getD (next cur m) 0 ≠ 0xFF)
    (TableManager.pruning_expand moves next d)
    (fun a cur hcur ha => pruning_expand_pass SIZE moves next K G d cur hcur a ha)
    (fun a cur cur1 a1 _ _ hq h m hm =>
      pruning_expand_marked moves next d _ cur1 a a1 (hq m hm) h)
    q (fun c hc => (hinv.queue c).mp hc) (table, []) hmid0
  refine ⟨r, hr, ⟨hmid.len, ?_, ?_, ?_⟩⟩
  · intro c hc h
    obtain ⟨h1, h2, _⟩ := hmid.marked c hc h
    exact ⟨h1, h2⟩
  · intro c hw
    rcases within_succ moves next d c hw with h | ⟨c0, m, hm, h0, rfl⟩
    · exact hmid.within c h
    · obtain ⟨e, he, hde⟩ := exists_dist moves next d c0 h0
      rcases Nat.lt_or_ge e d with hlt | hge
      · exact hmid.within _ (within_mono moves next (e + 1) d _ (by omega)
          (within_step moves next e c0 m hm hde.1))
      · have hed : e = d := by omega
        rw [hed] at hde
        exact hcov c0 ((hinv.queue c0).mpr hde) m hm
  · intro c
    constructor
    · exact hmid.queue c
    · intro hd
      have hcS := within_lt SIZE moves next G.pos G.closed (d + 1) c hd.1
      have hw : r.1.getD c 0 ≠ 0xFF := by
        rcases within_succ moves next d c hd.1 with h | ⟨c0, m, hm, h0, rfl⟩
        · exact hmid.within c h
        · obtain ⟨e, he, hde⟩ := exists_dist moves next d c0 h0
          rcases Nat.lt_or_ge e d with hlt | hge
          · exact hmid.within _ (within_mono moves next (e + 1) d _ (by omega)
              (within_step moves next e c0 m hm hde.1))
          · have hed : e = d := by omega
            rw [hed] at hde
            exact hcov c0 ((hinv.queue c0).mpr hde) m hm
      obtain ⟨h1, _, h3⟩ := hmid.marked c hcS hw
      exact h3 (dist_unique moves next c _ _ h1 hd)

/-- What `generate_pruning_table` leaves: every reached entry holds the
distance from 0, every other entry the marker. -/
theorem pruning_loop_spec (SIZE : Nat) (moves : List Move) (next : Nat → Move → Nat)
    (K : Nat) (G : AxisGraph SIZE moves next K) :
    ∀ (fuel d : Nat) (table : PruningTable) (q : List Nat),
      PruningInv SIZE moves next d table q → 1 ≤ fuel → SIZE + 1 ≤ d + fuel →
      ∃ T, TableManager.pruning_loop moves next fuel table q d = Result.value T ∧
        T.length = SIZE ∧
        ∀ c, c < SIZE →
          (T.getD c 0 ≠ 0xFF → Dist moves next c (T.getD c 0)) ∧
          (T.getD c 0 = 0xFF → ∀ n, ¬ Within moves next n c) := by
  intro fuel
  induction fuel with
  | zero =>
    intro d table q _ h1 _
    omega
  | succ fuel ih =>
    intro d table q hinv _ hf
    unfold TableManager.pruning_loop
    by_cases hq : q.isEmpty = true
    · rw [if_pos hq]
      have hqn : q = [] := List.isEmpty_iff.mp hq
      refine ⟨table, rfl, hinv.len, ?_⟩
      have hall : ∀ n c, Within moves next n c → table.getD c 0 ≠ 0xFF := by
        intro n
        induction n with
        | zero =>
          intro c hw
          exact hinv.within c (within_mono moves next 0 d c (Nat.zero_le d) hw)
        | succ n ihn =>
          intro c hw
          rcases within_succ moves next n c hw with h | ⟨c0, m, hm, h0, rfl⟩
          · exact ihn c h
          · have hc0 := within_lt SIZE moves next G.pos G.closed n c0 h0
            obtain ⟨h1, h2⟩ := hinv.marked c0 hc0 (ihn c0 h0)
            have hne : table.getD c0 0 ≠ d := by
              intro he
              rw [he] at h1
              have := (hinv.queue c0).mpr h1
              rw [hqn] at this
              simp at this
            exact hinv.within _ (within_mono moves next (table.getD c0 0 + 1) d _ (by omega)
              (within_step moves next _ c0 m hm h1.1))
      intro c hc
      exact ⟨fun h => (hinv.marked c hc h).1, fun h n hw => hall n c hw h⟩
    · rw [if_neg hq]
      obtain ⟨st, hst, hinv1⟩ := pruning_pass SIZE moves next K G d table q hinv
      rw [hst]
      simp only
      have hdK : d ≤ K := by
        cases q with
        | nil => simp at hq
        | cons c q =>
          exact G.bound c d ((hinv.queue c).mp (List.mem_cons_self _ _))
      have := G.fuel
      exact ih (d + 1) st.1 st.2 hinv1 (by omega) (by omega)

theorem generate_pruning_table_spec (SIZE : Nat) (moves : List Move)
    (next : Nat → Move → Nat) (K : Nat) (G : AxisGraph SIZE moves next K) :
    ∃ T, TableManager.generate_pruning_table SIZE moves next = Result.value T ∧
      T.length = SIZE ∧
      ∀ c, c < SIZE →
        (T.getD c 0 ≠ 0xFF → Dist moves next c (T.getD c 0)) ∧
        (T.getD c 0 = 0xFF → ∀ n, ¬ Within moves next n c) := by
  unfold TableManager.generate_pruning_table
  apply pruning_loop_spec SIZE moves next K G
  · have hpos := G.pos
    refine ⟨by simp, ?_, ?_, ?_⟩
    · intro c hc h
      rcases pruning_initial_getD SIZE c with h0 | ⟨h0, _⟩
      · by_cases hc0 : c = 0
        · subst hc0
          rw [h0]
          exact ⟨dist_zero moves next, Nat.zero_le _⟩
        · exfalso
          rw [getD_set_ne _ _ _ _ (Ne.symm hc0)] at h0
          simp only [List.getD_eq_getElem?_getD, List.getElem?_replicate, hc, if_true,
            Option.getD_some] at h0
          exact absurd h0 (by decide)
      · exact absurd h0 h
    · intro c hw
      rw [(within_zero moves next c).mp hw, getD_set_eq _ _ _ (by simpa using hpos)]
      decide
    · intro c
      rw [dist_zero_iff]
      simp
  · omega
  · omega

/-! ### Coded axes -/

theorem coded_closed {α : Type} {SIZE : Nat} {moves : List Move} {next : Nat → Move → Nat}
    {dec : Nat → α} {enc : α → Nat} {act : Move → α → α} {V : α → Prop}
    (A : CodedAxis SIZE moves next dec enc act V) (c : Nat) (hc : c < SIZE) (m : Move)
    (hm : m ∈ moves) : next c m < SIZE := by
  rw [A.entry c m hc hm]
  exact (A.dec_enc _ (A.act_valid _ _ (A.dec_valid c hc) hm)).1

theorem coded_inverse {α : Type} {SIZE : Nat} {moves : List Move} {next : Nat → Move → Nat}
    {dec : Nat → α} {enc : α → Nat} {act : Move → α → α} {V : α → Prop}
    (A : CodedAxis SIZE moves next dec enc act V) (c : Nat) (hc : c < SIZE) (m : Move)
    (hm : m ∈ moves) : invert_move m ∈ moves ∧ next (next c m) (invert_move m) = c := by
  have hv := A.dec_valid c hc
  obtain ⟨hi, he⟩ := A.act_inv _ m hv hm
  refine ⟨hi, ?_⟩
  have hv1 := A.act_valid _ _ hv hm
  rw [A.entry (next c m) _ (coded_closed A c hc m hm) hi, A.entry c m hc hm,
    (A.dec_enc _ hv1).2, he, A.enc_dec c hc]

theorem coded_follow {α : Type} {SIZE : Nat} {moves : List Move} {next : Nat → Move → Nat}
    {dec : Nat → α} {enc : α → Nat} {act : Move → α → α} {V : α → Prop}
    (A : CodedAxis SIZE moves next dec enc act V) :
    ∀ (w : List Move) (c : Nat), c < SIZE → (∀ m ∈ w, m ∈ moves) →
      followC next c w < SIZE ∧ dec (followC next c w) = actWord act (dec c) w := by
  intro w
  induction w with
  | nil => intro c hc _; exact ⟨hc, rfl⟩
  | cons m w ih =>
    intro c hc hw
    have hm := hw m (List.mem_cons_self _ _)
    have h1 := ih (next c m) (coded_closed A c hc m hm)
      (fun x hx => hw x (List.mem_cons_of_mem _ hx))
    refine ⟨h1.1, ?_⟩
    have h2 : dec (next c m) = act m (dec c) := by
      rw [A.entry c m hc hm]
      exact (A.dec_enc _ (A.act_valid _ _ (A.dec_valid c hc) hm)).2
    have h3 := h1.2
    rw [h2] at h3
    exact h3

/-- A path is undone by the inverse moves in reverse order, on an axis whose
moves stay below `SIZE` and are undone by their inverses. -/
theorem followC_back (SIZE : Nat) (moves : List Move) (next : Nat → Move → Nat)
    (hcl : ∀ c, c < SIZE → ∀ m ∈ moves, next c m < SIZE)
    (hinv : ∀ c, c < SIZE → ∀ m ∈ moves,
      invert_move m ∈ moves ∧ next (next c m) (invert_move m) = c) :
    ∀ (p : List Move) (c : Nat), c < SIZE → (∀ m ∈ p, m ∈ moves) →
      followC next (followC next c p) (p.reverse.map invert_move) = c ∧
      followC next c p < SIZE ∧
      (∀ m ∈ p.reverse.map invert_move, m ∈ moves) ∧
      (p.reverse.map invert_move).length = p.length := by
  intro p
  induction p with
  | nil => intro c hc _; exact ⟨rfl, hc, fun m hm => absurd hm (List.not_mem_nil m), rfl⟩
  | cons m p ih =>
    intro c hc hp
    have hm := hp m (List.mem_cons_self _ _)
    obtain ⟨h1, h2, h3, h4⟩ := ih (next c m) (hcl c hc m hm)
      (fun x hx => hp x (List.mem_cons_of_mem _ hx))
    have hi := hinv c hc m hm
    refine ⟨?_, h2, ?_, ?_⟩
    · rw [List.reverse_cons, List.map_append, followC_append]
      show followC next (followC next (followC next (next c m) p) _) _ = c
      rw [h1]
      exact hi.2
    · intro x hx
      rw [List.reverse_cons, List.map_append, List.mem_append] at hx
      rcases hx with hx | hx
      · exact h3 x hx
      · simp only [List.map_cons, List.map_nil, List.mem_singleton] at hx
        rw [hx]
        exact hi.1
    · simp only [List.length_map, List.length_reverse]

/-- On such an axis the distance from 0 to `c` is the least number of moves
that take `c` to 0. -/
theorem minTo_of_dist (SIZE : Nat) (moves : List Move) (next : Nat → Move → Nat)
    (hpos : 0 < SIZE)
    (hcl : ∀ c, c < SIZE → ∀ m ∈ moves, next c m < SIZE)
    (hinv : ∀ c, c < SIZE → ∀ m ∈ moves,
      invert_move m ∈ moves ∧ next (next c m) (invert_move m) = c)
    (c e : Nat) (hc : c < SIZE) (h : Dist moves next c e) : MinTo moves next c e := by
  obtain ⟨⟨p, hlen, hp, hpc⟩, hmin⟩ := h
  have hpe : p.length = e := Nat.le_antisymm hlen (hmin _ ⟨p, Nat.le_refl _, hp, hpc⟩)
  constructor
  · obtain ⟨h1, _, h3, h4⟩ := followC_back SIZE moves next hcl hinv p 0 hpos hp
    rw [hpc] at h1
    exact ⟨_, by rw [h4, hpe], h3, h1⟩
  · intro q hq hqc
    obtain ⟨h1, _, h3, h4⟩ := followC_back SIZE moves next hcl hinv q c hc hq
    rw [hqc] at h1
    have := hmin _ ⟨_, Nat.le_refl _, h3, h1⟩
    rw [h4] at this
    exact this

/-- A path of at most `K` moves from `c` to 0 puts `c` within `K` moves of 0. -/
theorem within_of_path_to_zero (SIZE : Nat) (moves : List Move) (next : Nat → Move → Nat)
    (hcl : ∀ c, c < SIZE → ∀ m ∈ moves, next c m < SIZE)
    (hinv : ∀ c, c < SIZE → ∀ m ∈ moves,
      invert_move m ∈ moves ∧ next (next c m) (invert_move m) = c)
    (c K : Nat) (hc : c < SIZE) (w : List Move) (hw : ∀ m ∈ w, m ∈ moves) (hlen : w.length ≤ K)
    (h0 : followC next c w = 0) : Within moves next K c := by
  obtain ⟨h1, _, h3, h4⟩ := followC_back SIZE moves next hcl hinv w c hc hw
  rw [h0] at h1
  exact ⟨_, by rw [h4]; exact hlen, h3, h1⟩

/-- A coded axis on which every valid arrangement is taken to the code 0 by at
most `K` moves. -/
theorem coded_path_to_zero {α : Type} {SIZE : Nat} {moves : List Move} {next : Nat → Move → Nat}
    {dec : Nat → α} {enc : α → Nat} {act : Move → α → α} {V : α → Prop}
    (A : CodedAxis SIZE moves next dec enc act V) (K : Nat)
    (sift : ∀ a, V a → ∃ w : List Move, w.length ≤ K ∧ (∀ m ∈ w, m ∈ moves) ∧
      enc (actWord act a w) = 0)
    (c : Nat) (hc : c < SIZE) :
    ∃ w : List Move, w.length ≤ K ∧ (∀ m ∈ w, m ∈ moves) ∧ followC next c w = 0 := by
  obtain ⟨w, hlen, hw, h0⟩ := sift (dec c) (A.dec_valid c hc)
  refine ⟨w, hlen, hw, ?_⟩
  obtain ⟨h1, h2⟩ := coded_follow A w c hc hw
  rw [← h2, A.enc_dec _ h1] at h0
  exact h0

theorem coded_axis_graph {α : Type} {SIZE : Nat} {moves : List Move} {next : Nat → Move → Nat}
    {dec : Nat → α} {enc : α → Nat} {act : Move → α → α} {V : α → Prop}
    (A : CodedAxis SIZE moves next dec enc act V) (K : Nat)
    (sift : ∀ a, V a → ∃ w : List Move, w.length ≤ K ∧ (∀ m ∈ w, m ∈ moves) ∧
      enc (actWord act a w) = 0)
    (hpos : 0 < SIZE) (hsmall : SIZE ≤ 40320) (hbyte : K ≤ 253) (hfuel : K + 1 ≤ SIZE) :
    AxisGraph SIZE moves next K := by
  refine ⟨hpos, hsmall, fun c hc m hm => coded_closed A c hc m hm, ?_, hbyte, hfuel⟩
  intro c e hd
  obtain ⟨p, _, hp, hpc⟩ := hd.1
  have hc : c < SIZE := by
    have := (coded_follow A p 0 hpos hp).1
    rw [hpc] at this
    exact this
  obtain ⟨w, hlen, hw, h0⟩ := coded_path_to_zero A K sift c hc
  exact hd.2 K (within_of_path_to_zero SIZE moves next (fun c hc m hm => coded_closed A c hc m hm)
    (fun c hc m hm => coded_inverse A c hc m hm) c K hc w hw hlen h0)

/-- The pruning table of a coded axis with paths to 0 of at most `K` moves is
generated, and each of its entries is the least number of moves to 0. -/
theorem pruning_exact {α : Type} {SIZE : Nat} {moves : List Move} {next : Nat → Move → Nat}
    {dec : Nat → α} {enc : α → Nat} {act : Move → α → α} {V : α → Prop}
    (A : CodedAxis SIZE moves next dec enc act V) (K : Nat)
    (sift : ∀ a, V a → ∃ w : List Move, w.length ≤ K ∧ (∀ m ∈ w, m ∈ moves) ∧
      enc (actWord act a w) = 0)
    (hpos : 0 < SIZE) (hsmall : SIZE ≤ 40320) (hbyte : K ≤ 253) (hfuel : K + 1 ≤ SIZE) :
    ∃ T, TableManager.generate_pruning_table SIZE moves next = Result.value T ∧
      T.length = SIZE ∧
      ∀ c, c < SIZE → T.getD c 0 ≤ K ∧ MinTo moves next c (T.getD c 0) := by
  have G := coded_axis_graph A K sift hpos hsmall hbyte hfuel
  obtain ⟨T, hT, hlen, hsp⟩ := generate_pruning_table_spec SIZE moves next K G
  refine ⟨T, hT, hlen, ?_⟩
  intro c hc
  have hcl : ∀ c, c < SIZE → ∀ m ∈ moves, next c m < SIZE :=
    fun c hc m hm => coded_closed A c hc m hm
  have hinv : ∀ c, c < SIZE → ∀ m ∈ moves,
      invert_move m ∈ moves ∧ next (next c m) (invert_move m) = c :=
    fun c hc m hm => coded_inverse A c hc m hm
  obtain ⟨w, hwlen, hw, h0⟩ := coded_path_to_zero A K sift c hc
  have hwi := within_of_path_to_zero SIZE moves next hcl hinv c K hc w hw hwlen h0
  have hne : T.getD c 0 ≠ 0xFF := fun h => (hsp c hc).2 h K hwi
  have hd := (hsp c hc).1 hne
  exact ⟨G.bound c _ hd, minTo_of_dist SIZE moves next hpos hcl hinv c _ hc hd⟩

/-! ### Words acting on slots -/

theorem carry_length {β : Type} (n : Nat) (d : β) (s : Nat → Nat) (a : List β) :
    (carry n d s a).length = n := by
  simp [carry]

theorem carry_getD {β : Type} (n : Nat) (d : β) (s : Nat → Nat) (a : List β) (t : Nat)
    (ht : t < n) : (carry n d s a).getD t d = a.getD (s t) d :=
  getD_map_range _ d n t ht

theorem wordSrc_lt (s : Move → Nat → Nat) (moves : List Move) (n : Nat)
    (hs : ∀ m ∈ moves, ∀ t < n, s m t < n) :
    ∀ w : List Move, (∀ m ∈ w, m ∈ moves) → ∀ t < n, wordSrc s w t < n := by
  intro w
  induction w with
  | nil => intro _ t ht; exact ht
  | cons m w ih =>
    intro hw t ht
    exact hs m (hw m (List.mem_cons_self _ _)) _
      (ih (fun x hx => hw x (List.mem_cons_of_mem _ hx)) t ht)

/-- The moves of a word, each carrying slot contents along `s`, carry them
along `wordSrc s`. -/
theorem actWord_carry {β : Type} (n : Nat) (d : β) (s : Move → Nat → Nat) (moves : List Move)
    (hs : ∀ m ∈ moves, ∀ t < n, s m t < n) :
    ∀ (w : List Move) (a : List β), a.length = n → (∀ m ∈ w, m ∈ moves) →
      actWord (fun m => carry n d (s m)) a w = carry n d (wordSrc s w) a := by
  intro w
  induction w with
  | nil =>
    intro a ha _
    exact (map_getD_range a d n ha).symm
  | cons m w ih =>
    intro a ha hw
    have hw1 : ∀ x ∈ w, x ∈ moves := fun x hx => hw x (List.mem_cons_of_mem _ hx)
    show actWord (fun m => carry n d (s m)) (carry n d (s m) a) w = _
    rw [ih _ (carry_length n d (s m) a) hw1]
    unfold carry
    apply List.map_congr_left
    intro t ht
    have ht1 : t < n := List.mem_range.mp ht
    exact getD_map_range _ d n _ (wordSrc_lt s moves n hs w hw1 t ht1)

theorem actWord_append {α : Type} (act : Move → α → α) (a : α) (p q : List Move) :
    actWord act a (p ++ q) = actWord act (actWord act a p) q := by
  simp [actWord, List.foldl_append]

/-- Slot by slot: with words that bring the content of any later slot `j` to
slot `i` and leave the slots before `i` alone, every arrangement of `tgt` is
taken to `tgt` by `n` words. -/
theorem sift_arrangement (n L : Nat) (s : Move → Nat → Nat) (moves : List Move)
    (tgt : List Nat) (W : Nat → Nat → List Move)
    (hs : ∀ m ∈ moves, ∀ t < n, s m t < n)
    (htl : tgt.length = n) (htn : tgt.Nodup)
    (hperm : ∀ m ∈ moves, ∀ p : List Nat, p.Perm tgt → (carry n 0 (s m) p).Perm tgt)
    (hW : ∀ i j, i < j → j < n →
      (∀ m ∈ W i j, m ∈ moves) ∧ (W i j).length ≤ L ∧
      (∀ t < i, wordSrc s (W i j) t = t) ∧ wordSrc s (W i j) i = j) :
    ∀ p : List Nat, p.Perm tgt →
      ∃ w : List Move, w.length ≤ n * L ∧ (∀ m ∈ w, m ∈ moves) ∧
        actWord (fun m => carry n 0 (s m)) p w = tgt := by
  intro p hp
  have hkeep : ∀ (w : List Move), (∀ m ∈ w, m ∈ moves) → ∀ q : List Nat, q.Perm tgt →
      (actWord (fun m => carry n 0 (s m)) q w).Perm tgt := by
    intro w
    induction w with
    | nil => intro _ q hq; exact hq
    | cons m w ih =>
      intro hw q hq
      exact ih (fun x hx => hw x (List.mem_cons_of_mem _ hx)) _
        (hperm m (hw m (List.mem_cons_self _ _)) q hq)
  have level : ∀ i, i ≤ n → ∃ w : List Move, w.length ≤ i * L ∧ (∀ m ∈ w, m ∈ moves) ∧
      ∀ t < i, (actWord (fun m => carry n 0 (s m)) p w).getD t 0 = tgt.getD t 0 := by
    intro i
    induction i with
    | zero => intro _; exact ⟨[], by simp, fun m hm => absurd hm (List.not_mem_nil m),
        fun t ht => absurd ht (Nat.not_lt_zero t)⟩
    | succ i ih =>
      intro hi
      obtain ⟨w, hwl, hwm, hfix⟩ := ih (Nat.le_of_succ_le hi)
      have hq := hkeep w hwm p hp
      have hql : (actWord (fun m => carry n 0 (s m)) p w).length = n := by
        rw [hq.length_eq, htl]
      have hmem : tgt.getD i 0 ∈ actWord (fun m => carry n 0 (s m)) p w :=
        hq.symm.subset (getD_mem tgt 0 i (by rw [htl]; exact hi))
      obtain ⟨j, hj, hjv⟩ := List.getElem_of_mem hmem
      rw [hql] at hj
      have hjd : (actWord (fun m => carry n 0 (s m)) p w).getD j 0 = tgt.getD i 0 := by
        rw [List.getD_eq_getElem _ _ (by rw [hql]; exact hj)]
        exact hjv
      have hij : i ≤ j := by
        by_contra hlt
        have hlt : j < i := Nat.lt_of_not_le hlt
        have h1 := hfix j hlt
        rw [hjd] at h1
        have hi1 : i < tgt.length := by rw [htl]; exact hi
        have hj1 : j < tgt.length := by rw [htl]; exact hj
        rw [List.getD_eq_getElem _ _ hi1, List.getD_eq_getElem _ _ hj1] at h1
        have := (List.Nodup.getElem_inj_iff htn).mp h1
        omega
      rcases Nat.eq_or_lt_of_le hij with heq | hlt
      · refine ⟨w, ?_, hwm, ?_⟩
        · have : i * L ≤ (i + 1) * L := Nat.mul_le_mul_right _ (Nat.le_succ i)
          omega
        · intro t ht
          rcases Nat.eq_or_lt_of_le (Nat.le_of_lt_succ ht) with h | h
          · rw [← heq] at hjd
            rw [h]
            exact hjd
          · exact hfix t h
      · obtain ⟨hm, hl, hlow, hat⟩ := hW i j hlt hj
        refine ⟨w ++ W i j, ?_, ?_, ?_⟩
        · rw [List.length_append, Nat.succ_mul]
          omega
        · intro m hmm
          rcases List.mem_append.mp hmm with h | h
          · exact hwm m h
          · exact hm m h
        · intro t ht
          rw [actWord_append, actWord_carry n 0 s moves hs (W i j) _ hql hm,
            carry_getD n 0 _ _ t (by omega)]
          rcases Nat.eq_or_lt_of_le (Nat.le_of_lt_succ ht) with h | h
          · rw [h, hat]; exact hjd
          · rw [hlow t h]; exact hfix t h
  obtain ⟨w, hwl, hwm, hfix⟩ := level n (Nat.le_refl n)
  refine ⟨w, hwl, hwm, ?_⟩
  have hq := hkeep w hwm p hp
  have hql : (actWord (fun m => carry n 0 (s m)) p w).length = n := by
    rw [hq.length_eq, htl]
  rw [← map_getD_range (actWord (fun m => carry n 0 (s m)) p w) 0 n hql,
    ← map_getD_range tgt 0 n htl]
  apply List.map_congr_left
  intro t ht
  exact hfix t (List.mem_range.mp ht)

/-! ### The Phase-2 axes as coded axes -/

theorem carry_perm {β : Type} (n : Nat) (d : β) (s : Nat → Nat) (a : List β)
    (ha : a.length = n) (hs : ((List.range n).map s).Perm (List.range n)) :
    (carry n d s a).Perm a := by
  have h := hs.map (fun t => a.getD t d)
  rw [map_getD_range a d n ha, List.map_map] at h
  exact h

theorem carry_carry_inverse {β : Type} (n : Nat) (d : β) (s1 s2 : Nat → Nat) (a : List β)
    (ha : a.length = n) (h : ∀ t < n, s1 t < n ∧ s2 (s1 t) = t) :
    carry n d s1 (carry n d s2 a) = a := by
  have h1 : carry n d s1 (carry n d s2 a) = (List.range n).map (fun t => a.getD t d) := by
    unfold carry
    apply List.map_congr_left
    intro t ht
    have ht := List.mem_range.mp ht
    rw [getD_map_range _ d n _ (h t ht).1, (h t ht).2]
  rw [h1, map_getD_range a d n ha]

theorem cpWord_moves : ∀ i < 8, ∀ j < 8, i < j →
    ∀ m ∈ cpWord i j, m ∈ Phase2Coord.AVAILABLE_MOVES := by decide

theorem cpWord_length : ∀ i < 8, ∀ j < 8, i < j → (cpWord i j).length ≤ 11 := by
  decide

theorem cpWord_keeps : ∀ i < 8, ∀ j < 8, i < j →
    ∀ t < i, wordSrc srcC (cpWord i j) t = t := by decide

theorem cpWord_brings : ∀ i < 8, ∀ j < 8, i < j →
    wordSrc srcC (cpWord i j) i = j := by decide

theorem udepWord_moves : ∀ i < 8, ∀ j < 8, i < j →
    ∀ m ∈ udepWord i j, m ∈ Phase2Coord.AVAILABLE_MOVES := by decide

theorem udepWord_length : ∀ i < 8, ∀ j < 8, i < j → (udepWord i j).length ≤ 5 := by
  decide

theorem udepWord_keeps : ∀ i < 8, ∀ j < 8, i < j →
    ∀ t < i, wordSrc srcE (udepWord i j) t = t := by decide

theorem udepWord_brings : ∀ i < 8, ∀ j < 8, i < j →
    wordSrc srcE (udepWord i j) i = j := by decide

theorem sepWord_moves : ∀ i < 4, ∀ j < 4, i < j →
    ∀ m ∈ sepWord i j, m ∈ Phase2Coord.AVAILABLE_MOVES := by decide

theorem sepWord_length : ∀ i < 4, ∀ j < 4, i < j → (sepWord i j).length ≤ 2 := by
  decide

theorem sepWord_keeps : ∀ i < 4, ∀ j < 4, i < j →
    ∀ t < i, wordSrc srcS (sepWord i j) t = t := by decide

theorem sepWord_brings : ∀ i < 4, ∀ j < 4, i < j →
    wordSrc srcS (sepWord i j) i = j := by decide

theorem phase2_srcC_inverse : ∀ m ∈ Phase2Coord.AVAILABLE_MOVES, ∀ t < 8,
    srcC (invert_move m) t < 8 ∧ srcC m (srcC (invert_move m) t) = t := by decide

theorem phase2_srcE_inverse : ∀ m ∈ Phase2Coord.AVAILABLE_MOVES, ∀ t < 8,
    srcE (invert_move m) t < 8 ∧ srcE m (srcE (invert_move m) t) = t := by decide

theorem phase2_srcS_inverse : ∀ m ∈ Phase2Coord.AVAILABLE_MOVES, ∀ t < 4,
    srcS (invert_move m) t < 4 ∧ srcS m (srcS (invert_move m) t) = t := by decide

theorem phase2_srcS_perm : ∀ m ∈ Phase2Coord.AVAILABLE_MOVES,
    ((List.range 4).map (srcS m)).Perm (List.range 4) := by decide

theorem phase2_srcS_lt : ∀ m ∈ Phase2Coord.AVAILABLE_MOVES, ∀ t < 4, srcS m t < 4 := by decide

theorem phase2_srcC_lt : ∀ m ∈ Phase2Coord.AVAILABLE_MOVES, ∀ t < 8, srcC m t < 8 := by decide

/-- The Lehmer code as a coding of the arrangements of a span. -/
theorem lehmer_coding (n fact : Nat) (hs : LehmerSpan n fact) :
    (∀ c, c < fact → (permOfRank n c).Perm (Phase2Coord.initial_available_pieces n)) ∧
    (∀ c, c < fact → (Phase2Coord.encode_perm (permOfRank n c)).getD 0 = c) ∧
    (∀ p : List Nat, p.Perm (Phase2Coord.initial_available_pieces n) →
      (Phase2Coord.encode_perm p).getD 0 < fact ∧
      permOfRank n ((Phase2Coord.encode_perm p).getD 0) = p) := by
  refine ⟨fun c hc => (decode_perm_eq n fact hs c hc).1, ?_, ?_⟩
  · intro c hc
    rw [(decode_perm_eq n fact hs c hc).2.1]
    rfl
  · intro p hp
    obtain ⟨r, hr, henc, _⟩ := encode_perm_of_perm n fact hs p hp
    rw [henc]
    exact permOfRank_encode n fact hs p hp r henc

theorem cp_coded (cp : MoveTable) (h : TableManager.generate_cp_move_table = some cp) :
    CodedAxis 40320 Phase2Coord.AVAILABLE_MOVES cp.entry (permOfRank 8)
      (fun p => (Phase2Coord.encode_perm p).getD 0) (fun m => carry 8 0 (srcC m))
      (fun p => p.Perm (Phase2Coord.initial_available_pieces 8)) := by
  obtain ⟨h1, h2, h3⟩ := lehmer_coding 8 40320 lehmerSpan_eight
  have hlen : ∀ p : List Nat, p.Perm (Phase2Coord.initial_available_pieces 8) → p.length = 8 :=
    fun p hp => by rw [hp.length_eq]; rfl
  refine ⟨h1, h2, h3, ?_, ?_, ?_⟩
  · intro p m hp hm
    exact (carry_perm 8 0 (srcC m) p (hlen p hp) (srcC_perm m (phase2_moves_lt m hm))).trans hp
  · intro p m hp hm
    exact ⟨phase2_invert_mem m hm,
      carry_carry_inverse 8 0 _ _ p (hlen p hp) (phase2_srcC_inverse m hm)⟩
  · intro c m hc hm
    obtain ⟨T, hT, _, _, he⟩ := cp_move_table_spec
    rw [h] at hT
    cases hT
    rw [he c m, if_pos ⟨hc, hm⟩]
    simp only [cp_move_entry, movePiecesC, carry, List.map_map]
    rfl

theorem udep_coded (udep : MoveTable) (h : TableManager.generate_udep_move_table = some udep) :
    CodedAxis 40320 Phase2Coord.AVAILABLE_MOVES udep.entry (permOfRank 8)
      (fun p => (Phase2Coord.encode_perm p).getD 0) (fun m => carry 8 0 (srcE m))
      (fun p => p.Perm (Phase2Coord.initial_available_pieces 8)) := by
  obtain ⟨h1, h2, h3⟩ := lehmer_coding 8 40320 lehmerSpan_eight
  have hlen : ∀ p : List Nat, p.Perm (Phase2Coord.initial_available_pieces 8) → p.length = 8 :=
    fun p hp => by rw [hp.length_eq]; rfl
  refine ⟨h1, h2, h3, ?_, ?_, ?_⟩
  · intro p m hp hm
    exact (carry_perm 8 0 (srcE m) p (hlen p hp) (phase2_srcE_perm_low m hm)).trans hp
  · intro p m hp hm
    exact ⟨phase2_invert_mem m hm,
      carry_carry_inverse 8 0 _ _ p (hlen p hp) (phase2_srcE_inverse m hm)⟩
  · intro c m hc hm
    obtain ⟨T, hT, _, _, he⟩ := udep_move_table_spec
    rw [h] at hT
    cases hT
    rw [he c m, if_pos ⟨hc, hm⟩]
    rfl

theorem sep_coded (sep : MoveTable) (h : TableManager.generate_sep_move_table = some sep) :
    CodedAxis 24 Phase2Coord.AVAILABLE_MOVES sep.entry (permOfRank 4)
      (fun p => (Phase2Coord.encode_perm p).getD 0) (fun m => carry 4 0 (srcS m))
      (fun p => p.Perm (Phase2Coord.initial_available_pieces 4)) := by
  obtain ⟨h1, h2, h3⟩ := lehmer_coding 4 24 lehmerSpan_four
  have hlen : ∀ p : List Nat, p.Perm (Phase2Coord.initial_available_pieces 4) → p.length = 4 :=
    fun p hp => by rw [hp.length_eq]; rfl
  refine ⟨h1, h2, h3, ?_, ?_, ?_⟩
  · intro p m hp hm
    exact (carry_perm 4 0 (srcS m) p (hlen p hp) (phase2_srcS_perm m hm)).trans hp
  · intro p m hp hm
    exact ⟨phase2_invert_mem m hm,
      carry_carry_inverse 4 0 _ _ p (hlen p hp) (phase2_srcS_inverse m hm)⟩
  · intro c m hc hm
    obtain ⟨T, hT, _, _, he⟩ := sep_move_table_spec
    rw [h] at hT
    cases hT
    rw [he c m, if_pos ⟨hc, hm⟩]
    rfl

/-- Every arrangement of the corners is sorted by at most 88 Phase-2 moves. -/
theorem cp_sift (p : List Nat) (hp : p.Perm (Phase2Coord.initial_available_pieces 8)) :
    ∃ w : List Move, w.length ≤ 88 ∧ (∀ m ∈ w, m ∈ Phase2Coord.AVAILABLE_MOVES) ∧
      (Phase2Coord.encode_perm (actWord (fun m => carry 8 0 (srcC m)) p w)).getD 0 = 0 := by
  obtain ⟨w, h1, h2, h3⟩ := sift_arrangement 8 11 srcC Phase2Coord.AVAILABLE_MOVES
    (Phase2Coord.initial_available_pieces 8) cpWord phase2_srcC_lt (by decide) (by decide)
    (fun m hm q hq => (carry_perm 8 0 (srcC m) q (by rw [hq.length_eq]; rfl)
      (srcC_perm m (phase2_moves_lt m hm))).trans hq)
    (fun i j hij hj => ⟨cpWord_moves i (by omega) j hj hij,
      cpWord_length i (by omega) j hj hij, cpWord_keeps i (by omega) j hj hij,
      cpWord_brings i (by omega) j hj hij⟩) p hp
  refine ⟨w, h1, h2, ?_⟩
  rw [h3]
  decide

/-- Every arrangement of the edges of the U and D layers is sorted by at most
40 Phase-2 moves. -/
theorem udep_sift (p : List Nat) (hp : p.Perm (Phase2Coord.initial_available_pieces 8)) :
    ∃ w : List Move, w.length ≤ 40 ∧ (∀ m ∈ w, m ∈ Phase2Coord.AVAILABLE_MOVES) ∧
      (Phase2Coord.encode_perm (actWord (fun m => carry 8 0 (srcE m)) p w)).getD 0 = 0 := by
  obtain ⟨w, h1, h2, h3⟩ := sift_arrangement 8 5 srcE Phase2Coord.AVAILABLE_MOVES
    (Phase2Coord.initial_available_pieces 8) udepWord phase2_srcE_low (by decide) (by decide)
    (fun m hm q hq => (carry_perm 8 0 (srcE m) q (by rw [hq.length_eq]; rfl)
      (phase2_srcE_perm_low m hm)).trans hq)
    (fun i j hij hj => ⟨udepWord_moves i (by omega) j hj hij,
      udepWord_length i (by omega) j hj hij, udepWord_keeps i (by omega) j hj hij,
      udepWord_brings i (by omega) j hj hij⟩) p hp
  refine ⟨w, h1, h2, ?_⟩
  rw [h3]
  decide

/-- Every arrangement of the slice edges is sorted by at most 8 Phase-2 moves. -/
theorem sep_sift (p : List Nat) (hp : p.Perm (Phase2Coord.initial_available_pieces 4)) :
    ∃ w : List Move, w.length ≤ 8 ∧ (∀ m ∈ w, m ∈ Phase2Coord.AVAILABLE_MOVES) ∧
      (Phase2Coord.encode_perm (actWord (fun m => carry 4 0 (srcS m)) p w)).getD 0 = 0 := by
  obtain ⟨w, h1, h2, h3⟩ := sift_arrangement 4 2 srcS Phase2Coord.AVAILABLE_MOVES
    (Phase2Coord.initial_available_pieces 4) sepWord phase2_srcS_lt (by decide) (by decide)
    (fun m hm q hq => (carry_perm 4 0 (srcS m) q (by rw [hq.length_eq]; rfl)
      (phase2_srcS_perm m hm)).trans hq)
    (fun i j hij hj => ⟨sepWord_moves i (by omega) j hj hij,
      sepWord_length i (by omega) j hj hij, sepWord_keeps i (by omega) j hj hij,
      sepWord_brings i (by omega) j hj hij⟩) p hp
  refine ⟨w, h1, h2, ?_⟩
  rw [h3]
  decide

/-! ### Words acting on orientations -/

theorem twist_length (n M : Nat) (s d : Nat → Nat) (v : List Nat) :
    (twist n M s d v).length = n := by
  simp [twist]

theorem twist_getD (n M : Nat) (s d : Nat → Nat) (v : List Nat) (t : Nat) (ht : t < n) :
    (twist n M s d v).getD t 0 = (v.getD (s t) 0 + d t) % M :=
  getD_map_range _ 0 n t ht

theorem twist_lt (n M : Nat) (hM : 0 < M) (s d : Nat → Nat) (v : List Nat) :
    ∀ o ∈ twist n M s d v, o < M := by
  intro o ho
  obtain ⟨t, _, rfl⟩ := List.mem_map.mp ho
  exact Nat.mod_lt _ hM

theorem getD_lt_of_forall (v : List Nat) (M : Nat) (hM : 0 < M) (hv : ∀ o ∈ v, o < M) (t : Nat) :
    v.getD t 0 < M := by
  by_cases ht : t < v.length
  · exact hv _ (getD_mem v 0 t ht)
  · rw [List.getD_eq_default _ _ (by omega)]
    exact hM

/-- The moves of a word, each bringing the content of slot `s m t` to slot `t`
and raising it by `dl m t`, bring the content of slot `wordSrc s w t` and raise
it by `wordDelta s dl M w t`. -/
theorem actWord_twist (n M : Nat) (hM : 0 < M) (s dl : Move → Nat → Nat) (moves : List Move)
    (hs : ∀ m ∈ moves, ∀ t < n, s m t < n) :
    ∀ (w : List Move) (v : List Nat), v.length = n → (∀ o ∈ v, o < M) →
      (∀ m ∈ w, m ∈ moves) →
      actWord (fun m => twist n M (s m) (dl m)) v w
        = twist n M (wordSrc s w) (wordDelta s dl M w) v := by
  intro w
  induction w with
  | nil =>
    intro v hv ho _
    have h1 : twist n M (wordSrc s []) (wordDelta s dl M []) v
        = (List.range n).map (fun t => v.getD t 0) := by
      unfold twist
      apply List.map_congr_left
      intro t _
      show (v.getD t 0 + 0) % M = v.getD t 0
      rw [Nat.add_zero]
      exact Nat.mod_eq_of_lt (getD_lt_of_forall v M hM ho t)
    rw [h1, map_getD_range v 0 n hv]
    rfl
  | cons m w ih =>
    intro v hv _ hw
    have hw1 : ∀ x ∈ w, x ∈ moves := fun x hx => hw x (List.mem_cons_of_mem _ hx)
    show actWord (fun m => twist n M (s m) (dl m)) (twist n M (s m) (dl m) v) w = _
    rw [ih _ (twist_length n M _ _ v) (twist_lt n M hM _ _ v) hw1]
    unfold twist
    apply List.map_congr_left
    intro t ht
    have ht1 : t < n := List.mem_range.mp ht
    rw [getD_map_range _ 0 n _ (wordSrc_lt s moves n hs w hw1 t ht1)]
    show _ = (v.getD (s m (wordSrc s w t)) 0
      + (dl m (wordSrc s w t) + wordDelta s dl M w t) % M) % M
    rw [Nat.mod_add_mod, Nat.add_mod_mod, Nat.add_assoc]

/-- Slot by slot: with words that leave the slots up to `i` in place, leave
the orientations before slot `i` alone and cancel an orientation `a` at slot
`i`, every orientation list is cleared on its first `r` slots by `r` words. -/
theorem sift_orientation (n r M L : Nat) (hM : 0 < M) (hr : r ≤ n) (s dl : Move → Nat → Nat)
    (moves : List Move) (W : Nat → Nat → List Move)
    (hs : ∀ m ∈ moves, ∀ t < n, s m t < n)
    (hW : ∀ i a, i < r → 0 < a → a < M →
      (∀ m ∈ W i a, m ∈ moves) ∧ (W i a).length ≤ L ∧
      (∀ t ≤ i, wordSrc s (W i a) t = t) ∧ (∀ t < i, wordDelta s dl M (W i a) t = 0) ∧
      (a + wordDelta s dl M (W i a) i) % M = 0) :
    ∀ v : List Nat, v.length = n → (∀ o ∈ v, o < M) →
      ∃ w : List Move, w.length ≤ r * L ∧ (∀ m ∈ w, m ∈ moves) ∧
        ∀ t < r, (actWord (fun m => twist n M (s m) (dl m)) v w).getD t 0 = 0 := by
  intro v hv ho
  have hkeep : ∀ (w : List Move) (q : List Nat), q.length = n → (∀ o ∈ q, o < M) →
      (actWord (fun m => twist n M (s m) (dl m)) q w).length = n ∧
      ∀ o ∈ actWord (fun m => twist n M (s m) (dl m)) q w, o < M := by
    intro w
    induction w with
    | nil => intro q hq hqo; exact ⟨hq, hqo⟩
    | cons m w ih =>
      intro q _ _
      exact ih _ (twist_length n M _ _ q) (twist_lt n M hM _ _ q)
  have level : ∀ i, i ≤ r → ∃ w : List Move, w.length ≤ i * L ∧ (∀ m ∈ w, m ∈ moves) ∧
      ∀ t < i, (actWord (fun m => twist n M (s m) (dl m)) v w).getD t 0 = 0 := by
    intro i
    induction i with
    | zero => intro _; exact ⟨[], by simp, fun m hm => absurd hm (List.not_mem_nil m),
        fun t ht => absurd ht (Nat.not_lt_zero t)⟩
    | succ i ih =>
      intro hi
      obtain ⟨w, hwl, hwm, hfix⟩ := ih (Nat.le_of_succ_le hi)
      obtain ⟨hql, hqo⟩ := hkeep w v hv ho
      by_cases ha : (actWord (fun m => twist n M (s m) (dl m)) v w).getD i 0 = 0
      · refine ⟨w, ?_, hwm, ?_⟩
        · have : i * L ≤ (i + 1) * L := Nat.mul_le_mul_right _ (Nat.le_succ i)
          omega
        · intro t ht
          rcases Nat.eq_or_lt_of_le (Nat.le_of_lt_succ ht) with h | h
          · rw [h]; exact ha
          · exact hfix t h
      · have hlt := getD_lt_of_forall _ M hM hqo i
        obtain ⟨hm, hl, hsrc, hlow, hat⟩ := hW i _ (by omega) (Nat.pos_of_ne_zero ha) hlt
        refine ⟨w ++ W i ((actWord (fun m => twist n M (s m) (dl m)) v w).getD i 0), ?_, ?_, ?_⟩
        · rw [List.length_append, Nat.succ_mul]
          omega
        · intro m hmm
          rcases List.mem_append.mp hmm with h | h
          · exact hwm m h
          · exact hm m h
        · intro t ht
          rw [actWord_append, actWord_twist n M hM s dl moves hs _ _ hql hqo hm,
            twist_getD n M _ _ _ t (by omega)]
          rcases Nat.eq_or_lt_of_le (Nat.le_of_lt_succ ht) with h | h
          · rw [h, hsrc i (Nat.le_refl i)]
            exact hat
          · rw [hsrc t (Nat.le_of_lt h), hlow t h, hfix t h]
            exact Nat.zero_mod M
  exact level r (Nat.le_refl r)

theorem coWord_moves : ∀ i < 7, ∀ a < 3, 0 < a →
    ∀ m ∈ coWord i a, m ∈ Phase1Coord.AVAILABLE_MOVES := by decide!

theorem coWord_length : ∀ i < 7, ∀ a < 3, 0 < a → (coWord i a).length ≤ 10 := by decide!

theorem coWord_keeps : ∀ i < 7, ∀ a < 3, 0 < a →
    ∀ t < i + 1, wordSrc srcC (coWord i a) t = t := by decide!

theorem coWord_low : ∀ i < 7, ∀ a < 3, 0 < a →
    ∀ t < i, wordDelta srcC deltaC 3 (coWord i a) t = 0 := by decide!

theorem coWord_cancels : ∀ i < 7, ∀ a < 3, 0 < a →
    (a + wordDelta srcC deltaC 3 (coWord i a) i) % 3 = 0 := by decide!

theorem eoWord_moves : ∀ i < 11, ∀ m ∈ eoWord i 1, m ∈ Phase1Coord.AVAILABLE_MOVES := by decide!

theorem eoWord_length : ∀ i < 11, (eoWord i 1).length ≤ 8 := by decide!

theorem eoWord_keeps : ∀ i < 11, ∀ t < i + 1, wordSrc srcE (eoWord i 1) t = t := by decide!

theorem eoWord_low : ∀ i < 11, ∀ t < i, wordDelta srcE deltaE 2 (eoWord i 1) t = 0 := by decide!

theorem eoWord_cancels : ∀ i < 11, (1 + wordDelta srcE deltaE 2 (eoWord i 1) i) % 2 = 0 := by
  decide!

theorem udsWord_moves : ∀ s < 12, 8 ≤ s → ∀ j < s,
    ∀ m ∈ udsWord s j, m ∈ Phase1Coord.AVAILABLE_MOVES := by decide!

theorem udsWord_length : ∀ s < 12, 8 ≤ s → ∀ j < s, (udsWord s j).length ≤ 3 := by decide!

theorem udsWord_keeps : ∀ s < 12, 8 ≤ s → ∀ j < s,
    ∀ t < 12, s < t → wordSrc srcE (udsWord s j) t = t := by decide!

theorem udsWord_brings : ∀ s < 12, 8 ≤ s → ∀ j < s, wordSrc srcE (udsWord s j) s = j := by
  decide!

/-! ### The Phase-1 axes as coded axes -/

theorem coDigits_valid (c : Nat) :
    (coDigits c).length = 8 ∧ (∀ o ∈ coDigits c, o < 3) ∧ (coDigits c).sum % 3 = 0 := by
  simp only [coDigits, Phase1Coord.init, Cube.solved, Phase1Coord.decode_corner_orientation,
    range7, range8, List.reverse_cons, List.reverse_nil, List.nil_append, List.cons_append,
    List.foldl_cons, List.foldl_nil, List.getD_cons_zero, List.getD_cons_succ,
    List.set_cons_zero, List.set_cons_succ, List.map_cons, List.map_nil,
    List.mem_cons, List.mem_singleton, forall_eq_or_imp, forall_eq, List.not_mem_nil,
    IsEmpty.forall_iff, implies_true, and_true, true_and, List.length_cons, List.length_nil,
    List.sum_cons, List.sum_nil]
  dsimp only [Coord]
  omega

theorem eoDigits_valid (c : Nat) :
    (eoDigits c).length = 12 ∧ (∀ o ∈ eoDigits c, o < 2) ∧ (eoDigits c).sum % 2 = 0 := by
  simp only [eoDigits, Phase1Coord.init, Cube.solved, Phase1Coord.decode_edge_orientation,
    range11, range12, List.reverse_cons, List.reverse_nil, List.nil_append, List.cons_append,
    List.foldl_cons, List.foldl_nil, List.getD_cons_zero, List.getD_cons_succ,
    List.set_cons_zero, List.set_cons_succ, List.map_cons, List.map_nil,
    List.mem_cons, List.mem_singleton, forall_eq_or_imp, forall_eq, List.not_mem_nil,
    IsEmpty.forall_iff, implies_true, and_true, true_and, List.length_cons, List.length_nil,
    List.sum_cons, List.sum_nil]
  dsimp only [Coord]
  omega

/-- An orientation move keeps the sum of the orientations modulo `M`, when the
changes of the move sum to 0. -/
theorem twist_sum (n M : Nat) (s d : Nat → Nat) (v : List Nat) (hv : v.length = n)
    (hs : ((List.range n).map s).Perm (List.range n))
    (hd : ((List.range n).map d).sum % M = 0) :
    (twist n M s d v).sum % M = v.sum % M := by
  unfold twist
  rw [sum_map_add_mod M (List.range n) (fun t => v.getD (s t) 0) d]
  have h1 : ((List.range n).map (fun t => v.getD (s t) 0)).sum = v.sum :=
    (carry_perm n 0 s v hv hs).sum_eq
  rw [h1, Nat.add_mod, hd, Nat.add_zero, Nat.mod_mod]

/-- An orientation move is undone by a move whose sources and changes cancel
it. -/
theorem twist_twist_inverse (n M : Nat) (s1 d1 s2 d2 : Nat → Nat) (v : List Nat)
    (hv : v.length = n) (ho : ∀ o ∈ v, o < M) (hM : 0 < M)
    (h : ∀ t < n, s1 t < n ∧ s2 (s1 t) = t ∧ (d2 (s1 t) + d1 t) % M = 0) :
    twist n M s1 d1 (twist n M s2 d2 v) = v := by
  have h1 : twist n M s1 d1 (twist n M s2 d2 v) = (List.range n).map (fun t => v.getD t 0) := by
    unfold twist
    apply List.map_congr_left
    intro t ht
    have ht := List.mem_range.mp ht
    obtain ⟨ha, hb, hc⟩ := h t ht
    rw [getD_map_range _ 0 n _ ha, hb, Nat.mod_add_mod, Nat.add_assoc, Nat.add_mod, hc,
      Nat.add_zero, Nat.mod_mod]
    exact Nat.mod_eq_of_lt (getD_lt_of_forall v M hM ho t)
  rw [h1, map_getD_range v 0 n hv]

theorem co_coded (co : MoveTable) (h : TableManager.generate_co_move_table = some co) :
    CodedAxis 2187 Phase1Coord.AVAILABLE_MOVES co.entry coDigits coRank moveOriC
      (fun v => v.length = 8 ∧ (∀ o ∈ v, o < 3) ∧ v.sum % 3 = 0) := by
  refine ⟨fun c _ => coDigits_valid c, ?_, ?_, ?_, ?_, ?_⟩
  · intro c hc
    have := co_round_trip Phase1Coord.init c rfl hc
    rw [encode_corner_orientation_eq] at this
    exact this
  · intro v hv
    exact coDigits_coRank v hv.1 hv.2.1 hv.2.2
  · intro v m hv hm
    have hm18 := phase1_moves_lt m hm
    refine ⟨twist_length 8 3 _ _ v, twist_lt 8 3 (by decide) _ _ v, ?_⟩
    have := twist_sum 8 3 (srcC m) (deltaC m) v hv.1 (srcC_perm m hm18) (deltaC_sum m hm18)
    rw [hv.2.2] at this
    exact this
  · intro v m hv hm
    have hm18 := phase1_moves_lt m hm
    refine ⟨phase1_moves_all _ (invert_move_lt m hm18), ?_⟩
    exact twist_twist_inverse 8 3 _ _ _ _ v hv.1 hv.2.1 (by decide)
      (fun t ht => ⟨(corner_effect_inverse m hm18 t ht).2.1, (corner_effect_inverse m hm18 t ht).1,
        (corner_effect_inverse m hm18 t ht).2.2⟩)
  · intro c m hc hm
    obtain ⟨T, hT, _, _, he⟩ := co_move_table_spec
    rw [h] at hT
    cases hT
    rw [he c m, if_pos ⟨hc, phase1_moves_lt m hm⟩]
    rfl

theorem eo_coded (eo : MoveTable) (h : TableManager.generate_eo_move_table = some eo) :
    CodedAxis 2048 Phase1Coord.AVAILABLE_MOVES eo.entry eoDigits eoRank moveOriE
      (fun v => v.length = 12 ∧ (∀ o ∈ v, o < 2) ∧ v.sum % 2 = 0) := by
  refine ⟨fun c _ => eoDigits_valid c, ?_, ?_, ?_, ?_, ?_⟩
  · intro c hc
    have := eo_round_trip Phase1Coord.init c rfl hc
    rw [encode_edge_orientation_eq] at this
    exact this
  · intro v hv
    exact eoDigits_eoRank v hv.1 hv.2.1 hv.2.2
  · intro v m hv hm
    have hm18 := phase1_moves_lt m hm
    refine ⟨twist_length 12 2 _ _ v, twist_lt 12 2 (by decide) _ _ v, ?_⟩
    have := twist_sum 12 2 (srcE m) (deltaE m) v hv.1 (srcE_perm m hm18) (deltaE_sum m hm18)
    rw [hv.2.2] at this
    exact this
  · intro v m hv hm
    have hm18 := phase1_moves_lt m hm
    refine ⟨phase1_moves_all _ (invert_move_lt m hm18), ?_⟩
    exact twist_twist_inverse 12 2 _ _ _ _ v hv.1 hv.2.1 (by decide)
      (fun t ht => ⟨(edge_effect_inverse m hm18 t ht).2.1, (edge_effect_inverse m hm18 t ht).1,
        (edge_effect_inverse m hm18 t ht).2.2⟩)
  · intro c m hc hm
    obtain ⟨T, hT, _, _, he⟩ := eo_move_table_spec
    rw [h] at hT
    cases hT
    rw [he c m, if_pos ⟨hc, phase1_moves_lt m hm⟩]
    rfl

theorem udsDecodeInd_length (c : Nat) : (udsDecodeInd C_nk c).2.1.length = 12 := by
  have h := (decode_ud_slice_position_cube Phase1Coord.init c rfl (by decide))
  rw [← h.1]
  unfold sliceIndicator
  rw [List.length_map]
  exact h.2.1

theorem uds_coded (uds : MoveTable) (h : TableManager.generate_uds_move_table = some uds) :
    CodedAxis 495 Phase1Coord.AVAILABLE_MOVES uds.entry (fun c => (udsDecodeInd C_nk c).2.1)
      (udsEncodeInd C_nk) moveInd (fun ind => ind.length = 12 ∧ ind.count true = 4) := by
  refine ⟨?_, ?_, ?_, ?_, ?_, ?_⟩
  · intro c hc
    refine ⟨udsDecodeInd_length c, ?_⟩
    rw [C_nk_eq]
    exact (uds_ind_round_trip c hc).2
  · intro c hc
    show udsEncodeInd C_nk (udsDecodeInd C_nk c).2.1 = c
    rw [C_nk_eq]
    exact (uds_ind_round_trip c hc).1
  · intro ind hv
    obtain ⟨b0, b1, b2, b3, b4, b5, b6, b7, b8, b9, b10, b11, rfl⟩ :=
      list_length_twelve ind hv.1
    show udsEncodeInd C_nk _ < 495 ∧ (udsDecodeInd C_nk (udsEncodeInd C_nk _)).2.1 = _
    rw [C_nk_eq]
    exact uds_ind_inverse b0 b1 b2 b3 b4 b5 b6 b7 b8 b9 b10 b11 hv.2
  · intro ind m hv hm
    have hm18 := phase1_moves_lt m hm
    refine ⟨carry_length 12 false (srcE m) ind, ?_⟩
    have := (carry_perm 12 false (srcE m) ind hv.1 (srcE_perm m hm18)).count_eq true
    rw [hv.2] at this
    exact this
  · intro ind m hv hm
    have hm18 := phase1_moves_lt m hm
    refine ⟨phase1_moves_all _ (invert_move_lt m hm18), ?_⟩
    exact carry_carry_inverse 12 false _ _ ind hv.1
      (fun t ht => ⟨(edge_effect_inverse m hm18 t ht).2.1, (edge_effect_inverse m hm18 t ht).1⟩)
  · intro c m hc hm
    obtain ⟨T, hT, _, _, he⟩ := uds_move_table_spec
    rw [h] at hT
    cases hT
    rw [he c m, if_pos ⟨hc, phase1_moves_lt m hm⟩]
    rfl

/-- Every list of corner orientations is cleared by at most 70 moves. -/
theorem co_sift (v : List Nat) (hv : v.length = 8 ∧ (∀ o ∈ v, o < 3) ∧ v.sum % 3 = 0) :
    ∃ w : List Move, w.length ≤ 70 ∧ (∀ m ∈ w, m ∈ Phase1Coord.AVAILABLE_MOVES) ∧
      coRank (actWord moveOriC v w) = 0 := by
  obtain ⟨w, h1, h2, h3⟩ := sift_orientation 8 7 3 10 (by decide) (by decide) srcC deltaC
    Phase1Coord.AVAILABLE_MOVES coWord (fun m hm => srcC_lt m (phase1_moves_lt m hm))
    (fun i a hi ha ha3 => ⟨coWord_moves i hi a ha3 ha, coWord_length i hi a ha3 ha,
      fun t ht => coWord_keeps i hi a ha3 ha t (Nat.lt_succ_of_le ht),
      coWord_low i hi a ha3 ha, coWord_cancels i hi a ha3 ha⟩) v hv.1 hv.2.1
  refine ⟨w, h1, h2, ?_⟩
  have h4 : ∀ t < 7, (actWord moveOriC v w).getD t 0 = 0 := h3
  simp only [coRank, range7, List.foldl_cons, List.foldl_nil, h4 0 (by decide),
    h4 1 (by decide), h4 2 (by decide), h4 3 (by decide), h4 4 (by decide), h4 5 (by decide),
    h4 6 (by decide)]

/-- Every list of edge orientations is cleared by at most 88 moves. -/
theorem eo_sift (v : List Nat) (hv : v.length = 12 ∧ (∀ o ∈ v, o < 2) ∧ v.sum % 2 = 0) :
    ∃ w : List Move, w.length ≤ 88 ∧ (∀ m ∈ w, m ∈ Phase1Coord.AVAILABLE_MOVES) ∧
      eoRank (actWord moveOriE v w) = 0 := by
  obtain ⟨w, h1, h2, h3⟩ := sift_orientation 12 11 2 8 (by decide) (by decide) srcE deltaE
    Phase1Coord.AVAILABLE_MOVES eoWord (fun m hm => srcE_lt m (phase1_moves_lt m hm))
    (fun i a hi ha ha2 => by
      have ha1 : a = 1 := by omega
      subst ha1
      exact ⟨eoWord_moves i hi, eoWord_length i hi,
        fun t ht => eoWord_keeps i hi t (Nat.lt_succ_of_le ht),
        eoWord_low i hi, eoWord_cancels i hi⟩) v hv.1 hv.2.1
  refine ⟨w, h1, h2, ?_⟩
  have h4 : ∀ t < 11, (actWord moveOriE v w).getD t 0 = 0 := h3
  simp only [eoRank, range11, List.foldl_cons, List.foldl_nil, h4 0 (by decide),
    h4 1 (by decide), h4 2 (by decide), h4 3 (by decide), h4 4 (by decide), h4 5 (by decide),
    h4 6 (by decide), h4 7 (by decide), h4 8 (by decide), h4 9 (by decide), h4 10 (by decide)]

theorem actWord_valid {α : Type} {SIZE : Nat} {moves : List Move} {next : Nat → Move → Nat}
    {dec : Nat → α} {enc : α → Nat} {act : Move → α → α} {V : α → Prop}
    (A : CodedAxis SIZE moves next dec enc act V) :
    ∀ (w : List Move) (a : α), V a → (∀ m ∈ w, m ∈ moves) → V (actWord act a w) := by
  intro w
  induction w with
  | nil => intro a ha _; exact ha
  | cons m w ih =>
    intro a ha hw
    exact ih _ (A.act_valid a m ha (hw m (List.mem_cons_self _ _)))
      (fun x hx => hw x (List.mem_cons_of_mem _ hx))

/-- With four slice pieces on twelve slots and none at slot `s`, a slot before
`s` holds one, when `s` is a slice slot. -/
theorem exists_true_before (q : List Bool) (s : Nat) (hl : q.length = 12)
    (hc : q.count true = 4) (hs : 8 ≤ s) (hs12 : s < 12) (hq : q.getD s false = false) :
    ∃ j < s, q.getD j false = true := by
  have h1 : q.count true = (q.take s).count true + (q.drop s).count true := by
    rw [← List.count_append, List.take_append_drop]
  have hsl : s < q.length := by omega
  have h2 : q.drop s = q[s] :: q.drop (s + 1) := List.drop_eq_getElem_cons hsl
  have h3 : q[s] = false := by
    rw [List.getD_eq_getElem _ _ hsl] at hq
    exact hq
  have h4 : (q.drop s).count true ≤ 3 := by
    rw [h2, h3, List.count_cons_of_ne (by decide)]
    have := List.count_le_length true (q.drop (s + 1))
    rw [List.length_drop] at this
    omega
  have h5 : 0 < (q.take s).count true := by omega
  obtain ⟨j, hj, hjv⟩ := List.getElem_of_mem (List.count_pos_iff.mp h5)
  have hjs : j < s := by
    rw [List.length_take] at hj
    omega
  refine ⟨j, hjs, ?_⟩
  rw [← getD_take_of_lt q s j false hjs, List.getD_eq_getElem _ _ hj]
  exact hjv

theorem g1Indicator_of_count : ∀ b0 b1 b2 b3 b4 b5 b6 b7 : Bool,
    [b0, b1, b2, b3, b4, b5, b6, b7, true, true, true, true].count true = 4 →
    [b0, b1, b2, b3, b4, b5, b6, b7, true, true, true, true] = g1Indicator := by decide

/-- Every placement of the four slice pieces is brought into the slice slots by
at most 12 moves. -/
theorem uds_sift (ind : List Bool) (hv : ind.length = 12 ∧ ind.count true = 4) :
    ∃ w : List Move, w.length ≤ 12 ∧ (∀ m ∈ w, m ∈ Phase1Coord.AVAILABLE_MOVES) ∧
      udsEncodeInd C_nk (actWord moveInd ind w) = 0 := by
  obtain ⟨uds, huds, _⟩ := uds_move_table_spec
  have A := uds_coded uds huds
  have level : ∀ k, k ≤ 4 → ∃ w : List Move, w.length ≤ k * 3 ∧
      (∀ m ∈ w, m ∈ Phase1Coord.AVAILABLE_MOVES) ∧
      ∀ t < 12, 12 - k ≤ t → (actWord moveInd ind w).getD t false = true := by
    intro k
    induction k with
    | zero => intro _; exact ⟨[], by simp, fun m hm => absurd hm (List.not_mem_nil m),
        fun t ht h => by omega⟩
    | succ k ih =>
      intro hk
      obtain ⟨w, hwl, hwm, hfix⟩ := ih (Nat.le_of_succ_le hk)
      obtain ⟨hql, hqc⟩ := actWord_valid A w ind hv hwm
      by_cases ha : (actWord moveInd ind w).getD (11 - k) false = true
      · refine ⟨w, by omega, hwm, ?_⟩
        intro t ht h
        by_cases h1 : t = 11 - k
        · rw [h1]; exact ha
        · exact hfix t ht (by omega)
      · have ha : (actWord moveInd ind w).getD (11 - k) false = false := by
          cases hx : (actWord moveInd ind w).getD (11 - k) false
          · rfl
          · exact absurd hx ha
        obtain ⟨j, hj, hjv⟩ := exists_true_before _ (11 - k) hql hqc (by omega) (by omega) ha
        have hm := udsWord_moves (11 - k) (by omega) (by omega) j hj
        refine ⟨w ++ udsWord (11 - k) j, ?_, ?_, ?_⟩
        · rw [List.length_append]
          have := udsWord_length (11 - k) (by omega) (by omega) j hj
          omega
        · intro m hmm
          rcases List.mem_append.mp hmm with h | h
          · exact hwm m h
          · exact hm m h
        · intro t ht h
          rw [actWord_append]
          have hc := actWord_carry 12 false srcE Phase1Coord.AVAILABLE_MOVES
            (fun m hm => srcE_lt m (phase1_moves_lt m hm)) (udsWord (11 - k) j)
            (actWord moveInd ind w) hql hm
          have hc2 : actWord moveInd (actWord moveInd ind w) (udsWord (11 - k) j)
              = carry 12 false (wordSrc srcE (udsWord (11 - k) j)) (actWord moveInd ind w) := hc
          rw [hc2, carry_getD 12 false _ _ t ht]
          by_cases h1 : t = 11 - k
          · rw [h1, udsWord_brings (11 - k) (by omega) (by omega) j hj]
            exact hjv
          · rw [udsWord_keeps (11 - k) (by omega) (by omega) j hj t ht (by omega)]
            exact hfix t ht (by omega)
  obtain ⟨w, hwl, hwm, hfix⟩ := level 4 (Nat.le_refl 4)
  refine ⟨w, hwl, hwm, ?_⟩
  obtain ⟨hql, hqc⟩ := actWord_valid A w ind hv hwm
  obtain ⟨b0, b1, b2, b3, b4, b5, b6, b7, b8, b9, b10, b11, hq⟩ :=
    list_length_twelve (actWord moveInd ind w) hql
  rw [hq] at hfix hqc ⊢
  have h8 : b8 = true := hfix 8 (by decide) (by decide)
  have h9 : b9 = true := hfix 9 (by decide) (by decide)
  have h10 : b10 = true := hfix 10 (by decide) (by decide)
  have h11 : b11 = true := hfix 11 (by decide) (by decide)
  subst h8 h9 h10 h11
  rw [g1Indicator_of_count b0 b1 b2 b3 b4 b5 b6 b7 hqc, C_nk_eq]
  exact udsEncodeInd_g1

/-! ### The pruning tables -/

theorem co_pruning (co : MoveTable) (h : TableManager.generate_co_move_table = some co) :
    ∃ T, TableManager.generate_pruning_table 2187 Phase1Coord.AVAILABLE_MOVES co.entry
        = Result.value T ∧ T.length = 2187 ∧
      ∀ c, c < 2187 → T.getD c 0 ≤ 70 ∧
        MinTo Phase1Coord.AVAILABLE_MOVES co.entry c (T.getD c 0) :=
  pruning_exact (co_coded co h) 70 co_sift (by decide) (by decide) (by decide) (by decide)

theorem eo_pruning (eo : MoveTable) (h : TableManager.generate_eo_move_table = some eo) :
    ∃ T, TableManager.generate_pruning_table 2048 Phase1Coord.AVAILABLE_MOVES eo.entry
        = Result.value T ∧ T.length = 2048 ∧
      ∀ c, c < 2048 → T.getD c 0 ≤ 88 ∧
        MinTo Phase1Coord.AVAILABLE_MOVES eo.entry c (T.getD c 0) :=
  pruning_exact (eo_coded eo h) 88 eo_sift (by decide) (by decide) (by decide) (by decide)

theorem uds_pruning (uds : MoveTable) (h : TableManager.generate_uds_move_table = some uds) :
    ∃ T, TableManager.generate_pruning_table 495 Phase1Coord.AVAILABLE_MOVES uds.entry
        = Result.value T ∧ T.length = 495 ∧
      ∀ c, c < 495 → T.getD c 0 ≤ 12 ∧
        MinTo Phase1Coord.AVAILABLE_MOVES uds.entry c (T.getD c 0) :=
  pruning_exact (uds_coded uds h) 12 uds_sift (by decide) (by decide) (by decide) (by decide)

theorem cp_pruning (cp : MoveTable) (h : TableManager.generate_cp_move_table = some cp) :
    ∃ T, TableManager.generate_pruning_table 40320 Phase2Coord.AVAILABLE_MOVES cp.entry
        = Result.value T ∧ T.length = 40320 ∧
      ∀ c, c < 40320 → T.getD c 0 ≤ 88 ∧
        MinTo Phase2Coord.AVAILABLE_MOVES cp.entry c (T.getD c 0) :=
  pruning_exact (cp_coded cp h) 88 cp_sift (by decide) (by decide) (by decide) (by decide)

theorem udep_pruning (udep : MoveTable) (h : TableManager.generate_udep_move_table = some udep) :
    ∃ T, TableManager.generate_pruning_table 40320 Phase2Coord.AVAILABLE_MOVES udep.entry
        = Result.value T ∧ T.length = 40320 ∧
      ∀ c, c < 40320 → T.getD c 0 ≤ 40 ∧
        MinTo Phase2Coord.AVAILABLE_MOVES udep.entry c (T.getD c 0) :=
  pruning_exact (udep_coded udep h) 40 udep_sift (by decide) (by decide) (by decide) (by decide)

theorem sep_pruning (sep : MoveTable) (h : TableManager.generate_sep_move_table = some sep) :
    ∃ T, TableManager.generate_pruning_table 24 Phase2Coord.AVAILABLE_MOVES sep.entry
        = Result.value T ∧ T.length = 24 ∧
      ∀ c, c < 24 → T.getD c 0 ≤ 8 ∧
        MinTo Phase2Coord.AVAILABLE_MOVES sep.entry c (T.getD c 0) :=
  pruning_exact (sep_coded sep h) 8 sep_sift (by decide) (by decide) (by decide) (by decide)

/-- Claim C12. Each of the six pruning tables is generated over its generated
move table, and its entry for a coordinate `c` of the axis is below the
sentinel 0xFF and is the least number of moves of the axis's phase (the 18
moves for the corner orientation, the edge orientation and the UD-slice
position; the ten Phase-2 moves for the three permutations) that take `c` to
the coordinate 0 through the move table. -/
theorem pruning_tables_exact :
    (∃ co T, TableManager.generate_co_move_table = some co ∧
      TableManager.generate_pruning_table 2187 Phase1Coord.AVAILABLE_MOVES co.entry
        = Result.value T ∧ T.length = 2187 ∧
      ∀ c, c < 2187 → T.getD c 0 < 0xFF ∧
        MinTo Phase1Coord.AVAILABLE_MOVES co.entry c (T.getD c 0)) ∧
    (∃ eo T, TableManager.generate_eo_move_table = some eo ∧
      TableManager.generate_pruning_table 2048 Phase1Coord.AVAILABLE_MOVES eo.entry
        = Result.value T ∧ T.length = 2048 ∧
      ∀ c, c < 2048 → T.getD c 0 < 0xFF ∧
        MinTo Phase1Coord.AVAILABLE_MOVES eo.entry c (T.getD c 0)) ∧
    (∃ uds T, TableManager.generate_uds_move_table = some uds ∧
      TableManager.generate_pruning_table 495 Phase1Coord.AVAILABLE_MOVES uds.entry
        = Result.value T ∧ T.length = 495 ∧
      ∀ c, c < 495 → T.getD c 0 < 0xFF ∧
        MinTo Phase1Coord.AVAILABLE_MOVES uds.entry c (T.getD c 0)) ∧
    (∃ cp T, TableManager.generate_cp_move_table = some cp ∧
      TableManager.generate_pruning_table 40320 Phase2Coord.AVAILABLE_MOVES cp.entry
        = Result.value T ∧ T.length = 40320 ∧
      ∀ c, c < 40320 → T.getD c 0 < 0xFF ∧
        MinTo Phase2Coord.AVAILABLE_MOVES cp.entry c (T.getD c 0)) ∧
    (∃ udep T, TableManager.generate_udep_move_table = some udep ∧
      TableManager.generate_pruning_table 40320 Phase2Coord.AVAILABLE_MOVES udep.entry
        = Result.value T ∧ T.length = 40320 ∧
      ∀ c, c < 40320 → T.getD c 0 < 0xFF ∧
        MinTo Phase2Coord.AVAILABLE_MOVES udep.entry c (T.getD c 0)) ∧
    (∃ sep T, TableManager.generate_sep_move_table = some sep ∧
      TableManager.generate_pruning_table 24 Phase2Coord.AVAILABLE_MOVES sep.entry
        = Result.value T ∧ T.length = 24 ∧
      ∀ c, c < 24 → T.getD c 0 < 0xFF ∧
        MinTo Phase2Coord.AVAILABLE_MOVES sep.entry c (T.getD c 0)) := by
  refine ⟨?_, ?_, ?_, ?_, ?_, ?_⟩
  · obtain ⟨co, h, _⟩ := co_move_table_spec
    obtain ⟨T, hT, hl, hx⟩ := co_pruning co h
    exact ⟨co, T, h, hT, hl, fun c hc => ⟨by have := (hx c hc).1; omega, (hx c hc).2⟩⟩
  · obtain ⟨eo, h, _⟩ := eo_move_table_spec
    obtain ⟨T, hT, hl, hx⟩ := eo_pruning eo h
    exact ⟨eo, T, h, hT, hl, fun c hc => ⟨by have := (hx c hc).1; omega, (hx c hc).2⟩⟩
  · obtain ⟨uds, h, _⟩ := uds_move_table_spec
    obtain ⟨T, hT, hl, hx⟩ := uds_pruning uds h
    exact ⟨uds, T, h, hT, hl, fun c hc => ⟨by have := (hx c hc).1; omega, (hx c hc).2⟩⟩
  · obtain ⟨cp, h, _⟩ := cp_move_table_spec
    obtain ⟨T, hT, hl, hx⟩ := cp_pruning cp h
    exact ⟨cp, T, h, hT, hl, fun c hc => ⟨by have := (hx c hc).1; omega, (hx c hc).2⟩⟩
  · obtain ⟨udep, h, _⟩ := udep_move_table_spec
    obtain ⟨T, hT, hl, hx⟩ := udep_pruning udep h
    exact ⟨udep, T, h, hT, hl, fun c hc => ⟨by have := (hx c hc).1; omega, (hx c hc).2⟩⟩
  · obtain ⟨sep, h, _⟩ := sep_move_table_spec
    obtain ⟨T, hT, hl, hx⟩ := sep_pruning sep h
    exact ⟨sep, T, h, hT, hl, fun c hc => ⟨by have := (hx c hc).1; omega, (hx c hc).2⟩⟩

/-! ### Admissibility -/

/-- A path shorter than the entry of a pruning table does not lead to 0; a
coordinate beyond the table reads 0. -/
theorem axis_admissible (SIZE : Nat) (moves : List Move) (next : Nat → Move → Nat)
    (T : PruningTable) (hl : T.length = SIZE)
    (hx : ∀ c, c < SIZE → MinTo moves next c (T.getD c 0))
    (c : Nat) (p : List Move) (hp : ∀ m ∈ p, m ∈ moves) (h0 : followC next c p = 0) :
    T.getD c 0 ≤ p.length := by
  by_cases hc : c < SIZE
  · exact (hx c hc).2 p hp h0
  · rw [List.getD_eq_default _ _ (by omega)]
    exact Nat.zero_le _

/-- Claim C13, amended. For each of the six axes, every coordinate `c` of the
axis and every sequence of moves of the axis's phase (the 18 moves for the
three Phase-1 axes, the ten Phase-2 moves for the three permutations) that is
shorter than the entry of the generated pruning table at `c`, following the
sequence from `c` through the move table leads to a coordinate other than
0. -/
theorem pruning_admissible :
    (∃ co T, TableManager.generate_co_move_table = some co ∧
      TableManager.generate_pruning_table 2187 Phase1Coord.AVAILABLE_MOVES co.entry
        = Result.value T ∧
      ∀ c, c < 2187 → ∀ p : List Move, (∀ m ∈ p, m ∈ Phase1Coord.AVAILABLE_MOVES) →
        p.length < T.getD c 0 → followC co.entry c p ≠ 0) ∧
    (∃ eo T, TableManager.generate_eo_move_table = some eo ∧
      TableManager.generate_pruning_table 2048 Phase1Coord.AVAILABLE_MOVES eo.entry
        = Result.value T ∧
      ∀ c, c < 2048 → ∀ p : List Move, (∀ m ∈ p, m ∈ Phase1Coord.AVAILABLE_MOVES) →
        p.length < T.getD c 0 → followC eo.entry c p ≠ 0) ∧
    (∃ uds T, TableManager.generate_uds_move_table = some uds ∧
      TableManager.generate_pruning_table 495 Phase1Coord.AVAILABLE_MOVES uds.entry
        = Result.value T ∧
      ∀ c, c < 495 → ∀ p : List Move, (∀ m ∈ p, m ∈ Phase1Coord.AVAILABLE_MOVES) →
        p.length < T.getD c 0 → followC uds.entry c p ≠ 0) ∧
    (∃ cp T, TableManager.generate_cp_move_table = some cp ∧
      TableManager.generate_pruning_table 40320 Phase2Coord.AVAILABLE_MOVES cp.entry
        = Result.value T ∧
      ∀ c, c < 40320 → ∀ p : List Move, (∀ m ∈ p, m ∈ Phase2Coord.AVAILABLE_MOVES) →
        p.length < T.getD c 0 → followC cp.entry c p ≠ 0) ∧
    (∃ udep T, TableManager.generate_udep_move_table = some udep ∧
      TableManager.generate_pruning_table 40320 Phase2Coord.AVAILABLE_MOVES udep.entry
        = Result.value T ∧
      ∀ c, c < 40320 → ∀ p : List Move, (∀ m ∈ p, m ∈ Phase2Coord.AVAILABLE_MOVES) →
        p.length < T.getD c 0 → followC udep.entry c p ≠ 0) ∧
    (∃ sep T, TableManager.generate_sep_move_table = some sep ∧
      TableManager.generate_pruning_table 24 Phase2Coord.AVAILABLE_MOVES sep.entry
        = Result.value T ∧
      ∀ c, c < 24 → ∀ p : List Move, (∀ m ∈ p, m ∈ Phase2Coord.AVAILABLE_MOVES) →
        p.length < T.getD c 0 → followC sep.entry c p ≠ 0) := by
  refine ⟨?_, ?_, ?_, ?_, ?_, ?_⟩
  · obtain ⟨co, h, _⟩ := co_move_table_spec
    obtain ⟨T, hT, _, hx⟩ := co_pruning co h
    exact ⟨co, T, h, hT, fun c hc p hp hlt h0 =>
      absurd ((hx c hc).2.2 p hp h0) (Nat.not_le_of_lt hlt)⟩
  · obtain ⟨eo, h, _⟩ := eo_move_table_spec
    obtain ⟨T, hT, _, hx⟩ := eo_pruning eo h
    exact ⟨eo, T, h, hT, fun c hc p hp hlt h0 =>
      absurd ((hx c hc).2.2 p hp h0) (Nat.not_le_of_lt hlt)⟩
  · obtain ⟨uds, h, _⟩ := uds_move_table_spec
    obtain ⟨T, hT, _, hx⟩ := uds_pruning uds h
    exact ⟨uds, T, h, hT, fun c hc p hp hlt h0 =>
      absurd ((hx c hc).2.2 p hp h0) (Nat.not_le_of_lt hlt)⟩
  · obtain ⟨cp, h, _⟩ := cp_move_table_spec
    obtain ⟨T, hT, _, hx⟩ := cp_pruning cp h
    exact ⟨cp, T, h, hT, fun c hc p hp hlt h0 =>
      absurd ((hx c hc).2.2 p hp h0) (Nat.not_le_of_lt hlt)⟩
  · obtain ⟨udep, h, _⟩ := udep_move_table_spec
    obtain ⟨T, hT, _, hx⟩ := udep_pruning udep h
    exact ⟨udep, T, h, hT, fun c hc p hp hlt h0 =>
      absurd ((hx c hc).2.2 p hp h0) (Nat.not_le_of_lt hlt)⟩
  · obtain ⟨sep, h, _⟩ := sep_move_table_spec
    obtain ⟨T, hT, _, hx⟩ := sep_pruning sep h
    exact ⟨sep, T, h, hT, fun c hc p hp hlt h0 =>
      absurd ((hx c hc).2.2 p hp h0) (Nat.not_le_of_lt hlt)⟩

theorem cp_far_entry : ∀ m ∈ Phase2Coord.AVAILABLE_MOVES, cp_move_entry 21021 m ≠ 0 := by decide

/-- The claim C13 fails on the corner-permutation axis at `c = 21021`, the
corner permutation of the solved cube after `F`, with the one-move sequence
`F'`: the entry of the pruning table at 21021 is more than 1, the move table
holds 0 at `[21021][F']`, and on the cube `F'` restores the solved cube, whose
corner permutation is 0. -/
theorem pruning_admissible_counterexample :
    ∃ cp T, TableManager.generate_cp_move_table = some cp ∧
      TableManager.generate_pruning_table 40320 Phase2Coord.AVAILABLE_MOVES cp.entry
        = Result.value T ∧
      (apply_sequence Cube.solved [Move.F1]).bind Phase2Coord.encode_corner_permutation
        = some 21021 ∧
      (∀ m ∈ [Move.F2], m < 18) ∧ [Move.F2].length < T.getD 21021 0 ∧
      followC cp.entry 21021 [Move.F2] = 0 ∧
      (apply_sequence Cube.solved [Move.F1, Move.F2]).bind
        Phase2Coord.encode_corner_permutation = some 0 := by
  obtain ⟨cp, h, _, _, he⟩ := cp_move_table_spec
  obtain ⟨T, hT, _, hx⟩ := cp_pruning cp h
  obtain ⟨⟨p, hpl, hpm, hp0⟩, _⟩ := (hx 21021 (by decide)).2
  have hgt : 1 < T.getD 21021 0 := by
    by_contra hle
    have hle : p.length ≤ 1 := by omega
    match p, hle, hpm, hp0 with
    | [], _, _, hp0 =>
      have h21 : (21021 : Nat) = 0 := hp0
      exact absurd h21 (by decide)
    | [m], _, hpm, hp0 =>
      have hm := hpm m (List.mem_singleton.mpr rfl)
      have h1 : cp.entry 21021 m = 0 := hp0
      rw [he 21021 m, if_pos ⟨by decide, hm⟩] at h1
      exact cp_far_entry m hm h1
  refine ⟨cp, T, h, hT, by decide, by decide, hgt, ?_, by decide⟩
  show cp.entry 21021 Move.F2 = 0
  rw [he 21021 Move.F2, if_neg (by decide)]

/-! ### The heuristic -/

theorem follow_components (f g h : Nat → Move → Nat) :
    ∀ (p : List Move) (x : Nat × Nat × Nat),
      follow (fun x m => (f x.1 m, g x.2.1 m, h x.2.2 m)) x p
        = (followC f x.1 p, followC g x.2.1 p, followC h x.2.2 p) := by
  intro p
  induction p with
  | nil => intro x; rfl
  | cons m p ih =>
    intro x
    exact ih _

theorem pruning_generated_mk (co eo uds cp udep sep : MoveTable)
    (p1 p2 p3 p4 p5 p6 : PruningTable) (db1 db2 : EndgameDB)
    (h1 : TableManager.generate_pruning_table 2187 Phase1Coord.AVAILABLE_MOVES co.entry
      = Result.value p1)
    (h2 : TableManager.generate_pruning_table 2048 Phase1Coord.AVAILABLE_MOVES eo.entry
      = Result.value p2)
    (h3 : TableManager.generate_pruning_table 495 Phase1Coord.AVAILABLE_MOVES uds.entry
      = Result.value p3)
    (h4 : TableManager.generate_pruning_table 40320 Phase2Coord.AVAILABLE_MOVES cp.entry
      = Result.value p4)
    (h5 : TableManager.generate_pruning_table 40320 Phase2Coord.AVAILABLE_MOVES udep.entry
      = Result.value p5)
    (h6 : TableManager.generate_pruning_table 24 Phase2Coord.AVAILABLE_MOVES sep.entry
      = Result.value p6) :
    PruningGenerated (TableManager.mk co eo uds cp udep sep p1 p2 p3 p4 p5 p6 db1 db2) :=
  ⟨h1, h2, h3, h4, h5, h6⟩

/-- The pruning tables of `Solver.generated` are the generated ones. -/
theorem generated_pruning_ok : PruningGenerated Solver.generated.tables_ := by
  obtain ⟨T1, h1, _⟩ := co_pruning _ generated_co_ok
  obtain ⟨T2, h2, _⟩ := eo_pruning _ generated_eo_ok
  obtain ⟨T3, h3, _⟩ := uds_pruning _ generated_uds_ok
  obtain ⟨T4, h4, _⟩ := cp_pruning _ generated_cp_ok
  obtain ⟨T5, h5, _⟩ := udep_pruning _ generated_udep_ok
  obtain ⟨T6, h6, _⟩ := sep_pruning _ generated_sep_ok
  exact pruning_generated_mk _ _ _ _ _ _ _ _ _ _ _ _ _ _
    (result_getD_of_value _ _ T1 h1) (result_getD_of_value _ _ T2 h2)
    (result_getD_of_value _ _ T3 h3) (result_getD_of_value _ _ T4 h4)
    (result_getD_of_value _ _ T5 h5) (result_getD_of_value _ _ T6 h6)

/-- The entries of the generated pruning tables of `tm`. -/
theorem pruning_entries (tm : TableManager) (ht : TablesGenerated tm)
    (hp : PruningGenerated tm) :
    (∀ c, (c < 2187 → tm.get_co_pruning c ≤ 70 ∧
        MinTo Phase1Coord.AVAILABLE_MOVES tm.co_move_table.entry c (tm.get_co_pruning c)) ∧
      (2187 ≤ c → tm.get_co_pruning c = 0)) ∧
    (∀ c, (c < 2048 → tm.get_eo_pruning c ≤ 88 ∧
        MinTo Phase1Coord.AVAILABLE_MOVES tm.eo_move_table.entry c (tm.get_eo_pruning c)) ∧
      (2048 ≤ c → tm.get_eo_pruning c = 0)) ∧
    (∀ c, (c < 495 → tm.get_uds_pruning c ≤ 12 ∧
        MinTo Phase1Coord.AVAILABLE_MOVES tm.uds_move_table.entry c (tm.get_uds_pruning c)) ∧
      (495 ≤ c → tm.get_uds_pruning c = 0)) ∧
    (∀ c, (c < 40320 → tm.get_cp_pruning c ≤ 88 ∧
        MinTo Phase2Coord.AVAILABLE_MOVES tm.cp_move_table.entry c (tm.get_cp_pruning c)) ∧
      (40320 ≤ c → tm.get_cp_pruning c = 0)) ∧
    (∀ c, (c < 40320 → tm.get_udep_pruning c ≤ 40 ∧
        MinTo Phase2Coord.AVAILABLE_MOVES tm.udep_move_table.entry c (tm.get_udep_pruning c)) ∧
      (40320 ≤ c → tm.get_udep_pruning c = 0)) ∧
    (∀ c, (c < 24 → tm.get_sep_pruning c ≤ 8 ∧
        MinTo Phase2Coord.AVAILABLE_MOVES tm.sep_move_table.entry c (tm.get_sep_pruning c)) ∧
      (24 ≤ c → tm.get_sep_pruning c = 0)) := by
  obtain ⟨T1, h1, l1, x1⟩ := co_pruning _ ht.co
  obtain ⟨T2, h2, l2, x2⟩ := eo_pruning _ ht.eo
  obtain ⟨T3, h3, l3, x3⟩ := uds_pruning _ ht.uds
  obtain ⟨T4, h4, l4, x4⟩ := cp_pruning _ ht.cp
  obtain ⟨T5, h5, l5, x5⟩ := udep_pruning _ ht.udep
  obtain ⟨T6, h6, l6, x6⟩ := sep_pruning _ ht.sep
  have e1 := hp.co
  have e2 := hp.eo
  have e3 := hp.uds
  have e4 := hp.cp
  have e5 := hp.udep
  have e6 := hp.sep
  rw [h1] at e1
  rw [h2] at e2
  rw [h3] at e3
  rw [h4] at e4
  rw [h5] at e5
  rw [h6] at e6
  cases e1
  cases e2
  cases e3
  cases e4
  cases e5
  cases e6
  exact ⟨fun c => ⟨x1 c, fun hc => List.getD_eq_default _ _ (by omega)⟩,
    fun c => ⟨x2 c, fun hc => List.getD_eq_default _ _ (by omega)⟩,
    fun c => ⟨x3 c, fun hc => List.getD_eq_default _ _ (by omega)⟩,
    fun c => ⟨x4 c, fun hc => List.getD_eq_default _ _ (by omega)⟩,
    fun c => ⟨x5 c, fun hc => List.getD_eq_default _ _ (by omega)⟩,
    fun c => ⟨x6 c, fun hc => List.getD_eq_default _ _ (by omega)⟩⟩

/-- An entry of a pruning table is at most the length of any path of phase
moves to 0. -/
theorem entry_le_path (moves : List Move) (next : Nat → Move → Nat) (SIZE K e c : Nat)
    (h : (c < SIZE → e ≤ K ∧ MinTo moves next c e) ∧ (SIZE ≤ c → e = 0))
    (p : List Move) (hp : ∀ m ∈ p, m ∈ moves) (h0 : followC next c p = 0) : e ≤ p.length := by
  by_cases hc : c < SIZE
  · exact (h.1 hc).2.2 p hp h0
  · rw [h.2 (by omega)]
    exact Nat.zero_le _

/-- Over generated tables the heuristic of each phase is a lower bound: a sequence of moves of the phase that takes a triple to
`(0, 0, 0)` through the three move tables of the phase is at least as long as
the value of `heuristic_phase1`, respectively `heuristic_phase2`, at the
triple. -/
theorem heuristic_le_path (S : Solver) (ht : TablesGenerated S.tables_)
    (hp : PruningGenerated S.tables_) (x : Nat × Nat × Nat) (path : List Move) :
    ((∀ m ∈ path, m ∈ Phase1Coord.AVAILABLE_MOVES) →
      follow S.tables_.get_phase1_moves x path = (0, 0, 0) →
      S.heuristic_phase1 x ≤ path.length) ∧
    ((∀ m ∈ path, m ∈ Phase2Coord.AVAILABLE_MOVES) →
      follow S.tables_.get_phase2_moves x path = (0, 0, 0) →
      S.heuristic_phase2 x ≤ path.length) := by
  obtain ⟨e1, e2, e3, e4, e5, e6⟩ := pruning_entries S.tables_ ht hp
  constructor
  · intro hm h0
    have hf := follow_components S.tables_.co_move_table.entry S.tables_.eo_move_table.entry
      S.tables_.uds_move_table.entry path x
    have h0 : follow (fun x m => (S.tables_.co_move_table.entry x.1 m,
        S.tables_.eo_move_table.entry x.2.1 m, S.tables_.uds_move_table.entry x.2.2 m)) x path
        = (0, 0, 0) := h0
    rw [hf] at h0
    simp only [Prod.mk.injEq] at h0
    have a1 := entry_le_path _ _ _ _ _ _ (e1 x.1) path hm h0.1
    have a2 := entry_le_path _ _ _ _ _ _ (e2 x.2.1) path hm h0.2.1
    have a3 := entry_le_path _ _ _ _ _ _ (e3 x.2.2) path hm h0.2.2
    unfold Solver.heuristic_phase1
    exact Nat.max_le.mpr ⟨Nat.max_le.mpr ⟨a1, a2⟩, a3⟩
  · intro hm h0
    have hf := follow_components S.tables_.cp_move_table.entry S.tables_.udep_move_table.entry
      S.tables_.sep_move_table.entry path x
    have h0 : follow (fun x m => (S.tables_.cp_move_table.entry x.1 m,
        S.tables_.udep_move_table.entry x.2.1 m, S.tables_.sep_move_table.entry x.2.2 m)) x path
        = (0, 0, 0) := h0
    rw [hf] at h0
    simp only [Prod.mk.injEq] at h0
    have a1 := entry_le_path _ _ _ _ _ _ (e4 x.1) path hm h0.1
    have a2 := entry_le_path _ _ _ _ _ _ (e5 x.2.1) path hm h0.2.1
    have a3 := entry_le_path _ _ _ _ _ _ (e6 x.2.2) path hm h0.2.2
    unfold Solver.heuristic_phase2
    exact Nat.max_le.mpr ⟨Nat.max_le.mpr ⟨a1, a2⟩, a3⟩

/-- Claim C14. Over generated tables the heuristic of each phase is
admissible: a sequence of moves of the phase that takes a triple to
`(0, 0, 0)` through the three move tables of the phase is at least as long as
the value of `heuristic_phase1`, respectively `heuristic_phase2`, at the
triple. -/
theorem heuristic_admissible (S : Solver) (ht : TablesGenerated S.tables_)
    (hp : PruningGenerated S.tables_) (x : Nat × Nat × Nat) (path : List Move) :
    ((∀ m ∈ path, m ∈ Phase1Coord.AVAILABLE_MOVES) →
      follow S.tables_.get_phase1_moves x path = (0, 0, 0) →
      S.heuristic_phase1 x ≤ path.length) ∧
    ((∀ m ∈ path, m ∈ Phase2Coord.AVAILABLE_MOVES) →
      follow S.tables_.get_phase2_moves x path = (0, 0, 0) →
      S.heuristic_phase2 x ≤ path.length) :=
  heuristic_le_path S ht hp x path

theorem heuristic_admissible_witness :
    Solver.generated.heuristic_phase1 (1494, 1092, 367) ≤ [Move.F2].length ∧
    Solver.generated.heuristic_phase2 (15120, 15120, 0) ≤ [Move.U2].length :=
  ⟨(heuristic_admissible Solver.generated generated_tables_ok generated_pruning_ok
      (1494, 1092, 367) [Move.F2]).1 (by decide)
      (by
        simp only [follow, List.foldl, TableManager.get_phase1_moves,
          co_entry _ generated_tables_ok, eo_entry _ generated_tables_ok,
          uds_entry _ generated_tables_ok]
        decide),
   (heuristic_admissible Solver.generated generated_tables_ok generated_pruning_ok
      (15120, 15120, 0) [Move.U2]).2 (by decide)
      (by
        simp only [follow, List.foldl, TableManager.get_phase2_moves,
          cp_entry _ generated_tables_ok, udep_entry _ generated_tables_ok,
          sep_entry _ generated_tables_ok]
        decide)⟩

/-! ### Single-move scrambles -/

theorem endgame_expand_append (l1 l2 : List Move)
    (next : (Nat × Nat × Nat) → Move → (Nat × Nat × Nat)) (MAX_DEPTH current_depth : Nat)
    (st : EndgameDB × List ((Nat × Nat × Nat) × List Move))
    (entry : (Nat × Nat × Nat) × List Move) :
    TableManager.endgame_expand (l1 ++ l2) next MAX_DEPTH current_depth st entry
      = TableManager.endgame_expand l2 next MAX_DEPTH current_depth
          (TableManager.endgame_expand l1 next MAX_DEPTH current_depth st entry) entry := by
  unfold TableManager.endgame_expand
  rw [List.foldl_append]

/-- A key that is absent stays absent while the moves tried lead to other
keys. -/
theorem endgame_expand_absent (moves : List Move)
    (next : (Nat × Nat × Nat) → Move → (Nat × Nat × Nat)) (MAX_DEPTH current_depth : Nat)
    (key : Nat) (st : EndgameDB × List ((Nat × Nat × Nat) × List Move))
    (entry : (Nat × Nat × Nat) × List Move) (h : st.1.lookup key = none)
    (hk : ∀ m ∈ moves, TableManager.get_key (next entry.1 m) ≠ key) :
    (TableManager.endgame_expand moves next MAX_DEPTH current_depth st entry).1.lookup key
      = none := by
  unfold TableManager.endgame_expand
  apply foldl_invariant_mem
    (fun (st : EndgameDB × List ((Nat × Nat × Nat) × List Move)) => st.1.lookup key = none)
  · exact h
  · intro a b hb ha
    have hne : (key == TableManager.get_key (next entry.1 b)) = false :=
      beq_false_of_ne (fun heq => hk b hb heq.symm)
    by_cases hx : (a.1.lookup (TableManager.get_key (next entry.1 b))).isNone = true
    · simp only [hx, if_true, List.lookup_cons, hne]
      exact ha
    · simp only [hx]
      exact ha

/-- A move that leads to an absent key stores the reversed path under it. -/
theorem endgame_expand_insert (m : Move)
    (next : (Nat × Nat × Nat) → Move → (Nat × Nat × Nat)) (MAX_DEPTH current_depth : Nat)
    (st : EndgameDB × List ((Nat × Nat × Nat) × List Move))
    (entry : (Nat × Nat × Nat) × List Move)
    (h : st.1.lookup (TableManager.get_key (next entry.1 m)) = none) :
    (TableManager.endgame_expand [m] next MAX_DEPTH current_depth st entry).1.lookup
        (TableManager.get_key (next entry.1 m))
      = some (entry.2 ++ [invert_move m]).reverse := by
  unfold TableManager.endgame_expand
  simp only [List.foldl_cons, List.foldl_nil, h, Option.isNone_none, if_true, List.lookup_cons,
    beq_self_eq_true]

/-- The database holds, for the triple a move `m` of the phase leads to from
`(0, 0, 0)`, the inverse of `m`, when no earlier move of the phase leads to a
triple with the same key. -/
theorem endgame_first_layer (PHASE : Nat)
    (next : (Nat × Nat × Nat) → Move → (Nat × Nat × Nat)) (pre post : List Move) (m : Move)
    (hmoves : TableManager.phase_moves PHASE = pre ++ m :: post)
    (hkey : TableManager.get_key (next (0, 0, 0) m) ≠ 0)
    (hpre : ∀ m1 ∈ pre,
      TableManager.get_key (next (0, 0, 0) m1) ≠ TableManager.get_key (next (0, 0, 0) m))
    (db : EndgameDB)
    (h : TableManager.generate_endgame_db PHASE next = Result.value db) :
    db.lookup (TableManager.get_key (next (0, 0, 0) m)) = some [invert_move m] := by
  unfold TableManager.generate_endgame_db at h
  rw [hmoves] at h
  unfold TableManager.endgame_loop at h
  simp only [List.isEmpty_cons, Bool.false_eq_true, if_false, List.foldl_cons,
    List.foldl_nil] at h
  refine endgame_loop_keep _ next _ _ _ _ _ _ _ _ ?_ h
  have hsplit : pre ++ m :: post = pre ++ ([m] ++ post) := rfl
  rw [hsplit, endgame_expand_append, endgame_expand_append]
  apply endgame_expand_keep
  have h0 : List.lookup (TableManager.get_key (next (0, 0, 0) m))
      [((0 : Nat), ([] : List Move))] = none := by
    have hne : (TableManager.get_key (next (0, 0, 0) m) == 0) = false := beq_false_of_ne hkey
    simp only [List.lookup_cons, hne, List.lookup_nil]
  have h1 := endgame_expand_absent pre next (TableManager.endgame_generation_depth PHASE) 0
    (TableManager.get_key (next (0, 0, 0) m)) ([(0, [])], []) ((0, 0, 0), []) h0 hpre
  exact endgame_expand_insert m next _ 0 _ ((0, 0, 0), []) h1

theorem phase2_split : ∀ m ∈ Phase2Coord.AVAILABLE_MOVES,
    Phase2Coord.AVAILABLE_MOVES
      = movesBefore Phase2Coord.AVAILABLE_MOVES m ++ m :: movesAfter Phase2Coord.AVAILABLE_MOVES m
    := by decide

theorem phase2_turned_key : ∀ m ∈ Phase2Coord.AVAILABLE_MOVES,
    TableManager.get_key (turnedTriple2 m) ≠ 0 := by decide!

theorem phase2_turned_fresh : ∀ m ∈ Phase2Coord.AVAILABLE_MOVES,
    ∀ m1 ∈ movesBefore Phase2Coord.AVAILABLE_MOVES m,
      TableManager.get_key (turnedTriple2 m1) ≠ TableManager.get_key (turnedTriple2 m) := by
  decide!

theorem phase1_split : ∀ m ∈ Phase1Coord.AVAILABLE_MOVES,
    Phase1Coord.AVAILABLE_MOVES
      = movesBefore Phase1Coord.AVAILABLE_MOVES m ++ m :: movesAfter Phase1Coord.AVAILABLE_MOVES m
    := by decide

theorem phase1_turned_key : ∀ m ∈ [Move.F1, Move.B1, Move.L1, Move.R1],
    TableManager.get_key (turnedTriple1 m) ≠ 0 := by decide!

theorem phase1_turned_fresh : ∀ m ∈ [Move.F1, Move.B1, Move.L1, Move.R1],
    ∀ m1 ∈ movesBefore Phase1Coord.AVAILABLE_MOVES m,
      TableManager.get_key (turnedTriple1 m1) ≠ TableManager.get_key (turnedTriple1 m) := by
  decide!

theorem phase1_turned_shared : ∀ m ∈ [Move.F1, Move.B1, Move.L1, Move.R1],
    turnedTriple1 (m + 1) = turnedTriple1 m ∧ invert_move m = m + 1 ∧
    m + 1 < 18 ∧ m + 2 ∈ Phase2Coord.AVAILABLE_MOVES ∧ invert_move (m + 2) = m + 2 ∧
    apply_sequence (turnedCube m) [m + 1] = some Cube.solved ∧
    apply_sequence (turnedCube (m + 1)) [m + 1] = some (turnedCube (m + 2)) := by decide!

theorem turned_triple1 (tm : TableManager) (ht : TablesGenerated tm) (m : Move) (hm : m < 18) :
    tm.get_phase1_moves (0, 0, 0) m = turnedTriple1 m := by
  simp only [TableManager.get_phase1_moves, co_entry tm ht, eo_entry tm ht, uds_entry tm ht]
  rw [if_pos ⟨by decide, hm⟩, if_pos ⟨by decide, hm⟩, if_pos ⟨by decide, hm⟩]
  rfl

theorem turned_triple2 (tm : TableManager) (ht : TablesGenerated tm) (m : Move)
    (hm : m ∈ Phase2Coord.AVAILABLE_MOVES) :
    tm.get_phase2_moves (0, 0, 0) m = turnedTriple2 m := by
  simp only [TableManager.get_phase2_moves, cp_entry tm ht, udep_entry tm ht, sep_entry tm ht]
  rw [if_pos ⟨by decide, hm⟩, if_pos ⟨by decide, hm⟩, if_pos ⟨by decide, hm⟩]
  rfl

theorem bool_false_of_not {b : Bool} (h : b = true → False) : b = false := by
  cases b
  · rfl
  · exact absurd rfl h

theorem filter_sentinel_pair (m : Move) (hm : m < 18) :
    [Move.COUNT, m].filter (fun x => decide (x ≠ Move.COUNT)) = [m] := by
  have h1 : m ≠ Move.COUNT := by
    intro h
    rw [h] at hm
    exact absurd hm (by decide)
  simp [List.filter, h1]

theorem mem_movesBefore (moves : List Move) (m m1 : Move)
    (h : m1 ∈ movesBefore moves m) : m1 ∈ moves := by
  unfold movesBefore at h
  induction moves with
  | nil => exact h
  | cons a l ih =>
    rw [List.takeWhile_cons] at h
    split at h
    · rcases List.mem_cons.mp h with h1 | h1
      · rw [h1]; exact List.mem_cons_self _ _
      · exact List.mem_cons_of_mem _ (ih h1)
    · exact absurd h (List.not_mem_nil _)

/-- Phase 2 on the cube after one Phase-2 move: the first database query
answers with the inverse move. -/
theorem phase2_single (S : Solver) (ht : TablesGenerated S.tables_)
    (hp : PruningGenerated S.tables_) (m : Move) (hm : m ∈ Phase2Coord.AVAILABLE_MOVES)
    (limit : Nat) (hl : 1 ≤ limit) :
    ∃ a b c, Phase2Coord.of_cube (turnedCube m) = some ⟨turnedCube m, a, b, c⟩ ∧
      Phase2Coord.is_solved ⟨turnedCube m, a, b, c⟩ = false ∧
      S.ida_star 2 false (a, b, c) limit
        = Result.value (some [Move.COUNT, invert_move m]) := by
  have hx := turned_triple2 S.tables_ ht m hm
  have hn := next2_eq S.tables_ ht Cube.solved solved_inG1.1 m hm (0, 0, 0)
    solved_coordinates.2.2.2.1 solved_coordinates.2.2.2.2.1 solved_coordinates.2.2.2.2.2
  rw [hx] at hn
  have hkey := phase2_turned_key m hm
  have hcl := (phase2_closed S.tables_ ht).2 (0, 0, 0) m (phase2_closed S.tables_ ht).1 hm
  rw [hx] at hcl
  have hh := (heuristic_le_path S ht hp (turnedTriple2 m) [invert_move m]).2
    (fun x hx => by rw [List.mem_singleton.mp hx]; exact hcl.2.1) hcl.2.2
  have hlook := endgame_first_layer 2 S.tables_.get_phase2_moves
    (movesBefore Phase2Coord.AVAILABLE_MOVES m) (movesAfter Phase2Coord.AVAILABLE_MOVES m) m
    (phase2_split m hm) (by rw [hx]; exact hkey)
    (fun m1 hm1 => by
      have hm1' : m1 ∈ Phase2Coord.AVAILABLE_MOVES := mem_movesBefore _ _ _ hm1
      rw [hx, turned_triple2 S.tables_ ht m1 hm1']
      exact phase2_turned_fresh m hm m1 hm1) _ ht.db2
  rw [hx] at hlook
  clear hcl hx
  generalize turnedTriple2 m = x at *
  obtain ⟨a, b, c⟩ := x
  obtain ⟨n1, n2, n3⟩ := hn
  refine ⟨a, b, c, ?_, ?_, ?_⟩
  · simp only [Phase2Coord.of_cube, Phase2Coord.encode_from_cube, turnedCube, n1, n2, n3]
  · apply bool_false_of_not
    intro h
    have h0 := phase2_is_solved_zero _ _ _ _ h
    rw [h0, get_key_zero] at hkey
    exact hkey rfl
  · have hh1 : S.heuristic 2 (a, b, c) ≤ 1 := by
      simp only [Solver.heuristic]
      rw [if_neg (by decide)]
      exact hh
    have hdb : S.tables_.search_endgame_db 2 (a, b, c) = some [invert_move m] := by
      simp only [TableManager.search_endgame_db, TableManager.get_endgame_db]
      exact hlook
    exact ida_star_db_hit S 2 (a, b, c) limit [invert_move m]
      (le_trans hh1 (by decide)) (le_trans hh1 hl) hdb

/-- Phase 1 on the cube after a quarter turn `X` or `X'` of F, B, L or R: the
first database query answers with `X'`, the inverse of the quarter turn tried
first. -/
theorem phase1_single (S : Solver) (ht : TablesGenerated S.tables_)
    (hp : PruningGenerated S.tables_) (m0 : Move)
    (hm0 : m0 ∈ [Move.F1, Move.B1, Move.L1, Move.R1]) (m : Move) (hm : m = m0 ∨ m = m0 + 1) :
    ∃ a b c, Phase1Coord.of_cube (turnedCube m) = ⟨turnedCube m, a, b, c⟩ ∧
      Phase1Coord.is_solved ⟨turnedCube m, a, b, c⟩ = false ∧
      S.ida_star 1 false (a, b, c) 12 = Result.value (some [Move.COUNT, m0 + 1]) := by
  obtain ⟨hsh, hinv, hlt, _, _, _, _⟩ := phase1_turned_shared m0 hm0
  have hm018 : m0 < 18 := Nat.lt_of_succ_lt hlt
  have hm18 : m < 18 := by
    rcases hm with h | h
    · rw [h]; exact hm018
    · rw [h]; exact hlt
  have hxm : S.tables_.get_phase1_moves (0, 0, 0) m = turnedTriple1 m0 := by
    rw [turned_triple1 S.tables_ ht m hm18]
    rcases hm with h | h
    · rw [h]
    · rw [h]; exact hsh
  have hx0 := turned_triple1 S.tables_ ht m0 hm018
  have hn := next1_eq S.tables_ ht Cube.solved solved_legal m hm18
  rw [solved_coordinates.1, solved_coordinates.2.1, solved_coordinates.2.2.1, hxm] at hn
  have hkey := phase1_turned_key m0 hm0
  have hm0mem : m0 ∈ Phase1Coord.AVAILABLE_MOVES := phase1_moves_all m0 hm018
  have hfresh : ∀ m1 ∈ movesBefore Phase1Coord.AVAILABLE_MOVES m0,
      TableManager.get_key (S.tables_.get_phase1_moves (0, 0, 0) m1)
        ≠ TableManager.get_key (turnedTriple1 m0) := by
    intro m1 hm1
    have hm1' : m1 ∈ Phase1Coord.AVAILABLE_MOVES := mem_movesBefore _ _ _ hm1
    rw [turned_triple1 S.tables_ ht m1 (phase1_moves_lt m1 hm1')]
    exact phase1_turned_fresh m0 hm0 m1 hm1
  have hcl := (phase1_closed S.tables_ ht).2 (0, 0, 0) m (phase1_closed S.tables_ ht).1
    (phase1_moves_all m hm18)
  rw [hxm] at hcl
  have hh := (heuristic_le_path S ht hp (turnedTriple1 m0) [invert_move m]).1
    (fun x hx => by rw [List.mem_singleton.mp hx]; exact hcl.2.1) hcl.2.2
  have hlook := endgame_first_layer 1 S.tables_.get_phase1_moves
    (movesBefore Phase1Coord.AVAILABLE_MOVES m0) (movesAfter Phase1Coord.AVAILABLE_MOVES m0) m0
    (phase1_split m0 hm0mem) (by rw [hx0]; exact hkey)
    (fun m1 hm1 => by rw [hx0]; exact hfresh m1 hm1) _ ht.db1
  rw [hx0, hinv] at hlook
  clear hcl hfresh hx0 hxm hsh
  generalize turnedTriple1 m0 = x at *
  obtain ⟨a, b, c⟩ := x
  refine ⟨a, b, c, ?_, ?_, ?_⟩
  · simp only [Phase1Coord.of_cube, Phase1Coord.encode_from_cube, turnedCube]
    simp only [Prod.mk.injEq] at hn
    rw [← hn.1, ← hn.2.1, ← hn.2.2]
  · apply bool_false_of_not
    intro h
    have h0 := phase1_is_solved_zero _ _ _ _ h
    rw [h0, get_key_zero] at hkey
    exact hkey rfl
  · have hh1 : S.heuristic 1 (a, b, c) ≤ 1 := by
      simp only [Solver.heuristic, if_true]
      exact hh
    have hdb : S.tables_.search_endgame_db 1 (a, b, c) = some [m0 + 1] := by
      simp only [TableManager.search_endgame_db, TableManager.get_endgame_db]
      exact hlook
    exact ida_star_db_hit S 1 (a, b, c) 12 [m0 + 1]
      (le_trans hh1 (by decide)) (le_trans hh1 (by decide)) hdb

/-- How `solve` is put together from the outcomes of its two searches. -/
theorem solve_eval (S : Solver) (k : Cube) (p1 : Phase1Coord) (r1 : List Move) (k1 : Cube)
    (p2 : Phase2Coord) (r2 : List Move)
    (h1 : Phase1Coord.of_cube k = p1)
    (hi1 : S.ida_star 1 p1.is_solved
      (p1.corner_orientation, p1.edge_orientation, p1.uds_edge_position) 12
      = Result.value (some r1))
    (ha : apply_sequence k (r1.filter (fun m => m ≠ Move.COUNT)) = some k1)
    (h2 : Phase2Coord.of_cube k1 = some p2)
    (hi2 : S.ida_star 2 p2.is_solved
      (p2.corner_permutation, p2.ud_edge_permutation, p2.slice_edge_permutation)
      (max 8 (25 - (r1.filter (fun m => m ≠ Move.COUNT)).length))
      = Result.value (some r2)) :
    S.solve k = Result.value
      (r1.filter (fun m => m ≠ Move.COUNT) ++ r2.filter (fun m => m ≠ Move.COUNT)) := by
  unfold Solver.solve
  simp only [h1, hi1, Result.bind, ha, Result.ofOption, h2, hi2]

theorem ida_star_solved (S : Solver) (PHASE : Nat) (x : Nat × Nat × Nat) (limit : Nat) :
    S.ida_star PHASE true x limit = Result.value (some []) := by
  simp only [Solver.ida_star, if_true]

theorem phase2_of_solved :
    Phase2Coord.of_cube Cube.solved = some ⟨Cube.solved, 0, 0, 0⟩ := by decide

/-- The cube after one Phase-2 move is solved by the inverse move. -/
theorem solve_turned_phase2 (S : Solver) (ht : TablesGenerated S.tables_)
    (hp : PruningGenerated S.tables_) (m : Move) (hm : m ∈ Phase2Coord.AVAILABLE_MOVES) :
    S.solve (turnedCube m) = Result.value [invert_move m] := by
  have hg := inG1_step Cube.solved m hm solved_inG1
  obtain ⟨c1, c2, c3⟩ := inG1_coords _ hg
  obtain ⟨a, b, c, h2, hs2, hi2⟩ := phase2_single S ht hp m hm (max 8 (25 - 0)) (by decide)
  have h1 : Phase1Coord.of_cube (turnedCube m) = ⟨turnedCube m, 0, 0, 0⟩ := by
    simp only [Phase1Coord.of_cube, Phase1Coord.encode_from_cube, turnedCube, c1, c2, c3]
  have := solve_eval S (turnedCube m) ⟨turnedCube m, 0, 0, 0⟩ [] (turnedCube m) _
    [Move.COUNT, invert_move m] h1 (ida_star_solved S 1 _ 12) rfl h2
    (by rw [hs2]; exact hi2)
  rw [this, filter_sentinel_pair _ (invert_move_lt m (phase2_moves_lt m hm))]
  rfl

/-- The cube after a quarter turn `X` of F, B, L or R is solved by `X'`; the
cube after `X'` is answered with `X'` followed by the half turn. -/
theorem solve_turned_quarter (S : Solver) (ht : TablesGenerated S.tables_)
    (hp : PruningGenerated S.tables_) (m0 : Move)
    (hm0 : m0 ∈ [Move.F1, Move.B1, Move.L1, Move.R1]) :
    S.solve (turnedCube m0) = Result.value [m0 + 1] ∧
    S.solve (turnedCube (m0 + 1)) = Result.value [m0 + 1, m0 + 2] := by
  obtain ⟨_, _, hlt, hmem, hinv2, ha1, ha2⟩ := phase1_turned_shared m0 hm0
  constructor
  · obtain ⟨a, b, c, h1, hs1, hi1⟩ := phase1_single S ht hp m0 hm0 m0 (Or.inl rfl)
    have hf := filter_sentinel_pair (m0 + 1) hlt
    have := solve_eval S (turnedCube m0) _ [Move.COUNT, m0 + 1] Cube.solved _ [] h1
      (by rw [hs1]; exact hi1) (by rw [hf]; exact ha1) phase2_of_solved
      (ida_star_solved S 2 _ _)
    rw [this, hf]
    rfl
  · obtain ⟨a, b, c, h1, hs1, hi1⟩ := phase1_single S ht hp m0 hm0 (m0 + 1) (Or.inr rfl)
    have hf := filter_sentinel_pair (m0 + 1) hlt
    obtain ⟨a2, b2, c2, h2, hs2, hi2⟩ := phase2_single S ht hp (m0 + 2) hmem (max 8 (25 - 1)) (by decide)
    have := solve_eval S (turnedCube (m0 + 1)) _ [Move.COUNT, m0 + 1] (turnedCube (m0 + 2)) _
      [Move.COUNT, invert_move (m0 + 2)] h1
      (by rw [hs1]; exact hi1) (by rw [hf]; exact ha2) h2
      (by rw [hs2, hf]; exact hi2)
    rw [this, hf, filter_sentinel_pair _ (invert_move_lt _ (phase2_moves_lt _ hmem)), hinv2]
    rfl

theorem move_kinds : ∀ m < 18,
    (m ∈ Phase2Coord.AVAILABLE_MOVES ∧ m ∉ [Move.F2, Move.B2, Move.L2, Move.R2]) ∨
    (m ∈ [Move.F1, Move.B1, Move.L1, Move.R1] ∧ m ∉ [Move.F2, Move.B2, Move.L2, Move.R2]
      ∧ invert_move m = m + 1) ∨
    (m ∈ [Move.F2, Move.B2, Move.L2, Move.R2] ∧ m - 1 ∈ [Move.F1, Move.B1, Move.L1, Move.R1]
      ∧ m - 1 + 1 = m ∧ m - 1 + 2 = m + 1) := by decide

/-- What `solve` returns on the cube after one move. -/
theorem solve_turned (S : Solver) (ht : TablesGenerated S.tables_)
    (hp : PruningGenerated S.tables_) (m : Move) (hm : m < 18) :
    S.solve (turnedCube m) = Result.value
      (if m ∈ [Move.F2, Move.B2, Move.L2, Move.R2] then [m, m + 1] else [invert_move m]) := by
  rcases move_kinds m hm with ⟨h1, h2⟩ | ⟨h1, h2, h3⟩ | ⟨h1, h2, h3, h4⟩
  · rw [if_neg h2]
    exact solve_turned_phase2 S ht hp m h1
  · rw [if_neg h2, h3]
    exact (solve_turned_quarter S ht hp m h1).1
  · rw [if_pos h1]
    have := (solve_turned_quarter S ht hp (m - 1) h2).2
    rw [h3, h4] at this
    exact this

/-- Claim C17, amended. Over generated tables, for each of the 18 moves `m`,
`solve` on the cube obtained by applying `m` to the solved cube returns the
one-element list `[invert_move m]`, except for the four counter-clockwise
quarter turns F', B', L', R', where it returns the quarter turn itself
followed by the half turn of the same face. -/
theorem single_move_scrambles (S : Solver) (ht : TablesGenerated S.tables_)
    (hp : PruningGenerated S.tables_) (m : Move) (hm : m < 18) (k : Cube)
    (hk : apply_move Cube.solved m = some k) :
    S.solve k = Result.value
      (if m ∈ [Move.F2, Move.B2, Move.L2, Move.R2] then [m, m + 1] else [invert_move m]) := by
  rw [apply_move_eq Cube.solved m hm (by decide) (by decide)] at hk
  cases hk
  exact solve_turned S ht hp m hm

theorem single_move_scrambles_witness :
    apply_move Cube.solved Move.F1 = some (turnedCube Move.F1) ∧
    Solver.generated.solve (turnedCube Move.F1) = Result.value [Move.F2] :=
  ⟨by decide, single_move_scrambles Solver.generated generated_tables_ok generated_pruning_ok
    Move.F1 (by decide) (turnedCube Move.F1) (by decide)⟩

/-- The claim C17 fails for the move L': on the cube obtained by applying L'
to the solved cube, `solve` over the generated tables returns `[L', L2]`, not
`[invert_move L'] = [L]`. -/
theorem single_move_scrambles_counterexample :
    ∃ k, apply_move Cube.solved Move.L2 = some k ∧
      Solver.generated.solve k = Result.value [Move.L2, Move.L3] ∧
      invert_move Move.L2 = Move.L1 ∧ [Move.L2, Move.L3] ≠ [invert_move Move.L2] :=
  ⟨turnedCube Move.L2, by decide,
    (solve_turned_quarter Solver.generated generated_tables_ok generated_pruning_ok Move.L1
      (by decide)).2, by decide, by decide⟩

/-! ### Moves, tokens and the solved cube -/

/-- Claim C24. The default-constructed cube satisfies `is_solved`, and for each
of the 18 moves the cube obtained by applying the move to it does not. -/
theorem solved_detection :
    is_solved Cube.solved = true ∧
    ∀ m, m < 18 → ∃ k, apply_move Cube.solved m = some k ∧ is_solved k = false := by
  refine ⟨by decide, ?_⟩
  intro m hm
  have h : ∀ m < 18, (apply_move Cube.solved m).map is_solved = some false := by decide
  have hm1 := h m hm
  cases hk : apply_move Cube.solved m with
  | none => rw [hk] at hm1; exact absurd hm1 (by simp)
  | some k =>
    rw [hk] at hm1
    exact ⟨k, rfl, by simpa using hm1⟩

/-- Claim C27. For each of the 18 moves `string_to_move (move_to_string m) = m`;
the 18 strings of `move_to_string` are pairwise distinct, and a string is
accepted by `string_to_move` exactly if it is one of them. -/
theorem token_round_trip :
    (∀ m, m < 18 → string_to_move (move_to_string m) = some m) ∧
    ((List.range 18).map move_to_string).Nodup ∧
    ∀ s : String, (string_to_move s).isSome = true ↔
      s ∈ (List.range 18).map move_to_string := by
  refine ⟨by decide, by decide, ?_⟩
  intro s
  have hkeys : (List.range 18).map move_to_string = MOVE_MAP.map (fun p => p.1) := by decide
  rw [hkeys]
  unfold string_to_move
  rw [Option.isSome_map', List.find?_isSome]
  constructor
  · rintro ⟨p, hp, he⟩
    have : p.1 = s := by simpa using he
    rw [← this]
    exact List.mem_map_of_mem _ hp
  · intro h
    obtain ⟨p, hp, he⟩ := List.mem_map.mp h
    exact ⟨p, hp, by simpa using he⟩

/-- Claim C28. For each of the 18 moves `m`, `invert_move m` is on the face of
`m` and `invert_move (invert_move m) = m`; in tokens, on each face X the
inverse of X is X', the inverse of X' is X and the inverse of X2 is X2, so the
moves `invert_move` fixes are the six half turns. -/
theorem inversion_on_moves :
    (∀ m, m < 18 → get_face (invert_move m) = get_face m ∧ invert_move (invert_move m) = m) ∧
    (∀ f, f < 6 →
      invert_move (3 * f) = 3 * f + 1 ∧ invert_move (3 * f + 1) = 3 * f ∧
      invert_move (3 * f + 2) = 3 * f + 2 ∧
      move_to_string (3 * f + 1) = move_to_string (3 * f) ++ "'" ∧
      move_to_string (3 * f + 2) = move_to_string (3 * f) ++ "2" ∧
      move_to_string (3 * f) ∈ ["U", "D", "F", "B", "L", "R"]) ∧
    (∀ m, m < 18 → (invert_move m = m ↔
      m ∈ [Move.U3, Move.D3, Move.F3, Move.B3, Move.L3, Move.R3])) := by
  refine ⟨by decide, by decide, by decide⟩

/-! ### Invariants of a move -/

theorem sum_mod_congr (q : Nat) (l : List Nat) (f g : Nat → Nat)
    (h : ∀ t ∈ l, f t % q = g t % q) : (l.map f).sum % q = (l.map g).sum % q := by
  induction l with
  | nil => rfl
  | cons a l ih =>
    simp only [List.map_cons, List.sum_cons]
    rw [Nat.add_mod, h a (List.mem_cons_self _ _),
      ih (fun t ht => h t (List.mem_cons_of_mem _ ht)), ← Nat.add_mod]

theorem corner_getD_orientation (cs : List Corner) (s : Nat) :
    (cs.map (fun c => c.orientation)).getD s 0 = (cs.getD s default).orientation :=
  List.getD_map cs default (fun (c : Corner) => c.orientation)

theorem edge_getD_orientation (es : List Edge) (s : Nat) :
    (es.map (fun e => e.orientation)).getD s 0 = (es.getD s default).orientation :=
  List.getD_map es default (fun (e : Edge) => e.orientation)

theorem corner_getD_piece (cs : List Corner) (s : Nat) :
    (cs.map (fun c => c.piece)).getD s 0 = (cs.getD s default).piece :=
  List.getD_map cs default (fun (c : Corner) => c.piece)

theorem edge_getD_piece (es : List Edge) (s : Nat) :
    (es.map (fun e => e.piece)).getD s 0 = (es.getD s default).piece :=
  List.getD_map es default (fun (e : Edge) => e.piece)

theorem moveCorners_sum (m : Move) (hm : m < 18) (cs : List Corner) (hc : cs.length = 8) :
    ((moveCorners m cs).map (fun c => c.orientation)).sum % 3
      = (cs.map (fun c => c.orientation)).sum % 3 := by
  unfold moveCorners
  rw [List.map_map, sum_mod_congr 3 (List.range 8) _
    (fun t => (cs.map (fun c => c.orientation)).getD (srcC m t) 0 + deltaC m t)]
  · rw [List.sum_map_add]
    have h2 : ((List.range 8).map
        (fun t => (cs.map (fun c => c.orientation)).getD (srcC m t) 0)).sum
        = (cs.map (fun c => c.orientation)).sum :=
      (carry_perm 8 0 (srcC m) _ (by rw [List.length_map]; exact hc) (srcC_perm m hm)).sum_eq
    rw [h2, Nat.add_mod, deltaC_sum m hm, Nat.add_zero, Nat.mod_mod]
  · intro t _
    simp only [Function.comp, srcC, deltaC, corner_getD_orientation]
    generalize cornerEffect m t = e
    cases e with
    | none => rfl
    | some p =>
      obtain ⟨s, d⟩ := p
      exact Nat.mod_mod _ _

theorem moveEdges_sum (m : Move) (hm : m < 18) (es : List Edge) (he : es.length = 12) :
    ((moveEdges m es).map (fun e => e.orientation)).sum % 2
      = (es.map (fun e => e.orientation)).sum % 2 := by
  unfold moveEdges
  rw [List.map_map, sum_mod_congr 2 (List.range 12) _
    (fun t => (es.map (fun e => e.orientation)).getD (srcE m t) 0 + deltaE m t)]
  · rw [List.sum_map_add]
    have h2 : ((List.range 12).map
        (fun t => (es.map (fun e => e.orientation)).getD (srcE m t) 0)).sum
        = (es.map (fun e => e.orientation)).sum :=
      (carry_perm 12 0 (srcE m) _ (by rw [List.length_map]; exact he) (srcE_perm m hm)).sum_eq
    rw [h2, Nat.add_mod, deltaE_sum m hm, Nat.add_zero, Nat.mod_mod]
  · intro t _
    simp only [Function.comp, srcE, deltaE, edge_getD_orientation]
    generalize edgeEffect m t = e
    cases e with
    | none => rfl
    | some p =>
      obtain ⟨s, d⟩ := p
      exact Nat.mod_mod _ _

/-- Claim C22. A move keeps the orientation sums: on a cube (eight corners,
twelve edges) whose corner orientations sum to 0 modulo 3 and whose edge
orientations sum to 0 modulo 2, each of the 18 moves applies and gives a cube
with the same two properties. -/
theorem orientation_sum_invariants (k : Cube) (m : Move) (hm : m < 18)
    (hc : k.corners.length = 8) (he : k.edges.length = 12)
    (h3 : (k.corners.map (fun c => c.orientation)).sum % 3 = 0)
    (h2 : (k.edges.map (fun e => e.orientation)).sum % 2 = 0) :
    ∃ k1, apply_move k m = some k1 ∧
      (k1.corners.map (fun c => c.orientation)).sum % 3 = 0 ∧
      (k1.edges.map (fun e => e.orientation)).sum % 2 = 0 := by
  refine ⟨_, apply_move_eq k m hm hc he, ?_, ?_⟩
  · show ((moveCorners m k.corners).map (fun c => c.orientation)).sum % 3 = 0
    rw [moveCorners_sum m hm k.corners hc]
    exact h3
  · show ((moveEdges m k.edges).map (fun e => e.orientation)).sum % 2 = 0
    rw [moveEdges_sum m hm k.edges he]
    exact h2

theorem orientation_sum_invariants_witness :
    ∃ k1, apply_move Cube.solved Move.F1 = some k1 ∧
      (k1.corners.map (fun c => c.orientation)).sum % 3 = 0 ∧
      (k1.edges.map (fun e => e.orientation)).sum % 2 = 0 :=
  orientation_sum_invariants Cube.solved Move.F1 (by decide) (by decide) (by decide)
    (by decide) (by decide)

theorem moveCorners_pieces_any (m : Move) (cs : List Corner) :
    Phase2Coord.corner_pieces (moveCorners m cs)
      = ((List.range 8).map (srcC m)).map (fun s => (Phase2Coord.corner_pieces cs).getD s 0) := by
  unfold moveCorners Phase2Coord.corner_pieces
  rw [List.map_map, List.map_map]
  apply List.map_congr_left
  intro t _
  simp only [Function.comp, srcC, corner_getD_piece]
  generalize cornerEffect m t = e
  cases e with
  | none => rfl
  | some p => rfl

theorem moveEdges_pieces_any (m : Move) (es : List Edge) :
    Phase2Coord.edge_pieces (moveEdges m es)
      = ((List.range 12).map (srcE m)).map (fun s => (Phase2Coord.edge_pieces es).getD s 0) := by
  unfold moveEdges Phase2Coord.edge_pieces
  rw [List.map_map, List.map_map]
  apply List.map_congr_left
  intro t _
  simp only [Function.comp, srcE, edge_getD_piece]
  generalize edgeEffect m t = e
  cases e with
  | none => rfl
  | some p => rfl

/-- Rearranging a list of pairs changes the inversions of the first and of the
second components by the same parity, when the components are distinct. -/
theorem inversions_perm_pairs (z1 z2 : List (Nat × Nat)) (h : z1.Perm z2) :
    (z2.map Prod.fst).Nodup → (z2.map Prod.snd).Nodup →
    (inversions (z1.map Prod.fst) + inversions (z2.map Prod.fst)
      + inversions (z1.map Prod.snd) + inversions (z2.map Prod.snd)) % 2 = 0 := by
  induction h with
  | nil => intro _ _; rfl
  | cons x h ih =>
    intro hn1 hn2
    rw [List.map_cons] at hn1 hn2
    have i := ih (List.nodup_cons.mp hn1).2 (List.nodup_cons.mp hn2).2
    simp only [List.map_cons, inversions]
    rw [(h.map Prod.fst).countP_eq, (h.map Prod.snd).countP_eq]
    omega
  | swap x y l =>
    intro hn1 hn2
    simp only [List.map_cons, List.nodup_cons, List.mem_cons, not_or] at hn1 hn2
    have hx : ¬ x.1 = y.1 := hn1.1.1
    have hy : ¬ x.2 = y.2 := hn2.1.1
    simp only [List.map_cons, inversions, List.countP_cons]
    have a1 : (if decide (x.1 < y.1) = true then 1 else 0)
        + (if decide (y.1 < x.1) = true then 1 else 0) = 1 := by
      by_cases h1 : x.1 < y.1
      · have h2 : ¬ y.1 < x.1 := by omega
        simp [h1, h2]
      · have h2 : y.1 < x.1 := by omega
        simp [h1, h2]
    have a2 : (if decide (x.2 < y.2) = true then 1 else 0)
        + (if decide (y.2 < x.2) = true then 1 else 0) = 1 := by
      by_cases h1 : x.2 < y.2
      · have h2 : ¬ y.2 < x.2 := by omega
        simp [h1, h2]
      · have h2 : y.2 < x.2 := by omega
        simp [h1, h2]
    omega
  | trans h1 h2 ih1 ih2 =>
    intro hn1 hn2
    have i2 := ih2 hn1 hn2
    have i1 := ih1 ((h2.map Prod.fst).nodup_iff.mpr hn1) ((h2.map Prod.snd).nodup_iff.mpr hn2)
    omega

theorem inversions_range : inversions (List.range 8) = 0 ∧ inversions (List.range 12) = 0 := by
  decide

/-- Reading an arrangement of `0..n-1` at the positions `srcs`, themselves an
arrangement of `0..n-1`, adds the parity of `srcs`. -/
theorem parity_carry (n : Nat) (p srcs : List Nat) (hp : p.Perm (List.range n))
    (hs : srcs.Perm (List.range n)) (h0 : inversions (List.range n) = 0) :
    permutationParity (srcs.map (fun s => p.getD s 0))
      = (permutationParity p + permutationParity srcs) % 2 := by
  have hlen : p.length = n := by rw [hp.length_eq, List.length_range]
  have hz := hs.map (fun s => (p.getD s 0, s))
  have e1 : ((List.range n).map (fun s => (p.getD s 0, s))).map Prod.fst = p := by
    rw [List.map_map]
    exact map_getD_range p 0 n hlen
  have e2 : ((List.range n).map (fun s => (p.getD s 0, s))).map Prod.snd = List.range n := by
    rw [List.map_map]
    exact List.map_id _
  have e3 : (srcs.map (fun s => (p.getD s 0, s))).map Prod.fst
      = srcs.map (fun s => p.getD s 0) := by
    rw [List.map_map]
    rfl
  have e4 : (srcs.map (fun s => (p.getD s 0, s))).map Prod.snd = srcs := by
    rw [List.map_map]
    exact List.map_id _
  have := inversions_perm_pairs _ _ hz
    (by rw [e1]; exact hp.nodup_iff.mpr (List.nodup_range n))
    (by rw [e2]; exact List.nodup_range n)
  rw [e1, e2, e3, e4, h0] at this
  unfold permutationParity
  omega

theorem move_parities : ∀ m < 18,
    permutationParity ((List.range 8).map (srcC m))
      = permutationParity ((List.range 12).map (srcE m)) := by decide

/-- Claim C23. A move keeps the permutation invariants: on a cube whose corner
piece ids are an arrangement of 0..7 and whose edge piece ids are an
arrangement of 0..11 with the same parity, each of the 18 moves applies and
gives a cube whose corner and edge piece ids are again such arrangements, of
equal parity. -/
theorem permutation_parity_invariant (k : Cube) (m : Move) (hm : m < 18)
    (hcp : (Phase2Coord.corner_pieces k.corners).Perm (List.range 8))
    (hep : (Phase2Coord.edge_pieces k.edges).Perm (List.range 12))
    (hpar : permutationParity (Phase2Coord.corner_pieces k.corners)
      = permutationParity (Phase2Coord.edge_pieces k.edges)) :
    ∃ k1, apply_move k m = some k1 ∧
      (Phase2Coord.corner_pieces k1.corners).Perm (List.range 8) ∧
      (Phase2Coord.edge_pieces k1.edges).Perm (List.range 12) ∧
      permutationParity (Phase2Coord.corner_pieces k1.corners)
        = permutationParity (Phase2Coord.edge_pieces k1.edges) := by
  have hc : k.corners.length = 8 := by
    have := hcp.length_eq
    rw [Phase2Coord.corner_pieces, List.length_map, List.length_range] at this
    exact this
  have he : k.edges.length = 12 := by
    have := hep.length_eq
    rw [Phase2Coord.edge_pieces, List.length_map, List.length_range] at this
    exact this
  have hlc : (Phase2Coord.corner_pieces k.corners).length = 8 := by
    rw [hcp.length_eq, List.length_range]
  have hle : (Phase2Coord.edge_pieces k.edges).length = 12 := by
    rw [hep.length_eq, List.length_range]
  refine ⟨_, apply_move_eq k m hm hc he, ?_, ?_, ?_⟩
  · show (Phase2Coord.corner_pieces (moveCorners m k.corners)).Perm (List.range 8)
    rw [moveCorners_pieces_any]
    exact (perm_map_getD 8 _ hlc _ (srcC_perm m hm)).trans hcp
  · show (Phase2Coord.edge_pieces (moveEdges m k.edges)).Perm (List.range 12)
    rw [moveEdges_pieces_any]
    exact (perm_map_getD 12 _ hle _ (srcE_perm m hm)).trans hep
  · show permutationParity (Phase2Coord.corner_pieces (moveCorners m k.corners))
      = permutationParity (Phase2Coord.edge_pieces (moveEdges m k.edges))
    rw [moveCorners_pieces_any, moveEdges_pieces_any,
      parity_carry 8 _ _ hcp (srcC_perm m hm) inversions_range.1,
      parity_carry 12 _ _ hep (srcE_perm m hm) inversions_range.2, hpar, move_parities m hm]

theorem permutation_parity_invariant_witness :
    ∃ k1, apply_move Cube.solved Move.F1 = some k1 ∧
      (Phase2Coord.corner_pieces k1.corners).Perm (List.range 8) ∧
      (Phase2Coord.edge_pieces k1.edges).Perm (List.range 12) ∧
      permutationParity (Phase2Coord.corner_pieces k1.corners)
        = permutationParity (Phase2Coord.edge_pieces k1.edges) :=
  permutation_parity_invariant Cube.solved Move.F1 (by decide) (by decide) (by decide)
    (by decide)

/-! ### The moves of the Phase-2 part -/

theorem phase2_tokens : ∀ m ∈ Phase2Coord.AVAILABLE_MOVES,
    m ∈ [Move.U1, Move.U2, Move.U3, Move.D1, Move.D2, Move.D3,
      Move.F3, Move.B3, Move.L3, Move.R3] ∧
    move_to_string m ∈ ["U", "U'", "U2", "D", "D'", "D2", "F2", "B2", "L2", "R2"] := by
  decide

/-- Claim C21. Phase-2 move legality: over the generated move tables and
endgame databases (any pruning tables, any `std::sort` that returns an
arrangement of its input), a list that `solve` returns for a cube reachable
from the solved one is the Phase-1 path followed by the Phase-2 path, both with
the sentinel erased, where the Phase-2 path is what `ida_star` returned for
Phase 2, database hit or not; each move of that Phase-2 part is one of U, U',
U2, D, D', D2, F2, B2, L2, R2. -/
theorem phase2_move_legality (S : Solver) (k : Cube) (L : List Move)
    (hco : TableManager.generate_co_move_table = some S.tables_.co_move_table)
    (heo : TableManager.generate_eo_move_table = some S.tables_.eo_move_table)
    (huds : TableManager.generate_uds_move_table = some S.tables_.uds_move_table)
    (hcp : TableManager.generate_cp_move_table = some S.tables_.cp_move_table)
    (hudep : TableManager.generate_udep_move_table = some S.tables_.udep_move_table)
    (hsep : TableManager.generate_sep_move_table = some S.tables_.sep_move_table)
    (hdb1 : TableManager.generate_endgame_db 1 S.tables_.get_phase1_moves
      = Result.value S.tables_.p1_endgame_db)
    (hdb2 : TableManager.generate_endgame_db 2 S.tables_.get_phase2_moves
      = Result.value S.tables_.p2_endgame_db)
    (hsort : ∀ l, (S.sort l).Perm l)
    (hk : Reachable k)
    (h : S.solve k = Result.value L) :
    ∃ sol1 k1 c1 c2 c3 sol2,
      S.ida_star 1
        (Phase1Coord.is_solved (Phase1Coord.mk k (Phase1Coord.encode_corner_orientation k)
          (Phase1Coord.encode_edge_orientation k) (Phase1Coord.encode_ud_slice_position k)))
        (Phase1Coord.encode_corner_orientation k, Phase1Coord.encode_edge_orientation k,
          Phase1Coord.encode_ud_slice_position k) 12 = Result.value (some sol1) ∧
      apply_sequence k (sol1.filter (fun m => m ≠ Move.COUNT)) = some k1 ∧
      Phase2Coord.of_cube k1 = some (Phase2Coord.mk k1 c1 c2 c3) ∧
      S.ida_star 2 (Phase2Coord.is_solved (Phase2Coord.mk k1 c1 c2 c3)) (c1, c2, c3)
        (max 8 (25 - (sol1.filter (fun m => m ≠ Move.COUNT)).length))
        = Result.value (some sol2) ∧
      L = sol1.filter (fun m => m ≠ Move.COUNT) ++ sol2.filter (fun m => m ≠ Move.COUNT) ∧
      ∀ m ∈ sol2.filter (fun m => m ≠ Move.COUNT),
        m ∈ [Move.U1, Move.U2, Move.U3, Move.D1, Move.D2, Move.D3,
          Move.F3, Move.B3, Move.L3, Move.R3] ∧
        move_to_string m ∈ ["U", "U'", "U2", "D", "D'", "D2", "F2", "B2", "L2", "R2"] := by
  obtain ⟨r1, hr1, hcase⟩ := solve_outline S ⟨hco, heo, huds, hcp, hudep, hsep, hdb1, hdb2⟩
    hsort k (reachable_legal k hk)
  rcases hcase with ⟨_, he⟩ | ⟨sol1, k1, c1, c2, c3, r2, rfl, _, ha1, _, hof, hr2, hcase2⟩
  · rw [he] at h
    exact Result.noConfusion h
  · rcases hcase2 with ⟨_, he⟩ | ⟨sol2, rfl, hm2, _, hs⟩
    · rw [he] at h
      exact Result.noConfusion h
    · rw [hs] at h
      cases h
      exact ⟨sol1, k1, c1, c2, c3, sol2, hr1, ha1, hof, hr2, rfl,
        fun m hm => phase2_tokens m (hm2 m hm)⟩

theorem phase2_move_legality_witness :
    TablesGenerated Solver.generated.tables_ ∧ (∀ l, (Solver.generated.sort l).Perm l) ∧
    ∃ k, apply_move Cube.solved Move.U1 = some k ∧ Reachable k ∧
      Solver.generated.solve k = Result.value [Move.U2] ∧
      ∃ sol1 k1 c1 c2 c3 sol2,
        Solver.generated.ida_star 1
          (Phase1Coord.is_solved (Phase1Coord.mk k (Phase1Coord.encode_corner_orientation k)
            (Phase1Coord.encode_edge_orientation k) (Phase1Coord.encode_ud_slice_position k)))
          (Phase1Coord.encode_corner_orientation k, Phase1Coord.encode_edge_orientation k,
            Phase1Coord.encode_ud_slice_position k) 12 = Result.value (some sol1) ∧
        apply_sequence k (sol1.filter (fun m => m ≠ Move.COUNT)) = some k1 ∧
        Phase2Coord.of_cube k1 = some (Phase2Coord.mk k1 c1 c2 c3) ∧
        Solver.generated.ida_star 2 (Phase2Coord.is_solved (Phase2Coord.mk k1 c1 c2 c3))
          (c1, c2, c3) (max 8 (25 - (sol1.filter (fun m => m ≠ Move.COUNT)).length))
          = Result.value (some sol2) ∧
        [Move.U2] = sol1.filter (fun m => m ≠ Move.COUNT)
          ++ sol2.filter (fun m => m ≠ Move.COUNT) ∧
        ∀ m ∈ sol2.filter (fun m => m ≠ Move.COUNT),
          m ∈ [Move.U1, Move.U2, Move.U3, Move.D1, Move.D2, Move.D3,
            Move.F3, Move.B3, Move.L3, Move.R3] ∧
          move_to_string m ∈ ["U", "U'", "U2", "D", "D'", "D2", "F2", "B2", "L2", "R2"] :=
  ⟨generated_tables_ok, generated_sort_perm,
    ⟨moveCorners Move.U1 Cube.solved.corners, moveEdges Move.U1 Cube.solved.edges⟩,
    apply_move_eq Cube.solved Move.U1 (by decide) (by decide) (by decide),
    Reachable.step Cube.solved _ Move.U1 Reachable.solved
      (apply_move_eq Cube.solved Move.U1 (by decide) (by decide) (by decide)),
    solve_first_move Solver.generated generated_tables_ok generated_heuristic_first_move,
    phase2_move_legality Solver.generated
      ⟨moveCorners Move.U1 Cube.solved.corners, moveEdges Move.U1 Cube.solved.edges⟩ [Move.U2]
      generated_tables_ok.co generated_tables_ok.eo generated_tables_ok.uds
      generated_tables_ok.cp generated_tables_ok.udep generated_tables_ok.sep
      generated_tables_ok.db1 generated_tables_ok.db2
      generated_sort_perm
      (Reachable.step Cube.solved _ Move.U1 Reachable.solved
        (apply_move_eq Cube.solved Move.U1 (by decide) (by decide) (by decide)))
      (solve_first_move Solver.generated generated_tables_ok generated_heuristic_first_move)⟩

/-! ### Scrambles -/

theorem split_spaces_ne_nil (cs : List Char) : split_spaces cs ≠ [] := by
  cases cs with
  | nil => simp [split_spaces]
  | cons c cs =>
    unfold split_spaces
    cases split_spaces cs with
    | nil => simp
    | cons tok rest =>
      simp only
      split <;> simp

theorem split_spaces_space (cs : List Char) : split_spaces (' ' :: cs) = [] :: split_spaces cs := by
  have h := split_spaces_ne_nil cs
  rw [split_spaces]
  cases hs : split_spaces cs with
  | nil => exact absurd hs h
  | cons tok rest => simp

theorem split_spaces_char (c : Char) (cs : List Char) (hc : c ≠ ' ') :
    split_spaces (c :: cs) = (c :: (split_spaces cs).headD []) :: (split_spaces cs).tail := by
  have h := split_spaces_ne_nil cs
  rw [split_spaces]
  cases hs : split_spaces cs with
  | nil => exact absurd hs h
  | cons tok rest => simp [hc]

theorem split_spaces_token (tok cs : List Char) (h : ∀ c ∈ tok, c ≠ ' ') :
    split_spaces (tok ++ cs)
      = (tok ++ (split_spaces cs).headD []) :: (split_spaces cs).tail := by
  induction tok with
  | nil =>
    have hn := split_spaces_ne_nil cs
    cases hs : split_spaces cs with
    | nil => exact absurd hs hn
    | cons t rest => simp [hs]
  | cons c tok ih =>
    rw [List.cons_append, split_spaces_char c _ (h c (List.mem_cons_self _ _)),
      ih (fun c hc => h c (List.mem_cons_of_mem _ hc))]
    simp

theorem from_scramble_loop (s : String) :
    from_scramble s = scrambleLoop Cube.solved (split_spaces s.toList) := rfl

theorem scrambleLoop_nil (c : Cube) : scrambleLoop c [] = some c := rfl

theorem scrambleLoop_empty (c : Cube) (toks : List (List Char)) :
    scrambleLoop c ([] :: toks) = scrambleLoop c toks := by
  simp [scrambleLoop]

theorem token_facts : ∀ m < 18,
    (move_to_string m).toList ≠ [] ∧ (∀ c ∈ (move_to_string m).toList, c ≠ ' ') ∧
    string_to_move (String.mk (move_to_string m).toList) = some m := by
  decide

theorem scrambleLoop_token (c : Cube) (m : Move) (hm : m < 18) (toks : List (List Char))
    (hc : c.corners.length = 8) (he : c.edges.length = 12) :
    scrambleLoop c ((move_to_string m).toList :: toks)
      = scrambleLoop ⟨moveCorners m c.corners, moveEdges m c.edges⟩ toks := by
  obtain ⟨h1, _, h3⟩ := token_facts m hm
  have hne : (move_to_string m).toList.isEmpty = false := by
    cases h : (move_to_string m).toList with
    | nil => exact absurd h h1
    | cons a l => rfl
  simp only [scrambleLoop, List.foldlM_cons, hne, h3, apply_move_eq c m hm hc he,
    Option.bind_eq_bind, Option.some_bind, Bool.false_eq_true, if_false]

theorem scrambleLoop_spaces (c : Cube) (cs : List Char) :
    ∀ n, scrambleLoop c (split_spaces (List.replicate n ' ' ++ cs))
      = scrambleLoop c (split_spaces cs) := by
  intro n
  induction n with
  | zero => rfl
  | succ n ih =>
    rw [List.replicate_succ, List.cons_append, split_spaces_space, scrambleLoop_empty, ih]

theorem scrambleLoop_word (c : Cube) (m : Move) (hm : m < 18) (tail : List Char)
    (hc : c.corners.length = 8) (he : c.edges.length = 12)
    (ht : tail = [] ∨ ∃ t, tail = ' ' :: t) :
    scrambleLoop c (split_spaces ((move_to_string m).toList ++ tail))
      = scrambleLoop ⟨moveCorners m c.corners, moveEdges m c.edges⟩ (split_spaces tail) := by
  rw [split_spaces_token _ _ (token_facts m hm).2.1]
  rcases ht with rfl | ⟨t, rfl⟩
  · have e : split_spaces [] = [[]] := rfl
    rw [e]
    simp only [List.headD_cons, List.tail_cons, List.append_nil]
    rw [scrambleLoop_token c m hm [] hc he, scrambleLoop_empty]
  · rw [split_spaces_space]
    simp only [List.headD_cons, List.tail_cons, List.append_nil]
    rw [scrambleLoop_token c m hm _ hc he, scrambleLoop_empty]

theorem scrambleText_succ (n : Nat) (items : List (Move × Nat)) :
    scrambleText (n + 1) items = ' ' :: scrambleText n items := by
  cases items with
  | nil => simp [scrambleText, List.replicate_succ]
  | cons p rest =>
    obtain ⟨m, g⟩ := p
    simp [scrambleText, List.replicate_succ]

theorem scrambleLoop_text (items : List (Move × Nat)) :
    ∀ (lead : Nat) (c : Cube), c.corners.length = 8 → c.edges.length = 12 →
      (∀ p ∈ items, p.1 < 18) →
      scrambleLoop c (split_spaces (scrambleText lead items))
        = apply_sequence c (items.map Prod.fst) := by
  induction items with
  | nil =>
    intro lead c _ _ _
    have e : scrambleText lead [] = List.replicate lead ' ' ++ [] := by
      simp [scrambleText]
    rw [e, scrambleLoop_spaces]
    rfl
  | cons p rest ih =>
    intro lead c hc he hp
    obtain ⟨m, g⟩ := p
    have hm : m < 18 := hp (m, g) (List.mem_cons_self _ _)
    have hrest : ∀ p ∈ rest, p.1 < 18 := fun p hq => hp p (List.mem_cons_of_mem _ hq)
    rw [List.map_cons, apply_sequence_cons c m _ hm hc he]
    rw [scrambleText, scrambleLoop_spaces]
    cases rest with
    | nil =>
      simp only [List.isEmpty_nil, if_true, List.map_nil]
      rw [scrambleLoop_word c m hm _ hc he
        (by
          cases g with
          | zero => exact Or.inl rfl
          | succ g => exact Or.inr ⟨_, List.replicate_succ _ _⟩)]
      have e : List.replicate g ' ' = List.replicate g ' ' ++ [] := by simp
      rw [e, scrambleLoop_spaces]
      rfl
    | cons q rest =>
      simp only [List.isEmpty_cons, Bool.false_eq_true, if_false]
      rw [scrambleLoop_word c m hm _ hc he (Or.inr ⟨_, scrambleText_succ g (q :: rest)⟩)]
      exact ih (g + 1) _ (moveCorners_length m _) (moveEdges_length m _) hrest

theorem apply_sequence_total (path : List Move) :
    ∀ (c : Cube), c.corners.length = 8 → c.edges.length = 12 → (∀ m ∈ path, m < 18) →
      ∃ k, apply_sequence c path = some k := by
  induction path with
  | nil => intro c _ _ _; exact ⟨c, rfl⟩
  | cons m path ih =>
    intro c hc he hp
    rw [apply_sequence_cons c m path (hp m (List.mem_cons_self _ _)) hc he]
    exact ih _ (moveCorners_length m _) (moveEdges_length m _)
      (fun x hx => hp x (List.mem_cons_of_mem _ hx))

/-- Claim C25. Scramble construction: for a text made of legal move tokens
joined by one or more spaces, with any number of spaces before the first and
after the last token, `from_scramble` returns a cube, the one `apply_sequence`
gives for the named moves, in order, on the solved cube; the empty tokens
between adjacent spaces contribute nothing. -/
theorem scramble_construction (lead : Nat) (items : List (Move × Nat))
    (h : ∀ p ∈ items, p.1 < 18) :
    ∃ k, from_scramble (String.mk (scrambleText lead items)) = some k ∧
      apply_sequence Cube.solved (items.map Prod.fst) = some k := by
  obtain ⟨k, hk⟩ := apply_sequence_total (items.map Prod.fst) Cube.solved (by decide) (by decide)
    (by
      intro m hm
      obtain ⟨p, hp, rfl⟩ := List.mem_map.mp hm
      exact h p hp)
  refine ⟨k, ?_, hk⟩
  rw [from_scramble_loop, ← hk]
  exact scrambleLoop_text items lead Cube.solved (by decide) (by decide) h

theorem scramble_construction_witness :
    ∃ k, from_scramble (String.mk (scrambleText 2 [(Move.R1, 0), (Move.U2, 1), (Move.F3, 3)]))
        = some k ∧
      apply_sequence Cube.solved ([(Move.R1, 0), (Move.U2, 1), (Move.F3, 3)].map Prod.fst)
        = some k :=
  scramble_construction 2 [(Move.R1, 0), (Move.U2, 1), (Move.F3, 3)] (by decide)

theorem intercalate_cons_head (c : Char) (tok : List Char) (rest : List (List Char)) :
    List.intercalate [' '] ((c :: tok) :: rest) = c :: List.intercalate [' '] (tok :: rest) := by
  cases rest with
  | nil => simp [List.intercalate, List.intersperse]
  | cons t rest => simp [List.intercalate, List.intersperse]

theorem split_spaces_join (cs : List Char) : List.intercalate [' '] (split_spaces cs) = cs := by
  induction cs with
  | nil => simp [split_spaces, List.intercalate, List.intersperse]
  | cons c cs ih =>
    have hn := split_spaces_ne_nil cs
    by_cases hc : c = ' '
    · subst hc
      rw [split_spaces_space]
      cases hs : split_spaces cs with
      | nil => exact absurd hs hn
      | cons tok rest =>
        rw [hs] at ih
        rw [← ih]
        simp [List.intercalate, List.intersperse]
    · rw [split_spaces_char c cs hc]
      cases hs : split_spaces cs with
      | nil => exact absurd hs hn
      | cons tok rest =>
        rw [hs] at ih
        simp only [List.headD_cons, List.tail_cons]
        rw [intercalate_cons_head, ih]

theorem split_spaces_no_space (cs : List Char) : ∀ tok ∈ split_spaces cs, ' ' ∉ tok := by
  induction cs with
  | nil =>
    intro tok ht
    have e : split_spaces [] = [[]] := rfl
    rw [e, List.mem_singleton] at ht
    rw [ht]
    exact List.not_mem_nil _
  | cons c cs ih =>
    have hn := split_spaces_ne_nil cs
    intro tok ht
    by_cases hc : c = ' '
    · subst hc
      rw [split_spaces_space] at ht
      rcases List.mem_cons.mp ht with rfl | ht
      · exact List.not_mem_nil _
      · exact ih tok ht
    · rw [split_spaces_char c cs hc] at ht
      cases hs : split_spaces cs with
      | nil => exact absurd hs hn
      | cons t rest =>
        rw [hs] at ht ih
        simp only [List.headD_cons, List.tail_cons] at ht
        rcases List.mem_cons.mp ht with rfl | ht
        · intro hmem
          rcases List.mem_cons.mp hmem with h1 | h1
          · exact hc h1.symm
          · exact ih t (List.mem_cons_self _ _) h1
        · exact ih tok (List.mem_cons_of_mem _ ht)

theorem string_to_move_none (s : String) :
    string_to_move s = none ↔
      s ∉ ["U", "U'", "U2", "D", "D'", "D2", "F", "F'", "F2",
        "B", "B'", "B2", "L", "L'", "L2", "R", "R'", "R2"] := by
  have hkeys : ["U", "U'", "U2", "D", "D'", "D2", "F", "F'", "F2",
      "B", "B'", "B2", "L", "L'", "L2", "R", "R'", "R2"] = MOVE_MAP.map (fun p => p.1) := by
    decide
  rw [hkeys]
  unfold string_to_move
  rw [Option.map_eq_none', List.find?_eq_none]
  constructor
  · intro h hmem
    obtain ⟨p, hp, he⟩ := List.mem_map.mp hmem
    exact h p hp (by simpa using he)
  · intro h p hp hb
    apply h
    have : p.1 = s := by simpa using hb
    rw [← this]
    exact List.mem_map_of_mem _ hp

theorem string_to_move_lt (s : String) (m : Move) (h : string_to_move s = some m) : m < 18 := by
  unfold string_to_move at h
  obtain ⟨p, hp, rfl⟩ := Option.map_eq_some'.mp h
  have hall : ∀ p ∈ MOVE_MAP, p.2 < 18 := by decide
  exact hall p (List.mem_of_find?_eq_some hp)

theorem scrambleLoop_none (toks : List (List Char)) :
    ∀ (c : Cube), c.corners.length = 8 → c.edges.length = 12 →
      (scrambleLoop c toks = none ↔
        ∃ tok ∈ toks, tok ≠ [] ∧ string_to_move (String.mk tok) = none) := by
  induction toks with
  | nil =>
    intro c _ _
    simp [scrambleLoop]
  | cons tok toks ih =>
    intro c hc he
    cases tok with
    | nil =>
      rw [scrambleLoop_empty, ih c hc he]
      simp
    | cons a tok =>
      cases hs : string_to_move (String.mk (a :: tok)) with
      | none =>
        have e : scrambleLoop c ((a :: tok) :: toks) = none := by
          simp [scrambleLoop, hs]
        rw [e]
        simp only [true_iff]
        exact ⟨a :: tok, List.mem_cons_self _ _, List.cons_ne_nil _ _, hs⟩
      | some m =>
        have hm := string_to_move_lt _ m hs
        have e : scrambleLoop c ((a :: tok) :: toks)
            = scrambleLoop ⟨moveCorners m c.corners, moveEdges m c.edges⟩ toks := by
          simp only [scrambleLoop, List.foldlM_cons, List.isEmpty_cons, hs,
            apply_move_eq c m hm hc he, Option.bind_eq_bind, Option.some_bind,
            Bool.false_eq_true, if_false]
        rw [e, ih _ (moveCorners_length m _) (moveEdges_length m _)]
        constructor
        · rintro ⟨t, ht, hne, hn⟩
          exact ⟨t, List.mem_cons_of_mem _ ht, hne, hn⟩
        · rintro ⟨t, ht, hne, hn⟩
          rcases List.mem_cons.mp ht with rfl | ht
          · rw [hs] at hn
            exact Option.noConfusion hn
          · exact ⟨t, ht, hne, hn⟩

/-- Claim C26. Scramble parse errors: the tokens `from_scramble` reads are the
maximal runs between space characters (joined by single spaces they give back
the input, and none contains a space), and `from_scramble` fails if and only if
one of the non-empty tokens is not one of the 18 strings U, U', U2, D, D', D2,
F, F', F2, B, B', B2, L, L', L2, R, R', R2. -/
theorem scramble_parse_errors (s : String) :
    (List.intercalate [' '] (split_spaces s.toList) = s.toList ∧
      ∀ tok ∈ split_spaces s.toList, ' ' ∉ tok) ∧
    (from_scramble s = none ↔
      ∃ tok ∈ split_spaces s.toList, tok ≠ [] ∧
        String.mk tok ∉ ["U", "U'", "U2", "D", "D'", "D2", "F", "F'", "F2",
          "B", "B'", "B2", "L", "L'", "L2", "R", "R'", "R2"]) := by
  refine ⟨⟨split_spaces_join _, split_spaces_no_space _⟩, ?_⟩
  rw [from_scramble_loop, scrambleLoop_none _ Cube.solved (by decide) (by decide)]
  constructor
  · rintro ⟨t, ht, hne, hn⟩
    exact ⟨t, ht, hne, (string_to_move_none _).mp hn⟩
  · rintro ⟨t, ht, hne, hn⟩
    exact ⟨t, ht, hne, (string_to_move_none _).mpr hn⟩

/-! ### Where the Phase-2 coordinates exist -/

theorem clear_corner_pieces (k : Cube) :
    Phase2Coord.corner_pieces (clearOrientations k).corners
      = Phase2Coord.corner_pieces k.corners := by
  simp only [clearOrientations, Phase2Coord.corner_pieces, List.map_map]
  rfl

theorem clear_edge_pieces (k : Cube) :
    Phase2Coord.edge_pieces (clearOrientations k).edges = Phase2Coord.edge_pieces k.edges := by
  simp only [clearOrientations, Phase2Coord.edge_pieces, List.map_map]
  rfl

theorem edge_pieces_take (es : List Edge) (n : Nat) :
    Phase2Coord.edge_pieces (es.take n) = (Phase2Coord.edge_pieces es).take n := by
  simp only [Phase2Coord.edge_pieces, List.map_take]

theorem edge_pieces_drop (es : List Edge) (n : Nat) :
    Phase2Coord.edge_pieces (es.drop n) = (Phase2Coord.edge_pieces es).drop n := by
  simp only [Phase2Coord.edge_pieces, List.map_drop]

theorem clear_sliceIndicator (k : Cube) :
    sliceIndicator (clearOrientations k).edges = sliceIndicator k.edges := by
  simp only [clearOrientations, sliceIndicator, List.map_map]
  rfl

theorem clear_uds (k : Cube) :
    Phase1Coord.encode_ud_slice_position (clearOrientations k)
      = Phase1Coord.encode_ud_slice_position k := by
  rw [encode_ud_slice_position_ind, encode_ud_slice_position_ind, clear_sliceIndicator]

theorem clear_legal (k : Cube)
    (hcp : (Phase2Coord.corner_pieces k.corners).Perm (List.range 8))
    (hep : (Phase2Coord.edge_pieces k.edges).Perm (List.range 12)) :
    (clearOrientations k).Legal := by
  have hc : k.corners.length = 8 := by
    have := hcp.length_eq
    rw [Phase2Coord.corner_pieces, List.length_map, List.length_range] at this
    exact this
  have he : k.edges.length = 12 := by
    have := hep.length_eq
    rw [Phase2Coord.edge_pieces, List.length_map, List.length_range] at this
    exact this
  refine ⟨by simp [clearOrientations, hc], by simp [clearOrientations, he], ?_, ?_,
    by rw [clear_corner_pieces]; exact hcp, by rw [clear_edge_pieces]; exact hep, ?_, ?_⟩
  · intro c hmem
    obtain ⟨c0, _, rfl⟩ := List.mem_map.mp hmem
    exact Nat.zero_lt_succ _
  · intro e hmem
    obtain ⟨e0, _, rfl⟩ := List.mem_map.mp hmem
    exact Nat.zero_lt_succ _
  · have hz : ∀ l : List Corner,
        ((l.map (fun c => { c with orientation := 0 })).map (fun c => c.orientation)).sum = 0 := by
      intro l
      induction l with
      | nil => rfl
      | cons a l ih => simp only [List.map_cons, List.sum_cons, ih]
    show (((k.corners.map (fun c => { c with orientation := 0 })).map
      (fun c => c.orientation)).sum) % 3 = 0
    rw [hz]
  · have hz : ∀ l : List Edge,
        ((l.map (fun e => { e with orientation := 0 })).map (fun e => e.orientation)).sum = 0 := by
      intro l
      induction l with
      | nil => rfl
      | cons a l ih => simp only [List.map_cons, List.sum_cons, ih]
    show (((k.edges.map (fun e => { e with orientation := 0 })).map
      (fun e => e.orientation)).sum) % 2 = 0
    rw [hz]

/-- With the slice pieces in the slice slots the three encoders succeed, with
ranks in range. -/
theorem phase2_encoders_succeed (k : Cube)
    (hcp : (Phase2Coord.corner_pieces k.corners).Perm (List.range 8))
    (hep : (Phase2Coord.edge_pieces k.edges).Perm (List.range 12))
    (h : Phase1Coord.encode_ud_slice_position k = 0) :
    ∃ c1 c2 c3, c1 < 40320 ∧ c2 < 40320 ∧ c3 < 24 ∧
      Phase2Coord.encode_corner_permutation k = some c1 ∧
      Phase2Coord.encode_ud_edge_permutation k = some c2 ∧
      Phase2Coord.encode_slice_edge_permutation k = some c3 := by
  have hg := legal_uds_zero (clearOrientations k) (clear_legal k hcp hep)
    (by rw [clear_uds]; exact h)
  obtain ⟨c1, c2, c3, h1, h2, h3, e1, e2, e3, _⟩ := g1Pieces_encode _ hg
  refine ⟨c1, c2, c3, h1, h2, h3, ?_, ?_, ?_⟩
  · rw [← e1]
    unfold Phase2Coord.encode_corner_permutation
    rw [clear_corner_pieces]
  · rw [← e2]
    unfold Phase2Coord.encode_ud_edge_permutation
    rw [edge_pieces_take, edge_pieces_take, clear_edge_pieces]
  · rw [← e3]
    unfold Phase2Coord.encode_slice_edge_permutation
    rw [edge_pieces_take, edge_pieces_take, edge_pieces_drop, edge_pieces_drop,
      clear_edge_pieces]

/-- Where the loop of `encode_perm` runs through, every piece it looked up was
among the available ones. -/
theorem encode_perm_loop_mem (n : Nat) (perm A : List Nat) :
    ∀ (l : List Nat) (st st1 : Coord × List Nat),
      l.foldlM (Phase2Coord.encode_perm_step n perm) st = some st1 →
      (∀ x ∈ st.2, x ∈ A) → ∀ i ∈ l, perm.getD i 0 ∈ A := by
  intro l
  induction l with
  | nil => intro _ _ _ _ i hi; exact absurd hi (List.not_mem_nil i)
  | cons j l ih =>
    intro st st1 hrun hsub i hi
    rw [List.foldlM_cons] at hrun
    cases hstep : Phase2Coord.encode_perm_step n perm st j with
    | none =>
      rw [hstep] at hrun
      exact Option.noConfusion hrun
    | some st2 =>
      rw [hstep] at hrun
      have hrun2 : l.foldlM (Phase2Coord.encode_perm_step n perm) st2 = some st1 := hrun
      unfold Phase2Coord.encode_perm_step at hstep
      simp only at hstep
      split at hstep
      · exact Option.noConfusion hstep
      · rename_i hidx
        have hst2 := Option.some.inj hstep
        have hlt : List.indexOf (perm.getD j 0) st.2 < st.2.length :=
          Nat.lt_of_le_of_ne List.indexOf_le_length hidx
        have hmem : perm.getD j 0 ∈ st.2 := List.indexOf_lt_length.mp hlt
        rcases List.mem_cons.mp hi with rfl | hi
        · exact hsub _ hmem
        · apply ih st2 st1 hrun2 _ i hi
          intro x hx
          rw [← hst2] at hx
          exact hsub x (List.eraseIdx_subset _ _ hx)

theorem first_eight_force : ∀ b8 b9 b10 b11 : Bool,
    [false, false, false, false, false, false, false, false, b8, b9, b10, b11].count true = 4 →
    [false, false, false, false, false, false, false, false, b8, b9, b10, b11] = g1Indicator := by
  decide

theorem alphabet_eight_not_slice : ∀ p ∈ Phase2Coord.initial_available_pieces 8,
    isSlicePiece p = false := by decide

/-- The UD-edge encoder succeeds only with the slice pieces in the slice
slots. -/
theorem udep_encoder_needs_g1 (k : Cube)
    (hep : (Phase2Coord.edge_pieces k.edges).Perm (List.range 12)) (c : Coord)
    (h : Phase2Coord.encode_ud_edge_permutation k = some c) :
    Phase1Coord.encode_ud_slice_position k = 0 := by
  have he : k.edges.length = 12 := by
    have := hep.length_eq
    rw [Phase2Coord.edge_pieces, List.length_map, List.length_range] at this
    exact this
  have hlen : (Phase2Coord.edge_pieces (k.edges.take 8)).length = 8 := by
    simp [Phase2Coord.edge_pieces, he]
  have hmem : ∀ i ∈ List.range 8, (Phase2Coord.edge_pieces (k.edges.take 8)).getD i 0
      ∈ Phase2Coord.initial_available_pieces 8 := by
    unfold Phase2Coord.encode_ud_edge_permutation Phase2Coord.encode_perm at h
    simp only [hlen] at h
    cases hrun : (List.range 8).foldlM
        (Phase2Coord.encode_perm_step 8 (Phase2Coord.edge_pieces (k.edges.take 8)))
        (0, Phase2Coord.initial_available_pieces 8) with
    | none =>
      rw [hrun] at h
      exact Option.noConfusion h
    | some st1 =>
      exact encode_perm_loop_mem 8 _ _ _ _ st1 hrun (fun x hx => hx)
  have hcount : (sliceIndicator k.edges).count true = 4 := by
    have h1 : sliceIndicator k.edges = (Phase2Coord.edge_pieces k.edges).map isSlicePiece := by
      simp only [sliceIndicator, Phase2Coord.edge_pieces, List.map_map]
      rfl
    rw [h1, (hep.map isSlicePiece).count_eq]
    decide
  obtain ⟨e0, e1, e2, e3, e4, e5, e6, e7, e8, e9, e10, e11, hes⟩ :=
    list_length_twelve k.edges he
  rw [encode_ud_slice_position_ind, C_nk_eq]
  rw [hes] at hmem hcount ⊢
  simp only [Phase2Coord.edge_pieces, List.take_succ_cons, List.take_zero, List.map_cons,
    List.map_nil] at hmem
  have m0 := alphabet_eight_not_slice _ (hmem 0 (by decide))
  have m1 := alphabet_eight_not_slice _ (hmem 1 (by decide))
  have m2 := alphabet_eight_not_slice _ (hmem 2 (by decide))
  have m3 := alphabet_eight_not_slice _ (hmem 3 (by decide))
  have m4 := alphabet_eight_not_slice _ (hmem 4 (by decide))
  have m5 := alphabet_eight_not_slice _ (hmem 5 (by decide))
  have m6 := alphabet_eight_not_slice _ (hmem 6 (by decide))
  have m7 := alphabet_eight_not_slice _ (hmem 7 (by decide))
  simp only [List.getD_cons_zero, List.getD_cons_succ] at m0 m1 m2 m3 m4 m5 m6 m7
  simp only [sliceIndicator, List.map_cons, List.map_nil, m0, m1, m2, m3, m4, m5, m6, m7]
    at hcount ⊢
  rw [first_eight_force _ _ _ _ hcount]
  exact udsEncodeInd_g1

/-- Claim C29. Phase-2 coordinates are defined exactly on G1: for a cube whose
corner piece ids are an arrangement of 0..7 and whose edge piece ids are an
arrangement of 0..11, the construction of `Phase2Coord` from the cube throws
if and only if the UD-slice coordinate of the cube is not 0; when it succeeds,
CP and UDEP are below 40320 and SEP is below 24. -/
theorem phase2_defined_on_g1 (k : Cube)
    (hcp : (Phase2Coord.corner_pieces k.corners).Perm (List.range 8))
    (hep : (Phase2Coord.edge_pieces k.edges).Perm (List.range 12)) :
    (Phase2Coord.of_cube k = none ↔ Phase1Coord.encode_ud_slice_position k ≠ 0) ∧
    ∀ p, Phase2Coord.of_cube k = some p →
      p.corner_permutation < 40320 ∧ p.ud_edge_permutation < 40320 ∧
      p.slice_edge_permutation < 24 := by
  have hsome : Phase1Coord.encode_ud_slice_position k = 0 →
      ∃ c1 c2 c3, c1 < 40320 ∧ c2 < 40320 ∧ c3 < 24 ∧
        Phase2Coord.of_cube k = some (Phase2Coord.mk k c1 c2 c3) := by
    intro h
    obtain ⟨c1, c2, c3, h1, h2, h3, e1, e2, e3⟩ := phase2_encoders_succeed k hcp hep h
    exact ⟨c1, c2, c3, h1, h2, h3, by
      simp only [Phase2Coord.of_cube, Phase2Coord.encode_from_cube, e1, e2, e3]⟩
  have hzero : ∀ p, Phase2Coord.of_cube k = some p →
      Phase1Coord.encode_ud_slice_position k = 0 := by
    intro p hp
    cases h2 : Phase2Coord.encode_ud_edge_permutation k with
    | none =>
      exfalso
      cases h1 : Phase2Coord.encode_corner_permutation k with
      | none =>
        simp only [Phase2Coord.of_cube, Phase2Coord.encode_from_cube, h1] at hp
        exact Option.noConfusion hp
      | some c1 =>
        simp only [Phase2Coord.of_cube, Phase2Coord.encode_from_cube, h1, h2] at hp
        exact Option.noConfusion hp
    | some c2 => exact udep_encoder_needs_g1 k hep c2 h2
  refine ⟨⟨?_, ?_⟩, ?_⟩
  · intro hn h0
    obtain ⟨c1, c2, c3, _, _, _, hs⟩ := hsome h0
    rw [hs] at hn
    exact Option.noConfusion hn
  · intro hne
    cases hp : Phase2Coord.of_cube k with
    | none => rfl
    | some p => exact absurd (hzero p hp) hne
  · intro p hp
    obtain ⟨c1, c2, c3, h1, h2, h3, hs⟩ := hsome (hzero p hp)
    rw [hs] at hp
    cases hp
    exact ⟨h1, h2, h3⟩

theorem phase2_defined_on_g1_witness :
    (Phase2Coord.of_cube (turnedCube Move.F1) = none ↔
      Phase1Coord.encode_ud_slice_position (turnedCube Move.F1) ≠ 0) ∧
    ∀ p, Phase2Coord.of_cube (turnedCube Move.F1) = some p →
      p.corner_permutation < 40320 ∧ p.ud_edge_permutation < 40320 ∧
      p.slice_edge_permutation < 24 :=
  phase2_defined_on_g1 (turnedCube Move.F1) (by decide) (by decide)

/-! ### Loading a table from a file of the wrong size -/

theorem load_array_binary_short (arr bytes : List Nat) (h : bytes.length < arr.length) :
    load_array_binary arr (some bytes) = (true, bytes ++ arr.drop bytes.length) := by
  simp only [load_array_binary, InputFile.read, if_true, Nat.not_le.mpr h, if_false]

theorem load_array_binary_present (arr bytes : List Nat) :
    (load_array_binary arr (some bytes)).1 = true := rfl

/-- Claim C30, as the code behaves. `load_array_binary` on a file that exists
but holds fewer bytes than the table returns `true`, with the bytes read at the
start of the table and the old contents after them; with the six pruning-table
files present, the first of them too short, the condition of `initialize` is
true, so the tables are not generated and the partly read table is kept. -/
theorem short_file_accepted (tm : TableManager) (files : String → Option (List Nat))
    (b1 b2 b3 b4 b5 b6 : List Nat)
    (h1 : files "data/co_pruning_table.bin" = some b1)
    (h2 : files "data/eo_pruning_table.bin" = some b2)
    (h3 : files "data/uds_pruning_table.bin" = some b3)
    (h4 : files "data/cp_pruning_table.bin" = some b4)
    (h5 : files "data/udep_pruning_table.bin" = some b5)
    (h6 : files "data/sep_pruning_table.bin" = some b6)
    (hshort : b1.length < tm.co_pruning_table.length) :
    load_array_binary tm.co_pruning_table (files "data/co_pruning_table.bin")
      = (true, b1 ++ tm.co_pruning_table.drop b1.length) ∧
    (load_pruning_tables tm files).1 = true ∧
    (load_pruning_tables tm files).2.co_pruning_table
      = b1 ++ tm.co_pruning_table.drop b1.length := by
  have e := load_array_binary_short tm.co_pruning_table b1 hshort
  refine ⟨by rw [h1]; exact e, ?_, ?_⟩
  · simp only [load_pruning_tables, h1, h2, h3, h4, h5, h6, load_array_binary_present,
      Bool.true_eq_false, if_false]
  · simp only [load_pruning_tables, h1, h2, h3, h4, h5, h6, load_array_binary_present,
      Bool.true_eq_false, if_false, e]

theorem short_file_accepted_witness :
    load_array_binary zeroedTables.co_pruning_table (some [7]) =
      (true, [7] ++ zeroedTables.co_pruning_table.drop 1) ∧
    (load_pruning_tables zeroedTables (fun _ => some [7])).1 = true ∧
    (load_pruning_tables zeroedTables (fun _ => some [7])).2.co_pruning_table
      = [7] ++ zeroedTables.co_pruning_table.drop 1 :=
  short_file_accepted zeroedTables (fun _ => some [7]) [7] [7] [7] [7] [7] [7]
    rfl rfl rfl rfl rfl rfl
    (by
      show 1 < (List.replicate 2187 0).length
      rw [List.length_replicate]
      decide)

/-! ### The endgame database holds shortest paths -/

theorem foldl_stable {σ α : Type} (g : σ → α → σ) (P : σ → Prop)
    (h : ∀ st a, P st → P (g st a)) (l : List α) : ∀ st, P st → P (l.foldl g st) := by
  induction l with
  | nil => intro st hst; exact hst
  | cons a l ih => intro st hst; exact ih _ (h st a hst)

/-- A fold that keeps `J` and settles `D a` at the step for `a`, where what is
settled stays settled, ends with `J` and every `D a`. -/
theorem foldl_progress {σ α : Type} (g : σ → α → σ) (J : σ → Prop) (D : α → σ → Prop)
    (hstab : ∀ st a b, D a st → D a (g st b)) (l : List α)
    (hJ : ∀ st a, a ∈ l → J st → J (g st a) ∧ D a (g st a)) :
    ∀ st, J st → J (l.foldl g st) ∧ ∀ a ∈ l, D a (l.foldl g st) := by
  induction l with
  | nil => intro st hst; exact ⟨hst, fun a ha => absurd ha (List.not_mem_nil a)⟩
  | cons b l ih =>
    intro st hst
    obtain ⟨h1, h2⟩ := hJ st b (List.mem_cons_self _ _) hst
    obtain ⟨h3, h4⟩ := ih (fun st a ha => hJ st a (List.mem_cons_of_mem _ ha)) (g st b) h1
    refine ⟨h3, ?_⟩
    intro a ha
    rcases List.mem_cons.mp ha with rfl | ha
    · exact foldl_stable g (D a) (fun st c hd => hstab st a c hd) l _ h2
    · exact h4 a ha

theorem lookup_cons_ne {β : Type} (key k : Nat) (v : β) (l : List (Nat × β))
    (h : key ≠ k) : List.lookup key ((k, v) :: l) = List.lookup key l := by
  rw [List.lookup_cons]
  have : (key == k) = false := by simpa using h
  rw [this]

theorem lookup_cons_eq {β : Type} (k : Nat) (v : β) (l : List (Nat × β)) :
    List.lookup k ((k, v) :: l) = some v := by
  rw [List.lookup_cons]
  simp

/-- One pass of the innermost loop of `generate_endgame_db`. -/
theorem endgame_visit_mid (moves : List Move)
    (next : (Nat × Nat × Nat) → Move → (Nat × Nat × Nat)) (Good : (Nat × Nat × Nat) → Prop)
    (hclosed : PhaseClosed moves next Good)
    (hinj : ∀ x y, Good x → Good y → TableManager.get_key x = TableManager.get_key y → x = y)
    (MAX_DEPTH d : Nat) (db0 : EndgameDB) (entry : (Nat × Nat × Nat) × List Move)
    (hentry : Good entry.1 ∧ entry.2.length = d ∧ Within3 moves next d entry.1)
    (st : EndgameDB × List ((Nat × Nat × Nat) × List Move)) (m : Move) (hm : m ∈ moves)
    (hst : EndgameMid moves next Good MAX_DEPTH d db0 st) :
    EndgameMid moves next Good MAX_DEPTH d db0
      (if (st.1.lookup (TableManager.get_key (next entry.1 m))).isNone then
        ((TableManager.get_key (next entry.1 m), (entry.2 ++ [invert_move m]).reverse) :: st.1,
         if d < MAX_DEPTH then st.2 ++ [(next entry.1 m, entry.2 ++ [invert_move m])] else st.2)
      else st) ∧
    ∃ p, (if (st.1.lookup (TableManager.get_key (next entry.1 m))).isNone then
        ((TableManager.get_key (next entry.1 m), (entry.2 ++ [invert_move m]).reverse) :: st.1,
         if d < MAX_DEPTH then st.2 ++ [(next entry.1 m, entry.2 ++ [invert_move m])] else st.2)
      else st).1.lookup (TableManager.get_key (next entry.1 m)) = some p := by
  obtain ⟨hg, hl, w, hw1, hw2, hw3⟩ := hentry
  have hg2 := (hclosed.2 entry.1 m hg hm).1
  have hwithin : Within3 moves next (d + 1) (next entry.1 m) := by
    refine ⟨w ++ [m], by simp; omega, ?_, ?_⟩
    · intro x hx
      rcases List.mem_append.mp hx with h | h
      · exact hw2 x h
      · rw [List.mem_singleton.mp h]; exact hm
    · simp only [follow, List.foldl_append, List.foldl_cons, List.foldl_nil]
      simp only [follow] at hw3
      rw [hw3]
  have hlen : (entry.2 ++ [invert_move m]).reverse.length = d + 1 := by
    simp [hl]
  cases hlook : st.1.lookup (TableManager.get_key (next entry.1 m)) with
  | some p0 =>
    simp only [Option.isNone_some, Bool.false_eq_true, if_false]
    exact ⟨hst, p0, hlook⟩
  | none =>
    simp only [Option.isNone_none, if_true]
    refine ⟨⟨?_, ?_, ?_, ?_⟩, _, lookup_cons_eq _ _ _⟩
    · intro key p hkp
      have h1 := hst.keep key p hkp
      have hne : key ≠ TableManager.get_key (next entry.1 m) := by
        intro he
        rw [he, hlook] at h1
        exact Option.noConfusion h1
      rw [lookup_cons_ne key _ _ _ hne]
      exact h1
    · intro x p hx hxp
      by_cases hk : TableManager.get_key x = TableManager.get_key (next entry.1 m)
      · right
        rw [hk, lookup_cons_eq] at hxp
        have hp : (entry.2 ++ [invert_move m]).reverse = p := Option.some.inj hxp
        have hxe : x = next entry.1 m := hinj x _ hx hg2 hk
        refine ⟨by rw [← hp]; exact hlen, by rw [hxe]; exact hwithin, ?_⟩
        intro hd
        rw [if_pos hd, hxe]
        exact ⟨_, List.mem_append_right _ (List.mem_singleton_self _)⟩
      · rw [lookup_cons_ne _ _ _ _ hk] at hxp
        rcases hst.fresh x p hx hxp with h | ⟨h1, h2, h3⟩
        · exact Or.inl h
        · right
          refine ⟨h1, h2, ?_⟩
          intro hd
          obtain ⟨path, hpath⟩ := h3 hd
          rw [if_pos hd]
          exact ⟨path, List.mem_append_left _ hpath⟩
    · intro e he
      by_cases hd : d < MAX_DEPTH
      · rw [if_pos hd] at he
        rcases List.mem_append.mp he with h | h
        · exact hst.queue e h
        · rw [List.mem_singleton.mp h]
          exact ⟨hg2, by simp [hl], hwithin⟩
      · rw [if_neg hd] at he
        exact hst.queue e he
    · intro hd
      rw [if_neg hd]
      exact hst.stop hd

theorem endgame_visit_keep (next : (Nat × Nat × Nat) → Move → (Nat × Nat × Nat))
    (MAX_DEPTH d : Nat) (entry : (Nat × Nat × Nat) × List Move)
    (st : EndgameDB × List ((Nat × Nat × Nat) × List Move)) (m : Move) (key : Nat)
    (h : ∃ p, st.1.lookup key = some p) :
    ∃ p, (if (st.1.lookup (TableManager.get_key (next entry.1 m))).isNone then
        ((TableManager.get_key (next entry.1 m), (entry.2 ++ [invert_move m]).reverse) :: st.1,
         if d < MAX_DEPTH then st.2 ++ [(next entry.1 m, entry.2 ++ [invert_move m])] else st.2)
      else st).1.lookup key = some p := by
  obtain ⟨p, hp⟩ := h
  cases hlook : st.1.lookup (TableManager.get_key (next entry.1 m)) with
  | some p0 =>
    simp only [Option.isNone_some, Bool.false_eq_true, if_false]
    exact ⟨p, hp⟩
  | none =>
    simp only [Option.isNone_none, if_true]
    have hne : key ≠ TableManager.get_key (next entry.1 m) := by
      intro he
      rw [he, hlook] at hp
      exact Option.noConfusion hp
    rw [lookup_cons_ne key _ _ _ hne]
    exact ⟨p, hp⟩

/-- The inner loop of `generate_endgame_db` for one queue entry. -/
theorem endgame_expand_mid (moves : List Move)
    (next : (Nat × Nat × Nat) → Move → (Nat × Nat × Nat)) (Good : (Nat × Nat × Nat) → Prop)
    (hclosed : PhaseClosed moves next Good)
    (hinj : ∀ x y, Good x → Good y → TableManager.get_key x = TableManager.get_key y → x = y)
    (MAX_DEPTH d : Nat) (db0 : EndgameDB) (entry : (Nat × Nat × Nat) × List Move)
    (hentry : Good entry.1 ∧ entry.2.length = d ∧ Within3 moves next d entry.1)
    (st : EndgameDB × List ((Nat × Nat × Nat) × List Move))
    (hst : EndgameMid moves next Good MAX_DEPTH d db0 st) :
    EndgameMid moves next Good MAX_DEPTH d db0
      (TableManager.endgame_expand moves next MAX_DEPTH d st entry) ∧
    ∀ m ∈ moves, ∃ p, (TableManager.endgame_expand moves next MAX_DEPTH d st entry).1.lookup
      (TableManager.get_key (next entry.1 m)) = some p := by
  unfold TableManager.endgame_expand
  exact foldl_progress _ (EndgameMid moves next Good MAX_DEPTH d db0)
    (fun m (st : EndgameDB × List ((Nat × Nat × Nat) × List Move)) =>
      ∃ p, st.1.lookup (TableManager.get_key (next entry.1 m)) = some p)
    (fun st a b h => endgame_visit_keep next MAX_DEPTH d entry st b _ h)
    moves
    (fun st a ha hJ =>
      endgame_visit_mid moves next Good hclosed hinj MAX_DEPTH d db0 entry hentry st a ha hJ)
    st hst

theorem endgame_expand_present (moves : List Move)
    (next : (Nat × Nat × Nat) → Move → (Nat × Nat × Nat))
    (MAX_DEPTH d : Nat) (entry : (Nat × Nat × Nat) × List Move)
    (st : EndgameDB × List ((Nat × Nat × Nat) × List Move)) (key : Nat)
    (h : ∃ p, st.1.lookup key = some p) :
    ∃ p, (TableManager.endgame_expand moves next MAX_DEPTH d st entry).1.lookup key = some p := by
  unfold TableManager.endgame_expand
  exact foldl_stable _
    (fun (st : EndgameDB × List ((Nat × Nat × Nat) × List Move)) =>
      ∃ p, st.1.lookup key = some p)
    (fun st b h => endgame_visit_keep next MAX_DEPTH d entry st b key h) moves st h

/-- One pass of the `while` loop of `generate_endgame_db` takes the invariant
from depth `d` to depth `d + 1`. -/
theorem endgame_pass_inv (moves : List Move)
    (next : (Nat × Nat × Nat) → Move → (Nat × Nat × Nat)) (Good : (Nat × Nat × Nat) → Prop)
    (hclosed : PhaseClosed moves next Good)
    (hinj : ∀ x y, Good x → Good y → TableManager.get_key x = TableManager.get_key y → x = y)
    (MAX_DEPTH d : Nat) (db : EndgameDB) (q : List ((Nat × Nat × Nat) × List Move))
    (hd : d ≤ MAX_DEPTH)
    (hinv : EndgameInv moves next Good MAX_DEPTH d db q) :
    EndgameInv moves next Good MAX_DEPTH (d + 1)
      (q.foldl (TableManager.endgame_expand moves next MAX_DEPTH d) (db, [])).1
      (q.foldl (TableManager.endgame_expand moves next MAX_DEPTH d) (db, [])).2 := by
  have h0 : EndgameMid moves next Good MAX_DEPTH d db (db, []) :=
    ⟨fun _ _ h => h, fun _ _ _ h => Or.inl h, fun e he => absurd he (List.not_mem_nil e),
      fun _ => rfl⟩
  obtain ⟨hmid, hdone⟩ := foldl_progress (TableManager.endgame_expand moves next MAX_DEPTH d)
    (EndgameMid moves next Good MAX_DEPTH d db)
    (fun entry (st : EndgameDB × List ((Nat × Nat × Nat) × List Move)) =>
      ∀ m ∈ moves, ∃ p, st.1.lookup (TableManager.get_key (next entry.1 m)) = some p)
    (fun st a b h m hm => endgame_expand_present moves next MAX_DEPTH d b st _ (h m hm))
    q
    (fun st a ha hJ =>
      endgame_expand_mid moves next Good hclosed hinj MAX_DEPTH d db a (hinv.queue a ha) st hJ)
    (db, []) h0
  have hentries : ∀ x p, Good x →
      (q.foldl (TableManager.endgame_expand moves next MAX_DEPTH d) (db, [])).1.lookup
        (TableManager.get_key x) = some p →
      Within3 moves next p.length x ∧ p.length ≤ d + 1 := by
    intro x p hx hxp
    rcases hmid.fresh x p hx hxp with h | ⟨h1, h2, _⟩
    · obtain ⟨a, b⟩ := hinv.entries x p hx h
      exact ⟨a, Nat.le_succ_of_le b⟩
    · rw [h1]
      exact ⟨h2, Nat.le_refl _⟩
  refine ⟨hmid.keep _ _ hinv.root, hentries, ?_, hmid.queue, ?_, ?_⟩
  · intro x p hx hxp hlt m hm
    rcases hmid.fresh x p hx hxp with h | ⟨h1, _, _⟩
    · by_cases hpd : p.length < d
      · obtain ⟨p1, hp1, hb⟩ := hinv.closed x p hx h hpd m hm
        exact ⟨p1, hmid.keep _ _ hp1, hb⟩
      · have hpe : p.length = d := by
          have := (hinv.entries x p hx h).2
          omega
        obtain ⟨path, hpath⟩ := hinv.frontier x p hx h hpe hd
        obtain ⟨p1, hp1⟩ := hdone (x, path) hpath m hm
        refine ⟨p1, hp1, ?_⟩
        have := (hentries (next x m) p1 (hclosed.2 x m hx hm).1 hp1).2
        omega
    · omega
  · intro x p hx hxp hpe hle
    rcases hmid.fresh x p hx hxp with h | ⟨_, _, h3⟩
    · have := (hinv.entries x p hx h).2
      omega
    · exact h3 (by omega)
  · intro hlt
    exact hmid.stop (by omega)

/-- The database `generate_endgame_db` returns is closed under the moves up to
the depth bound. -/
theorem endgame_loop_final (moves : List Move)
    (next : (Nat × Nat × Nat) → Move → (Nat × Nat × Nat)) (Good : (Nat × Nat × Nat) → Prop)
    (hclosed : PhaseClosed moves next Good)
    (hinj : ∀ x y, Good x → Good y → TableManager.get_key x = TableManager.get_key y → x = y)
    (MAX_DEPTH : Nat) :
    ∀ (fuel : Nat) (db : EndgameDB) (q : List ((Nat × Nat × Nat) × List Move))
      (d : Nat) (result : EndgameDB),
      EndgameInv moves next Good MAX_DEPTH d db q →
      TableManager.endgame_loop moves next MAX_DEPTH fuel db q d = Result.value result →
      EndgameFinal moves next Good MAX_DEPTH result := by
  intro fuel
  induction fuel with
  | zero =>
    intro db q d result _ h
    simp only [TableManager.endgame_loop] at h
    exact Result.noConfusion h
  | succ fuel ih =>
    intro db q d result hinv h
    simp only [TableManager.endgame_loop] at h
    split at h
    · rename_i hq
      cases h
      have hq0 : q = [] := List.isEmpty_iff.mp hq
      refine ⟨hinv.root, ?_⟩
      intro x p hx hxp hlt m hm
      have hle := (hinv.entries x p hx hxp).2
      by_cases hpd : p.length < d
      · exact hinv.closed x p hx hxp hpd m hm
      · have hpe : p.length = d := by omega
        obtain ⟨path, hpath⟩ := hinv.frontier x p hx hxp hpe (by omega)
        rw [hq0] at hpath
        exact absurd hpath (List.not_mem_nil _)
    · rename_i hq
      have hd : d ≤ MAX_DEPTH := by
        by_contra hn
        have := hinv.stop (by omega)
        rw [this] at hq
        exact hq rfl
      exact ih _ _ _ result
        (endgame_pass_inv moves next Good hclosed hinj MAX_DEPTH d db q hd hinv) h

theorem good_follow (moves : List Move)
    (next : (Nat × Nat × Nat) → Move → (Nat × Nat × Nat)) (Good : (Nat × Nat × Nat) → Prop)
    (hclosed : PhaseClosed moves next Good) (w : List Move) (hw : ∀ m ∈ w, m ∈ moves) :
    ∀ x, Good x → Good (follow next x w) := by
  induction w with
  | nil => intro x hx; exact hx
  | cons m w ih =>
    intro x hx
    exact ih (fun y hy => hw y (List.mem_cons_of_mem _ hy)) _
      (hclosed.2 x m hx (hw m (List.mem_cons_self _ _))).1

/-- In a closed database every triple within `MAX_DEPTH + 1` moves of
`(0, 0, 0)` is stored, with a path no longer than the way to it. -/
theorem endgame_final_complete (moves : List Move)
    (next : (Nat × Nat × Nat) → Move → (Nat × Nat × Nat)) (Good : (Nat × Nat × Nat) → Prop)
    (hclosed : PhaseClosed moves next Good) (MAX_DEPTH : Nat) (db : EndgameDB)
    (hfin : EndgameFinal moves next Good MAX_DEPTH db) (w : List Move) :
    (∀ m ∈ w, m ∈ moves) → w.length ≤ MAX_DEPTH + 1 →
    ∃ p, db.lookup (TableManager.get_key (follow next (0, 0, 0) w)) = some p ∧
      p.length ≤ w.length := by
  induction w using List.reverseRecOn with
  | nil => intro _ _; exact ⟨[], hfin.root, Nat.le_refl _⟩
  | append_singleton w m ih =>
    intro hw hlen
    have hw1 : ∀ x ∈ w, x ∈ moves := fun x hx => hw x (List.mem_append_left _ hx)
    have hm : m ∈ moves := hw m (List.mem_append_right _ (List.mem_singleton_self _))
    rw [List.length_append, List.length_singleton] at hlen
    obtain ⟨p, hp, hpl⟩ := ih hw1 (by omega)
    obtain ⟨p1, hp1, hb⟩ := hfin.closed _ p (good_follow moves next Good hclosed w hw1 _ hclosed.1)
      hp (by omega) m hm
    refine ⟨p1, ?_, ?_⟩
    · simp only [follow, List.foldl_append, List.foldl_cons, List.foldl_nil]
      exact hp1
    · rw [List.length_append, List.length_singleton]
      omega

theorem endgame_inv_start (moves : List Move)
    (next : (Nat × Nat × Nat) → Move → (Nat × Nat × Nat)) (Good : (Nat × Nat × Nat) → Prop)
    (hclosed : PhaseClosed moves next Good)
    (hinj : ∀ x y, Good x → Good y → TableManager.get_key x = TableManager.get_key y → x = y)
    (MAX_DEPTH : Nat) :
    EndgameInv moves next Good MAX_DEPTH 0 [(0, [])] [((0, 0, 0), [])] := by
  have hkey : ∀ x p, Good x →
      List.lookup (TableManager.get_key x) [((0 : Nat), ([] : List Move))] = some p →
      x = (0, 0, 0) ∧ p = [] := by
    intro x p hx hxp
    by_cases hk : TableManager.get_key x = 0
    · rw [hk, lookup_cons_eq] at hxp
      refine ⟨hinj x _ hx hclosed.1 (by rw [hk, get_key_zero]), (Option.some.inj hxp).symm⟩
    · rw [lookup_cons_ne _ _ _ _ hk] at hxp
      exact Option.noConfusion hxp
  refine ⟨by rw [get_key_zero]; exact lookup_cons_eq _ _ _, ?_, ?_, ?_, ?_, ?_⟩
  · intro x p hx hxp
    obtain ⟨rfl, rfl⟩ := hkey x p hx hxp
    exact ⟨⟨[], Nat.le_refl _, fun m hm => absurd hm (List.not_mem_nil m), rfl⟩, Nat.le_refl _⟩
  · intro x p _ _ hlt
    exact absurd hlt (Nat.not_lt_zero _)
  · intro e he
    rw [List.mem_singleton.mp he]
    exact ⟨hclosed.1, rfl, ⟨[], Nat.le_refl _, fun m hm => absurd hm (List.not_mem_nil m), rfl⟩⟩
  · intro x p hx hxp _ _
    obtain ⟨rfl, rfl⟩ := hkey x p hx hxp
    exact ⟨[], List.mem_singleton_self _⟩
  · intro h
    exact absurd h (Nat.not_lt_zero _)

/-- Every triple within `MAX_DEPTH + 1` moves of `(0, 0, 0)` is in the
database `generate_endgame_db` builds, with a path no longer than any way from
`(0, 0, 0)` to it. -/
theorem generate_endgame_db_complete (PHASE : Nat)
    (next : (Nat × Nat × Nat) → Move → (Nat × Nat × Nat)) (Good : (Nat × Nat × Nat) → Prop)
    (hclosed : PhaseClosed (TableManager.phase_moves PHASE) next Good)
    (hinj : ∀ x y, Good x → Good y → TableManager.get_key x = TableManager.get_key y → x = y)
    (db : EndgameDB) (h : TableManager.generate_endgame_db PHASE next = Result.value db)
    (w : List Move) (hw : ∀ m ∈ w, m ∈ TableManager.phase_moves PHASE)
    (hlen : w.length ≤ TableManager.endgame_generation_depth PHASE + 1) :
    ∃ p, db.lookup (TableManager.get_key (follow next (0, 0, 0) w)) = some p ∧
      p.length ≤ w.length :=
  endgame_final_complete _ next Good hclosed _ db
    (endgame_loop_final _ next Good hclosed hinj _ _ _ _ _ db
      (endgame_inv_start _ next Good hclosed hinj _) h) w hw hlen

theorem follow_back3 (moves : List Move)
    (next : (Nat × Nat × Nat) → Move → (Nat × Nat × Nat)) (Good : (Nat × Nat × Nat) → Prop)
    (hclosed : PhaseClosed moves next Good) (q : List Move) (hq : ∀ m ∈ q, m ∈ moves) :
    ∀ x, Good x → follow next (follow next x q) (q.reverse.map invert_move) = x := by
  induction q with
  | nil => intro x _; rfl
  | cons m q ih =>
    intro x hx
    have hm := hq m (List.mem_cons_self _ _)
    obtain ⟨hg, _, hback⟩ := hclosed.2 x m hx hm
    have h1 := ih (fun y hy => hq y (List.mem_cons_of_mem _ hy)) (next x m) hg
    simp only [follow, List.foldl_cons, List.reverse_cons, List.map_append, List.map_cons,
      List.map_nil, List.foldl_append, List.foldl_nil] at h1 ⊢
    rw [h1, hback]

/-- The Phase-2 database holds every triple within seven moves of
`(0, 0, 0)`, with a path that leads to `(0, 0, 0)` and is no longer than any
other. -/
theorem phase2_near_lookup (S : Solver) (ht : TablesGenerated S.tables_) (path : List Move)
    (hm : ∀ m ∈ path, m ∈ Phase2Coord.AVAILABLE_MOVES) (hlen : path.length ≤ 7) :
    ∃ p, S.tables_.search_endgame_db 2 (follow S.tables_.get_phase2_moves (0, 0, 0) path)
        = some p ∧
      p.length ≤ path.length ∧
      (∀ m ∈ p, m ∈ Phase2Coord.AVAILABLE_MOVES) ∧
      follow S.tables_.get_phase2_moves
        (follow S.tables_.get_phase2_moves (0, 0, 0) path) p = (0, 0, 0) ∧
      ∀ q, (∀ m ∈ q, m ∈ Phase2Coord.AVAILABLE_MOVES) →
        follow S.tables_.get_phase2_moves
          (follow S.tables_.get_phase2_moves (0, 0, 0) path) q = (0, 0, 0) →
        p.length ≤ q.length := by
  have hc := phase2_closed S.tables_ ht
  have hinj : ∀ x y, Good2 x → Good2 y → TableManager.get_key x = TableManager.get_key y →
      x = y := by
    intro x y hx hy hk
    exact get_key_injective x y (good2_bounds x hx).2.1 (good2_bounds x hx).2.2
      (good2_bounds y hy).2.1 (good2_bounds y hy).2.2 hk
  have hgx := good_follow _ _ Good2 hc path hm (0, 0, 0) hc.1
  obtain ⟨p, hp, hpl⟩ := generate_endgame_db_complete 2 S.tables_.get_phase2_moves Good2 hc hinj
    _ ht.db2 path hm hlen
  obtain ⟨x1, hg1, hk1, hmv, hfol⟩ := generate_endgame_db_sound 2 _ Good2 hc _ ht.db2 _
    (lookup_mem _ _ _ hp)
  have hx1 := hinj _ _ hg1 hgx hk1
  rw [hx1] at hfol
  refine ⟨p, ?_, hpl, hmv, hfol, ?_⟩
  · simp only [TableManager.search_endgame_db, TableManager.get_endgame_db]
    exact hp
  · intro q hq hq0
    by_cases hql : q.length ≤ 7
    · have hback := follow_back3 _ _ Good2 hc q hq _ hgx
      rw [hq0] at hback
      obtain ⟨p1, hp1, hp1l⟩ := generate_endgame_db_complete 2 S.tables_.get_phase2_moves Good2
        hc hinj _ ht.db2 (q.reverse.map invert_move)
        (by
          intro m hmm
          obtain ⟨a, ha, rfl⟩ := List.mem_map.mp hmm
          exact phase2_invert_mem a (hq a (List.mem_reverse.mp ha)))
        (by simpa using hql)
      rw [hback, hp] at hp1
      have := Option.some.inj hp1
      rw [← this] at hp1l
      simpa using hp1l
    · omega

/-- On a cube within seven Phase-2 moves of the solved cube: Phase 1 returns
the empty path, and `solve` returns a shortest sequence of Phase-2 moves that
restores the cube. -/
theorem solve_near_solved (S : Solver) (ht : TablesGenerated S.tables_)
    (hp : PruningGenerated S.tables_) (path : List Move) (k : Cube)
    (hm : ∀ m ∈ path, m ∈ Phase2Coord.AVAILABLE_MOVES) (hlen : path.length ≤ 7)
    (hk : apply_sequence Cube.solved path = some k) :
    S.ida_star 1
        (Phase1Coord.is_solved (Phase1Coord.mk k (Phase1Coord.encode_corner_orientation k)
          (Phase1Coord.encode_edge_orientation k) (Phase1Coord.encode_ud_slice_position k)))
        (Phase1Coord.encode_corner_orientation k, Phase1Coord.encode_edge_orientation k,
          Phase1Coord.encode_ud_slice_position k) 12 = Result.value (some []) ∧
    ∃ L, S.solve k = Result.value L ∧ (∀ m ∈ L, m ∈ Phase2Coord.AVAILABLE_MOVES) ∧
      apply_sequence k L = some Cube.solved ∧
      ∀ q, (∀ m ∈ q, m ∈ Phase2Coord.AVAILABLE_MOVES) →
        apply_sequence k q = some Cube.solved → L.length ≤ q.length := by
  obtain ⟨k1, ha, hg, e1, e2, e3⟩ := phase2_follow S.tables_ ht path hm Cube.solved (0, 0, 0)
    solved_inG1 solved_coordinates.2.2.2.1 solved_coordinates.2.2.2.2.1
    solved_coordinates.2.2.2.2.2
  rw [hk] at ha
  have hkk := Option.some.inj ha
  subst hkk
  obtain ⟨c1, c2, c3⟩ := inG1_coords k hg
  obtain ⟨p, hdb, hpl, hpm, hp0, hmin⟩ := phase2_near_lookup S ht path hm hlen
  have hh := (heuristic_le_path S ht hp _ p).2 hpm hp0
  have hfollowq : ∀ q, (∀ m ∈ q, m ∈ Phase2Coord.AVAILABLE_MOVES) →
      apply_sequence k q = some Cube.solved →
      follow S.tables_.get_phase2_moves
        (follow S.tables_.get_phase2_moves (0, 0, 0) path) q = (0, 0, 0) := by
    intro q hq hqs
    obtain ⟨k2, hb, _, f1, f2, f3⟩ := phase2_follow S.tables_ ht q hq k _ hg e1 e2 e3
    rw [hqs] at hb
    have hk2 := Option.some.inj hb
    rw [← hk2, solved_coordinates.2.2.2.1] at f1
    rw [← hk2, solved_coordinates.2.2.2.2.1] at f2
    rw [← hk2, solved_coordinates.2.2.2.2.2] at f3
    exact Prod.ext (Option.some.inj f1).symm
      (Prod.ext (Option.some.inj f2).symm (Option.some.inj f3).symm)
  have hsolves : ∃ k2, apply_sequence k p = some k2 ∧ k2 = Cube.solved := by
    obtain ⟨k2, hb, hg2, f1, f2, f3⟩ := phase2_follow S.tables_ ht p hpm k _ hg e1 e2 e3
    rw [hp0] at f1 f2 f3
    exact ⟨k2, hb, inG1_zero_solved k2 hg2 f1 f2 f3⟩
  generalize follow S.tables_.get_phase2_moves (0, 0, 0) path = x at *
  obtain ⟨a, b, c⟩ := x
  have h1 : Phase1Coord.of_cube k = ⟨k, 0, 0, 0⟩ := by
    simp only [Phase1Coord.of_cube, Phase1Coord.encode_from_cube, c1, c2, c3]
  have h2 : Phase2Coord.of_cube k = some ⟨k, a, b, c⟩ := by
    simp only [Phase2Coord.of_cube, Phase2Coord.encode_from_cube, e1, e2, e3]
  refine ⟨by rw [c1, c2, c3]; exact ida_star_solved S 1 _ 12, ?_⟩
  cases hs : Phase2Coord.is_solved ⟨k, a, b, c⟩ with
  | true =>
    have h0 := phase2_is_solved_zero _ _ _ _ hs
    simp only [Prod.mk.injEq] at h0
    obtain ⟨rfl, rfl, rfl⟩ := h0
    have hks := inG1_zero_solved k hg e1 e2 e3
    have := solve_eval S k ⟨k, 0, 0, 0⟩ [] k ⟨k, 0, 0, 0⟩ [] h1 (ida_star_solved S 1 _ 12) rfl h2
      (by rw [hs]; exact ida_star_solved S 2 _ _)
    refine ⟨[], this, fun m hmm => absurd hmm (List.not_mem_nil m), ?_, fun q _ _ => Nat.zero_le _⟩
    rw [hks]
    rfl
  | false =>
    have hh2 : S.heuristic 2 (a, b, c) ≤ p.length := by
      simp only [Solver.heuristic]
      rw [if_neg (by decide)]
      exact hh
    have hi2 := ida_star_db_hit S 2 (a, b, c) (max 8 (25 - 0)) p
      (le_trans hh2 (le_trans hpl (le_trans hlen (by decide))))
      (le_trans hh2 (le_trans hpl (le_trans hlen (by decide)))) hdb
    have := solve_eval S k ⟨k, 0, 0, 0⟩ [] k ⟨k, a, b, c⟩ (Move.COUNT :: p) h1
      (ida_star_solved S 1 _ 12) rfl h2 (by rw [hs]; exact hi2)
    rw [filter_count_cons, filter_real _ phase2_moves_lt p hpm] at this
    obtain ⟨k2, hb, hk2⟩ := hsolves
    refine ⟨p, this, hpm, by rw [hb, hk2], ?_⟩
    intro q hq hqs
    exact hmin q hq (hfollowq q hq hqs)

theorem six_half_turns :
    String.mk (scrambleText 0 [(Move.U3, 0), (Move.D3, 0), (Move.F3, 0), (Move.B3, 0),
      (Move.L3, 0), (Move.R3, 0)]) = "U2 D2 F2 B2 L2 R2" ∧
    apply_sequence Cube.solved [Move.U3, Move.D3, Move.F3, Move.B3, Move.L3, Move.R3,
      Move.R3, Move.L3, Move.B3, Move.F3, Move.D3, Move.U3] = some Cube.solved := by
  decide

/-- Claim C19. Near-solved cubes of G1 are solved optimally within Phase 2.
Over generated tables, for a cube obtained from the solved cube by at most
seven Phase-2 moves, the Phase-1 search returns the empty path and `solve`
returns a sequence of Phase-2 moves that restores the cube and is no longer
than any sequence of Phase-2 moves that restores it. For the scramble
`U2 D2 F2 B2 L2 R2` the sequence returned restores the cube and has at most
six moves. -/
theorem near_solved_optimal (S : Solver) (ht : TablesGenerated S.tables_)
    (hp : PruningGenerated S.tables_) :
    (∀ (path : List Move) (k : Cube),
      (∀ m ∈ path, m ∈ Phase2Coord.AVAILABLE_MOVES) → path.length ≤ 7 →
      apply_sequence Cube.solved path = some k →
      S.ida_star 1
          (Phase1Coord.is_solved (Phase1Coord.mk k (Phase1Coord.encode_corner_orientation k)
            (Phase1Coord.encode_edge_orientation k) (Phase1Coord.encode_ud_slice_position k)))
          (Phase1Coord.encode_corner_orientation k, Phase1Coord.encode_edge_orientation k,
            Phase1Coord.encode_ud_slice_position k) 12 = Result.value (some []) ∧
      ∃ L, S.solve k = Result.value L ∧ (∀ m ∈ L, m ∈ Phase2Coord.AVAILABLE_MOVES) ∧
        apply_sequence k L = some Cube.solved ∧
        ∀ q, (∀ m ∈ q, m ∈ Phase2Coord.AVAILABLE_MOVES) →
          apply_sequence k q = some Cube.solved → L.length ≤ q.length) ∧
    ∃ k L, from_scramble "U2 D2 F2 B2 L2 R2" = some k ∧ S.solve k = Result.value L ∧
      L.length ≤ 6 ∧ apply_sequence k L = some Cube.solved := by
  refine ⟨fun path k hm hlen hk => solve_near_solved S ht hp path k hm hlen hk, ?_⟩
  obtain ⟨k, hk⟩ := apply_sequence_total
    [Move.U3, Move.D3, Move.F3, Move.B3, Move.L3, Move.R3] Cube.solved (by decide) (by decide)
    (by decide)
  obtain ⟨_, L, hL, _, hrest, hmin⟩ := solve_near_solved S ht hp
    [Move.U3, Move.D3, Move.F3, Move.B3, Move.L3, Move.R3] k (by decide) (by decide) hk
  refine ⟨k, L, ?_, hL, ?_, hrest⟩
  · rw [← six_half_turns.1, from_scramble_loop, ← hk]
    exact scrambleLoop_text _ 0 Cube.solved (by decide) (by decide) (by decide)
  · have hq := apply_sequence_append Cube.solved k
      [Move.U3, Move.D3, Move.F3, Move.B3, Move.L3, Move.R3]
      [Move.R3, Move.L3, Move.B3, Move.F3, Move.D3, Move.U3] hk
    have h12 := six_half_turns.2
    have := hmin [Move.R3, Move.L3, Move.B3, Move.F3, Move.D3, Move.U3] (by decide)
      (by rw [← hq]; exact h12)
    exact this

theorem near_solved_optimal_witness :
    (∀ (path : List Move) (k : Cube),
      (∀ m ∈ path, m ∈ Phase2Coord.AVAILABLE_MOVES) → path.length ≤ 7 →
      apply_sequence Cube.solved path = some k →
      Solver.generated.ida_star 1
          (Phase1Coord.is_solved (Phase1Coord.mk k (Phase1Coord.encode_corner_orientation k)
            (Phase1Coord.encode_edge_orientation k) (Phase1Coord.encode_ud_slice_position k)))
          (Phase1Coord.encode_corner_orientation k, Phase1Coord.encode_edge_orientation k,
            Phase1Coord.encode_ud_slice_position k) 12 = Result.value (some []) ∧
      ∃ L, Solver.generated.solve k = Result.value L ∧
        (∀ m ∈ L, m ∈ Phase2Coord.AVAILABLE_MOVES) ∧
        apply_sequence k L = some Cube.solved ∧
        ∀ q, (∀ m ∈ q, m ∈ Phase2Coord.AVAILABLE_MOVES) →
          apply_sequence k q = some Cube.solved → L.length ≤ q.length) ∧
    ∃ k L, from_scramble "U2 D2 F2 B2 L2 R2" = some k ∧
      Solver.generated.solve k = Result.value L ∧
      L.length ≤ 6 ∧ apply_sequence k L = some Cube.solved :=
  near_solved_optimal Solver.generated generated_tables_ok generated_pruning_ok

/-! ### The pair filter of the search -/

/-- Claim C34. The pair filter: `is_valid_move current last` is false exactly
when `last` is not the sentinel `Move::COUNT` and `current` is on the face of
`last`; with the sentinel as `last` every move is accepted. -/
theorem pair_filter :
    (∀ current last : Move, Solver.is_valid_move current last = false ↔
      (last ≠ Move.COUNT ∧ get_face current = get_face last)) ∧
    ∀ current : Move, Solver.is_valid_move current Move.COUNT = true := by
  constructor
  · intro current last
    unfold Solver.is_valid_move
    by_cases h1 : last = Move.COUNT
    · simp [h1]
    · by_cases h2 : get_face current = get_face last
      · simp [h1, h2]
      · simp [h1, h2]
  · intro current
    simp [Solver.is_valid_move]

/-! ### The amounts of a face -/

theorem corner_effect_square : ∀ f < 6, ∀ t < 8,
    srcC (3 * f) (srcC (3 * f) t) = srcC (3 * f + 2) t ∧ srcC (3 * f) t < 8 ∧
    (deltaC (3 * f) (srcC (3 * f) t) + deltaC (3 * f) t) % 3 = deltaC (3 * f + 2) t % 3 := by
  decide

theorem corner_effect_cube : ∀ f < 6, ∀ t < 8,
    srcC (3 * f) (srcC (3 * f + 2) t) = srcC (3 * f + 1) t ∧ srcC (3 * f + 2) t < 8 ∧
    (deltaC (3 * f) (srcC (3 * f + 2) t) + deltaC (3 * f + 2) t) % 3
      = deltaC (3 * f + 1) t % 3 := by
  decide

theorem edge_effect_square : ∀ f < 6, ∀ t < 12,
    srcE (3 * f) (srcE (3 * f) t) = srcE (3 * f + 2) t ∧ srcE (3 * f) t < 12 ∧
    (deltaE (3 * f) (srcE (3 * f) t) + deltaE (3 * f) t) % 2 = deltaE (3 * f + 2) t % 2 := by
  decide

theorem edge_effect_cube : ∀ f < 6, ∀ t < 12,
    srcE (3 * f) (srcE (3 * f + 2) t) = srcE (3 * f + 1) t ∧ srcE (3 * f + 2) t < 12 ∧
    (deltaE (3 * f) (srcE (3 * f + 2) t) + deltaE (3 * f + 2) t) % 2
      = deltaE (3 * f + 1) t % 2 := by
  decide

/-- Two moves one after the other act on the corners as a third move whose
effect is the composition of theirs. -/
theorem moveCorners_comp (m1 m2 m3 : Move) (cs : List Corner) (hc : cs.length = 8)
    (ho : ∀ c ∈ cs, c.orientation < 3)
    (h : ∀ t < 8, srcC m1 (srcC m2 t) = srcC m3 t ∧ srcC m2 t < 8 ∧
      (deltaC m1 (srcC m2 t) + deltaC m2 t) % 3 = deltaC m3 t % 3) :
    moveCorners m2 (moveCorners m1 cs) = moveCorners m3 cs := by
  rw [moveCorners_inRange m2 _ (moveCorners_length m1 cs) (moveCorners_ori_lt m1 cs hc ho),
    moveCorners_inRange m1 cs hc ho, moveCorners_inRange m3 cs hc ho]
  apply List.map_congr_left
  intro t ht
  have ht8 : t < 8 := List.mem_range.mp ht
  obtain ⟨h1, h2, h3⟩ := h t ht8
  rw [getD_map_range _ _ _ _ h2]
  simp only [h1, Corner.mk.injEq, true_and]
  omega

/-- Two moves one after the other act on the edges as a third move whose
effect is the composition of theirs. -/
theorem moveEdges_comp (m1 m2 m3 : Move) (es : List Edge) (he : es.length = 12)
    (ho : ∀ e ∈ es, e.orientation < 2)
    (h : ∀ t < 12, srcE m1 (srcE m2 t) = srcE m3 t ∧ srcE m2 t < 12 ∧
      (deltaE m1 (srcE m2 t) + deltaE m2 t) % 2 = deltaE m3 t % 2) :
    moveEdges m2 (moveEdges m1 es) = moveEdges m3 es := by
  rw [moveEdges_inRange m2 _ (moveEdges_length m1 es) (moveEdges_ori_lt m1 es he ho),
    moveEdges_inRange m1 es he ho, moveEdges_inRange m3 es he ho]
  apply List.map_congr_left
  intro t ht
  have ht12 : t < 12 := List.mem_range.mp ht
  obtain ⟨h1, h2, h3⟩ := h t ht12
  rw [getD_map_range _ _ _ _ h2]
  simp only [h1, Edge.mk.injEq, true_and]
  omega

theorem face_moves : ∀ f < 6, 3 * f < 18 ∧ 3 * f + 1 < 18 ∧ 3 * f + 2 < 18 ∧
    invert_move (3 * f + 2) = 3 * f + 2 ∧
    move_to_string (3 * f) ∈ ["U", "D", "F", "B", "L", "R"] ∧
    move_to_string (3 * f + 1) = move_to_string (3 * f) ++ "'" ∧
    move_to_string (3 * f + 2) = move_to_string (3 * f) ++ "2" := by decide

/-- Claim C38. The three amounts of a face are powers of its quarter turn.
For each face, with `X` the move `3 * f`, `X'` the move `3 * f + 1` and `X2`
the move `3 * f + 2`, and every cube of eight corners and twelve edges with
orientations in range: `X` applied twice gives what `X2` gives, `X` followed
by `X2` gives what `X'` gives, and `X` applied four times gives the cube
back. -/
theorem face_powers (k : Cube) (f : Nat) (hf : f < 6)
    (hc : k.corners.length = 8) (he : k.edges.length = 12)
    (hco : ∀ c ∈ k.corners, c.orientation < 3) (heo : ∀ e ∈ k.edges, e.orientation < 2) :
    (move_to_string (3 * f) ∈ ["U", "D", "F", "B", "L", "R"] ∧
      move_to_string (3 * f + 1) = move_to_string (3 * f) ++ "'" ∧
      move_to_string (3 * f + 2) = move_to_string (3 * f) ++ "2") ∧
    (∃ k2, apply_sequence k [3 * f, 3 * f] = some k2 ∧ apply_move k (3 * f + 2) = some k2) ∧
    (∃ k3, apply_sequence k [3 * f, 3 * f + 2] = some k3 ∧
      apply_move k (3 * f + 1) = some k3) ∧
    apply_sequence k [3 * f, 3 * f, 3 * f, 3 * f] = some k := by
  obtain ⟨h0, h1, h2, hinv, hs0, hs1, hs2⟩ := face_moves f hf
  have hco1 := moveCorners_ori_lt (3 * f) k.corners hc hco
  have heo1 := moveEdges_ori_lt (3 * f) k.edges he heo
  have hcc := moveCorners_comp (3 * f) (3 * f) (3 * f + 2) k.corners hc hco
    (corner_effect_square f hf)
  have hee := moveEdges_comp (3 * f) (3 * f) (3 * f + 2) k.edges he heo
    (edge_effect_square f hf)
  have hcc3 := moveCorners_comp (3 * f) (3 * f + 2) (3 * f + 1) k.corners hc hco
    (corner_effect_cube f hf)
  have hee3 := moveEdges_comp (3 * f) (3 * f + 2) (3 * f + 1) k.edges he heo
    (edge_effect_cube f hf)
  refine ⟨⟨hs0, hs1, hs2⟩, ⟨_, ?_, apply_move_eq k _ h2 hc he⟩,
    ⟨_, ?_, apply_move_eq k _ h1 hc he⟩, ?_⟩
  · rw [apply_sequence_cons k _ _ h0 hc he,
      apply_sequence_cons _ _ _ h0 (moveCorners_length _ _) (moveEdges_length _ _)]
    simp only [hcc, hee]
    rfl
  · rw [apply_sequence_cons k _ _ h0 hc he,
      apply_sequence_cons _ _ _ h2 (moveCorners_length _ _) (moveEdges_length _ _)]
    simp only [hcc3, hee3]
    rfl
  · rw [apply_sequence_cons k _ _ h0 hc he,
      apply_sequence_cons _ _ _ h0 (moveCorners_length _ _) (moveEdges_length _ _)]
    simp only [hcc, hee]
    have hco2 := moveCorners_ori_lt (3 * f + 2) k.corners hc hco
    have heo2 := moveEdges_ori_lt (3 * f + 2) k.edges he heo
    have hcc4 := moveCorners_comp (3 * f) (3 * f) (3 * f + 2) (moveCorners (3 * f + 2) k.corners)
      (moveCorners_length _ _) hco2 (corner_effect_square f hf)
    have hee4 := moveEdges_comp (3 * f) (3 * f) (3 * f + 2) (moveEdges (3 * f + 2) k.edges)
      (moveEdges_length _ _) heo2 (edge_effect_square f hf)
    rw [apply_sequence_cons _ _ _ h0 (moveCorners_length _ _) (moveEdges_length _ _),
      apply_sequence_cons _ _ _ h0 (moveCorners_length _ _) (moveEdges_length _ _)]
    simp only [hcc4, hee4]
    have i1 := moveCorners_inv (3 * f + 2) h2 k.corners hc hco
    have i2 := moveEdges_inv (3 * f + 2) h2 k.edges he heo
    rw [hinv] at i1 i2
    rw [i1, i2]
    rfl

theorem face_powers_witness :
    (move_to_string (3 * 2) ∈ ["U", "D", "F", "B", "L", "R"] ∧
      move_to_string (3 * 2 + 1) = move_to_string (3 * 2) ++ "'" ∧
      move_to_string (3 * 2 + 2) = move_to_string (3 * 2) ++ "2") ∧
    (∃ k2, apply_sequence Cube.solved [3 * 2, 3 * 2] = some k2 ∧
      apply_move Cube.solved (3 * 2 + 2) = some k2) ∧
    (∃ k3, apply_sequence Cube.solved [3 * 2, 3 * 2 + 2] = some k3 ∧
      apply_move Cube.solved (3 * 2 + 1) = some k3) ∧
    apply_sequence Cube.solved [3 * 2, 3 * 2, 3 * 2, 3 * 2] = some Cube.solved :=
  face_powers Cube.solved 2 (by decide) (by decide) (by decide) (by decide) (by decide)

/-! ### The two rankings -/

theorem sliceIndicator_count (es : List Edge) :
    (sliceIndicator es).count true
      = es.countP (fun e => decide (e.piece ≥ 8 ∧ e.piece ≤ 11)) := by
  unfold sliceIndicator
  rw [List.count, List.countP_map]
  apply List.countP_congr
  intro e _
  simp [isSlicePiece]

theorem sliceIndicator_ext (es1 es2 : List Edge) (h1 : es1.length = 12) (h2 : es2.length = 12) :
    sliceIndicator es1 = sliceIndicator es2 ↔
      ∀ i, i < 12 → (((es1.getD i default).piece ≥ 8 ∧ (es1.getD i default).piece ≤ 11) ↔
        ((es2.getD i default).piece ≥ 8 ∧ (es2.getD i default).piece ≤ 11)) := by
  constructor
  · intro h i _
    have e1 := sliceIndicator_getD es1 i
    have e2 := sliceIndicator_getD es2 i
    rw [h] at e1
    rw [e1] at e2
    simp only [isSlicePiece, decide_eq_decide] at e2
    exact e2
  · intro h
    rw [← map_getD_range (sliceIndicator es1) false 12 (by simp [sliceIndicator, h1]),
      ← map_getD_range (sliceIndicator es2) false 12 (by simp [sliceIndicator, h2])]
    apply List.map_congr_left
    intro i hi
    rw [sliceIndicator_getD, sliceIndicator_getD]
    simp only [isSlicePiece, decide_eq_decide]
    exact h i (List.mem_range.mp hi)

/-- On edge arrays with four slice pieces the UD-slice rank and the slot
indicator determine each other. -/
theorem uds_rank_indicator (k : Cube) (he : k.edges.length = 12)
    (h4 : (sliceIndicator k.edges).count true = 4) :
    Phase1Coord.encode_ud_slice_position k < 495 ∧
    (udsDecodeInd C_nk (Phase1Coord.encode_ud_slice_position k)).2.1 = sliceIndicator k.edges := by
  have hlen : (sliceIndicator k.edges).length = 12 := by simp [sliceIndicator, he]
  rw [encode_ud_slice_position_ind, C_nk_eq]
  obtain ⟨b0, b1, b2, b3, b4, b5, b6, b7, b8, b9, b10, b11, hb⟩ := list_length_twelve _ hlen
  rw [hb] at h4 ⊢
  exact uds_ind_inverse b0 b1 b2 b3 b4 b5 b6 b7 b8 b9 b10 b11 h4

theorem last_four_force : ∀ b0 b1 b2 b3 b4 b5 b6 b7 : Bool,
    [b0, b1, b2, b3, b4, b5, b6, b7, true, true, true, true].count true = 4 →
    [b0, b1, b2, b3, b4, b5, b6, b7, true, true, true, true] = g1Indicator := by
  decide

/-- Claim C39. The UD-slice coordinate is a bijection on slot sets: for an
array of twelve edges with exactly four pieces of id 8..11,
`encode_ud_slice_position` gives a value below 495, which is 0 when the four
pieces are in slots 8..11; two such arrays get the same value if and only if
the same slots hold a piece of id 8..11. -/
theorem uds_slot_sets (k1 k2 : Cube) (h1 : k1.edges.length = 12) (h2 : k2.edges.length = 12)
    (c1 : k1.edges.countP (fun e => decide (e.piece ≥ 8 ∧ e.piece ≤ 11)) = 4)
    (c2 : k2.edges.countP (fun e => decide (e.piece ≥ 8 ∧ e.piece ≤ 11)) = 4) :
    Phase1Coord.encode_ud_slice_position k1 < 495 ∧
    ((∀ i, 8 ≤ i → i < 12 →
        (k1.edges.getD i default).piece ≥ 8 ∧ (k1.edges.getD i default).piece ≤ 11) →
      Phase1Coord.encode_ud_slice_position k1 = 0) ∧
    (Phase1Coord.encode_ud_slice_position k1 = Phase1Coord.encode_ud_slice_position k2 ↔
      ∀ i, i < 12 →
        (((k1.edges.getD i default).piece ≥ 8 ∧ (k1.edges.getD i default).piece ≤ 11) ↔
         ((k2.edges.getD i default).piece ≥ 8 ∧ (k2.edges.getD i default).piece ≤ 11))) := by
  rw [← sliceIndicator_count] at c1 c2
  obtain ⟨b1, d1⟩ := uds_rank_indicator k1 h1 c1
  obtain ⟨_, d2⟩ := uds_rank_indicator k2 h2 c2
  refine ⟨b1, ?_, ?_⟩
  · intro hs
    have hlen : (sliceIndicator k1.edges).length = 12 := by simp [sliceIndicator, h1]
    have g8 := sliceIndicator_getD k1.edges 8
    have g9 := sliceIndicator_getD k1.edges 9
    have g10 := sliceIndicator_getD k1.edges 10
    have g11 := sliceIndicator_getD k1.edges 11
    have s8 : isSlicePiece (k1.edges.getD 8 default).piece = true := by
      simpa [isSlicePiece] using hs 8 (by decide) (by decide)
    have s9 : isSlicePiece (k1.edges.getD 9 default).piece = true := by
      simpa [isSlicePiece] using hs 9 (by decide) (by decide)
    have s10 : isSlicePiece (k1.edges.getD 10 default).piece = true := by
      simpa [isSlicePiece] using hs 10 (by decide) (by decide)
    have s11 : isSlicePiece (k1.edges.getD 11 default).piece = true := by
      simpa [isSlicePiece] using hs 11 (by decide) (by decide)
    rw [s8] at g8
    rw [s9] at g9
    rw [s10] at g10
    rw [s11] at g11
    rw [encode_ud_slice_position_ind, C_nk_eq]
    obtain ⟨a0, a1, a2, a3, a4, a5, a6, a7, a8, a9, a10, a11, hb⟩ := list_length_twelve _ hlen
    rw [hb] at c1 g8 g9 g10 g11 ⊢
    simp only [List.getD_cons_zero, List.getD_cons_succ] at g8 g9 g10 g11
    rw [g8, g9, g10, g11] at c1 ⊢
    rw [last_four_force _ _ _ _ _ _ _ _ c1]
    exact udsEncodeInd_g1
  · rw [← sliceIndicator_ext k1.edges k2.edges h1 h2]
    constructor
    · intro h
      rw [← d1, ← d2, h]
    · intro h
      rw [encode_ud_slice_position_ind, encode_ud_slice_position_ind, h]

theorem uds_slot_sets_witness :
    Phase1Coord.encode_ud_slice_position Cube.solved < 495 ∧
    ((∀ i, 8 ≤ i → i < 12 →
        (Cube.solved.edges.getD i default).piece ≥ 8 ∧
        (Cube.solved.edges.getD i default).piece ≤ 11) →
      Phase1Coord.encode_ud_slice_position Cube.solved = 0) ∧
    (Phase1Coord.encode_ud_slice_position Cube.solved
        = Phase1Coord.encode_ud_slice_position (turnedCube Move.F1) ↔
      ∀ i, i < 12 →
        (((Cube.solved.edges.getD i default).piece ≥ 8 ∧
          (Cube.solved.edges.getD i default).piece ≤ 11) ↔
         (((turnedCube Move.F1).edges.getD i default).piece ≥ 8 ∧
          ((turnedCube Move.F1).edges.getD i default).piece ≤ 11))) :=
  uds_slot_sets Cube.solved (turnedCube Move.F1) (by decide) (by decide) (by decide) (by decide)

theorem identity_ranks :
    Phase2Coord.encode_perm [0, 1, 2, 3, 4, 5, 6, 7] = some 0 ∧
    Phase2Coord.encode_perm [8, 9, 10, 11] = some 0 := by decide

/-- Claim C40. The Lehmer encoding is injective with decode as its inverse
on both spans (eight pieces over 0..7 with 40320 ranks, four pieces over
8..11 with 24 ranks): `encode_perm` of an arrangement `p` of the alphabet
returns a rank below `n!`, `decode_perm` of that rank writes the piece ids of
`p` whatever the span held before, two arrangements with the same rank are
equal, and the arrangement in ascending order has rank 0. -/
theorem lehmer_injective (n fact : Nat) (hs : (n = 8 ∧ fact = 40320) ∨ (n = 4 ∧ fact = 24))
    (p q : List Nat)
    (hp : p.Perm (Phase2Coord.initial_available_pieces n))
    (hq : q.Perm (Phase2Coord.initial_available_pieces n)) :
    (∃ r, r < fact ∧ Phase2Coord.encode_perm p = some r ∧
      ∀ perm0 : List Nat, perm0.length = n → Phase2Coord.decode_perm perm0 r = some p) ∧
    (Phase2Coord.encode_perm p = Phase2Coord.encode_perm q → p = q) ∧
    Phase2Coord.encode_perm (Phase2Coord.initial_available_pieces n) = some 0 := by
  have hspan : LehmerSpan n fact := by
    rcases hs with ⟨rfl, rfl⟩ | ⟨rfl, rfl⟩
    · exact lehmerSpan_eight
    · exact lehmerSpan_four
  obtain ⟨r, hr, he, hd⟩ := encode_perm_of_perm n fact hspan p hp
  obtain ⟨r2, _, he2, hd2⟩ := encode_perm_of_perm n fact hspan q hq
  refine ⟨⟨r, hr, he, hd⟩, ?_, ?_⟩
  · intro h
    rw [he, he2] at h
    have hrr := Option.some.inj h
    have a := hd (List.replicate n 0) (List.length_replicate _ _)
    have b := hd2 (List.replicate n 0) (List.length_replicate _ _)
    rw [hrr, b] at a
    exact (Option.some.inj a).symm
  · rcases hs with ⟨rfl, _⟩ | ⟨rfl, _⟩
    · exact identity_ranks.1
    · exact identity_ranks.2

theorem lehmer_injective_witness :
    (∃ r, r < 24 ∧ Phase2Coord.encode_perm [9, 8, 11, 10] = some r ∧
      ∀ perm0 : List Nat, perm0.length = 4 →
        Phase2Coord.decode_perm perm0 r = some [9, 8, 11, 10]) ∧
    (Phase2Coord.encode_perm [9, 8, 11, 10] = Phase2Coord.encode_perm [8, 9, 10, 11] →
      [9, 8, 11, 10] = [8, 9, 10, 11]) ∧
    Phase2Coord.encode_perm (Phase2Coord.initial_available_pieces 4) = some 0 :=
  lehmer_injective 4 24 (Or.inr ⟨rfl, rfl⟩) [9, 8, 11, 10] [8, 9, 10, 11] (by decide) (by decide)

/-! ### U and D turns on the UD-slice table -/

theorem uds_entry_values :
    uds_move_entry 1 Move.D1 = 5 ∧
    ∀ m ∈ [Move.U1, Move.U2, Move.U3, Move.D1, Move.D2, Move.D3],
      m ∈ Phase1Coord.AVAILABLE_MOVES ∧ uds_move_entry 0 m = 0 := by decide

/-- Claim C33, amended. On the generated UD-slice table, for every coordinate
`c` in 0..494 and every move `m` among U, U', U2, D, D', D2: the entry
`uds_move_table[c][m]` is again in 0..494, and it equals `c` exactly when the
move maps the slots marked by the decoding of `c` to themselves; for `c = 0`
(the slice pieces in the slice slots) it does, so `uds_move_table[0][m] = 0`. -/
theorem ud_turns_on_uds :
    ∃ T, TableManager.generate_uds_move_table = some T ∧
      (∀ c, c < 495 → ∀ m ∈ [Move.U1, Move.U2, Move.U3, Move.D1, Move.D2, Move.D3],
        T.entry c m < 495 ∧
        (T.entry c m = c ↔
          moveInd m (udsDecodeInd C_nk c).2.1 = (udsDecodeInd C_nk c).2.1)) ∧
      ∀ m ∈ [Move.U1, Move.U2, Move.U3, Move.D1, Move.D2, Move.D3], T.entry 0 m = 0 := by
  obtain ⟨T, hT, _, _, he⟩ := uds_move_table_spec
  have hcoded := uds_coded T hT
  refine ⟨T, hT, ?_, ?_⟩
  · intro c hc m hm
    have hm1 := (uds_entry_values.2 m hm).1
    have hv := hcoded.dec_valid c hc
    have hv2 := hcoded.act_valid _ m hv hm1
    have hent := hcoded.entry c m hc hm1
    have h1 := hcoded.dec_enc _ hv2
    rw [hent]
    refine ⟨h1.1, ?_⟩
    constructor
    · intro h
      have := h1.2
      rw [h] at this
      exact this.symm
    · intro h
      rw [h]
      exact hcoded.enc_dec c hc
  · intro m hm
    rw [he 0 m, if_pos ⟨by decide, phase1_moves_lt m (uds_entry_values.2 m hm).1⟩]
    exact (uds_entry_values.2 m hm).2

/-- The entry of the generated UD-slice table at coordinate 1 and move D is 5:
the D turn does not keep this coordinate. -/
theorem ud_turns_on_uds_counterexample :
    ∃ T, TableManager.generate_uds_move_table = some T ∧ T.entry 1 Move.D1 = 5 ∧
      T.entry 1 Move.D1 ≠ 1 := by
  obtain ⟨T, hT, _, _, he⟩ := uds_move_table_spec
  have h : T.entry 1 Move.D1 = 5 := by
    rw [he 1 Move.D1, if_pos ⟨by decide, by decide⟩]
    exact uds_entry_values.1
  exact ⟨T, hT, h, by rw [h]; decide⟩

/-! ### The database query and the strengthened heuristic -/

/-- Claim C36, amended. With `USE_ENHANCED_HEURISTIC` on, a popped node with
`h <= ENDGAME_DB_MAX_DEPTH` is first looked up in the endgame database. When
the database holds its triple the pass returns the path to the node followed
by the stored path, whatever `depth + ENDGAME_DB_MAX_DEPTH` is, so a pass that
goes on has missed. After a miss, when
`depth + ENDGAME_DB_MAX_DEPTH > max_depth` the node is dropped, nothing being
pushed; otherwise its `h` is raised to `ENDGAME_DB_MAX_DEPTH + 1` and the pass
goes on with the test for `(0, 0, 0)` and the expansion of the node with that
`h`. -/
theorem enhanced_prune_after_query (S : Solver) (PHASE : Nat) (MOVES : List Move)
    (max_depth : Nat) (current : SearchState) (stack : List SearchState) (path : List Move)
    (he : S.enhanced = true) (hh : current.h ≤ Solver.ENDGAME_DB_MAX_DEPTH PHASE) :
    (∀ p, S.tables_.search_endgame_db PHASE (current.x1, current.x2, current.x3) = some p →
      S.search_step PHASE MOVES max_depth current stack path
        = Solver.SearchStep.found
            ((path.set current.depth current.last_move).take (current.depth + 1) ++ p)) ∧
    (∀ st q, S.search_step PHASE MOVES max_depth current stack path
        = Solver.SearchStep.continue st q →
      S.tables_.search_endgame_db PHASE (current.x1, current.x2, current.x3) = none) ∧
    (S.tables_.search_endgame_db PHASE (current.x1, current.x2, current.x3) = none →
      current.depth + Solver.ENDGAME_DB_MAX_DEPTH PHASE > max_depth →
      S.search_step PHASE MOVES max_depth current stack path
        = Solver.SearchStep.continue stack (path.set current.depth current.last_move)) ∧
    (S.tables_.search_endgame_db PHASE (current.x1, current.x2, current.x3) = none →
      ¬ current.depth + Solver.ENDGAME_DB_MAX_DEPTH PHASE > max_depth →
      S.search_step PHASE MOVES max_depth current stack path
        = if current.x1 = 0 ∧ current.x2 = 0 ∧ current.x3 = 0 then
            Solver.SearchStep.found
              ((path.set current.depth current.last_move).take (current.depth + 1))
          else
            Solver.SearchStep.continue
              (S.sort (S.scored_moves PHASE MOVES max_depth
                { current with h := Solver.ENDGAME_DB_MAX_DEPTH PHASE + 1 }) ++ stack)
              (path.set current.depth current.last_move)) := by
  refine ⟨?_, ?_, ?_, ?_⟩
  · intro p hp
    simp only [Solver.search_step, if_pos hh, hp]
  · intro st q hstep
    cases hdb : S.tables_.search_endgame_db PHASE (current.x1, current.x2, current.x3) with
    | none => rfl
    | some p =>
      simp only [Solver.search_step, if_pos hh, hdb] at hstep
      cases hstep
  · intro hp hd
    simp only [Solver.search_step, if_pos hh, hp, he, if_true, if_pos hd]
  · intro hp hd
    simp only [Solver.search_step, if_pos hh, hp, he, if_true, if_neg hd]

theorem generated_enhanced_tables : TablesGenerated Solver.generatedEnhanced.tables_ :=
  generated_tables_ok

theorem generated_enhanced_pruning : PruningGenerated Solver.generatedEnhanced.tables_ :=
  generated_pruning_ok

/-- The first database query of Phase 2 on the triple after `U`, over
generated tables. -/
theorem first_query (S : Solver) (ht : TablesGenerated S.tables_)
    (hp : PruningGenerated S.tables_) :
    S.heuristic 2 (15120, 15120, 0) ≤ 1 ∧
    S.tables_.search_endgame_db 2 (15120, 15120, 0) = some [Move.U2] := by
  have hx := phase2_first_triple S.tables_ ht
  have hcl := (phase2_closed S.tables_ ht).2 (0, 0, 0) Move.U1 (phase2_closed S.tables_ ht).1
    (by decide)
  rw [hx] at hcl
  have hh := (heuristic_le_path S ht hp (15120, 15120, 0) [invert_move Move.U1]).2
    (fun x hx => by rw [List.mem_singleton.mp hx]; exact hcl.2.1) hcl.2.2
  have hlook := endgame_first_move 2 S.tables_.get_phase2_moves Move.U1
    [Move.U2, Move.U3, Move.D1, Move.D2, Move.D3, Move.L3, Move.R3, Move.F3, Move.B3] rfl
    (by rw [hx]; decide) _ ht.db2
  rw [hx] at hlook
  constructor
  · simp only [Solver.heuristic]
    rw [if_neg (by decide)]
    exact hh
  · simp only [TableManager.search_endgame_db, TableManager.get_endgame_db]
    exact hlook

theorem enhanced_first_pass (S : Solver) (h1 : S.heuristic 2 (15120, 15120, 0) ≤ 1)
    (hdb : S.tables_.search_endgame_db 2 (15120, 15120, 0) = some [Move.U2])
    (stack : List SearchState) (path : List Move) (fuel : Nat) :
    S.search_iterative 2 (TableManager.phase_moves 2) (S.heuristic 2 (15120, 15120, 0))
      (fuel + 1)
      ({ x1 := 15120, x2 := 15120, x3 := 0, last_move := Move.COUNT, depth := 0,
         h := S.heuristic 2 (15120, 15120, 0) } :: stack) (Move.U1 :: path)
      = Result.value (some [Move.COUNT, Move.U2]) := by
  have hv : S.heuristic 2 (15120, 15120, 0) ≤ Solver.ENDGAME_DB_MAX_DEPTH 2 :=
    le_trans h1 (by decide)
  simp only [Solver.search_iterative, Solver.search_step, if_pos hv, hdb, List.set_cons_zero,
    List.take_succ_cons, List.take_zero, List.singleton_append, zero_add]

/-- In the build with `USE_ENHANCED_HEURISTIC`, Phase 2 on the cube after `U`:
the start node has `h` at most 1 and depth 0, so `h <= 7` and
`depth + 7 > max_depth` in the first pass, and the search returns the database
path `U'` through this node. -/
theorem enhanced_prune_after_query_counterexample :
    Solver.generatedEnhanced.enhanced = true ∧
    Solver.generatedEnhanced.heuristic 2 (15120, 15120, 0) ≤ Solver.ENDGAME_DB_MAX_DEPTH 2 ∧
    0 + Solver.ENDGAME_DB_MAX_DEPTH 2 > Solver.generatedEnhanced.heuristic 2 (15120, 15120, 0) ∧
    Solver.generatedEnhanced.search_iterative 2 (TableManager.phase_moves 2)
      (Solver.generatedEnhanced.heuristic 2 (15120, 15120, 0)) 1
      [{ x1 := 15120, x2 := 15120, x3 := 0, last_move := Move.COUNT, depth := 0,
         h := Solver.generatedEnhanced.heuristic 2 (15120, 15120, 0) }]
      (List.replicate 9 Move.U1) = Result.value (some [Move.COUNT, Move.U2]) ∧
    Solver.generatedEnhanced.ida_star 2 false (15120, 15120, 0) 8
      = Result.value (some [Move.COUNT, Move.U2]) := by
  obtain ⟨h1, hdb⟩ := first_query Solver.generatedEnhanced generated_enhanced_tables
    generated_enhanced_pruning
  refine ⟨rfl, le_trans h1 (by decide), ?_, ?_, ?_⟩
  · exact Nat.lt_of_le_of_lt h1 (by decide)
  · exact enhanced_first_pass Solver.generatedEnhanced h1 hdb [] (List.replicate 8 Move.U1) 0
  · exact ida_star_db_hit Solver.generatedEnhanced 2 (15120, 15120, 0) 8 [Move.U2]
      (le_trans h1 (by decide)) (le_trans h1 (by decide)) hdb

theorem enhanced_prune_after_query_witness :
    (∀ p, Solver.generatedEnhanced.tables_.search_endgame_db 2 (15120, 15120, 0) = some p →
      Solver.generatedEnhanced.search_step 2 (TableManager.phase_moves 2) 1
        { x1 := 15120, x2 := 15120, x3 := 0, last_move := Move.COUNT, depth := 0, h := 1 }
        [] [Move.U1, Move.U1]
        = Solver.SearchStep.found
            (([Move.U1, Move.U1].set 0 Move.COUNT).take (0 + 1) ++ p)) ∧
    (∀ st q, Solver.generatedEnhanced.search_step 2 (TableManager.phase_moves 2) 1
        { x1 := 15120, x2 := 15120, x3 := 0, last_move := Move.COUNT, depth := 0, h := 1 }
        [] [Move.U1, Move.U1]
        = Solver.SearchStep.continue st q →
      Solver.generatedEnhanced.tables_.search_endgame_db 2 (15120, 15120, 0) = none) ∧
    (Solver.generatedEnhanced.tables_.search_endgame_db 2 (15120, 15120, 0) = none →
      0 + Solver.ENDGAME_DB_MAX_DEPTH 2 > 1 →
      Solver.generatedEnhanced.search_step 2 (TableManager.phase_moves 2) 1
        { x1 := 15120, x2 := 15120, x3 := 0, last_move := Move.COUNT, depth := 0, h := 1 }
        [] [Move.U1, Move.U1]
        = Solver.SearchStep.continue [] ([Move.U1, Move.U1].set 0 Move.COUNT)) ∧
    (Solver.generatedEnhanced.tables_.search_endgame_db 2 (15120, 15120, 0) = none →
      ¬ 0 + Solver.ENDGAME_DB_MAX_DEPTH 2 > 1 →
      Solver.generatedEnhanced.search_step 2 (TableManager.phase_moves 2) 1
        { x1 := 15120, x2 := 15120, x3 := 0, last_move := Move.COUNT, depth := 0, h := 1 }
        [] [Move.U1, Move.U1]
        = if (15120 : Nat) = 0 ∧ (15120 : Nat) = 0 ∧ (0 : Nat) = 0 then
            Solver.SearchStep.found (([Move.U1, Move.U1].set 0 Move.COUNT).take (0 + 1))
          else
            Solver.SearchStep.continue
              (Solver.generatedEnhanced.sort
                (Solver.generatedEnhanced.scored_moves 2 (TableManager.phase_moves 2) 1
                  { x1 := 15120, x2 := 15120, x3 := 0, last_move := Move.COUNT, depth := 0,
                    h := Solver.ENDGAME_DB_MAX_DEPTH 2 + 1 }) ++ [])
              ([Move.U1, Move.U1].set 0 Move.COUNT)) :=
  enhanced_prune_after_query Solver.generatedEnhanced 2 (TableManager.phase_moves 2) 1
    { x1 := 15120, x2 := 15120, x3 := 0, last_move := Move.COUNT, depth := 0, h := 1 }
    [] [Move.U1, Move.U1] rfl (by decide)

/-! ### The Phase-1 setters and the member coordinates -/

theorem div_seven_threes (c : Nat) : c / 3 / 3 / 3 / 3 / 3 / 3 / 3 = c / 2187 := by
  simp only [Nat.div_div_eq_div_mul]

theorem div_eleven_twos (c : Nat) :
    c / 2 / 2 / 2 / 2 / 2 / 2 / 2 / 2 / 2 / 2 / 2 = c / 2048 := by
  simp only [Nat.div_div_eq_div_mul]

theorem set_corner_orientation_member (self : Phase1Coord) (c : Nat) :
    (Phase1Coord.set_corner_orientation self c).corner_orientation = c / 2187 := by
  simp only [Phase1Coord.set_corner_orientation, Phase1Coord.decode_corner_orientation, range7,
    List.reverse_cons, List.reverse_nil, List.nil_append, List.cons_append, List.foldl_cons,
    List.foldl_nil]
  exact div_seven_threes c

theorem set_edge_orientation_member (self : Phase1Coord) (c : Nat) :
    (Phase1Coord.set_edge_orientation self c).edge_orientation = c / 2048 := by
  simp only [Phase1Coord.set_edge_orientation, Phase1Coord.decode_edge_orientation, range11,
    List.reverse_cons, List.reverse_nil, List.nil_append, List.cons_append, List.foldl_cons,
    List.foldl_nil]
  exact div_eleven_twos c

set_option maxHeartbeats 4000000 in
/-- On slot indicators: the placement loop for `c < 495` leaves 0 of the
coordinate. -/
theorem uds_ind_remainder : ∀ c < 495, (udsDecodeInd binomialAt c).1 = 0 := by decide!

theorem set_ud_slice_edges_member (self : Phase1Coord) (c : Nat)
    (hlen : self.cube.edges.length = 12) (hp : ∀ e ∈ self.cube.edges, e.piece < 12)
    (hc : c < 495) :
    (Phase1Coord.set_ud_slice_edges self c).uds_edge_position = 0 := by
  have hview := decode_ud_slice_loop_ind c
    (self.cube.edges.map (fun e =>
      ({ e with piece := if e.piece < 8 then e.piece else e.piece - 4 } : Edge)))
  rw [cleared_indicator _ hlen hp, C_nk_eq] at hview
  have hmember : (Phase1Coord.set_ud_slice_edges self c).uds_edge_position =
      ((List.range 12).foldl Phase1Coord.decode_ud_slice_step
        (c, self.cube.edges.map (fun e =>
          ({ e with piece := if e.piece < 8 then e.piece else e.piece - 4 } : Edge)), 4)).1 := by
    simp only [Phase1Coord.set_ud_slice_edges, Phase1Coord.decode_ud_slice_position,
      clear_slice_pieces _ hlen]
  have hfst : ∀ st : Coord × List Edge × Nat, st.1 = (udsView st).1 := fun _ => rfl
  rw [hmember, hfst, hview]
  exact uds_ind_remainder c hc

/-- Claim C37, as the code behaves. The decoders divide or subtract the member
coordinate away while they write the cube, so after a Phase-1 setter the
getter does not return the value set: after `set_corner_orientation(c)` the
member is `c / 2187`, after `set_edge_orientation(c)` it is `c / 2048`, after
`set_ud_slice_edges(c)` with `c < 495` it is 0; and `Phase1Coord(co, eo, uds)`
ends with the three members 0, so that `is_solved` holds of
`Phase1Coord(5, 3, 7)`. -/
theorem setters_clobber_members :
    (∀ (self : Phase1Coord) (c : Nat),
      (Phase1Coord.set_corner_orientation self c).corner_orientation = c / 2187 ∧
      (Phase1Coord.set_edge_orientation self c).edge_orientation = c / 2048) ∧
    (∀ (self : Phase1Coord) (c : Nat), self.cube.edges.length = 12 →
      (∀ e ∈ self.cube.edges, e.piece < 12) → c < 495 →
      (Phase1Coord.set_ud_slice_edges self c).uds_edge_position = 0) ∧
    (Phase1Coord.set_corner_orientation Phase1Coord.init 5).corner_orientation = 0 ∧
    (Phase1Coord.set_edge_orientation Phase1Coord.init 5).edge_orientation = 0 ∧
    (Phase1Coord.set_ud_slice_edges Phase1Coord.init 5).uds_edge_position = 0 ∧
    (Phase1Coord.of_coords 5 3 7).corner_orientation = 0 ∧
    (Phase1Coord.of_coords 5 3 7).edge_orientation = 0 ∧
    (Phase1Coord.of_coords 5 3 7).uds_edge_position = 0 ∧
    (Phase1Coord.of_coords 5 3 7).is_solved = true :=
  ⟨fun self c => ⟨set_corner_orientation_member self c, set_edge_orientation_member self c⟩,
    set_ud_slice_edges_member, by decide, by decide, by decide, by decide, by decide, by decide,
    by decide⟩

/-! ### The entries of the endgame databases are shortest paths -/

/-- One pass of the innermost loop of `generate_endgame_db` keeps every entry
first under its key, with a path of at most `d + 1` moves. -/
theorem endgame_visit_listed (next : (Nat × Nat × Nat) → Move → (Nat × Nat × Nat))
    (MAX_DEPTH d : Nat) (entry : (Nat × Nat × Nat) × List Move) (hentry : entry.2.length = d)
    (st : EndgameDB × List ((Nat × Nat × Nat) × List Move)) (m : Move)
    (hst : (∀ e ∈ st.1, e.2.length ≤ d + 1 ∧ st.1.lookup e.1 = some e.2) ∧
      (∀ e ∈ st.2, e.2.length = d + 1) ∧ (¬ d < MAX_DEPTH → st.2 = [])) :
    (∀ e ∈ (if (st.1.lookup (TableManager.get_key (next entry.1 m))).isNone then
          ((TableManager.get_key (next entry.1 m), (entry.2 ++ [invert_move m]).reverse) :: st.1,
           if d < MAX_DEPTH then st.2 ++ [(next entry.1 m, entry.2 ++ [invert_move m])]
           else st.2)
        else st).1,
      e.2.length ≤ d + 1 ∧
      (if (st.1.lookup (TableManager.get_key (next entry.1 m))).isNone then
          ((TableManager.get_key (next entry.1 m), (entry.2 ++ [invert_move m]).reverse) :: st.1,
           if d < MAX_DEPTH then st.2 ++ [(next entry.1 m, entry.2 ++ [invert_move m])]
           else st.2)
        else st).1.lookup e.1 = some e.2) ∧
    (∀ e ∈ (if (st.1.lookup (TableManager.get_key (next entry.1 m))).isNone then
          ((TableManager.get_key (next entry.1 m), (entry.2 ++ [invert_move m]).reverse) :: st.1,
           if d < MAX_DEPTH then st.2 ++ [(next entry.1 m, entry.2 ++ [invert_move m])]
           else st.2)
        else st).2, e.2.length = d + 1) ∧
    (¬ d < MAX_DEPTH →
      (if (st.1.lookup (TableManager.get_key (next entry.1 m))).isNone then
          ((TableManager.get_key (next entry.1 m), (entry.2 ++ [invert_move m]).reverse) :: st.1,
           if d < MAX_DEPTH then st.2 ++ [(next entry.1 m, entry.2 ++ [invert_move m])]
           else st.2)
        else st).2 = []) := by
  obtain ⟨h1, h2, h3⟩ := hst
  cases hlook : st.1.lookup (TableManager.get_key (next entry.1 m)) with
  | some p0 =>
    simp only [Option.isNone_some, Bool.false_eq_true, if_false]
    exact ⟨h1, h2, h3⟩
  | none =>
    simp only [Option.isNone_none, if_true]
    refine ⟨?_, ?_, ?_⟩
    · intro e he
      rcases List.mem_cons.mp he with rfl | he
      · exact ⟨by simp [hentry], lookup_cons_eq _ _ _⟩
      · obtain ⟨a, b⟩ := h1 e he
        refine ⟨a, ?_⟩
        have hne : e.1 ≠ TableManager.get_key (next entry.1 m) := by
          intro heq
          rw [heq, hlook] at b
          exact Option.noConfusion b
        rw [lookup_cons_ne _ _ _ _ hne]
        exact b
    · intro e he
      by_cases hd : d < MAX_DEPTH
      · rw [if_pos hd] at he
        rcases List.mem_append.mp he with h | h
        · exact h2 e h
        · rw [List.mem_singleton.mp h]
          simp [hentry]
      · rw [if_neg hd] at he
        exact h2 e he
    · intro hd
      rw [if_neg hd]
      exact h3 hd

/-- In the database `generate_endgame_db` returns every entry is the first
under its key and its path has at most `MAX_DEPTH + 1` moves. -/
theorem endgame_loop_listed (moves : List Move)
    (next : (Nat × Nat × Nat) → Move → (Nat × Nat × Nat)) (MAX_DEPTH : Nat) :
    ∀ (fuel : Nat) (db : EndgameDB) (q : List ((Nat × Nat × Nat) × List Move))
      (d : Nat) (result : EndgameDB),
      (∀ e ∈ db, e.2.length ≤ d ∧ db.lookup e.1 = some e.2) →
      (∀ e ∈ q, e.2.length = d) → (MAX_DEPTH < d → q = []) → d ≤ MAX_DEPTH + 1 →
      TableManager.endgame_loop moves next MAX_DEPTH fuel db q d = Result.value result →
      ∀ e ∈ result, e.2.length ≤ MAX_DEPTH + 1 ∧ result.lookup e.1 = some e.2 := by
  intro fuel
  induction fuel with
  | zero =>
    intro db q d result _ _ _ _ h
    simp only [TableManager.endgame_loop] at h
    exact Result.noConfusion h
  | succ fuel ih =>
    intro db q d result hdb hq hstop hd h
    simp only [TableManager.endgame_loop] at h
    split at h
    · cases h
      intro e he
      exact ⟨le_trans (hdb e he).1 hd, (hdb e he).2⟩
    · rename_i hne
      have hd1 : d ≤ MAX_DEPTH := by
        by_contra hn
        have := hstop (by omega)
        rw [this] at hne
        exact hne rfl
      have hst := foldl_invariant_list
        (fun (st : EndgameDB × List ((Nat × Nat × Nat) × List Move)) =>
          (∀ e ∈ st.1, e.2.length ≤ d + 1 ∧ st.1.lookup e.1 = some e.2) ∧
          (∀ e ∈ st.2, e.2.length = d + 1) ∧ (¬ d < MAX_DEPTH → st.2 = []))
        (fun (entry : (Nat × Nat × Nat) × List Move) => entry.2.length = d)
        (TableManager.endgame_expand moves next MAX_DEPTH d) q (db, [])
        ⟨fun e he => ⟨Nat.le_succ_of_le (hdb e he).1, (hdb e he).2⟩,
          fun e he => absurd he (List.not_mem_nil e), fun _ => rfl⟩ hq
        (fun st entry hst hentry => by
          unfold TableManager.endgame_expand
          exact foldl_stable _
            (fun (st : EndgameDB × List ((Nat × Nat × Nat) × List Move)) =>
              (∀ e ∈ st.1, e.2.length ≤ d + 1 ∧ st.1.lookup e.1 = some e.2) ∧
              (∀ e ∈ st.2, e.2.length = d + 1) ∧ (¬ d < MAX_DEPTH → st.2 = []))
            (fun st1 m h1 => endgame_visit_listed next MAX_DEPTH d entry hentry st1 m h1)
            moves st hst)
      exact ih _ _ _ result hst.1 hst.2.1 (fun hlt => hst.2.2 (by omega)) (by omega) h

/-- Every entry of the database `generate_endgame_db` builds: its key packs a
triple from which the stored path leads to `(0, 0, 0)`; the path has at most
`MAX_DEPTH + 1` moves, no other path from the triple to `(0, 0, 0)` is shorter,
and the triple is within that many moves of `(0, 0, 0)`. -/
theorem endgame_entries_shortest (PHASE : Nat)
    (next : (Nat × Nat × Nat) → Move → (Nat × Nat × Nat)) (Good : (Nat × Nat × Nat) → Prop)
    (hclosed : PhaseClosed (TableManager.phase_moves PHASE) next Good)
    (hinj : ∀ x y, Good x → Good y → TableManager.get_key x = TableManager.get_key y → x = y)
    (db : EndgameDB) (h : TableManager.generate_endgame_db PHASE next = Result.value db) :
    ∀ e ∈ db, e.2.length ≤ TableManager.endgame_generation_depth PHASE + 1 ∧
      ∃ x, Good x ∧ TableManager.get_key x = e.1 ∧
        (∀ m ∈ e.2, m ∈ TableManager.phase_moves PHASE) ∧ follow next x e.2 = (0, 0, 0) ∧
        (∀ q, (∀ m ∈ q, m ∈ TableManager.phase_moves PHASE) → follow next x q = (0, 0, 0) →
          e.2.length ≤ q.length) ∧
        ∃ w, w.length ≤ TableManager.endgame_generation_depth PHASE + 1 ∧
          (∀ m ∈ w, m ∈ TableManager.phase_moves PHASE) ∧ follow next (0, 0, 0) w = x := by
  intro e he
  have hlisted := endgame_loop_listed (TableManager.phase_moves PHASE) next
    (TableManager.endgame_generation_depth PHASE) _ _ _ 0 db
    (by
      intro e1 he1
      rw [List.mem_singleton.mp he1]
      exact ⟨Nat.le_refl _, lookup_cons_eq _ _ _⟩)
    (by
      intro e1 he1
      rw [List.mem_singleton.mp he1]
      rfl)
    (fun hlt => absurd hlt (Nat.not_lt_zero _)) (Nat.zero_le _) h e he
  obtain ⟨hlen, hlook⟩ := hlisted
  obtain ⟨x, hg, hk, hmv, hfol⟩ := generate_endgame_db_sound PHASE next Good hclosed db h e he
  have hinvmem : ∀ q : List Move, (∀ m ∈ q, m ∈ TableManager.phase_moves PHASE) →
      ∀ m ∈ q.reverse.map invert_move, m ∈ TableManager.phase_moves PHASE := by
    intro q hq m hm
    obtain ⟨a, ha, rfl⟩ := List.mem_map.mp hm
    exact (hclosed.2 (0, 0, 0) a hclosed.1 (hq a (List.mem_reverse.mp ha))).2.1
  refine ⟨hlen, x, hg, hk, hmv, hfol, ?_, ?_⟩
  · intro q hq hq0
    by_cases hql : q.length ≤ TableManager.endgame_generation_depth PHASE + 1
    · have hback := follow_back3 _ next Good hclosed q hq x hg
      rw [hq0] at hback
      obtain ⟨p1, hp1, hp1l⟩ := generate_endgame_db_complete PHASE next Good hclosed hinj db h
        (q.reverse.map invert_move) (hinvmem q hq) (by simpa using hql)
      rw [hback, hk, hlook] at hp1
      have := Option.some.inj hp1
      rw [← this] at hp1l
      simpa using hp1l
    · omega
  · have hback := follow_back3 _ next Good hclosed e.2 hmv x hg
    rw [hfol] at hback
    exact ⟨e.2.reverse.map invert_move, by simpa using hlen, hinvmem e.2 hmv, hback⟩

theorem good1_injective (x y : Nat × Nat × Nat) (hx : Good1 x) (hy : Good1 y)
    (h : TableManager.get_key x = TableManager.get_key y) : x = y :=
  get_key_injective x y (good1_bounds x hx).2.1 (good1_bounds x hx).2.2
    (good1_bounds y hy).2.1 (good1_bounds y hy).2.2 h

theorem good2_injective (x y : Nat × Nat × Nat) (hx : Good2 x) (hy : Good2 y)
    (h : TableManager.get_key x = TableManager.get_key y) : x = y :=
  get_key_injective x y (good2_bounds x hx).2.1 (good2_bounds x hx).2.2
    (good2_bounds y hy).2.1 (good2_bounds y hy).2.2 h

theorem root_entry (PHASE : Nat)
    (next : (Nat × Nat × Nat) → Move → (Nat × Nat × Nat)) (Good : (Nat × Nat × Nat) → Prop)
    (hclosed : PhaseClosed (TableManager.phase_moves PHASE) next Good)
    (hinj : ∀ x y, Good x → Good y → TableManager.get_key x = TableManager.get_key y → x = y)
    (db : EndgameDB) (h : TableManager.generate_endgame_db PHASE next = Result.value db) :
    db.lookup (TableManager.get_key (0, 0, 0)) = some [] := by
  obtain ⟨p, hp, hl⟩ := generate_endgame_db_complete PHASE next Good hclosed hinj db h []
    (fun m hm => absurd hm (List.not_mem_nil m)) (Nat.zero_le _)
  have : p = [] := List.eq_nil_of_length_eq_zero (Nat.le_zero.mp hl)
  rw [this] at hp
  exact hp

/-- Claim C32. Endgame paths are shortest and bounded. Over generated move
tables and databases, every `(key, path)` entry of the Phase-1 database has a
path of at most 6 moves and every entry of the Phase-2 database one of at most
7; the key packs exactly one triple of 16-bit coordinates, the path consists
of moves of the phase and leads from the triple to `(0, 0, 0)` through the
move tables, and no sequence of moves of the phase that does so is shorter.
The entry for `(0, 0, 0)` is the empty path. -/
theorem endgame_paths_shortest (tm : TableManager) (ht : TablesGenerated tm) :
    (∀ e ∈ tm.p1_endgame_db, e.2.length ≤ 6 ∧
      ∃ x : Nat × Nat × Nat, x.1 < 65536 ∧ x.2.1 < 65536 ∧ x.2.2 < 65536 ∧
        TableManager.get_key x = e.1 ∧
        (∀ y : Nat × Nat × Nat, y.2.1 < 65536 → y.2.2 < 65536 →
          TableManager.get_key y = e.1 → y = x) ∧
        (∀ m ∈ e.2, m ∈ Phase1Coord.AVAILABLE_MOVES) ∧
        follow tm.get_phase1_moves x e.2 = (0, 0, 0) ∧
        ∀ q, (∀ m ∈ q, m ∈ Phase1Coord.AVAILABLE_MOVES) →
          follow tm.get_phase1_moves x q = (0, 0, 0) → e.2.length ≤ q.length) ∧
    (∀ e ∈ tm.p2_endgame_db, e.2.length ≤ 7 ∧
      ∃ x : Nat × Nat × Nat, x.1 < 65536 ∧ x.2.1 < 65536 ∧ x.2.2 < 65536 ∧
        TableManager.get_key x = e.1 ∧
        (∀ y : Nat × Nat × Nat, y.2.1 < 65536 → y.2.2 < 65536 →
          TableManager.get_key y = e.1 → y = x) ∧
        (∀ m ∈ e.2, m ∈ Phase2Coord.AVAILABLE_MOVES) ∧
        follow tm.get_phase2_moves x e.2 = (0, 0, 0) ∧
        ∀ q, (∀ m ∈ q, m ∈ Phase2Coord.AVAILABLE_MOVES) →
          follow tm.get_phase2_moves x q = (0, 0, 0) → e.2.length ≤ q.length) ∧
    tm.search_endgame_db 1 (0, 0, 0) = some [] ∧
    tm.search_endgame_db 2 (0, 0, 0) = some [] := by
  have hc1 := phase1_closed tm ht
  have hc2 := phase2_closed tm ht
  refine ⟨?_, ?_, ?_, ?_⟩
  · intro e he
    obtain ⟨hl, x, hg, hk, hmv, hfol, hmin, _⟩ :=
      endgame_entries_shortest 1 tm.get_phase1_moves Good1 hc1 good1_injective _ ht.db1 e he
    obtain ⟨b1, b2, b3⟩ := good1_bounds x hg
    exact ⟨hl, x, b1, b2, b3, hk,
      fun y hy2 hy3 hy => get_key_injective y x hy2 hy3 b2 b3 (by rw [hy, hk]),
      hmv, hfol, hmin⟩
  · intro e he
    obtain ⟨hl, x, hg, hk, hmv, hfol, hmin, _⟩ :=
      endgame_entries_shortest 2 tm.get_phase2_moves Good2 hc2 good2_injective _ ht.db2 e he
    obtain ⟨b1, b2, b3⟩ := good2_bounds x hg
    exact ⟨hl, x, b1, b2, b3, hk,
      fun y hy2 hy3 hy => get_key_injective y x hy2 hy3 b2 b3 (by rw [hy, hk]),
      hmv, hfol, hmin⟩
  · simp only [TableManager.search_endgame_db, TableManager.get_endgame_db, if_true]
    exact root_entry 1 tm.get_phase1_moves Good1 hc1 good1_injective _ ht.db1
  · simp only [TableManager.search_endgame_db, TableManager.get_endgame_db]
    exact root_entry 2 tm.get_phase2_moves Good2 hc2 good2_injective _ ht.db2

theorem endgame_paths_shortest_witness :
    (∀ e ∈ Solver.generated.tables_.p1_endgame_db, e.2.length ≤ 6 ∧
      ∃ x : Nat × Nat × Nat, x.1 < 65536 ∧ x.2.1 < 65536 ∧ x.2.2 < 65536 ∧
        TableManager.get_key x = e.1 ∧
        (∀ y : Nat × Nat × Nat, y.2.1 < 65536 → y.2.2 < 65536 →
          TableManager.get_key y = e.1 → y = x) ∧
        (∀ m ∈ e.2, m ∈ Phase1Coord.AVAILABLE_MOVES) ∧
        follow Solver.generated.tables_.get_phase1_moves x e.2 = (0, 0, 0) ∧
        ∀ q, (∀ m ∈ q, m ∈ Phase1Coord.AVAILABLE_MOVES) →
          follow Solver.generated.tables_.get_phase1_moves x q = (0, 0, 0) →
          e.2.length ≤ q.length) ∧
    (∀ e ∈ Solver.generated.tables_.p2_endgame_db, e.2.length ≤ 7 ∧
      ∃ x : Nat × Nat × Nat, x.1 < 65536 ∧ x.2.1 < 65536 ∧ x.2.2 < 65536 ∧
        TableManager.get_key x = e.1 ∧
        (∀ y : Nat × Nat × Nat, y.2.1 < 65536 → y.2.2 < 65536 →
          TableManager.get_key y = e.1 → y = x) ∧
        (∀ m ∈ e.2, m ∈ Phase2Coord.AVAILABLE_MOVES) ∧
        follow Solver.generated.tables_.get_phase2_moves x e.2 = (0, 0, 0) ∧
        ∀ q, (∀ m ∈ q, m ∈ Phase2Coord.AVAILABLE_MOVES) →
          follow Solver.generated.tables_.get_phase2_moves x q = (0, 0, 0) →
          e.2.length ≤ q.length) ∧
    Solver.generated.tables_.search_endgame_db 1 (0, 0, 0) = some [] ∧
    Solver.generated.tables_.search_endgame_db 2 (0, 0, 0) = some [] :=
  endgame_paths_shortest Solver.generated.tables_ generated_tables_ok

/-- Claim C31, amended. The endgame database holds the whole frontier. Over
generated move tables and databases, with depth bound `D` (Phase 1: 5,
Phase 2: 6): every triple reached from `(0, 0, 0)` by at most `D + 1` moves of
the phase is stored, with a path no longer than the way to it; and the key of
every stored entry packs a triple reached from `(0, 0, 0)` by at most `D + 1`
moves. -/
theorem endgame_full_frontier (tm : TableManager) (ht : TablesGenerated tm) :
    (∀ w : List Move, (∀ m ∈ w, m ∈ Phase1Coord.AVAILABLE_MOVES) → w.length ≤ 5 + 1 →
      ∃ p, tm.search_endgame_db 1 (follow tm.get_phase1_moves (0, 0, 0) w) = some p ∧
        p.length ≤ w.length) ∧
    (∀ w : List Move, (∀ m ∈ w, m ∈ Phase2Coord.AVAILABLE_MOVES) → w.length ≤ 6 + 1 →
      ∃ p, tm.search_endgame_db 2 (follow tm.get_phase2_moves (0, 0, 0) w) = some p ∧
        p.length ≤ w.length) ∧
    (∀ e ∈ tm.p1_endgame_db, ∃ w : List Move, w.length ≤ 5 + 1 ∧
      (∀ m ∈ w, m ∈ Phase1Coord.AVAILABLE_MOVES) ∧
      TableManager.get_key (follow tm.get_phase1_moves (0, 0, 0) w) = e.1) ∧
    (∀ e ∈ tm.p2_endgame_db, ∃ w : List Move, w.length ≤ 6 + 1 ∧
      (∀ m ∈ w, m ∈ Phase2Coord.AVAILABLE_MOVES) ∧
      TableManager.get_key (follow tm.get_phase2_moves (0, 0, 0) w) = e.1) := by
  have hc1 := phase1_closed tm ht
  have hc2 := phase2_closed tm ht
  refine ⟨?_, ?_, ?_, ?_⟩
  · intro w hw hl
    obtain ⟨p, hp, hpl⟩ := generate_endgame_db_complete 1 tm.get_phase1_moves Good1 hc1
      good1_injective _ ht.db1 w hw hl
    refine ⟨p, ?_, hpl⟩
    simp only [TableManager.search_endgame_db, TableManager.get_endgame_db, if_true]
    exact hp
  · intro w hw hl
    obtain ⟨p, hp, hpl⟩ := generate_endgame_db_complete 2 tm.get_phase2_moves Good2 hc2
      good2_injective _ ht.db2 w hw hl
    refine ⟨p, ?_, hpl⟩
    simp only [TableManager.search_endgame_db, TableManager.get_endgame_db]
    exact hp
  · intro e he
    obtain ⟨_, x, _, hk, _, _, _, w, hw1, hw2, hw3⟩ :=
      endgame_entries_shortest 1 tm.get_phase1_moves Good1 hc1 good1_injective _ ht.db1 e he
    exact ⟨w, hw1, hw2, by rw [hw3]; exact hk⟩
  · intro e he
    obtain ⟨_, x, _, hk, _, _, _, w, hw1, hw2, hw3⟩ :=
      endgame_entries_shortest 2 tm.get_phase2_moves Good2 hc2 good2_injective _ ht.db2 e he
    exact ⟨w, hw1, hw2, by rw [hw3]; exact hk⟩

theorem endgame_full_frontier_witness :
    (∀ w : List Move, (∀ m ∈ w, m ∈ Phase1Coord.AVAILABLE_MOVES) → w.length ≤ 5 + 1 →
      ∃ p, Solver.generated.tables_.search_endgame_db 1
          (follow Solver.generated.tables_.get_phase1_moves (0, 0, 0) w) = some p ∧
        p.length ≤ w.length) ∧
    (∀ w : List Move, (∀ m ∈ w, m ∈ Phase2Coord.AVAILABLE_MOVES) → w.length ≤ 6 + 1 →
      ∃ p, Solver.generated.tables_.search_endgame_db 2
          (follow Solver.generated.tables_.get_phase2_moves (0, 0, 0) w) = some p ∧
        p.length ≤ w.length) ∧
    (∀ e ∈ Solver.generated.tables_.p1_endgame_db, ∃ w : List Move, w.length ≤ 5 + 1 ∧
      (∀ m ∈ w, m ∈ Phase1Coord.AVAILABLE_MOVES) ∧
      TableManager.get_key (follow Solver.generated.tables_.get_phase1_moves (0, 0, 0) w)
        = e.1) ∧
    (∀ e ∈ Solver.generated.tables_.p2_endgame_db, ∃ w : List Move, w.length ≤ 6 + 1 ∧
      (∀ m ∈ w, m ∈ Phase2Coord.AVAILABLE_MOVES) ∧
      TableManager.get_key (follow Solver.generated.tables_.get_phase2_moves (0, 0, 0) w)
        = e.1) :=
  endgame_full_frontier Solver.generated.tables_ generated_tables_ok

/-- Over the generated tables no triple at the last depth is missing: every
sequence of exactly six Phase-1 moves, and every sequence of exactly seven
Phase-2 moves, leads from `(0, 0, 0)` to a triple the database of the phase
holds. -/
theorem endgame_full_frontier_counterexample :
    (¬ ∃ w : List Move, (∀ m ∈ w, m ∈ Phase1Coord.AVAILABLE_MOVES) ∧ w.length = 5 + 1 ∧
      Solver.generated.tables_.search_endgame_db 1
        (follow Solver.generated.tables_.get_phase1_moves (0, 0, 0) w) = none) ∧
    (¬ ∃ w : List Move, (∀ m ∈ w, m ∈ Phase2Coord.AVAILABLE_MOVES) ∧ w.length = 6 + 1 ∧
      Solver.generated.tables_.search_endgame_db 2
        (follow Solver.generated.tables_.get_phase2_moves (0, 0, 0) w) = none) := by
  have hc1 := phase1_closed Solver.generated.tables_ generated_tables_ok
  have hc2 := phase2_closed Solver.generated.tables_ generated_tables_ok
  constructor
  · rintro ⟨w, hw, hl, hn⟩
    obtain ⟨p, hp, _⟩ := generate_endgame_db_complete 1 _ Good1 hc1
      good1_injective _ generated_tables_ok.db1 w hw (Nat.le_of_eq hl)
    have hp1 : Solver.generated.tables_.search_endgame_db 1
        (follow Solver.generated.tables_.get_phase1_moves (0, 0, 0) w) = some p := by
      simp only [TableManager.search_endgame_db, TableManager.get_endgame_db, if_true]
      exact hp
    rw [hn] at hp1
    exact Option.noConfusion hp1
  · rintro ⟨w, hw, hl, hn⟩
    obtain ⟨p, hp, _⟩ := generate_endgame_db_complete 2 _ Good2 hc2
      good2_injective _ generated_tables_ok.db2 w hw (Nat.le_of_eq hl)
    have hp2 : Solver.generated.tables_.search_endgame_db 2
        (follow Solver.generated.tables_.get_phase2_moves (0, 0, 0) w) = some p := by
      simp only [TableManager.search_endgame_db, TableManager.get_endgame_db]
      exact hp
    rw [hn] at hp2
    exact Option.noConfusion hp2

/-! ### The order in which successors are explored -/

theorem mergeSort_stable_by_h :
    StableByH (fun l => l.mergeSort (fun a b => decide (a.h ≤ b.h))) := by
  have htrans : ∀ a b c : SearchState, decide (a.h ≤ b.h) = true → decide (b.h ≤ c.h) = true →
      decide (a.h ≤ c.h) = true := by
    intro a b c h1 h2
    simp only [decide_eq_true_eq] at *
    omega
  have htotal : ∀ a b : SearchState, (decide (a.h ≤ b.h) || decide (b.h ≤ a.h)) = true := by
    intro a b
    simp only [Bool.or_eq_true, decide_eq_true_eq]
    omega
  intro l
  refine ⟨List.mergeSort_perm l _, ?_, ?_⟩
  · exact (List.sorted_mergeSort htrans htotal l).imp (fun h => by simpa using h)
  · intro v
    have hpw : (l.filter (fun s => decide (s.h = v))).Pairwise
        (fun a b => decide (a.h ≤ b.h) = true) := by
      apply List.pairwise_of_forall_mem_list
      intro a ha b hb
      have h1 := (List.mem_filter.mp ha).2
      have h2 := (List.mem_filter.mp hb).2
      simp only [decide_eq_true_eq] at *
      omega
    have hsub := List.sublist_mergeSort htrans htotal hpw (List.filter_sublist l)
    have hsub2 := hsub.filter (fun s => decide (s.h = v))
    rw [List.filter_filter] at hsub2
    simp only [Bool.and_self] at hsub2
    have hlen := ((List.mergeSort_perm l (fun a b => decide (a.h ≤ b.h))).filter
      (fun s => decide (s.h = v))).length_eq
    exact (hsub2.eq_of_length hlen.symm).symm

theorem generated_sort_stable : StableByH Solver.generated.sort := mergeSort_stable_by_h

theorem filterMap_map_sublist {α β : Type} (f : α → Option β) (g : β → α)
    (h : ∀ a b, f a = some b → g b = a) (l : List α) : ((l.filterMap f).map g).Sublist l := by
  induction l with
  | nil => exact List.Sublist.slnil
  | cons a l ih =>
    rw [List.filterMap_cons]
    cases hfa : f a with
    | none => exact List.Sublist.cons a ih
    | some b =>
      simp only [List.map_cons]
      rw [h a b hfa]
      exact List.Sublist.cons₂ a ih

theorem scored_moves_order (S : Solver) (PHASE : Nat) (MOVES : List Move) (max_depth : Nat)
    (current : SearchState) :
    ((S.scored_moves PHASE MOVES max_depth current).map (fun s => s.last_move)).Sublist MOVES := by
  unfold Solver.scored_moves
  apply filterMap_map_sublist
  intro m s hs
  simp only at hs
  split_ifs at hs with h1 h2 h3 h4
  · cases hs
    rfl
  · cases hs
    rfl

theorem generated_sort_sorts : SortsByH Solver.generated.sort :=
  fun l => ⟨(generated_sort_stable l).1, (generated_sort_stable l).2.1⟩

/-- A sort that keeps the order of entries with equal `h` leaves a list whose
entries all have the same `h` as it is. -/
theorem stable_all_ties (sort : List SearchState → List SearchState) (hs : StableByH sort)
    (l : List SearchState) (v : Nat) (h : ∀ s ∈ l, s.h = v) : sort l = l := by
  obtain ⟨hperm, _, hst⟩ := hs l
  have h1 : (sort l).filter (fun s => decide (s.h = v)) = sort l :=
    List.filter_eq_self.mpr (fun s hs => by
      simp only [decide_eq_true_eq]
      exact h s (hperm.mem_iff.mp hs))
  have h2 : l.filter (fun s => decide (s.h = v)) = l :=
    List.filter_eq_self.mpr (fun s hs => by
      simp only [decide_eq_true_eq]
      exact h s hs)
  rw [← h1, hst v, h2]

/-- What a pass of `search_iterative` that goes on leaves on the stack: the
rest of the stack when the node is dropped, which only the build with
`USE_ENHANCED_HEURISTIC` does, or else the sorted successors of the node, with
its `h` or with `h` raised to `ENDGAME_DB_MAX_DEPTH + 1`, on top of the rest. -/
theorem search_step_pushes (S : Solver) (PHASE : Nat) (MOVES : List Move) (max_depth : Nat)
    (current : SearchState) (stack : List SearchState) (path : List Move)
    (st : List SearchState) (p : List Move)
    (h : S.search_step PHASE MOVES max_depth current stack path
      = Solver.SearchStep.continue st p) :
    (S.enhanced = true ∧ st = stack) ∨
    ∃ c, (c = current ∨
        (S.enhanced = true ∧
          c = { current with h := Solver.ENDGAME_DB_MAX_DEPTH PHASE + 1 })) ∧
      st = S.sort (S.scored_moves PHASE MOVES max_depth c) ++ stack := by
  cases hdb : S.tables_.search_endgame_db PHASE (current.x1, current.x2, current.x3) with
  | some ep =>
    simp only [Solver.search_step, hdb] at h
    split_ifs at h
    all_goals first
      | (cases h; done)
      | (cases h; exact Or.inr ⟨_, Or.inl rfl, rfl⟩)
  | none =>
    simp only [Solver.search_step, hdb] at h
    split_ifs at h
    all_goals first
      | (cases h; done)
      | (cases h; exact Or.inl ⟨by assumption, rfl⟩)
      | (cases h; exact Or.inr ⟨_, Or.inr ⟨by assumption, rfl⟩, rfl⟩)
      | (cases h; exact Or.inr ⟨_, Or.inl rfl, rfl⟩)

/-- A pass on a node with `h` above `ENDGAME_DB_MAX_DEPTH` whose triple is not
`(0, 0, 0)` queries nothing and expands the node. -/
theorem search_step_expand (S : Solver) (PHASE : Nat) (MOVES : List Move) (max_depth : Nat)
    (current : SearchState) (stack : List SearchState) (path : List Move)
    (hh : ¬ current.h ≤ Solver.ENDGAME_DB_MAX_DEPTH PHASE)
    (hx : ¬ (current.x1 = 0 ∧ current.x2 = 0 ∧ current.x3 = 0)) :
    S.search_step PHASE MOVES max_depth current stack path
      = Solver.SearchStep.continue
          (S.sort (S.scored_moves PHASE MOVES max_depth current) ++ stack)
          (path.set current.depth current.last_move) := by
  simp only [Solver.search_step, if_neg hh, if_neg hx]

theorem first_pass_expand (S : Solver) (PHASE : Nat) (MOVES : List Move) (max_depth fuel : Nat)
    (current : SearchState) (stack : List SearchState) (path : List Move)
    (hh : ¬ current.h ≤ Solver.ENDGAME_DB_MAX_DEPTH PHASE)
    (hx : ¬ (current.x1 = 0 ∧ current.x2 = 0 ∧ current.x3 = 0)) :
    S.search_iterative PHASE MOVES max_depth (fuel + 1) (current :: stack) path
      = S.search_iterative PHASE MOVES max_depth fuel
          (S.sort (S.scored_moves PHASE MOVES max_depth current) ++ stack)
          (path.set current.depth current.last_move) := by
  simp only [Solver.search_iterative, search_step_expand S PHASE MOVES max_depth current stack
    path hh hx]

/-- The first search of `ida_star` on a triple that is not solved: the bound
and the `h` of the start node are the heuristic value of the triple. -/
theorem ida_star_start (S : Solver) (PHASE : Nat) (x : Nat × Nat × Nat) (limit : Nat) :
    S.ida_star PHASE false x limit
      = S.ida_star_loop PHASE (TableManager.phase_moves PHASE) x (S.heuristic PHASE x) limit
          (limit + 1 - S.heuristic PHASE x) (S.heuristic PHASE x) := by
  simp only [Solver.ida_star, Bool.false_eq_true, if_false]

/-- Without `USE_ENHANCED_HEURISTIC` a retained successor carries the
heuristic value of its triple. -/
theorem scored_moves_heuristic (S : Solver) (hen : S.enhanced = false) (PHASE : Nat)
    (MOVES : List Move) (max_depth : Nat) (current c : SearchState)
    (hc : c ∈ S.scored_moves PHASE MOVES max_depth current) :
    ∃ m ∈ MOVES, c.last_move = m ∧
      c.h = S.heuristic PHASE (S.get_next_coord PHASE (current.x1, current.x2, current.x3) m) ∧
      current.depth + 1 + c.h ≤ max_depth := by
  unfold Solver.scored_moves at hc
  obtain ⟨m, hm, hsome⟩ := List.mem_filterMap.mp hc
  refine ⟨m, hm, ?_⟩
  simp only [hen, Bool.false_eq_true, if_false] at hsome
  split_ifs at hsome with h1 h2
  cases hsome
  exact ⟨rfl, rfl, h2⟩

theorem phase_move_tokens :
    (TableManager.phase_moves 1).map move_to_string
      = ["U", "U'", "U2", "D", "D'", "D2", "L", "L'", "L2", "R", "R'", "R2",
         "F", "F'", "F2", "B", "B'", "B2"] ∧
    (TableManager.phase_moves 2).map move_to_string
      = ["U", "U'", "U2", "D", "D'", "D2", "L2", "R2", "F2", "B2"] ∧
    (List.range 18).map move_to_string
      = ["U", "U'", "U2", "D", "D'", "D2", "F", "F'", "F2", "B", "B'", "B2",
         "L", "L'", "L2", "R", "R'", "R2"] := by decide

/-- Claim C35, amended. A pass of `search_iterative` that goes on, with a
`std::sort` that returns its input rearranged in ascending `h`: the pass
leaves on the stack either the rest of the stack (the node is dropped, only
with `USE_ENHANCED_HEURISTIC`) or the sorted retained successors on top of the
rest, the first to be explored on top. The sorted successors are the retained
ones in ascending order of `h`. When the sort keeps entries of equal `h` in the
order they had, the successors with the same `h` are explored in the order of
their moves in `MOVES`, the `AVAILABLE_MOVES` array of the phase, whose tokens
in order are listed for both phases next to those of the enum order. The
result of `solve` is the same for two solvers with the same tables, flag and
sort. -/
theorem successor_order (S : Solver) (hsort : SortsByH S.sort) (PHASE : Nat)
    (MOVES : List Move) (max_depth : Nat) (current : SearchState) (stack : List SearchState)
    (path : List Move) (st : List SearchState) (p : List Move)
    (hstep : S.search_step PHASE MOVES max_depth current stack path
      = Solver.SearchStep.continue st p) :
    ((S.enhanced = true ∧ st = stack) ∨
      ∃ c, (c = current ∨
          (S.enhanced = true ∧
            c = { current with h := Solver.ENDGAME_DB_MAX_DEPTH PHASE + 1 })) ∧
        st = S.sort (S.scored_moves PHASE MOVES max_depth c) ++ stack) ∧
    (∀ c : SearchState,
      (S.sort (S.scored_moves PHASE MOVES max_depth c)).Perm
        (S.scored_moves PHASE MOVES max_depth c) ∧
      (S.sort (S.scored_moves PHASE MOVES max_depth c)).Pairwise (fun a b => a.h ≤ b.h)) ∧
    (StableByH S.sort → ∀ (c : SearchState) (v : Nat),
      (((S.sort (S.scored_moves PHASE MOVES max_depth c)).filter
          (fun s => decide (s.h = v))).map (fun s => s.last_move)).Sublist MOVES) ∧
    ((TableManager.phase_moves 1).map move_to_string
      = ["U", "U'", "U2", "D", "D'", "D2", "L", "L'", "L2", "R", "R'", "R2",
         "F", "F'", "F2", "B", "B'", "B2"] ∧
    (TableManager.phase_moves 2).map move_to_string
      = ["U", "U'", "U2", "D", "D'", "D2", "L2", "R2", "F2", "B2"] ∧
    (List.range 18).map move_to_string
      = ["U", "U'", "U2", "D", "D'", "D2", "F", "F'", "F2", "B", "B'", "B2",
         "L", "L'", "L2", "R", "R'", "R2"]) ∧
    (∀ S2 : Solver, S2.tables_ = S.tables_ → S2.enhanced = S.enhanced → S2.sort = S.sort →
      ∀ k, S2.solve k = S.solve k) := by
  refine ⟨search_step_pushes S PHASE MOVES max_depth current stack path st p hstep,
    fun c => hsort _, ?_, phase_move_tokens, ?_⟩
  · intro hs c v
    rw [(hs (S.scored_moves PHASE MOVES max_depth c)).2.2 v]
    exact ((List.filter_sublist _).map _).trans (scored_moves_order S PHASE MOVES max_depth c)
  · intro S2 h1 h2 h3 k
    cases S2
    cases S
    simp only at h1 h2 h3
    rw [h1, h2, h3]

theorem successor_order_witness :
    SortsByH Solver.generated.sort ∧ StableByH Solver.generated.sort ∧
    Solver.generated.search_step 1 (TableManager.phase_moves 1) 7
        { x1 := 1498, x2 := 2044, x3 := 427, last_move := Move.COUNT, depth := 0, h := 7 }
        [] (List.replicate 13 Move.U1)
      = Solver.SearchStep.continue
          (Solver.generated.sort (Solver.generated.scored_moves 1 (TableManager.phase_moves 1) 7
            { x1 := 1498, x2 := 2044, x3 := 427, last_move := Move.COUNT, depth := 0, h := 7 })
            ++ [])
          ((List.replicate 13 Move.U1).set 0 Move.COUNT) ∧
    (∀ c : SearchState,
      (Solver.generated.sort
          (Solver.generated.scored_moves 1 (TableManager.phase_moves 1) 7 c)).Perm
        (Solver.generated.scored_moves 1 (TableManager.phase_moves 1) 7 c) ∧
      (Solver.generated.sort
          (Solver.generated.scored_moves 1 (TableManager.phase_moves 1) 7 c)).Pairwise
        (fun a b => a.h ≤ b.h)) ∧
    (∀ (c : SearchState) (v : Nat),
      (((Solver.generated.sort
          (Solver.generated.scored_moves 1 (TableManager.phase_moves 1) 7 c)).filter
          (fun s => decide (s.h = v))).map (fun s => s.last_move)).Sublist
        (TableManager.phase_moves 1)) :=
  ⟨generated_sort_sorts, generated_sort_stable,
    search_step_expand Solver.generated 1 (TableManager.phase_moves 1) 7 _ [] _
      (by decide) (by decide),
    (successor_order Solver.generated generated_sort_sorts 1 (TableManager.phase_moves 1) 7
      { x1 := 1498, x2 := 2044, x3 := 427, last_move := Move.COUNT, depth := 0, h := 7 }
      [] (List.replicate 13 Move.U1) _ _
      (search_step_expand Solver.generated 1 (TableManager.phase_moves 1) 7 _ [] _
        (by decide) (by decide))).2.1,
    (successor_order Solver.generated generated_sort_sorts 1 (TableManager.phase_moves 1) 7
      { x1 := 1498, x2 := 2044, x3 := 427, last_move := Move.COUNT, depth := 0, h := 7 }
      [] (List.replicate 13 Move.U1) _ _
      (search_step_expand Solver.generated 1 (TableManager.phase_moves 1) 7 _ [] _
        (by decide) (by decide))).2.2.1 generated_sort_stable⟩

/-! ### A lower bound on the Phase-1 heuristic, by two sets of coordinates that do not meet -/

/-- A path of at most three moves from a member of `A0` ends in `A3`, when
each of the sets holds the one before it and what one move makes of its
members. -/
theorem ball_follow (moves : List Move) (next : Nat → Move → Nat) (A0 A1 A2 A3 : Nat → Prop)
    (h1 : ∀ c, A0 c → A1 c ∧ ∀ m ∈ moves, A1 (next c m))
    (h2 : ∀ c, A1 c → A2 c ∧ ∀ m ∈ moves, A2 (next c m))
    (h3 : ∀ c, A2 c → A3 c ∧ ∀ m ∈ moves, A3 (next c m))
    (p : List Move) (hlen : p.length ≤ 3) (hp : ∀ m ∈ p, m ∈ moves) (c : Nat) (hc : A0 c) :
    A3 (followC next c p) := by
  match p, hlen, hp with
  | [], _, _ => exact (h3 c (h2 c (h1 c hc).1).1).1
  | [a], _, hp =>
    exact (h3 _ (h2 _ ((h1 c hc).2 a (hp a (List.mem_cons_self _ _)))).1).1
  | [a, b], _, hp =>
    have ha := hp a (List.mem_cons_self _ _)
    have hb := hp b (List.mem_cons_of_mem _ (List.mem_cons_self _ _))
    exact (h3 _ ((h2 _ ((h1 c hc).2 a ha)).2 b hb)).1
  | [a, b, d], _, hp =>
    have ha := hp a (List.mem_cons_self _ _)
    have hb := hp b (List.mem_cons_of_mem _ (List.mem_cons_self _ _))
    have hd := hp d (List.mem_cons_of_mem _ (List.mem_cons_of_mem _ (List.mem_cons_self _ _)))
    exact (h3 _ ((h2 _ ((h1 c hc).2 a ha)).2 b hb)).2 d hd
  | _ :: _ :: _ :: _ :: _, hlen, _ =>
    simp only [List.length_cons] at hlen
    omega

/-- On an axis whose moves are undone by their inverses, a coordinate `c` is
at least seven moves from 0 when the coordinates within three moves of `c` and
those within three moves of 0 do not meet. -/
theorem far_of_balls (SIZE : Nat) (moves : List Move) (next : Nat → Move → Nat)
    (hcl : ∀ c, c < SIZE → ∀ m ∈ moves, next c m < SIZE)
    (hinv : ∀ c, c < SIZE → ∀ m ∈ moves,
      invert_move m ∈ moves ∧ next (next c m) (invert_move m) = c)
    (c : Nat) (hc : c < SIZE) (Z1 Z2 Z3 C1 C2 C3 : Nat → Prop)
    (hz1 : ∀ a, a = 0 → Z1 a ∧ ∀ m ∈ moves, Z1 (next a m))
    (hz2 : ∀ a, Z1 a → Z2 a ∧ ∀ m ∈ moves, Z2 (next a m))
    (hz3 : ∀ a, Z2 a → Z3 a ∧ ∀ m ∈ moves, Z3 (next a m))
    (hc1 : ∀ a, a = c → C1 a ∧ ∀ m ∈ moves, C1 (next a m))
    (hc2 : ∀ a, C1 a → C2 a ∧ ∀ m ∈ moves, C2 (next a m))
    (hc3 : ∀ a, C2 a → C3 a ∧ ∀ m ∈ moves, C3 (next a m))
    (hdis : ∀ y, C3 y → ¬ Z3 y)
    (p : List Move) (hp : ∀ m ∈ p, m ∈ moves) (h0 : followC next c p = 0) : 7 ≤ p.length := by
  by_contra hlen
  have hsplit : followC next (followC next c (p.take 3)) (p.drop 3) = 0 := by
    rw [← followC_append, List.take_append_drop]
    exact h0
  have hp1 : ∀ m ∈ p.take 3, m ∈ moves := fun m hm => hp m (List.mem_of_mem_take hm)
  have hp2 : ∀ m ∈ p.drop 3, m ∈ moves := fun m hm => hp m (List.mem_of_mem_drop hm)
  have hy := ball_follow moves next (fun a => a = c) C1 C2 C3 hc1 hc2 hc3 (p.take 3)
    (by rw [List.length_take]; exact Nat.min_le_left _ _) hp1 c rfl
  have hlt := (followC_back SIZE moves next hcl hinv (p.take 3) c hc hp1).2.1
  obtain ⟨hb1, _, hb3, hb4⟩ := followC_back SIZE moves next hcl hinv (p.drop 3) _ hlt hp2
  rw [hsplit] at hb1
  have hz := ball_follow moves next (fun a => a = 0) Z1 Z2 Z3 hz1 hz2 hz3 _
    (by rw [hb4, List.length_drop]; omega) hb3 0 rfl
  rw [hb1] at hz
  exact hdis _ hy hz

/-- The least number of moves to 0 goes down by at most one along a move. -/
theorem minTo_step (moves : List Move) (next : Nat → Move → Nat) (c e e1 : Nat) (m : Move)
    (hm : m ∈ moves) (h : MinTo moves next c e) (h1 : MinTo moves next (next c m) e1) :
    e ≤ e1 + 1 := by
  obtain ⟨⟨p, hlen, hp, h0⟩, _⟩ := h1
  have := h.2 (m :: p)
    (fun x hx => by
      rcases List.mem_cons.mp hx with rfl | hx
      · exact hm
      · exact hp x hx) h0
  rw [List.length_cons, hlen] at this
  exact this

theorem allBelow_spec (n : Nat) (f : Nat → Bool) (h : allBelow n f = true) :
    ∀ c < n, f c = true := by
  induction n with
  | zero => intro c hc; omega
  | succ n ih =>
    simp only [allBelow, Bool.and_eq_true] at h
    intro c hc
    rcases Nat.lt_succ_iff_lt_or_eq.mp hc with h1 | h1
    · exact ih h.2 c h1
    · rw [h1]; exact h.1

theorem eoDigits_list (c : Nat) :
    eoDigits c = [c / 1024 % 2, c / 512 % 2, c / 256 % 2, c / 128 % 2, c / 64 % 2,
      c / 32 % 2, c / 16 % 2, c / 8 % 2, c / 4 % 2, c / 2 % 2, c % 2,
      (2 - (c % 2 + c / 2 % 2 + c / 4 % 2 + c / 8 % 2 + c / 16 % 2 + c / 32 % 2 + c / 64 % 2
        + c / 128 % 2 + c / 256 % 2 + c / 512 % 2 + c / 1024 % 2) % 2) % 2] := by
  simp only [eoDigits, Phase1Coord.init, Cube.solved, Phase1Coord.decode_edge_orientation,
    range11, range12, List.reverse_cons, List.reverse_nil, List.nil_append, List.cons_append,
    List.foldl_cons, List.foldl_nil, List.getD_cons_zero, List.getD_cons_succ,
    List.set_cons_zero, List.set_cons_succ, List.map_cons, List.map_nil]
  dsimp only [Coord]
  simp only [Nat.div_div_eq_div_mul, Nat.reduceMul, Nat.zero_add]

theorem eoDigits_bits (c s : Nat) (hs : s < 12) : (eoDigits c).getD s 0 = eoBit c s := by
  rw [eoDigits_list]
  unfold eoBit
  interval_cases s <;> simp

theorem eoRank_range (f : Nat → Nat) :
    eoRank ((List.range 12).map f)
      = ((((((((((f 0 * 2 + f 1) * 2 + f 2) * 2 + f 3) * 2 + f 4) * 2 + f 5) * 2 + f 6) * 2
          + f 7) * 2 + f 8) * 2 + f 9) * 2 + f 10) := by
  simp only [eoRank, range11, range12, List.map_cons, List.map_nil, List.foldl_cons,
    List.foldl_nil, List.getD_cons_zero, List.getD_cons_succ, Nat.zero_mul, Nat.zero_add]

theorem eo_code_tables :
    ∀ m < 18, ∀ t < 12, srcE m t = eoSrc m t ∧ deltaE m t = eoDelta m t := by decide!

/-- The entries of the edge-orientation table, by arithmetic on the
coordinate. -/
theorem eo_move_entry_fast (c : Nat) (m : Move) (hm : m < 18) :
    eo_move_entry c m = eoFast c m := by
  have ht : ∀ t < 12, ((eoDigits c).getD (srcE m t) 0 + deltaE m t) % 2 = eoOut c m t := by
    intro t ht
    obtain ⟨h1, h2⟩ := eo_code_tables m hm t ht
    have hs : eoSrc m t < 12 := by
      rw [← h1]
      exact srcE_lt m hm t ht
    rw [h1, h2, eoDigits_bits c _ hs]
    rfl
  unfold eo_move_entry moveOriE
  rw [eoRank_range]
  simp only [ht 0 (by decide), ht 1 (by decide), ht 2 (by decide), ht 3 (by decide),
    ht 4 (by decide), ht 5 (by decide), ht 6 (by decide), ht 7 (by decide), ht 8 (by decide),
    ht 9 (by decide), ht 10 (by decide)]
  rfl

theorem eo_zero_steps :
    (eoZero1.testBit 0 = true ∧
      ∀ m ∈ Phase1Coord.AVAILABLE_MOVES, eoZero1.testBit (eoFast 0 m) = true) ∧
    ballStepOK eoZero1 eoZero2 = true ∧ ballStepOK eoZero2 eoZero3 = true := by decide!

theorem eo_far_steps :
    (eoFar1.testBit 2044 = true ∧
      ∀ m ∈ Phase1Coord.AVAILABLE_MOVES, eoFar1.testBit (eoFast 2044 m) = true) ∧
    ballStepOK eoFar1 eoFar2 = true ∧ ballStepOK eoFar2 eoFar3 = true := by decide!

theorem eo_far_apart :
    eoFar3 &&& eoZero3 = 0 ∧ eoZero1 < 2 ^ 2048 ∧ eoZero2 < 2 ^ 2048 ∧ eoFar1 < 2 ^ 2048 ∧
    eoFar2 < 2 ^ 2048 := by decide!

set_option exponentiation.threshold 4096 in
/-- A member of a set below `2 ^ 2048` is below 2048. -/
theorem mask_member_lt (A c : Nat) (hA : A < 2 ^ 2048) (h : A.testBit c = true) : c < 2048 := by
  by_contra hc
  have h2 : A < 2 ^ c :=
    Nat.lt_of_lt_of_le hA (Nat.pow_le_pow_right (by decide) (Nat.le_of_not_lt hc))
  rw [Nat.testBit_lt_two_pow h2] at h
  exact Bool.false_ne_true h

/-- A step of the sets, checked over `eoFast`, is a step over the generated
table. -/
theorem eo_table_step (tm : TableManager) (ht : TablesGenerated tm) (A B : Nat)
    (hA : A < 2 ^ 2048) (h : ballStepOK A B = true) :
    ∀ c, A.testBit c = true →
      B.testBit c = true ∧
      ∀ m ∈ Phase1Coord.AVAILABLE_MOVES, B.testBit (tm.eo_move_table.entry c m) = true := by
  intro c hc
  have hlt := mask_member_lt A c hA hc
  have hb := allBelow_spec 2048 _ h c hlt
  simp only [hc, Bool.not_true, Bool.false_or, Bool.and_eq_true, List.all_eq_true] at hb
  refine ⟨hb.1, fun m hm => ?_⟩
  have hm18 := phase1_moves_lt m hm
  rw [eo_entry tm ht c m, if_pos ⟨hlt, hm18⟩, eo_move_entry_fast c m hm18]
  exact hb.2 m hm

/-- The first step of the sets, from a single coordinate. -/
theorem eo_table_start (tm : TableManager) (ht : TablesGenerated tm) (c0 B : Nat)
    (hc0 : c0 < 2048)
    (h : B.testBit c0 = true ∧
      ∀ m ∈ Phase1Coord.AVAILABLE_MOVES, B.testBit (eoFast c0 m) = true) :
    ∀ c, c = c0 →
      B.testBit c = true ∧
      ∀ m ∈ Phase1Coord.AVAILABLE_MOVES, B.testBit (tm.eo_move_table.entry c m) = true := by
  intro c hc
  rw [hc]
  refine ⟨h.1, fun m hm => ?_⟩
  have hm18 := phase1_moves_lt m hm
  rw [eo_entry tm ht c0 m, if_pos ⟨hc0, hm18⟩, eo_move_entry_fast c0 m hm18]
  exact h.2 m hm

/-! ### The start node of the scramble `F U F B R F L` -/

/-- The cube of the scramble `F U F B R F L` and its Phase-1 coordinates. -/
theorem far_cube :
    ∃ k, from_scramble "F U F B R F L" = some k ∧
      apply_sequence Cube.solved
        [Move.F1, Move.U1, Move.F1, Move.B1, Move.R1, Move.F1, Move.L1] = some k ∧
      (Phase1Coord.of_cube k).is_solved = false ∧
      ((Phase1Coord.of_cube k).corner_orientation, (Phase1Coord.of_cube k).edge_orientation,
        (Phase1Coord.of_cube k).uds_edge_position) = (1498, 2044, 427) := by
  refine ⟨(apply_sequence Cube.solved
    [Move.F1, Move.U1, Move.F1, Move.B1, Move.R1, Move.F1, Move.L1]).getD Cube.solved,
    by decide, by decide, by decide, by decide⟩

theorem table_functions (tm : TableManager) (ht : TablesGenerated tm) :
    tm.co_move_table.entry = co_table_entry ∧ tm.eo_move_table.entry = eo_table_entry ∧
    tm.uds_move_table.entry = uds_table_entry :=
  ⟨funext fun c => funext fun m => co_entry tm ht c m,
   funext fun c => funext fun m => eo_entry tm ht c m,
   funext fun c => funext fun m => uds_entry tm ht c m⟩

theorem far_node_paths :
    followC co_table_entry 1498 [Move.U2, Move.R1, Move.B3, Move.U1, Move.F2] = 0 ∧
    followC eo_table_entry 2044
      [Move.L2, Move.F2, Move.R2, Move.B2, Move.F2, Move.U2, Move.F2] = 0 ∧
    followC uds_table_entry 427 [Move.L1, Move.B2, Move.D1, Move.F2] = 0 := by decide

theorem far_successor_paths :
    ∀ t ∈ farSuccessorPaths,
      t.2.1.length ≤ 6 ∧ t.2.2.1.length ≤ 6 ∧ t.2.2.2.length ≤ 6 ∧
      (∀ m ∈ t.2.1, m < 18) ∧ (∀ m ∈ t.2.2.1, m < 18) ∧ (∀ m ∈ t.2.2.2, m < 18) ∧
      followC co_table_entry (co_table_entry 1498 t.1) t.2.1 = 0 ∧
      followC eo_table_entry (eo_table_entry 2044 t.1) t.2.2.1 = 0 ∧
      followC uds_table_entry (uds_table_entry 427 t.1) t.2.2.2 = 0 := by decide

theorem far_successor_moves :
    (∀ m ∈ Phase1Coord.AVAILABLE_MOVES,
      m ∈ [Move.L1, Move.L2, Move.L3, Move.R1, Move.R2, Move.R3, Move.F1, Move.F2] ∨
      eo_table_entry 2044 m = 2044) ∧
    (∀ m ∈ [Move.L1, Move.L2, Move.L3, Move.R1, Move.R2, Move.R3, Move.F1, Move.F2],
      ∃ t ∈ farSuccessorPaths, t.1 = m) ∧
    Phase1Coord.AVAILABLE_MOVES.filter (fun m =>
        decide (m ∈ [Move.L1, Move.L2, Move.L3, Move.R1, Move.R2, Move.R3, Move.F1, Move.F2]))
      = [Move.L1, Move.L2, Move.L3, Move.R1, Move.R2, Move.R3, Move.F1, Move.F2] := by decide

/-- Over the generated tables the edge-orientation coordinate 2044 is seven
moves from 0: the pruning entry is 7. -/
theorem eo_far_entry (tm : TableManager) (ht : TablesGenerated tm) (hp : PruningGenerated tm) :
    tm.get_eo_pruning 2044 = 7 := by
  have hcoded := eo_coded tm.eo_move_table ht.eo
  obtain ⟨_, e2, _⟩ := pruning_entries tm ht hp
  obtain ⟨_, ⟨p, hpl, hpm, hp0⟩, hmin⟩ := (e2 2044).1 (by decide)
  obtain ⟨z1, z2, z3⟩ := eo_zero_steps
  obtain ⟨c1, c2, c3⟩ := eo_far_steps
  obtain ⟨hapart, hz1, hz2, hc1, hc2⟩ := eo_far_apart
  have hlow := far_of_balls 2048 Phase1Coord.AVAILABLE_MOVES tm.eo_move_table.entry
    (fun c hc m hm => coded_closed hcoded c hc m hm)
    (fun c hc m hm => coded_inverse hcoded c hc m hm) 2044 (by decide)
    (fun c => eoZero1.testBit c = true) (fun c => eoZero2.testBit c = true)
    (fun c => eoZero3.testBit c = true) (fun c => eoFar1.testBit c = true)
    (fun c => eoFar2.testBit c = true) (fun c => eoFar3.testBit c = true)
    (eo_table_start tm ht 0 eoZero1 (by decide) z1) (eo_table_step tm ht _ _ hz1 z2)
    (eo_table_step tm ht _ _ hz2 z3) (eo_table_start tm ht 2044 eoFar1 (by decide) c1)
    (eo_table_step tm ht _ _ hc1 c2) (eo_table_step tm ht _ _ hc2 c3)
    (fun y hy hz => by
      have h := Nat.testBit_and eoFar3 eoZero3 y
      rw [hapart, hy, hz, Nat.zero_testBit] at h
      exact Bool.false_ne_true h)
    p hpm hp0
  have hup := hmin [Move.L2, Move.F2, Move.R2, Move.B2, Move.F2, Move.U2, Move.F2]
    (by decide) (by rw [(table_functions tm ht).2.1]; exact far_node_paths.2.1)
  simp only [List.length_cons, List.length_nil] at hup
  omega

/-- Over the generated tables the Phase-1 heuristic is 7 at the triple
`(1498, 2044, 427)`, and a move of Phase 1 gives a successor with heuristic
value at most 6 exactly when it is one of `L`, `L'`, `L2`, `R`, `R'`, `R2`,
`F`, `F'`. -/
theorem far_node_heuristic (S : Solver) (ht : TablesGenerated S.tables_)
    (hp : PruningGenerated S.tables_) :
    S.heuristic 1 (1498, 2044, 427) = 7 ∧
    ∀ m ∈ Phase1Coord.AVAILABLE_MOVES,
      (0 + 1 + S.heuristic 1 (S.get_next_coord 1 (1498, 2044, 427) m) ≤ 7 ↔
        m ∈ [Move.L1, Move.L2, Move.L3, Move.R1, Move.R2, Move.R3, Move.F1, Move.F2]) := by
  obtain ⟨p1, _, p3⟩ := far_node_paths
  obtain ⟨f1, f2, f3⟩ := table_functions S.tables_ ht
  obtain ⟨e1, e2, e3, _⟩ := pruning_entries S.tables_ ht hp
  obtain ⟨hsplit, hcert, _⟩ := far_successor_moves
  have h7 := eo_far_entry S.tables_ ht hp
  have mv : ∀ (p : List Move), (∀ m ∈ p, m < 18) → ∀ m ∈ p, m ∈ Phase1Coord.AVAILABLE_MOVES :=
    fun p h m hm => phase1_moves_all m (h m hm)
  have c0 := entry_le_path _ _ _ _ _ _ (e1 1498) [Move.U2, Move.R1, Move.B3, Move.U1, Move.F2]
    (mv _ (by decide)) (by rw [f1]; exact p1)
  have u0 := entry_le_path _ _ _ _ _ _ (e3 427) [Move.L1, Move.B2, Move.D1, Move.F2]
    (mv _ (by decide)) (by rw [f3]; exact p3)
  simp only [List.length_cons, List.length_nil] at c0 u0
  have hnext : ∀ m, S.heuristic 1 (S.get_next_coord 1 (1498, 2044, 427) m)
      = max (max (S.tables_.get_co_pruning (co_table_entry 1498 m))
          (S.tables_.get_eo_pruning (eo_table_entry 2044 m)))
        (S.tables_.get_uds_pruning (uds_table_entry 427 m)) := by
    intro m
    rw [get_next_coord_one]
    simp only [Solver.heuristic, if_true, Solver.heuristic_phase1,
      TableManager.get_phase1_moves, f1, f2, f3]
  refine ⟨?_, ?_⟩
  · simp only [Solver.heuristic, if_true, Solver.heuristic_phase1]
    rw [h7]
    omega
  · intro m hm
    rw [hnext m]
    constructor
    · intro hle
      rcases hsplit m hm with h | h
      · exact h
      · rw [h, h7] at hle
        omega
    · intro hmem
      obtain ⟨t, ht1, rfl⟩ := hcert m hmem
      obtain ⟨l1, l2, l3, m1, m2, m3, q1, q2, q3⟩ := far_successor_paths t ht1
      have b1 := entry_le_path _ _ _ _ _ _ (e1 (co_table_entry 1498 t.1)) t.2.1 (mv _ m1)
        (by rw [f1]; exact q1)
      have b2 := entry_le_path _ _ _ _ _ _ (e2 (eo_table_entry 2044 t.1)) t.2.2.1 (mv _ m2)
        (by rw [f2]; exact q2)
      have b3 := entry_le_path _ _ _ _ _ _ (e3 (uds_table_entry 427 t.1)) t.2.2.2 (mv _ m3)
        (by rw [f3]; exact q3)
      omega

/-- Without `USE_ENHANCED_HEURISTIC` and at a node without last move, the
moves of the retained successors are the moves of `MOVES` whose successor
passes the test `depth + 1 + next_h <= max_depth`, in the order of `MOVES`. -/
theorem scored_moves_root (S : Solver) (hen : S.enhanced = false) (PHASE : Nat)
    (MOVES : List Move) (max_depth : Nat) (current : SearchState)
    (hlast : current.last_move = Move.COUNT) :
    (S.scored_moves PHASE MOVES max_depth current).map (fun s => s.last_move)
      = MOVES.filter (fun m => decide (current.depth + 1 +
          S.heuristic PHASE (S.get_next_coord PHASE (current.x1, current.x2, current.x3) m)
            ≤ max_depth)) := by
  unfold Solver.scored_moves
  induction MOVES with
  | nil => rfl
  | cons m l ih =>
    rw [List.filterMap_cons, List.filter_cons]
    simp only [hlast, Solver.is_valid_move, if_true, Bool.not_true, Bool.false_eq_true,
      if_false, hen]
    by_cases hle : current.depth + 1 +
        S.heuristic PHASE (S.get_next_coord PHASE (current.x1, current.x2, current.x3) m)
          ≤ max_depth
    · simp only [hle, if_true, decide_True, List.map_cons]
      rw [← ih]
      simp only [hlast, Solver.is_valid_move, if_true, Bool.not_true, Bool.false_eq_true,
        if_false, hen]
    · simp only [hle, if_false, decide_False, Bool.false_eq_true]
      rw [← ih]
      simp only [hlast, Solver.is_valid_move, if_true, Bool.not_true, Bool.false_eq_true,
        if_false, hen]

/-- Over the generated tables, without `USE_ENHANCED_HEURISTIC`: the
successors retained at the start node of the triple `(1498, 2044, 427)` with
bound 7 are those by `L`, `L'`, `L2`, `R`, `R'`, `R2`, `F`, `F'`, generated in
this order, and each has `h = 6`. -/
theorem far_node_successors (S : Solver) (ht : TablesGenerated S.tables_)
    (hp : PruningGenerated S.tables_) (hen : S.enhanced = false) :
    (S.scored_moves 1 (TableManager.phase_moves 1) 7
        { x1 := 1498, x2 := 2044, x3 := 427, last_move := Move.COUNT, depth := 0,
          h := 7 }).map (fun s => s.last_move)
      = [Move.L1, Move.L2, Move.L3, Move.R1, Move.R2, Move.R3, Move.F1, Move.F2] ∧
    ∀ s ∈ S.scored_moves 1 (TableManager.phase_moves 1) 7
        { x1 := 1498, x2 := 2044, x3 := 427, last_move := Move.COUNT, depth := 0, h := 7 },
      s.h = 6 := by
  obtain ⟨h7, hiff⟩ := far_node_heuristic S ht hp
  constructor
  · rw [scored_moves_root S hen 1 _ 7 _ rfl]
    have hmoves : TableManager.phase_moves 1 = Phase1Coord.AVAILABLE_MOVES := rfl
    rw [hmoves, ← far_successor_moves.2.2]
    apply List.filter_congr
    intro m hm
    exact decide_eq_decide.mpr (hiff m hm)
  · intro s hs
    obtain ⟨m, hm, _, hh, hle⟩ := scored_moves_heuristic S hen 1 _ 7 _ s hs
    have hm1 : m ∈ Phase1Coord.AVAILABLE_MOVES := hm
    have hcoded := eo_coded S.tables_.eo_move_table ht.eo
    obtain ⟨_, e2, _⟩ := pruning_entries S.tables_ ht hp
    have hlow := minTo_step _ _ _ _ _ m hm1 ((e2 2044).1 (by decide)).2
      ((e2 (S.tables_.eo_move_table.entry 2044 m)).1
        (coded_closed hcoded 2044 (by decide) m hm1)).2
    rw [eo_far_entry S.tables_ ht hp] at hlow
    have hge : S.tables_.get_eo_pruning (S.tables_.eo_move_table.entry 2044 m) ≤ s.h := by
      rw [hh, get_next_coord_one]
      simp only [Solver.heuristic, if_true, Solver.heuristic_phase1,
        TableManager.get_phase1_moves]
      exact le_trans (Nat.le_max_right _ _) (Nat.le_max_left _ _)
    simp only [zero_add] at hle
    omega

/-- The expansion of the start node of the Phase-1 search on the cube of the
scramble `F U F B R F L`, over the generated tables, without
`USE_ENHANCED_HEURISTIC` and with a sort that keeps entries of equal `h` in
place. The Phase-1 triple of the cube is `(1498, 2044, 427)` with heuristic
value 7, so `ida_star` starts with bound 7 and the first pass of
`search_iterative` queries nothing and expands the start node. The eight
retained successors all have `h = 6`, the sort leaves them as generated, and
they are explored in the order `L`, `L'`, `L2`, `R`, `R'`, `R2`, `F`, `F'`,
which is not ascending in the enum: `F` precedes `L` there. -/
theorem successor_order_counterexample :
    StableByH Solver.generated.sort ∧ Solver.generated.enhanced = false ∧
    (∃ k, from_scramble "F U F B R F L" = some k ∧
      (Phase1Coord.of_cube k).is_solved = false ∧
      ((Phase1Coord.of_cube k).corner_orientation, (Phase1Coord.of_cube k).edge_orientation,
        (Phase1Coord.of_cube k).uds_edge_position) = (1498, 2044, 427)) ∧
    Solver.generated.heuristic 1 (1498, 2044, 427) = 7 ∧
    Solver.generated.ida_star 1 false (1498, 2044, 427) 12
      = Solver.generated.ida_star_loop 1 (TableManager.phase_moves 1) (1498, 2044, 427)
          7 12 6 7 ∧
    Solver.generated.search_iterative 1 (TableManager.phase_moves 1) 7 (Solver.search_fuel 7)
        [{ x1 := 1498, x2 := 2044, x3 := 427, last_move := Move.COUNT, depth := 0, h := 7 }]
        (List.replicate (12 + 1) Move.U1)
      = Solver.generated.search_iterative 1 (TableManager.phase_moves 1) 7 (19 ^ (7 + 1))
          (Solver.generated.sort (Solver.generated.scored_moves 1 (TableManager.phase_moves 1) 7
            { x1 := 1498, x2 := 2044, x3 := 427, last_move := Move.COUNT, depth := 0, h := 7 })
            ++ [])
          ((List.replicate (12 + 1) Move.U1).set 0 Move.COUNT) ∧
    (∀ s ∈ Solver.generated.sort
        (Solver.generated.scored_moves 1 (TableManager.phase_moves 1) 7
          { x1 := 1498, x2 := 2044, x3 := 427, last_move := Move.COUNT, depth := 0, h := 7 }),
      s.h = 6) ∧
    (Solver.generated.sort (Solver.generated.scored_moves 1 (TableManager.phase_moves 1) 7
        { x1 := 1498, x2 := 2044, x3 := 427, last_move := Move.COUNT, depth := 0,
          h := 7 })).map (fun s => s.last_move)
      = [Move.L1, Move.L2, Move.L3, Move.R1, Move.R2, Move.R3, Move.F1, Move.F2] ∧
    Move.F1 < Move.L1 := by
  have ht := generated_tables_ok
  have hp := generated_pruning_ok
  have hen : Solver.generated.enhanced = false := rfl
  obtain ⟨h7, _⟩ := far_node_heuristic Solver.generated ht hp
  obtain ⟨hlist, hties⟩ := far_node_successors Solver.generated ht hp hen
  have hsame := stable_all_ties _ generated_sort_stable _ 6 hties
  obtain ⟨k, hk1, _, hk3, hk4⟩ := far_cube
  refine ⟨generated_sort_stable, hen, ⟨k, hk1, hk3, hk4⟩, h7, ?_, ?_, ?_, ?_, by decide⟩
  · rw [ida_star_start, h7]
  · exact first_pass_expand Solver.generated 1 (TableManager.phase_moves 1) 7 (19 ^ (7 + 1))
      _ [] _ (by decide) (by decide)
  · rw [hsame]
    exact hties
  · rw [hsame]
    exact hlist

end RubiksSolver
